import Mathlib

/-! # morsefeed: tokenizer, row writer and position store

A shallow embedding of `src/morsefeed.c` and `src/vector.c`.

* A byte is a `Nat` (a value below 256); a C string is the `List Nat` of its
  bytes before the terminating NUL.
* `int` variables (`word_number`, `words_per_row`, `word_count`) are `Int`;
  `%` on them is C remainder, `Int.tmod`.  Signed overflow of `word_number`
  (undefined in C) is outside the model: the count stays below `2^31`.
* Every `fprintf` is taken to succeed, so `MF_FILE_WRITE_ERROR` never arises.
* The streams `write_word` touches are gathered in `World`.
-/

namespace Morsefeed

/-- The bytes of a string literal of the source. -/
def bytes (s : String) : List Nat := s.toList.map Char.toNat

/-- Error codes, `enum MorseFeedError` of `morsefeed.h`. -/
inductive MorseFeedError
  | MF_NO_ERROR
  | MF_PIPE_ERROR
  | MF_FORK_ERROR
  | MF_EXIT
  | MF_NEXT
  | MF_INVALID_VALUE
  | MF_OUT_OF_MEMORY
  | MF_INVALID_FREQUENCY
  | MF_INVALID_WPM
  | MF_INVALID_OPTION
  | MF_FILE_READ_ERROR
  | MF_URL_READ_ERROR
  | MF_INPUT_FILE_OPEN_ERROR
  | MF_OUTPUT_FILE_OPEN_ERROR
  | MF_POSITION_FILE_OPEN_ERROR
  | MF_FILE_ALREADY_OPEN_ERROR
  | MF_FILE_WRITE_ERROR
  | MF_PROGRAM_ERR
  | MF_NO_STATE_PATH
  | MF_UNKNOWN_SAVED_STATE
  | MF_UNKNOWN
  deriving DecidableEq, Repr

open MorseFeedError

/-- `#define DEFAULT -1`. -/
def DEFAULT : Int := -1

/-- `#define LINE_SIZE 1024`. -/
def LINE_SIZE : Nat := 1024

/-- `#define ENTITY_SIZE 16`. -/
def ENTITY_SIZE : Nat := 16

/-- `#define TAG_SIZE 8`. -/
def TAG_SIZE : Nat := 8

/-! ## The row writer, `write_word` -/

/-- What `write_word` reads and changes besides its arguments.
`output` holds the bytes written to the stream
`pipe_to_mbeep != NULL ? pipe_to_mbeep : out_file`; `words` logs the argument
of every `fprintf(output, "%s", word)`; `keys` are the results of the coming
one-byte reads of the non-blocking stdin (`none`: nothing was read), after
which nothing more is ever read; `acks` counts the lines still to come from
`pipe_from_mbeep`. -/
structure World where
  output : List Nat
  words : List (List Nat)
  word_number : Int
  keys : List (Option Nat)
  acks : Nat
  deriving DecidableEq, Repr

/-- The `do ... while (paused && error == MF_NO_ERROR)` loop of `write_word`:
one `fread` per round.  Space toggles `paused`, `q`/`Q` gives `MF_EXIT`,
`n`/`N` gives `MF_NEXT`.  The result is `none` when the loop never ends
(paused, and no key arrives any more). -/
def key_control : Bool → List (Option Nat) → Option (MorseFeedError × List (Option Nat))
  | paused, [] => if paused then none else some (MF_NO_ERROR, [])
  | paused, none :: ks => if paused then key_control paused ks else some (MF_NO_ERROR, ks)
  | paused, some c :: ks =>
    if c = 0x20 then
      if !paused then key_control true ks else some (MF_NO_ERROR, ks)
    else if c = 0x71 ∨ c = 0x51 then some (MF_EXIT, ks)
    else if c = 0x6E ∨ c = 0x4E then some (MF_NEXT, ks)
    else if paused then key_control paused ks else some (MF_NO_ERROR, ks)

/-- The body of `write_word` under `if (error == MF_NO_ERROR)`: the optional
leading space, the word, the newline and acknowledgment read at the end of a
row, the count, and the limit check. -/
def write_word_body (word : List Nat) (pipe_from_mbeep : Bool) (words_per_row : Int)
    (word_count : Int) (w : World) : MorseFeedError × World :=
  let lead : List Nat := if w.word_number.tmod words_per_row = 0 then [] else [0x20]
  let row_end : Bool := decide (w.word_number.tmod words_per_row = words_per_row - 1)
  let tail : List Nat := if row_end then [0x0A] else []
  let got_null : Bool := row_end && pipe_from_mbeep && decide (w.acks = 0)
  let acks : Nat := if row_end && pipe_from_mbeep then w.acks - 1 else w.acks
  let error : MorseFeedError := if got_null then MF_PIPE_ERROR else MF_NO_ERROR
  let word_number : Int :=
    if word.length ≠ 0 ∧ word ≠ [0x20] then w.word_number + 1 else w.word_number
  let error : MorseFeedError :=
    if word_count ≠ DEFAULT ∧ word_number ≥ word_count then MF_EXIT else error
  (error, { w with output := w.output ++ lead ++ word ++ tail
                   words := w.words ++ [word]
                   word_number := word_number
                   acks := acks })

/-- `write_word`: key control first (when enabled), then the body unless a
key asked to quit or skip. -/
def write_word (word : List Nat) (pipe_from_mbeep : Bool) (words_per_row : Int)
    (word_count : Int) (use_key_control : Bool) (w : World) : Option (MorseFeedError × World) :=
  if use_key_control then
    match key_control false w.keys with
    | none => none
    | some (error, keys) =>
      if error = MF_NO_ERROR then
        some (write_word_body word pipe_from_mbeep words_per_row word_count { w with keys := keys })
      else some (error, { w with keys := keys })
  else some (write_word_body word pipe_from_mbeep words_per_row word_count w)

/-! ## The tokenizer, `write_token` -/

/-- The test of the branch that appends to the word: a digit, a letter, or
one of `. , ? /`. -/
def is_word_char (c : Nat) : Bool :=
  (0x30 ≤ c && c ≤ 0x39) || (0x41 ≤ c && c ≤ 0x5A) || (0x61 ≤ c && c ≤ 0x7A) ||
    c = 0x2E || c = 0x2C || c = 0x3F || c = 0x2F

/-- C `toupper` in the "C" locale. -/
def toupper (c : Nat) : Nat := if 0x61 ≤ c ∧ c ≤ 0x7A then c - 0x20 else c

/-- The `switch (c)` of the branch `c <= 0x7F`, without the double quote
(0x22), whose name depends on the word length. -/
def ascii_names : List (Nat × String) :=
  [ (0x21, "exclamation"), (0x23, "hashmark"), (0x24, "dollarsign"), (0x25, "percent"),
    (0x26, "andsign"), (0x28, "openparen"), (0x29, "closeparen"), (0x2A, "asterisk"),
    (0x2B, "plus"), (0x2D, "dash"), (0x3A, "colon"), (0x3B, "semicolon"),
    (0x3C, "lessthan"), (0x3E, "greaterthan"), (0x3D, "="), (0x40, "atsign"),
    (0x5B, "leftbracket"), (0x5C, "backslash"), (0x5D, "rightbracket"), (0x5E, "caret"),
    (0x5F, "underscore"), (0x60, "backtick"), (0x7B, "leftcurly"), (0x7C, "verticalbar"),
    (0x7D, "rightcurly"), (0x7E, "tilde") ]

/-- The name the branch `c <= 0x7F` gives to `c`; empty when the switch has
no case for `c`. -/
def ascii_name (c : Nat) (word_length : Nat) : List Nat :=
  if c = 0x22 then (if word_length = 0 then bytes "quote" else bytes "unquote")
  else match ascii_names.lookup c with
    | some s => bytes s
    | none => []

/-- The `strcmp` chain run on the entity buffer when `;` arrives; `&#x27;`
and unknown entities give the empty name. -/
def entity_name (entity : List Nat) (word_length : Nat) : List Nat :=
  if entity = bytes "&amp;" then bytes "andsign"
  else if entity = bytes "&#x27;" then []
  else if entity = bytes "&quot;" then (if word_length = 0 then bytes "quote" else bytes "unquote")
  else if entity = bytes "&middot;" then bytes "dot"
  else if entity = bytes "&gt;" then bytes "greaterthan"
  else if entity = bytes "&lt;" then bytes "lessthan"
  else if entity = bytes "&copy;" then bytes "copyright"
  else []

/-- The `switch (u)` on a two-byte code point above 0xFF. -/
def utf8_names : List (Nat × String) :=
  [ (0x201C, "quote"), (0x201D, "unquote"), (0xC2A9, "copyright") ]

/-- The first `switch (c)` under `if (latin1)`: symbols that get a name. -/
def latin1_names : List (Nat × String) :=
  [ (0xA1, "exclamation"), (0xA2, "cents"), (0xA3, "pounds"), (0xA4, "currency"),
    (0xA5, "yen"), (0xA6, "brokenbar"), (0xA7, "section"), (0xA9, "copyright"),
    (0xAB, "anglequote"), (0xAC, "notsign"), (0xAE, "registered"), (0xB0, "degrees"),
    (0xB1, "plusorminus"), (0xB4, "accent"), (0xB5, "mu"), (0xB6, "paragraph"),
    (0xB7, "cdot"), (0xBB, "angleunquote"), (0xF7, "dividedby") ]

/-- The second `switch (c)` under `if (latin1)`: the text `cstr` that goes
into the word. -/
def latin1_cstr : List (Nat × String) :=
  [ (0xAA, "a"), (0xB2, "2"), (0xB3, "3"), (0xB9, "1"), (0xBA, "o"), (0xBC, "1/4"),
    (0xBD, "1/2"), (0xBE, "3/4"), (0xBF, "?"), (0xC0, "A"), (0xC1, "A"), (0xC2, "A"),
    (0xC3, "A"), (0xC4, "A"), (0xC5, "A"), (0xC6, "AE"), (0xC7, "C"), (0xC8, "E"),
    (0xC9, "E"), (0xCA, "E"), (0xCB, "E"), (0xCC, "I"), (0xCD, "I"), (0xCE, "I"),
    (0xCF, "I"), (0xD0, "D"), (0xD1, "N"), (0xD2, "O"), (0xD3, "O"), (0xD4, "O"),
    (0xD5, "O"), (0xD6, "O"), (0xD7, "x"), (0xD8, "O"), (0xD9, "U"), (0xDA, "U"),
    (0xDB, "U"), (0xDC, "U"), (0xDD, "Y"), (0xDE, "TH"), (0xDF, "ss"), (0xE0, "a"),
    (0xE1, "a"), (0xE2, "a"), (0xE3, "a"), (0xE4, "a"), (0xE5, "a"), (0xE6, "ae"),
    (0xE7, "c"), (0xE8, "e"), (0xE9, "e"), (0xEA, "e"), (0xEB, "e"), (0xEC, "i"),
    (0xED, "i"), (0xEE, "i"), (0xEF, "i"), (0xF0, "th"), (0xF1, "n"), (0xF2, "o"),
    (0xF3, "o"), (0xF4, "o"), (0xF5, "o"), (0xF6, "o"), (0xF8, "o"), (0xF9, "u"),
    (0xFA, "u"), (0xFB, "u"), (0xFC, "u"), (0xFD, "y"), (0xFE, "th"), (0xFF, "y") ]

/-- Append `c` to a NUL-terminated buffer of `size` bytes when there is room:
`if (len < size - 1) { buf[len++] = c; buf[len] = 0; }`. -/
def buf_append (size : Nat) (buf : List Nat) (c : Nat) : List Nat :=
  if buf.length < size - 1 then buf ++ [c] else buf

/-- The test `(b & 0b11000000) == 0b10000000` of a continuation byte. -/
def is_cont (b : Nat) : Bool := b &&& 0xC0 = 0x80

/-- The variables of `write_token` that live across loop rounds: the locals
`error`, `word`, `latin1` (set once, never cleared within a call), the bytes
`index` has already stepped over inside a multi-byte sequence (`skip`), the
caller's `*excluding_tag`, `entity`, `tag`, and the streams. -/
structure Loop where
  error : MorseFeedError
  word : List Nat
  latin1 : Bool
  skip : Nat
  excluding_tag : Bool
  entity : List Nat
  tag : List Nat
  world : World
  deriving DecidableEq, Repr

/-- What one loop round computes before it writes anything: the new buffers
and flags, the `name` to emit (empty: none), and by how much `index` moves
beyond the closing `index++`. -/
structure Scan where
  excluding_tag : Bool
  entity : List Nat
  tag : List Nat
  word : List Nat
  latin1 : Bool
  name : List Nat
  c : Nat
  skip : Nat
  deriving DecidableEq, Repr

/-- The `if / else if` chain of the loop body on byte `c`, with `rest` the
bytes of the token after `c`. -/
def scan_chain (filter_html : Bool) (c : Nat) (rest : List Nat) (s : Loop) : Scan :=
  let s0 : Scan :=
    { excluding_tag := s.excluding_tag, entity := s.entity, tag := s.tag, word := s.word,
      latin1 := s.latin1, name := [], c := c, skip := 0 }
  if filter_html ∧ c = 0x3C then
    { s0 with excluding_tag := true, tag := buf_append TAG_SIZE s.tag c }
  else if s.excluding_tag ∧ c = 0x3E then
    { s0 with excluding_tag := false
              name := if buf_append TAG_SIZE s.tag c = bytes "</li>" then bytes "|" else bytes " "
              tag := [] }
  else if s.excluding_tag then
    { s0 with tag := buf_append TAG_SIZE s.tag c }
  else if filter_html ∧ c = 0x26 then
    { s0 with entity := bytes "&" }
  else if filter_html ∧ s.entity ≠ [] then
    if c = 0x3B then
      { s0 with name := entity_name (buf_append ENTITY_SIZE s.entity c) s.word.length
                entity := [] }
    else { s0 with entity := buf_append ENTITY_SIZE s.entity c }
  else if is_word_char c then
    { s0 with word := s.word ++ [toupper c] }
  else if c = 0x27 then s0
  else if c ≤ 0x7F then
    { s0 with name := ascii_name c s.word.length }
  else if c &&& 0xE0 = 0xC0 then
    match rest with
    | c1 :: _ =>
      if is_cont c1 then
        let u := ((c &&& 0x1F) <<< 6) ||| (c1 &&& 0x3F)
        if u ≤ 0xFF then { s0 with c := u, latin1 := true, skip := 1 }
        else
          { s0 with name := (match utf8_names.lookup u with
                             | some n => bytes n
                             | none => [])
                    skip := 1 }
      else { s0 with latin1 := true }
    | [] => { s0 with latin1 := true }
  else if c &&& 0xF0 = 0xE0 then
    match rest with
    | c1 :: c2 :: _ =>
      if is_cont c1 ∧ is_cont c2 then { s0 with skip := 2 } else { s0 with latin1 := true }
    | _ => { s0 with latin1 := true }
  else if c &&& 0xF8 = 0xF0 then
    match rest with
    | c1 :: c2 :: c3 :: _ =>
      if is_cont c1 ∧ is_cont c2 ∧ is_cont c3 then { s0 with skip := 3 }
      else { s0 with latin1 := true }
    | _ => { s0 with latin1 := true }
  else { s0 with latin1 := true }

/-- The block `if (latin1) { ... }` that follows the chain. -/
def scan_latin1 (a : Scan) : Scan :=
  if a.latin1 then
    let name := match latin1_names.lookup a.c with
      | some n => bytes n
      | none => a.name
    if name.length = 0 then
      match latin1_cstr.lookup a.c with
      | some cstr =>
        if a.word.length + (bytes cstr).length < LINE_SIZE then
          { a with name := name, word := a.word ++ bytes cstr }
        else { a with name := bytes cstr }
      | none => { a with name := name }
    else { a with name := name }
  else a

/-- One round of the loop up to the point where words are written. -/
def scan_char (filter_html : Bool) (c : Nat) (rest : List Nat) (s : Loop) : Scan :=
  scan_latin1 (scan_chain filter_html c rest s)

/-- The block `if (strlen(name) > 0) { ... }`: flush the word in progress,
then write the name if no error is pending. -/
def emit_name (pipe_from_mbeep : Bool) (words_per_row word_count : Int) (use_key_control : Bool)
    (error : MorseFeedError) (word name : List Nat) (w : World) :
    Option (MorseFeedError × List Nat × World) :=
  if name.length > 0 then
    let flushed : Option (MorseFeedError × List Nat × World) :=
      if word.length > 0 then
        match write_word word pipe_from_mbeep words_per_row word_count use_key_control w with
        | none => none
        | some (e, w1) => some (e, [], w1)
      else some (error, word, w)
    match flushed with
    | none => none
    | some (e, word1, w1) =>
      if e = MF_NO_ERROR then
        match write_word name pipe_from_mbeep words_per_row word_count use_key_control w1 with
        | none => none
        | some (e2, w2) => some (e2, word1, w2)
      else some (e, word1, w1)
  else some (error, word, w)

/-- One round of the `while` loop of `write_token` on byte `c`. -/
def write_token_step (pipe_from_mbeep : Bool) (words_per_row word_count : Int)
    (use_key_control filter_html : Bool) (c : Nat) (rest : List Nat) (s : Loop) : Option Loop :=
  let a := scan_char filter_html c rest s
  match emit_name pipe_from_mbeep words_per_row word_count use_key_control s.error a.word a.name
      s.world with
  | none => none
  | some (e, word, w) =>
    some { error := e, word := word, latin1 := a.latin1, skip := a.skip,
           excluding_tag := a.excluding_tag, entity := a.entity, tag := a.tag, world := w }

/-- The `while (index < strlen(token) && word_length < LINE_SIZE - 1)` loop,
by recursion on the bytes from `index` on.  A byte that `index += k` stepped
over is dropped without a round.  When the loop stops on a full word with
bytes left, the check `if (index < strlen(token)) error = MF_PROGRAM_ERR`
after the loop applies. -/
def write_token_loop (pipe_from_mbeep : Bool) (words_per_row word_count : Int)
    (use_key_control filter_html : Bool) : List Nat → Loop → Option Loop
  | [], s => some s
  | c :: rest, s =>
    if 0 < s.skip then
      write_token_loop pipe_from_mbeep words_per_row word_count use_key_control filter_html rest
        { s with skip := s.skip - 1 }
    else if s.word.length < LINE_SIZE - 1 then
      match write_token_step pipe_from_mbeep words_per_row word_count use_key_control filter_html
          c rest s with
      | none => none
      | some s1 =>
        write_token_loop pipe_from_mbeep words_per_row word_count use_key_control filter_html
          rest s1
    else some { s with error := MF_PROGRAM_ERR }

/-- The tokenizer state the caller keeps between calls of `write_token`:
`excluding_tag`, `entity[ENTITY_SIZE]`, `tag[TAG_SIZE]`. -/
structure HtmlState where
  excluding_tag : Bool
  entity : List Nat
  tag : List Nat
  deriving DecidableEq, Repr

/-- `write_token`: the loop from `index = 0` with an empty word, then the
flush of the word in progress when no error is pending. -/
def write_token (token : List Nat) (pipe_from_mbeep : Bool) (words_per_row word_count : Int)
    (use_key_control filter_html : Bool) (h : HtmlState) (w : World) :
    Option (MorseFeedError × HtmlState × World) :=
  match write_token_loop pipe_from_mbeep words_per_row word_count use_key_control filter_html token
      { error := MF_NO_ERROR, word := [], latin1 := false, skip := 0,
        excluding_tag := h.excluding_tag, entity := h.entity, tag := h.tag, world := w } with
  | none => none
  | some s =>
    let h1 : HtmlState := { excluding_tag := s.excluding_tag, entity := s.entity, tag := s.tag }
    if s.error = MF_NO_ERROR ∧ s.word.length > 0 then
      match write_word s.word pipe_from_mbeep words_per_row word_count use_key_control s.world with
      | none => none
      | some (e, w1) => some (e, h1, w1)
    else some (s.error, h1, s.world)

/-- The calls of `write_token` that `process_and_send` makes for the tokens of
one buffer, in order; its loops run only while `error == MF_NO_ERROR`. -/
def write_tokens (pipe_from_mbeep : Bool) (words_per_row word_count : Int)
    (use_key_control filter_html : Bool) :
    List (List Nat) → HtmlState → World → Option (MorseFeedError × HtmlState × World)
  | [], h, w => some (MF_NO_ERROR, h, w)
  | t :: ts, h, w =>
    match write_token t pipe_from_mbeep words_per_row word_count use_key_control filter_html h w with
    | none => none
    | some (e, h1, w1) =>
      if e = MF_NO_ERROR then
        write_tokens pipe_from_mbeep words_per_row word_count use_key_control filter_html ts h1 w1
      else some (e, h1, w1)

/-! ## Definitions used to state the claims -/

/-- The punctuation characters of claim C1: the ASCII punctuation with a
fixed name, `! # $ % & ( ) * + - : ; < > = @ [ \ ] ^ _ { | } ~` and the
backtick (the double quote is not among them). -/
def named_punct : List Nat :=
  [0x21, 0x23, 0x24, 0x25, 0x26, 0x28, 0x29, 0x2A, 0x2B, 0x2D, 0x3A, 0x3B, 0x3C, 0x3E, 0x3D,
   0x40, 0x5B, 0x5C, 0x5D, 0x5E, 0x5F, 0x60, 0x7B, 0x7C, 0x7D, 0x7E]

/-- The Word of one run of a token: the run upper-cased when it is made of
letters, digits and `. , ? /`, the fixed name of its character otherwise. -/
def spec_run_word (run : List Nat) : List Nat :=
  if is_word_char (run.headD 0) then run.map toupper else ascii_name (run.headD 0) 0

/-- Claim C1 in its own words: cut the token into its maximal runs of
letters, digits and `. , ? /` (every other character is a run by itself);
such a run becomes one upper-cased Word, a punctuation character becomes its
named Word. -/
def spec_token_words (token : List Nat) : List (List Nat) :=
  (token.splitBy (fun a b => is_word_char a && is_word_char b)).map spec_run_word

/-- The Words a flush of the word buffer writes: none when it is empty. -/
def flush_words (word : List Nat) : List (List Nat) := if word.length > 0 then [word] else []

/-- The Words of a plain-text token, given the word in progress `acc`. -/
def plain_words (acc : List Nat) : List Nat → List (List Nat)
  | [] => flush_words acc
  | c :: cs =>
    if is_word_char c then plain_words (acc ++ [toupper c]) cs
    else flush_words acc ++ [ascii_name c 0] ++ plain_words [] cs

/-- The fixed named substitutions: the filler and list-item Words of a closed
tag, the quote names, the entity names and the names of the three tables. -/
def named_words : List (List Nat) :=
  [bytes " ", bytes "|", bytes "quote", bytes "unquote", bytes "andsign", bytes "dot",
    bytes "greaterthan", bytes "lessthan", bytes "copyright"] ++
    ascii_names.map (fun p => bytes p.2) ++ utf8_names.map (fun p => bytes p.2) ++
    latin1_names.map (fun p => bytes p.2)

/-- The characters claim C2 allows in a plain Word: digits, upper-case
letters and `. , ? /`. -/
def is_upper_plain_char (c : Nat) : Bool :=
  (0x30 ≤ c && c ≤ 0x39) || (0x41 ≤ c && c ≤ 0x5A) ||
    c = 0x2E || c = 0x2C || c = 0x3F || c = 0x2F

/-- Claim C2 as stated, for one Word. -/
def claimed_word_ok (x : List Nat) : Prop :=
  x ∈ named_words ∨ ∀ c ∈ x, is_upper_plain_char c = true

instance (x : List Nat) : Decidable (claimed_word_ok x) := by
  unfold claimed_word_ok; exact inferInstance

/-- The characters a plain Word can hold: those of `is_upper_plain_char` and
the lower-case letters that occur in the Latin-1 transliterations. -/
def is_plain_char (c : Nat) : Bool := is_upper_plain_char c || decide (c ∈ bytes "acehinostuxy")

/-- Claim C2 as amended, for one Word. -/
def word_ok (x : List Nat) : Prop :=
  x ∈ named_words ∨ ∀ c ∈ x, is_plain_char c = true

instance (x : List Nat) : Decidable (word_ok x) := by
  unfold word_ok; exact inferInstance

/-- What holds of the buffers after the `if / else if` chain: the word holds
plain characters only and the name, when there is one, is a named
substitution. -/
def scan_ok (a : Scan) : Prop :=
  (∀ x ∈ a.word, is_plain_char x = true) ∧ (a.name = [] ∨ a.name ∈ named_words)

/-- The Words written from `w0` to `w` are all named substitutions or plain
Words (claim C2 as amended). -/
def emitted_ok (w0 w : World) : Prop :=
  ∃ new, w.words = w0.words ++ new ∧ ∀ x ∈ new, word_ok x

/-- The tag buffer after the bytes `l` have been appended to `buf`, each with
the bounds check of `buf_append`. -/
def tag_buf (buf : List Nat) (l : List Nat) : List Nat := l.foldl (buf_append TAG_SIZE) buf

/-- The Word written when a tag closes on the buffer `tag`: "|" for `</li>`,
the single-space filler otherwise. -/
def tag_word (tag : List Nat) : List Nat := if tag = bytes "</li>" then bytes "|" else bytes " "

/-- The locals of `write_token` on entry to the loop. -/
def loop_init (h : HtmlState) (w : World) : Loop :=
  { error := MF_NO_ERROR, word := [], latin1 := false, skip := 0,
    excluding_tag := h.excluding_tag, entity := h.entity, tag := h.tag, world := w }

/-- The statements of `write_token` after the loop: the flush of the word in
progress when no error is pending, and the result handed to the caller. -/
def write_token_end (pipe_from_mbeep : Bool) (words_per_row word_count : Int)
    (use_key_control : Bool) (s : Loop) : Option (MorseFeedError × HtmlState × World) :=
  let h1 : HtmlState := { excluding_tag := s.excluding_tag, entity := s.entity, tag := s.tag }
  if s.error = MF_NO_ERROR ∧ s.word.length > 0 then
    match write_word s.word pipe_from_mbeep words_per_row word_count use_key_control s.world with
    | none => none
    | some (e, w1) => some (e, h1, w1)
  else some (s.error, h1, s.world)

/-- No tag is open: `excluding_tag` is false and the tag buffer is empty. -/
def tag_closed (h : HtmlState) : Prop := h.excluding_tag = false ∧ h.tag = []

/-- The tag buffer is empty whenever no tag is open. -/
def tag_inv (excluding_tag : Bool) (tag : List Nat) : Prop := excluding_tag = false → tag = []

/-- The entity buffer when the `;` that ends the entity `&x;` has been
handled: `strcpy(entity, "&")`, then one bounded append per byte. -/
def entity_buf (x : List Nat) : List Nat :=
  (x ++ [0x3B]).foldl (buf_append ENTITY_SIZE) (bytes "&")

/-- The entities with a Word of their own. -/
def named_entities : List (List Nat) :=
  [bytes "&amp;", bytes "&quot;", bytes "&middot;", bytes "&gt;", bytes "&lt;", bytes "&copy;"]

/-- The table of claim C5: the body of an entity and the Word that replaces
it. -/
def entity_table : List (List Nat × List Nat) :=
  [ (bytes "amp", bytes "andsign"), (bytes "middot", bytes "dot"),
    (bytes "gt", bytes "greaterthan"), (bytes "lt", bytes "lessthan"),
    (bytes "copy", bytes "copyright") ]

/-! ## The row writer seen from its callers -/

/-- Calls of `write_word` in a row, each made only while no error is pending,
as in `write_token` and `process_and_send`. -/
def write_words (pipe_from_mbeep : Bool) (words_per_row word_count : Int)
    (use_key_control : Bool) : List (List Nat) → World → Option (MorseFeedError × World)
  | [], w => some (MF_NO_ERROR, w)
  | x :: xs, w =>
    match write_word x pipe_from_mbeep words_per_row word_count use_key_control w with
    | none => none
    | some (e, w1) =>
      if e = MF_NO_ERROR then
        write_words pipe_from_mbeep words_per_row word_count use_key_control xs w1
      else some (e, w1)

/-- The statement of `process_and_send` that closes the output:
`if ((error == MF_NO_ERROR || error == MF_EXIT) && pipe_to_mbeep == NULL &&
fprintf(mfp.out_file, "\n") < 0)`. -/
def final_newline (error : MorseFeedError) (pipe_to_mbeep : Bool) (w : World) : World :=
  if (error = MF_NO_ERROR ∨ error = MF_EXIT) ∧ pipe_to_mbeep = false then
    { w with output := w.output ++ [0x0A] }
  else w

/-- A real word: not empty and not the single-space filler. -/
def is_real_word (x : List Nat) : Prop := x ≠ [] ∧ x ≠ [0x20]

instance (x : List Nat) : Decidable (is_real_word x) := by
  unfold is_real_word; exact inferInstance

/-- Claim C6 in its own words: the bytes written for the words `x_i`,
`x_(i+1)`, ...: a space before `x_i` unless `i mod w = 0`, a newline after it
when `i mod w = w - 1`. -/
def spec_rows (w : Nat) : Nat → List (List Nat) → List Nat
  | _, [] => []
  | i, x :: xs =>
    (if i % w ≠ 0 then [0x20] else []) ++ x ++ (if i % w = w - 1 then [0x0A] else []) ++
      spec_rows w (i + 1) xs

/-- The state of a reader that counts the words of each row of the output:
whether the last byte was part of a word, the words seen in the row so far,
and the counts of the rows already closed by a newline. -/
structure RowScan where
  in_word : Bool
  count : Nat
  rows : List Nat
  deriving DecidableEq, Repr

/-- The reader on one byte: a newline closes the row, a space ends a word,
any other byte starts a word unless it continues one. -/
def row_scan_byte (s : RowScan) (c : Nat) : RowScan :=
  if c = 0x0A then { in_word := false, count := 0, rows := s.rows ++ [s.count] }
  else if c = 0x20 then { s with in_word := false }
  else if s.in_word then s
  else { s with in_word := true, count := s.count + 1 }

/-- The number of words (maximal runs of bytes other than space and newline)
in each newline-terminated row of an output. -/
def row_word_counts (out : List Nat) : List Nat :=
  (out.foldl row_scan_byte { in_word := false, count := 0, rows := [] }).rows

/-- A word as `write_token` makes them: not empty, without space or newline. -/
def is_solid_word (x : List Nat) : Prop := x ≠ [] ∧ ∀ c ∈ x, c ≠ 0x20 ∧ c ≠ 0x0A

instance (x : List Nat) : Decidable (is_solid_word x) := by
  unfold is_solid_word; exact inferInstance

/-- A list of Words, each the filler or a solid word, in which no filler
comes when the count of real words so far (from `i` on) is `w - 1` modulo
`w`, that is, right before the last word of a row. -/
def fillers_off_row_end (w : Nat) : Nat → List (List Nat) → Prop
  | _, [] => True
  | i, x :: xs =>
    if x = [0x20] then i % w ≠ w - 1 ∧ fillers_off_row_end w i xs
    else is_solid_word x ∧ fillers_off_row_end w (i + 1) xs

instance fillers_off_row_end_decidable (w : Nat) :
    ∀ (i : Nat) (xs : List (List Nat)), Decidable (fillers_off_row_end w i xs)
  | _, [] => isTrue trivial
  | i, x :: xs =>
    if hx : x = [0x20] then
      match fillers_off_row_end_decidable w i xs with
      | isTrue h =>
        if hi : i % w ≠ w - 1 then isTrue (by unfold fillers_off_row_end; rw [if_pos hx]; exact ⟨hi, h⟩)
        else isFalse (by unfold fillers_off_row_end; rw [if_pos hx]; exact fun h2 => hi h2.1)
      | isFalse h => isFalse (by unfold fillers_off_row_end; rw [if_pos hx]; exact fun h2 => h h2.2)
    else
      match fillers_off_row_end_decidable w (i + 1) xs with
      | isTrue h =>
        if hi : is_solid_word x then
          isTrue (by unfold fillers_off_row_end; rw [if_neg hx]; exact ⟨hi, h⟩)
        else isFalse (by unfold fillers_off_row_end; rw [if_neg hx]; exact fun h2 => hi h2.1)
      | isFalse h => isFalse (by unfold fillers_off_row_end; rw [if_neg hx]; exact fun h2 => h h2.2)

/-- The real words of a list of Words. -/
def real_words (xs : List (List Nat)) : List (List Nat) := xs.filter (fun x => x ≠ [0x20])

/-! ## The state file: `read_string_array`, `write_string_array`

A file is the list of its bytes; a file that does not exist reads like an
empty one (no rows). Allocation is taken to succeed (`mem_error` stays
false) and the file to be writable. -/

def LINE_BUFFER_SIZE : Nat := 1024

def CELL_SIZE : Nat := 512

/-- `fgets` on the unread bytes of a file, the first argument being the
number of bytes it may still store (the buffer size minus one): the line
read, the bytes left unread, and whether the end-of-file indicator got set
(the read ran into the end before a newline or a full buffer). -/
def fgets : Nat → List Nat → List Nat × List Nat × Bool
  | 0, file => ([], file, false)
  | _ + 1, [] => ([], [], true)
  | n + 1, c :: file =>
    if c = 0x0A then ([c], file, false)
    else
      let r := fgets n file
      (c :: r.1, r.2.1, r.2.2)

/-- The state of `read_string_array`: the rows read so far (`row` points at
the last one), the cell being collected, and the truncation flag. -/
structure Reader where
  array : List (List (List Nat))
  cell : List Nat
  cell_truncated : Bool
  deriving DecidableEq, Repr

/-- `string_vector_push(row, cell)`, `row` being the last row of the array. -/
def row_push : List (List (List Nat)) → List Nat → List (List (List Nat))
  | [], _ => []
  | [r], cell => [r ++ [cell]]
  | r :: rs, cell => r :: row_push rs cell

/-- The end of the body of the `for` loop of `read_string_array` for the
character `c`: an unescaped tab or newline, or the last character of a line
read at the end of the file, closes the cell; any other character is added
to the cell while it has room. -/
def read_cell_char (c : Nat) (escape at_end eof : Bool) (s : Reader) : Reader :=
  if (c = 0x09 ∧ escape = false) ∨ (c = 0x0A ∧ escape = false) ∨
      (at_end = true ∧ eof = true) then
    { s with array := row_push s.array s.cell, cell := [] }
  else if s.cell.length < CELL_SIZE - 1 then { s with cell := s.cell ++ [c] }
  else { s with cell_truncated := true }

/-- The `switch` on the character after a backslash (the case of the
terminating zero is in `read_line`). -/
def unescape (c : Nat) : Nat :=
  if c = 0x6E then 0x0A
  else if c = 0x74 then 0x09
  else if c = 0x72 then 0x0D
  else c

/-- The `for` loop of `read_string_array` over one line as `fgets` gave it.
After a backslash the next character of the line is taken, and at the end of
the line that is the terminating zero, read as a backslash. -/
def read_line (eof : Bool) : List Nat → Reader → Reader
  | [], s => s
  | c :: line, s =>
    if c = 0x5C then
      match line with
      | [] => read_cell_char 0x5C true true eof s
      | d :: line2 =>
        read_line eof line2 (read_cell_char (unescape d) true (decide (line2 = [])) eof s)
    else read_line eof line (read_cell_char c false (decide (line = [])) eof s)

/-- The `while (fgets(...) != NULL)` loop of `read_string_array`; the first
argument bounds the number of rounds (every round reads at least one byte).
The result is `none` for a line that starts with a zero byte, where
`line[strlen(line) - 1]` is outside the buffer. -/
def read_lines : Nat → List Nat → Bool → Reader → Option Reader
  | 0, file, _, s => if file = [] then some s else none
  | fuel + 1, file, newline, s =>
    if file = [] then some s
    else
      let r := fgets (LINE_BUFFER_SIZE - 1) file
      let line := r.1.takeWhile (fun c => c ≠ 0)
      if line = [] then none
      else
        let s1 := if newline then { s with array := s.array ++ [[]] } else s
        read_lines fuel r.2.1 (decide (line.getLast? = some 0x0A)) (read_line r.2.2 line s1)

def read_string_array (file : List Nat) : Option (List (List (List Nat))) :=
  (read_lines file.length file true { array := [], cell := [], cell_truncated := false }).map
    (fun s => s.array)

/-- The `switch` of `write_string_array` on one character of a cell. -/
def write_char (c : Nat) : List Nat :=
  if c = 0x09 then [0x5C, 0x74]
  else if c = 0x0A then [0x5C, 0x6E]
  else if c = 0x0D then [0x5C, 0x72]
  else if c = 0x5C then [0x5C, 0x5C]
  else [c]

def write_cell : List Nat → List Nat
  | [] => []
  | c :: str => write_char c ++ write_cell str

/-- One row of `write_string_array`: the cells with a tab between them, then
a newline. -/
def write_row : List (List Nat) → List Nat
  | [] => [0x0A]
  | [str] => write_cell str ++ [0x0A]
  | str :: row => write_cell str ++ 0x09 :: write_row row

def write_string_array : List (List (List Nat)) → List Nat
  | [] => []
  | row :: array => write_row row ++ write_string_array array

/-! ## The saved positions -/

def isspace (c : Nat) : Bool := decide (c = 0x20 ∨ (0x09 ≤ c ∧ c ≤ 0x0D))

def atoi_digits : List Nat → Int → Int
  | [], acc => acc
  | c :: s, acc =>
    if 0x30 ≤ c ∧ c ≤ 0x39 then atoi_digits s (acc * 10 + ((c - 0x30 : Nat) : Int)) else acc

/-- `atoi`: white space, an optional sign, decimal digits (the value as a
mathematical integer; outside the range of `int` C leaves it undefined). -/
def atoi (s : List Nat) : Int :=
  match s.dropWhile isspace with
  | 0x2D :: t => - atoi_digits t 0
  | 0x2B :: t => atoi_digits t 0
  | t => atoi_digits t 0

/-- The search loop of `read_saved_position` and `write_saved_position`:
the index of the first row of three cells `position`, `label`, value. -/
def find_position : List Nat → List (List (List Nat)) → Nat → Option Nat
  | _, [], _ => none
  | label, next :: array, index =>
    if next.length = 3 ∧ next.get? 0 = some (bytes "position") ∧ next.get? 1 = some label then
      some index
    else find_position label array (index + 1)

/-- `read_saved_position`: the error code and `*position` (a `size_t`). -/
def read_saved_position (store : List Nat) (label : List Nat) : Option (MorseFeedError × Nat) :=
  match read_string_array store with
  | none => none
  | some array =>
    match find_position label array 0 with
    | none => some (MF_NO_ERROR, 0)
    | some k => some (MF_NO_ERROR, ((atoi (((array.get? k).getD []).getD 2 [])) % 2 ^ 64).toNat)

def decimal_digits : Nat → Nat → List Nat → List Nat
  | 0, _, acc => acc
  | fuel + 1, n, acc =>
    if n / 10 = 0 then (0x30 + n % 10) :: acc
    else decimal_digits fuel (n / 10) ((0x30 + n % 10) :: acc)

/-- `sprintf(position_str, "%ld", (long)position)` for a position below
`2 ^ 63`. -/
def sprintf_ld (position : Nat) : List Nat := decimal_digits 20 position []

/-- `write_saved_position`: the error code and the content of the store
after the call. -/
def write_saved_position (store : List Nat) (label : List Nat) (position : Nat) :
    Option (MorseFeedError × List Nat) :=
  match read_string_array store with
  | none => none
  | some array =>
    let found := find_position label array 0
    if position = 0 then
      match found with
      | some found_index => some (MF_NO_ERROR, write_string_array (array.eraseIdx found_index))
      | none => some (MF_NO_ERROR, store)
    else
      let new_entry := [bytes "position", label, sprintf_ld position]
      match found with
      | some found_index =>
        some (MF_NO_ERROR, write_string_array (array.set found_index new_entry))
      | none => some (MF_NO_ERROR, write_string_array (array ++ [new_entry]))

/-- Writing a position and reading it back. -/
def write_then_read (store : List Nat) (label : List Nat) (position : Nat) :
    Option (MorseFeedError × MorseFeedError × Nat) :=
  match write_saved_position store label position with
  | none => none
  | some (e1, store1) =>
    match read_saved_position store1 label with
    | none => none
    | some (e2, p) => some (e1, e2, p)

/-! ## Well-formed rows of the store -/

/-- A cell that fits the cell buffer of `read_string_array`: at most 511
bytes, none of them zero. -/
def cell_ok (cell : List Nat) : Prop := cell.length ≤ CELL_SIZE - 1 ∧ ∀ c ∈ cell, c ≠ 0

instance (cell : List Nat) : Decidable (cell_ok cell) := by
  unfold cell_ok; infer_instance

/-- A row that `read_string_array` reads with one `fgets`: at least one
cell, every cell fitting, the written line (newline included) of at most
1023 bytes. -/
def row_ok (row : List (List Nat)) : Prop :=
  row ≠ [] ∧ (write_row row).length ≤ LINE_BUFFER_SIZE - 1 ∧ ∀ cell ∈ row, cell_ok cell

instance (row : List (List Nat)) : Decidable (row_ok row) := by
  unfold row_ok; infer_instance

def array_ok (array : List (List (List Nat))) : Prop := ∀ row ∈ array, row_ok row

instance (array : List (List (List Nat))) : Decidable (array_ok array) := by
  unfold array_ok; infer_instance

/-- The test of the search loops of `read_saved_position` and
`write_saved_position` on one row. -/
def is_position_row (label : List Nat) (next : List (List Nat)) : Bool :=
  decide (next.length = 3 ∧ next.get? 0 = some (bytes "position") ∧ next.get? 1 = some label)

/-- The position a row stands for: `atoi` of its third cell, as a `size_t`. -/
def row_position (next : List (List Nat)) : Nat := ((atoi (next.getD 2 [])) % 2 ^ 64).toNat

/-- The value `read_saved_position` finds in an array for a label. -/
def array_position (label : List Nat) (array : List (List (List Nat))) : Nat :=
  match array.find? (is_position_row label) with
  | some next => row_position next
  | none => 0

/-! ## Searching a buffer: `find_string` -/

/-- The comparison `memmem` makes at one place of the haystack, and
`strncmp(s, t, strlen(t)) == 0`: the bytes of `t` stand at the start of `s`. -/
def starts_with : List Nat → List Nat → Bool
  | _, [] => true
  | [], _ :: _ => false
  | c :: s, d :: t => decide (c = d) && starts_with s t

/-- `memmem` of the C library: the offset of the first place of the haystack
at which the needle stands, `none` for `NULL`. -/
def memmem : List Nat → List Nat → Option Nat
  | [], needle => if needle = [] then some 0 else none
  | c :: haystack, needle =>
    if starts_with (c :: haystack) needle then some 0
    else (memmem haystack needle).map (fun p => p + 1)

/-- `find_string(string, buffer, buffer_length, starting_at)`. The result is
`none` when `starting_at` is beyond `buffer_length`: the length handed to
`memmem` wraps around and the search leaves the buffer. -/
def find_string (string buffer : List Nat) (buffer_length starting_at : Nat) : Option Nat :=
  if starting_at ≤ buffer_length then
    match memmem ((buffer.take buffer_length).drop starting_at) string with
    | some p => some (starting_at + p)
    | none => some buffer_length
  else none

/-- The needle stands in the first `n` bytes of the buffer at index `i`. -/
def occurs_at (string buffer : List Nat) (n i : Nat) : Prop :=
  i + string.length ≤ n ∧ ((buffer.take n).drop i).take string.length = string

instance (string buffer : List Nat) (n i : Nat) : Decidable (occurs_at string buffer n i) := by
  unfold occurs_at; infer_instance

/-- Index `i` is the first place at or after `k` at which the needle stands
in the first `n` bytes of the buffer. -/
def first_occurrence (string buffer : List Nat) (n k i : Nat) : Prop :=
  k ≤ i ∧ occurs_at string buffer n i ∧ ∀ j, k ≤ j → j < i → ¬ occurs_at string buffer n j

/-! ## The span of `process_and_send`

The buffer is materialized: `p` holds the bytes of `text_buffer.p` before
the terminating zero, and `used` is `text_buffer.used`, that length plus one. -/

/-- The block of `process_and_send` for `mfp.text_after`: `buffer_index`
after it. -/
def select_after (text_after : Option (List Nat)) (p : List Nat) (used : Nat) : Option Nat :=
  match text_after with
  | none => some 0
  | some marker =>
    match find_string marker p (used - 1) 0 with
    | none => none
    | some position =>
      if position < used - 1 then some (position + marker.length) else some 0

/-- The block for `mfp.save_and_use_position`: the error code and
`buffer_index` after it. -/
def select_saved (save_and_use_position : Bool) (store label : List Nat) (buffer_index : Nat) :
    Option (MorseFeedError × Nat) :=
  if save_and_use_position then
    match read_saved_position store label with
    | none => none
    | some (error, position) =>
      if position > buffer_index then some (error, position) else some (error, buffer_index)
  else some (MF_NO_ERROR, buffer_index)

/-- The block for `mfp.text_before`: `text_buffer.used` after it. -/
def select_before (text_before : Option (List Nat)) (p : List Nat) (used buffer_index : Nat) :
    Option Nat :=
  match text_before with
  | none => some used
  | some marker =>
    match find_string marker p (used - 1) buffer_index with
    | none => none
    | some position => if position < used - 1 then some (position + 1) else some used

/-- The span selection of `process_and_send`: the error code, `buffer_index`
(the start of the span) and `text_buffer.used` (the end of the span plus
one). -/
def select_span (text_after text_before : Option (List Nat)) (save_and_use_position : Bool)
    (store label : List Nat) (p : List Nat) (used : Nat) : Option (MorseFeedError × Nat × Nat) :=
  match select_after text_after p used with
  | none => none
  | some buffer_index =>
    match select_saved save_and_use_position store label buffer_index with
    | none => none
    | some (error, buffer_index) =>
      if error = MF_NO_ERROR then
        match select_before text_before p used buffer_index with
        | none => none
        | some used1 => some (error, buffer_index, used1)
      else some (error, buffer_index, used)

/-- One copy loop of `fbgets`: at most `n` bytes, up to and including the
first newline. -/
def fbgets_copy : Nat → List Nat → List Nat
  | 0, _ => []
  | _ + 1, [] => []
  | n + 1, c :: buffer => if c = 0x0A then [c] else c :: fbgets_copy n buffer

/-- `fbgets` with a buffer: `none` for `NULL`, else the bytes stored in
`line` and the new `*next_index`. -/
def fbgets (line_size : Nat) (buffer : List Nat) (buffer_size next_index : Nat) :
    Option (List Nat × Nat) :=
  if next_index = buffer_size then none
  else
    let line := fbgets_copy (line_size - 1) ((buffer.take buffer_size).drop next_index)
    some (line, next_index + line.length)

/-- The offset just past the first occurrence of the text-after marker in
the buffer, 0 when no marker is given or it does not occur. -/
def after_offset (text_after : Option (List Nat)) (p : List Nat) (a : Nat) : Prop :=
  match text_after with
  | none => a = 0
  | some marker =>
    (∃ i, first_occurrence marker p p.length 0 i ∧ a = i + marker.length) ∨
    ((∀ j, ¬ occurs_at marker p p.length j) ∧ a = 0)

/-! ## Links: `extract_urls` -/

def BEGIN_URL : List Nat := bytes "<a href=\""

def END_URL : List Nat := bytes "\""

def BEGIN_TITLE : List Nat := bytes ">"

def END_TITLE : List Nat := bytes "</a>"

def URL_SIZE : Nat := 1024

def TITLE_SIZE : Nat := 128

def HTTP_PREFIX : List Nat := bytes "http://"

def HTTPS_PREFIX : List Nat := bytes "https://"

/-- The C string that starts a byte array: the bytes before the first zero. -/
def cstr (s : List Nat) : List Nat := s.takeWhile (fun c => c ≠ 0)

/-- The `if` chain of `extract_urls` on the href `url`: `some (some u)` when
`u` is pushed, `some none` when nothing is pushed (too big), and `none` when
`base_url` is empty and `full_url[strlen(full_url) - 1]` is outside the
array. -/
def link_url (base_url url : List Nat) : Option (Option (List Nat)) :=
  if starts_with url HTTP_PREFIX then some (some url)
  else if starts_with url HTTPS_PREFIX then some (some url)
  else if base_url.length + 1 + url.length > URL_SIZE - 1 then some none
  else if url.head? = some 0x2F then
    match find_string (bytes "//") base_url base_url.length 0 with
    | none => none
    | some slash_at =>
      match (if slash_at + 2 < base_url.length then
          find_string (bytes "/") base_url base_url.length (slash_at + 2)
        else some slash_at) with
      | none => none
      | some slash_at =>
        some (some ((if slash_at < base_url.length then base_url.take slash_at
          else base_url) ++ url))
  else if base_url = [] then none
  else
    some (some ((if base_url.getLast? ≠ some 0x2F then base_url ++ [0x2F] else base_url) ++ url))

/-- The state of the loop of `extract_urls`. The field `anchors` is not in
the source: it keeps, for every URL pushed, the index at which its
`<a href="` begins, to state the order of the URLs. -/
structure Links where
  found_at : Nat
  urls : List (List Nat)
  titles : List (List Nat)
  anchors : List Nat
  deriving DecidableEq, Repr

/-- One round of the `do ... while` loop of `extract_urls`; `none` when a
search or an access leaves its array. -/
def extract_urls_step (base_url str : List Nat) (end_index : Nat) (s : Links) : Option Links :=
  match find_string BEGIN_URL str end_index s.found_at with
  | none => none
  | some anchor =>
    let offset := anchor + BEGIN_URL.length
    match (if offset < end_index then find_string END_URL str end_index offset
      else some anchor) with
    | none => none
    | some found_at =>
      match (if offset < found_at ∧ found_at - offset < URL_SIZE ∧ found_at < end_index then
          link_url base_url (cstr ((str.drop offset).take (found_at - offset)))
        else some none) with
      | none => none
      | some none => some { s with found_at := found_at }
      | some (some url) =>
        match find_string BEGIN_TITLE str end_index found_at with
        | none => none
        | some title_at =>
          let offset := title_at + BEGIN_TITLE.length
          match (if offset < end_index then find_string END_TITLE str end_index offset
            else some title_at) with
          | none => none
          | some found_at =>
            let title_length := min (found_at - offset) (TITLE_SIZE - 1)
            let title :=
              if offset < found_at ∧ found_at < end_index then
                cstr ((str.drop offset).take title_length)
              else []
            some { found_at := found_at
                   urls := s.urls ++ [url]
                   titles := s.titles ++ [title]
                   anchors := s.anchors ++ [anchor] }

/-- The `do ... while (found_at < end_index)` loop, for at most the given
number of rounds (`none` when they do not suffice). -/
def extract_urls_loop (base_url str : List Nat) (end_index : Nat) : Nat → Links → Option Links
  | 0, _ => none
  | fuel + 1, s =>
    match extract_urls_step base_url str end_index s with
    | none => none
    | some s1 =>
      if s1.found_at < end_index then extract_urls_loop base_url str end_index fuel s1
      else some s1

/-- `extract_urls` on empty vectors. -/
def extract_urls (fuel : Nat) (base_url str : List Nat) (start_index end_index : Nat) :
    Option Links :=
  extract_urls_loop base_url str end_index fuel
    { found_at := start_index, urls := [], titles := [], anchors := [] }

/-- What the loop of `extract_urls` keeps true, for a search that started at
`start_index`: one title and one anchor for every URL, the anchors in
increasing order, each the place of a `<a href="` of the span between the
start and the search position. -/
def links_inv (str : List Nat) (start_index end_index : Nat) (s : Links) : Prop :=
  s.urls.length = s.titles.length ∧ s.anchors.length = s.urls.length ∧
  s.anchors.Pairwise (fun a b => a < b) ∧
  (∀ a ∈ s.anchors, start_index ≤ a ∧ a < s.found_at ∧ occurs_at BEGIN_URL str end_index a) ∧
  start_index ≤ s.found_at

/-! ## The main loop of `process_and_send` on a materialized buffer -/

/-- What `process_and_send` keeps from one token to the next: the error
code, the token being collected (`token[0 .. token_length)`), the offsets,
the state of the HTML filter, and the streams. -/
structure Feed where
  error : MorseFeedError
  token : List Nat
  line_offset : Nat
  token_offset : Nat
  html : HtmlState
  world : World

/-- The body of the `for` loop over a line, for the character `c` at index
`k`. -/
def send_char (pf : Bool) (wpr wc : Int) (ukc fh : Bool) (k c : Nat) (s : Feed) : Option Feed :=
  if isspace c then
    if s.token.length > 0 then
      match write_token s.token pf wpr wc ukc fh s.html s.world with
      | none => none
      | some (error, html, world) =>
        some { s with error := error, html := html, world := world, token := []
                      token_offset :=
                        if error = MF_NO_ERROR then s.line_offset + k + 1 else s.token_offset }
    else some s
  else if s.token.length = LINE_SIZE - 1 then
    match write_token s.token pf wpr wc ukc fh s.html s.world with
    | none => none
    | some (error, html, world) =>
      some { s with error := error, html := html, world := world, token := [c]
                    token_offset :=
                      if error = MF_NO_ERROR then s.line_offset + s.token.length
                      else s.token_offset }
  else some { s with token := s.token ++ [c] }

/-- The `for (k = 0; k < strlen(line) && error == MF_NO_ERROR; k++)` loop,
from index `k` on. -/
def send_line (pf : Bool) (wpr wc : Int) (ukc fh : Bool) : Nat → List Nat → Feed → Option Feed
  | _, [], s => some s
  | k, c :: line, s =>
    if s.error = MF_NO_ERROR then
      match send_char pf wpr wc ukc fh k c s with
      | none => none
      | some s1 => send_line pf wpr wc ukc fh (k + 1) line s1
    else some s

/-- The `while (error == MF_NO_ERROR && NULL != fbgets(...))` loop, for at
most the given number of rounds (`none` when they do not suffice, or when a
call of `write_token` does not return). -/
def send_buffer (pf : Bool) (wpr wc : Int) (ukc fh : Bool) (p : List Nat) (buffer_size : Nat) :
    Nat → Nat → Feed → Option Feed
  | 0, _, _ => none
  | fuel + 1, buffer_index, s =>
    if s.error = MF_NO_ERROR then
      match fbgets LINE_SIZE p buffer_size buffer_index with
      | none => some s
      | some (line, next_index) =>
        match send_line pf wpr wc ukc fh 0 (cstr line) s with
        | none => none
        | some s1 =>
          send_buffer pf wpr wc ukc fh p buffer_size fuel next_index
            { s1 with line_offset := s1.line_offset + (cstr line).length }
    else some s

/-- The end of a pass of the main loop: the last token is written when one is
left, and `MF_NEXT` becomes `MF_NO_ERROR`. -/
def send_last_token (pf : Bool) (wpr wc : Int) (ukc fh : Bool) (s : Feed) : Option Feed :=
  match (if s.token.length > 0 then
      match write_token s.token pf wpr wc ukc fh s.html s.world with
      | none => none
      | some (error, html, world) =>
        some { s with error := error, html := html, world := world, token := [] }
    else some s) with
  | none => none
  | some s1 => some (if s1.error = MF_NEXT then { s1 with error := MF_NO_ERROR } else s1)

/-- The main loop of `process_and_send` when links are followed
(`linked_urls.size` is `size`, not 0), from the pass for `link_index` on,
the list being the URLs not yet read. `fetch` stands for `url_to_buffer`:
the bytes of the page, or `none` for a failed read. -/
def send_linked (pf : Bool) (wpr wc : Int) (ukc fh : Bool) (fetch : List Nat → Option (List Nat))
    (linked_text_after linked_text_before : Option (List Nat)) (size : Nat) :
    List (List Nat) → Nat → Feed → Option Feed
  | [], _, s => some s
  | next_url :: linked_urls, link_index, s =>
    if s.error = MF_NO_ERROR then
      let s0 : Feed :=
        { s with token := [], line_offset := 0, token_offset := 0
                 html := { excluding_tag := false, entity := [], tag := [] } }
      -- url_to_buffer and the markers of linked pages
      let page : Option (MorseFeedError × List Nat × Nat × Nat) :=
        match fetch next_url with
        | none => some (MF_URL_READ_ERROR, [], 0, 0)
        | some p =>
          match select_after linked_text_after p (p.length + 1) with
          | none => none
          | some buffer_index =>
            match select_before linked_text_before p (p.length + 1) buffer_index with
            | none => none
            | some used => some (MF_NO_ERROR, p, used, buffer_index)
      match page with
      | none => none
      | some (error, p, used, buffer_index) =>
        let s1 : Feed :=
          { s0 with error := error, line_offset := buffer_index, token_offset := buffer_index }
        let more_buffers : Bool := !decide (link_index + 1 ≥ size)
        -- the separator
        let s2 : Option Feed :=
          if link_index + 1 ≥ size then some s1
          else if link_index + 1 > 1 then
            match write_token (bytes "=") pf wpr wc ukc fh s1.html s1.world with
            | none => none
            | some (_, html, world) => some { s1 with html := html, world := world }
          else some s1
        match s2 with
        | none => none
        | some s2 =>
          match send_buffer pf wpr wc ukc fh p (used - 1) (used + 1) buffer_index s2 with
          | none => none
          | some s3 =>
            match send_last_token pf wpr wc ukc fh s3 with
            | none => none
            | some s4 =>
              if more_buffers then
                send_linked pf wpr wc ukc fh fetch linked_text_after linked_text_before size
                  linked_urls (link_index + 1) s4
              else some s4
    else some s

/-- A three-byte or four-byte sequence that passes the checks of
`write_token`: the lead bits of the first byte and the continuation bits of
the others. -/
def is_long_seq : List Nat → Bool
  | [c, c1, c2] => decide (c &&& 0xF0 = 0xE0) && is_cont c1 && is_cont c2
  | [c, c1, c2, c3] => decide (c &&& 0xF8 = 0xF0) && is_cont c1 && is_cont c2 && is_cont c3
  | _ => false

/-- The two-byte UTF-8 sequence of a code point from 0x80 to 0x7FF. -/
def utf8_two (u : Nat) : List Nat := [0xC0 ||| (u >>> 6), 0x80 ||| (u &&& 0x3F)]

/-- The ASCII letters and digits of claim C30. -/
def is_alnum (c : Nat) : Bool :=
  (0x30 ≤ c && c ≤ 0x39) || (0x41 ≤ c && c ≤ 0x5A) || (0x61 ≤ c && c ≤ 0x7A)

/-! ## Saved options: `save_state` and `read_state`

The store is the list of bytes of the file `mfp->state_path`. The strings
that `read_state` copies into `string_storage` are held by value, and
allocation is taken to succeed. A `double` is the rational number it stands
for. -/

def STATE_VECTOR_SIZE : Nat := 17

/-- The record `struct MorseFeedParams`: a `const char *` is `none` for
`NULL`, a `FILE *` is a handle. -/
structure MorseFeedParams where
  in_file_name : Option (List Nat)
  in_file : Nat
  out_file : Nat
  url : Option (List Nat)
  state_path : List Nat
  words_per_row : Int
  word_count : Int
  fork_mbeep : Bool
  save_and_use_position : Bool
  follow_links : Bool
  text_after : Option (List Nat)
  text_before : Option (List Nat)
  linked_text_after : Option (List Nat)
  linked_text_before : Option (List Nat)
  freq : ℚ
  paris_wpm : ℚ
  codex_wpm : ℚ
  farnsworth_wpm : ℚ
  print_fcc_wpm : Bool
  deriving DecidableEq

/-- `replace_with_copy_or_null`: `NULL` stays, the empty string becomes
`NULL`, any other string is copied. -/
def replace_with_copy_or_null (str : Option (List Nat)) : Option (List Nat) :=
  match str with
  | none => none
  | some s => if s.length = 0 then none else some s

/-- `sprintf(str, "%d", n)`. -/
def sprintf_d (n : Int) : List Nat :=
  if n < 0 then 0x2D :: decimal_digits 20 n.natAbs [] else decimal_digits 20 n.natAbs []

/-- The value `|x| * 1000` rounded to an integer, ties to even. -/
def round_thousandths (x : ℚ) : Nat :=
  let a := x.num.natAbs * 1000
  let q := a / x.den
  let r := a % x.den
  if 2 * r < x.den then q
  else if x.den < 2 * r then q + 1
  else if q % 2 = 0 then q else q + 1

/-- The three digits after the decimal point. -/
def fraction_digits (f : Nat) : List Nat :=
  [0x30 + f / 100 % 10, 0x30 + f / 10 % 10, 0x30 + f % 10]

/-- `sprintf(str, "%12.3f", x)`: sign, integer part, point, three decimals,
padded with spaces on the left to 12 characters. The result is `none` when
it does not fit `char str[32]`. -/
def sprintf_12_3f (x : ℚ) : Option (List Nat) :=
  let m := round_thousandths x
  let body := (if x < 0 then [0x2D] else []) ++ decimal_digits 40 (m / 1000) [] ++
    0x2E :: fraction_digits (m % 1000)
  let str := List.replicate (12 - body.length) 0x20 ++ body
  if str.length < 32 then some str else none

def isdigit (c : Nat) : Bool := decide (0x30 ≤ c ∧ c ≤ 0x39)

/-- The exponent part of a decimal floating constant: `e` or `E`, an
optional sign and at least one digit; the factor it stands for. -/
def atof_exponent : List Nat → ℚ
  | c :: t =>
    if c = 0x65 ∨ c = 0x45 then
      match t with
      | 0x2D :: d :: t1 =>
        if isdigit d then 1 / (10 : ℚ) ^ (atoi_digits (d :: t1) 0).toNat else 1
      | 0x2B :: d :: t1 =>
        if isdigit d then (10 : ℚ) ^ (atoi_digits (d :: t1) 0).toNat else 1
      | d :: t1 => if isdigit d then (10 : ℚ) ^ (atoi_digits (d :: t1) 0).toNat else 1
      | [] => 1
    else 1
  | [] => 1

/-- The digits, the optional point and digits, and the optional exponent of
`atof`; without any digit the value is 0. -/
def atof_digits (t : List Nat) : ℚ :=
  let a := t.takeWhile isdigit
  let r := t.dropWhile isdigit
  let b := match r with
    | 0x2E :: r1 => r1.takeWhile isdigit
    | _ => []
  let r2 := match r with
    | 0x2E :: r1 => r1.dropWhile isdigit
    | _ => r
  if a = [] ∧ b = [] then 0
  else ((atoi_digits (a ++ b) 0 : Int) : ℚ) / (10 : ℚ) ^ b.length * atof_exponent r2

/-- `atof` on a decimal constant: white space, an optional sign, digits with
an optional point, an optional exponent. The hexadecimal form and the words
for infinity and not-a-number are not covered (they read as 0 here). -/
def atof (s : List Nat) : ℚ :=
  match s.dropWhile isspace with
  | 0x2D :: t => - atof_digits t
  | 0x2B :: t => atof_digits t
  | t => atof_digits t

/-- The string pushed for a `const char *` field: `""` for `NULL`. -/
def string_or_empty (str : Option (List Nat)) : List Nat :=
  match str with
  | none => []
  | some s => s

/-- The row `new_entry` that `save_state` builds; `none` when a `sprintf`
of a `double` overruns `str`. -/
def state_entry (label : List Nat) (mfp : MorseFeedParams) : Option (List (List Nat)) :=
  match sprintf_12_3f mfp.freq, sprintf_12_3f mfp.paris_wpm, sprintf_12_3f mfp.codex_wpm,
      sprintf_12_3f mfp.farnsworth_wpm with
  | some s13, some s14, some s15, some s16 =>
    some [ bytes "state", label, string_or_empty mfp.in_file_name, string_or_empty mfp.url,
      sprintf_d mfp.words_per_row, sprintf_d mfp.word_count,
      (if mfp.fork_mbeep then bytes "1" else bytes "0"),
      (if mfp.save_and_use_position then bytes "1" else bytes "0"),
      (if mfp.follow_links then bytes "1" else bytes "0"),
      string_or_empty mfp.text_after, string_or_empty mfp.text_before,
      string_or_empty mfp.linked_text_after, string_or_empty mfp.linked_text_before,
      s13, s14, s15, s16 ]
  | _, _, _, _ => none

/-- The search loop of `read_state` and `save_state`: the index of the first
row of 17 cells that starts with `state` and the label. -/
def find_state : List Nat → List (List (List Nat)) → Nat → Option Nat
  | _, [], _ => none
  | label, next :: array, index =>
    if next.length = STATE_VECTOR_SIZE ∧ next.get? 0 = some (bytes "state") ∧
        next.get? 1 = some label then
      some index
    else find_state label array (index + 1)

/-- The assignments of `read_state` from the row found. -/
def state_of_row (next : List (List Nat)) (mfp : MorseFeedParams) : MorseFeedParams :=
  { mfp with
    in_file_name := replace_with_copy_or_null (some (next.getD 2 []))
    url := replace_with_copy_or_null (some (next.getD 3 []))
    words_per_row := atoi (next.getD 4 [])
    word_count := atoi (next.getD 5 [])
    fork_mbeep := decide (atoi (next.getD 6 []) ≠ 0)
    save_and_use_position := decide (atoi (next.getD 7 []) ≠ 0)
    follow_links := decide (atoi (next.getD 8 []) ≠ 0)
    text_after := replace_with_copy_or_null (some (next.getD 9 []))
    text_before := replace_with_copy_or_null (some (next.getD 10 []))
    linked_text_after := replace_with_copy_or_null (some (next.getD 11 []))
    linked_text_before := replace_with_copy_or_null (some (next.getD 12 []))
    freq := atof (next.getD 13 [])
    paris_wpm := atof (next.getD 14 [])
    codex_wpm := atof (next.getD 15 [])
    farnsworth_wpm := atof (next.getD 16 []) }

/-- `read_state`: the error code and `*mfp` after the call. -/
def read_state (store : List Nat) (label : List Nat) (mfp : MorseFeedParams) :
    Option (MorseFeedError × MorseFeedParams) :=
  match read_string_array store with
  | none => none
  | some array =>
    match find_state label array 0 with
    | none => some (MF_UNKNOWN_SAVED_STATE, mfp)
    | some k => some (MF_NO_ERROR, state_of_row ((array.get? k).getD []) mfp)

/-- `save_state`: the error code and the content of the store after the
call. -/
def save_state (store : List Nat) (label : List Nat) (mfp : MorseFeedParams) :
    Option (MorseFeedError × List Nat) :=
  match read_string_array store with
  | none => none
  | some array =>
    match state_entry label mfp with
    | none => none
    | some new_entry =>
      match find_state label array 0 with
      | some found_index =>
        some (MF_NO_ERROR, write_string_array (array.set found_index new_entry))
      | none => some (MF_NO_ERROR, write_string_array (array ++ [new_entry]))

/-- The test of the search loops of `read_state` and `save_state` on one
row. -/
def is_state_row (label : List Nat) (next : List (List Nat)) : Bool :=
  decide (next.length = STATE_VECTOR_SIZE ∧ next.get? 0 = some (bytes "state") ∧
    next.get? 1 = some label)

/-- What `read_state` finds in an array for a label. -/
def array_state (label : List Nat) (array : List (List (List Nat))) (mfp : MorseFeedParams) :
    MorseFeedError × MorseFeedParams :=
  match array.find? (is_state_row label) with
  | some next => (MF_NO_ERROR, state_of_row next mfp)
  | none => (MF_UNKNOWN_SAVED_STATE, mfp)

/-- `same_state` of the tests of `morsefeed.c`: the fifteen saved fields of
two records are equal (`same_or_nulls` on the strings). -/
def same_state (a b : MorseFeedParams) : Prop :=
  a.in_file_name = b.in_file_name ∧ a.url = b.url ∧ a.words_per_row = b.words_per_row ∧
  a.word_count = b.word_count ∧ a.fork_mbeep = b.fork_mbeep ∧
  a.save_and_use_position = b.save_and_use_position ∧ a.follow_links = b.follow_links ∧
  a.text_after = b.text_after ∧ a.text_before = b.text_before ∧
  a.linked_text_after = b.linked_text_after ∧ a.linked_text_before = b.linked_text_before ∧
  a.freq = b.freq ∧ a.paris_wpm = b.paris_wpm ∧ a.codex_wpm = b.codex_wpm ∧
  a.farnsworth_wpm = b.farnsworth_wpm

instance (a b : MorseFeedParams) : Decidable (same_state a b) := by
  unfold same_state; infer_instance

/-- The fields that `read_state` does not assign are those of `b`. -/
def same_handles (a b : MorseFeedParams) : Prop :=
  a.in_file = b.in_file ∧ a.out_file = b.out_file ∧ a.state_path = b.state_path ∧
  a.print_fcc_wpm = b.print_fcc_wpm

instance (a b : MorseFeedParams) : Decidable (same_handles a b) := by
  unfold same_handles; infer_instance

/-- A string field as claim C22 takes it: `NULL` or a non-empty string. -/
def string_field_ok (str : Option (List Nat)) : Prop := str ≠ some []

instance (str : Option (List Nat)) : Decidable (string_field_ok str) := by
  unfold string_field_ok; infer_instance

/-- A `double` that holds an integer below `10 ^ 16` in magnitude. -/
def double_is_integer (x : ℚ) : Prop := x.den = 1 ∧ x.num.natAbs < 10 ^ 16

instance (x : ℚ) : Decidable (double_is_integer x) := by
  unfold double_is_integer; infer_instance

/-- The records of claim C22: the five string fields `NULL` or non-empty,
the two `int` fields in the range of `int`, the four `double` fields
integers. -/
def params_ok (p : MorseFeedParams) : Prop :=
  string_field_ok p.in_file_name ∧ string_field_ok p.url ∧ string_field_ok p.text_after ∧
  string_field_ok p.text_before ∧ string_field_ok p.linked_text_after ∧
  string_field_ok p.linked_text_before ∧
  (-(2 : Int) ^ 31 ≤ p.words_per_row ∧ p.words_per_row < 2 ^ 31) ∧
  (-(2 : Int) ^ 31 ≤ p.word_count ∧ p.word_count < 2 ^ 31) ∧
  double_is_integer p.freq ∧ double_is_integer p.paris_wpm ∧
  double_is_integer p.codex_wpm ∧ double_is_integer p.farnsworth_wpm

instance (p : MorseFeedParams) : Decidable (params_ok p) := by
  unfold params_ok; infer_instance

/-- The record `mfp1` of `morsefeed_tests`. -/
def test_mfp1 : MorseFeedParams :=
  { in_file_name := some (bytes "foo.txt"), in_file := 0, out_file := 0,
    url := some (bytes "https:://example.com"), state_path := bytes "state.tmp",
    words_per_row := 1, word_count := 2, fork_mbeep := false, save_and_use_position := true,
    follow_links := false, text_after := some (bytes "one"), text_before := some (bytes "two"),
    linked_text_after := some (bytes "three"), linked_text_before := some (bytes "four"),
    freq := 12, paris_wpm := 13, codex_wpm := 14, farnsworth_wpm := 15,
    print_fcc_wpm := false }

/-- The record `mfp2` of `morsefeed_tests`. -/
def test_mfp2 : MorseFeedParams :=
  { in_file_name := some (bytes "bar.txt"), in_file := 0, out_file := 0,
    url := some (bytes "https:://foo.com"), state_path := bytes "state.tmp",
    words_per_row := 3, word_count := 4, fork_mbeep := true, save_and_use_position := false,
    follow_links := true, text_after := some (bytes "alpha"),
    text_before := some (bytes "bravo"), linked_text_after := some (bytes "charlie"),
    linked_text_before := some (bytes "delta"),
    freq := 16, paris_wpm := 17, codex_wpm := 18, farnsworth_wpm := 19,
    print_fcc_wpm := false }

/-- The row that `save_state` builds for `mfp1` under a label. -/
def test_entry1 (label : List Nat) : List (List Nat) :=
  [ bytes "state", label, bytes "foo.txt", bytes "https:://example.com", bytes "1", bytes "2",
    bytes "0", bytes "1", bytes "0", bytes "one", bytes "two", bytes "three", bytes "four",
    bytes "      12.000", bytes "      13.000", bytes "      14.000", bytes "      15.000" ]

/-- The row that `save_state` builds for `mfp2` under a label. -/
def test_entry2 (label : List Nat) : List (List Nat) :=
  [ bytes "state", label, bytes "bar.txt", bytes "https:://foo.com", bytes "3", bytes "4",
    bytes "1", bytes "0", bytes "1", bytes "alpha", bytes "bravo", bytes "charlie",
    bytes "delta",
    bytes "      16.000", bytes "      17.000", bytes "      18.000", bytes "      19.000" ]

/-- A record with a file name of 511 bytes and a URL of 502 bytes followed
by a tab; the other fields are those of `mfp1`. -/
def long_mfp : MorseFeedParams :=
  { test_mfp1 with
    in_file_name := some (List.replicate 511 0x61)
    url := some (List.replicate 502 0x62 ++ [0x09]) }

/-- The store that `save_state` leaves for `long_mfp` under the label `L`
on an empty store: one line, with the escaped tab of the URL at offsets 1022
and 1023. -/
def long_store : List Nat :=
  write_string_array
    [[ bytes "state", bytes "L", List.replicate 511 0x61, List.replicate 502 0x62 ++ [0x09],
      bytes "1", bytes "2", bytes "0", bytes "1", bytes "0", bytes "one", bytes "two",
      bytes "three", bytes "four", bytes "      12.000", bytes "      13.000",
      bytes "      14.000", bytes "      15.000" ]]

/-- The store that `write_saved_position` leaves on an empty store for the
position 11 and the key `a` followed by 510 tab bytes: one line of 1034
bytes. -/
def tab_key_store : List Nat :=
  write_string_array [[bytes "position", 0x61 :: List.replicate 510 0x09, bytes "11"]]

/-- The key under which `read_string_array` finds the record of
`tab_key_store`. -/
def tab_key_read : List Nat := 0x61 :: List.replicate 506 0x09 ++ [0x5C, 0x74, 0x09, 0x09]

/-- A row of three cells whose written line has the escaped tab of the last
cell at offsets 1022 and 1023. -/
def split_row : List (List Nat) :=
  [List.replicate 400 0x61, List.replicate 400 0x62, List.replicate 220 0x63 ++ [0x09]]

/-- The array of `vector_tests`. -/
def test_array : List (List (List Nat)) :=
  [[bytes "word", bytes "tab", bytes "backslash"], [bytes "up", bytes "[\t]", bytes "[\\]"]]

/-- The calls of `fbgets` that the `while` loop of `process_and_send` makes
on a buffer, from `next_index` on, for at most the given number of calls:
the lines returned before `NULL`. -/
def fbgets_lines (line_size : Nat) (buffer : List Nat) (buffer_size : Nat) :
    Nat → Nat → Option (List (List Nat))
  | 0, _ => none
  | fuel + 1, next_index =>
    match fbgets line_size buffer buffer_size next_index with
    | none => some []
    | some (line, next) =>
      (fbgets_lines line_size buffer buffer_size fuel next).map (fun lines => line :: lines)

/-! ## The vectors of `vector.c`

The block `vector->p` is the list of its bytes, `none` for `NULL`; an
element is a list of `element_size` bytes. Allocation always succeeds:
`fresh n` stands for the content of `n` newly allocated bytes (`malloc` and
the added part of `realloc` do not set them), `calloc` gives zeros. -/

/-- `struct Vector`. -/
structure Vector where
  size : Nat
  capacity : Nat
  element_size : Nat
  p : Option (List Nat)
  deriving DecidableEq, Repr

/-- `memcpy(p + offset, src, n)` on the block `mem`, `src` being the `n`
bytes copied. -/
def memcpy_at (mem : List Nat) (offset : Nat) (src : List Nat) : List Nat :=
  mem.take offset ++ src ++ mem.drop (offset + src.length)

/-- `vector_create`. -/
def vector_create (capacity element_size : Nat) : Vector :=
  if capacity > 0 then
    { size := 0, capacity := capacity, element_size := element_size,
      p := some (List.replicate (capacity * element_size) 0) }
  else { size := 0, capacity := capacity, element_size := element_size, p := none }

/-- `vector_push`: the result and the vector after the call. -/
def vector_push (fresh : Nat → List Nat) (vector : Vector) (element : List Nat) :
    Bool × Vector :=
  let v1 : Vector :=
    match vector.p with
    | none => { vector with p := some (fresh vector.element_size), capacity := 1 }
    | some mem =>
      if vector.size + 1 > vector.capacity then
        let new_capacity := if vector.capacity = 0 then 1 else 2 * vector.capacity
        { vector with
          p := some ((mem ++ fresh (new_capacity * vector.element_size - mem.length)).take
            (new_capacity * vector.element_size))
          capacity := new_capacity }
      else vector
  (true,
    { v1 with
      p := some (memcpy_at (v1.p.getD []) (v1.size * v1.element_size)
        (element.take v1.element_size))
      size := v1.size + 1 })

/-- `vector_at`: the result and the bytes left in `*element`. -/
def vector_at (vector : Vector) (index : Nat) : Bool × List Nat :=
  if index < vector.size then
    (true, ((vector.p.getD []).drop (index * vector.element_size)).take vector.element_size)
  else (false, List.replicate vector.element_size 0)

/-- `vector_replace_at` with a `previous_element` that is not `NULL`: the
result, the bytes left in `*previous_element`, and the vector after the
call. -/
def vector_replace_at (vector : Vector) (index : Nat) (new_element : List Nat) :
    Bool × List Nat × Vector :=
  if index < vector.size then
    (true, ((vector.p.getD []).drop (index * vector.element_size)).take vector.element_size,
      { vector with
        p := some (memcpy_at (vector.p.getD []) (index * vector.element_size)
          (new_element.take vector.element_size)) })
  else (false, List.replicate vector.element_size 0, vector)

/-- `vector_delete_at` with a `previous_element` that is not `NULL`: the
result, the bytes left in `*previous_element`, and the vector after the
call. -/
def vector_delete_at (vector : Vector) (index : Nat) : Bool × List Nat × Vector :=
  if vector.size = 0 ∨ index ≥ vector.size then
    (false, List.replicate vector.element_size 0, vector)
  else if index = vector.size - 1 then
    (true, ((vector.p.getD []).drop (index * vector.element_size)).take vector.element_size,
      { vector with size := vector.size - 1 })
  else
    (true, ((vector.p.getD []).drop (index * vector.element_size)).take vector.element_size,
      { vector with
        p := some (memcpy_at (vector.p.getD []) (index * vector.element_size)
          (((vector.p.getD []).drop ((index + 1) * vector.element_size)).take
            ((vector.size - index - 1) * vector.element_size)))
        size := vector.size - 1 })

/-- The first `n` elements of `size` bytes each in a block. -/
def to_elements (size : Nat) : Nat → List Nat → List (List Nat)
  | 0, _ => []
  | n + 1, mem => mem.take size :: to_elements size n (mem.drop size)

/-- The list a vector stands for: its `size` elements in order. -/
def vector_elements (vector : Vector) : List (List Nat) :=
  to_elements vector.element_size vector.size (vector.p.getD [])

/-- The shape of a vector: `size <= capacity`, and the block, when there is
one, has `capacity * element_size` bytes; without a block the vector is
empty. -/
def vector_inv (vector : Vector) : Prop :=
  vector.size ≤ vector.capacity ∧
  match vector.p with
  | none => vector.capacity = 0
  | some mem => mem.length = vector.capacity * vector.element_size

instance (vector : Vector) : Decidable (vector_inv vector) := by
  unfold vector_inv
  cases vector.p <;> infer_instance

/-! ## Sequences of calls on the store -/

/-- A call that writes the store: `write_saved_position(label, position)` or
`save_state(label, mfp)`. -/
inductive StoreCall
  | write_position (label : List Nat) (position : Nat)
  | save (label : List Nat) (mfp : MorseFeedParams)

/-- The store after one call. -/
def store_call (store : List Nat) : StoreCall → Option (MorseFeedError × List Nat)
  | StoreCall.write_position label position => write_saved_position store label position
  | StoreCall.save label mfp => save_state store label mfp

/-- The store after a sequence of calls. -/
def store_calls : List StoreCall → List Nat → Option (List Nat)
  | [], store => some store
  | c :: cs, store =>
    match store_call store c with
    | none => none
    | some (_, store1) => store_calls cs store1

/-- At most one 3-cell `position` record per key and at most one 17-cell
`state` record per label among the rows. -/
def store_unique (array : List (List (List Nat))) : Prop :=
  (∀ key, (array.filter (is_position_row key)).length ≤ 1) ∧
  (∀ label, (array.filter (is_state_row label)).length ≤ 1)

/-- A call whose record fits: the position below `2 ^ 63` and its row
well-formed (key NUL-free and of at most 511 bytes, line of at most 1023
bytes) unless the position is 0; for `save_state`, the row built and
well-formed. -/
def call_fits : StoreCall → Prop
  | StoreCall.write_position label position =>
    position < 2 ^ 63 ∧ (position ≠ 0 → row_ok [bytes "position", label, sprintf_ld position])
  | StoreCall.save label mfp => ∃ entry, state_entry label mfp = some entry ∧ row_ok entry

/-! ## `process_and_send` on one buffer

The part of `process_and_send` from `buffer_index = 0` on, for one
materialized buffer and no links to follow. The locals set before that point
are arguments: whether the pipes to the subprocess are open (`pf`), the row
width, the word limit, `use_key_control`, `filter_html`, and the content of
`entity` and `tag`, which the function does not initialise. -/

/-- The `while` loop over the lines, given the lines that the calls of
`fbgets` return: the loop stops at the first error. -/
def send_lines (pf : Bool) (wpr wc : Int) (ukc fh : Bool) : List (List Nat) → Feed → Option Feed
  | [], s => some s
  | line :: lines, s =>
    if s.error = MF_NO_ERROR then
      match send_line pf wpr wc ukc fh 0 (cstr line) s with
      | none => none
      | some s1 =>
        send_lines pf wpr wc ukc fh lines
          { s1 with line_offset := s1.line_offset + (cstr line).length }
    else some s

/-- The block after the main loop, `if (error == MF_NO_ERROR && token_length
> 0)`: a token still held is written and `token_offset` moves to the end of
the lines read. -/
def send_final_token (pf : Bool) (wpr wc : Int) (ukc fh : Bool) (s : Feed) : Option Feed :=
  if s.error = MF_NO_ERROR ∧ s.token.length > 0 then
    match write_token s.token pf wpr wc ukc fh s.html s.world with
    | none => none
    | some (error, html, world) =>
      some { s with error := error, html := html, world := world
                    token_offset := if error = MF_NO_ERROR then s.line_offset else s.token_offset }
  else some s

/-- What `process_and_send` leaves: the error code, the streams, the store,
and the offset it passed to `write_saved_position` (`none` when it did not
call it). -/
structure Sent where
  error : MorseFeedError
  world : World
  store : List Nat
  position : Option Nat
  deriving DecidableEq

/-- `process_and_send` on the buffer `p` (`text_buffer.used` is its length
plus one), with `linked_urls` empty. -/
def process_and_send (pf : Bool) (wpr wc : Int) (ukc fh : Bool)
    (text_after text_before : Option (List Nat)) (save_and_use_position : Bool)
    (store label : List Nat) (p : List Nat) (entity tag : List Nat) (w : World) : Option Sent :=
  match select_span text_after text_before save_and_use_position store label p (p.length + 1) with
  | none => none
  | some (error, buffer_index, used) =>
    let s0 : Feed :=
      { error := error, token := [], line_offset := buffer_index, token_offset := buffer_index,
        html := { excluding_tag := false, entity := entity, tag := tag }, world := w }
    -- the main loop: one pass
    let pass : Option Feed :=
      if error = MF_NO_ERROR then
        match send_buffer pf wpr wc ukc fh p (used - 1) (used + 1) buffer_index s0 with
        | none => none
        | some s1 => send_last_token pf wpr wc ukc fh s1
      else some s0
    match pass with
    | none => none
    | some s2 =>
      match send_final_token pf wpr wc ukc fh s2 with
      | none => none
      | some s3 =>
        let w1 := final_newline s3.error pf s3.world
        if (s3.error = MF_NO_ERROR ∨ s3.error = MF_EXIT) ∧ save_and_use_position = true then
          let token_offset := if s3.token_offset ≥ used - 1 then 0 else s3.token_offset
          match write_saved_position store label token_offset with
          | none => none
          | some (e, store1) =>
            some { error := e, world := w1, store := store1, position := some token_offset }
        else some { error := s3.error, world := w1, store := store, position := none }

/-! ## The tokens of a span -/

/-- The tokens that the loops of `process_and_send` hand to `write_token`
for the bytes `bs` of the lines put end to end, `t` being the token in
progress: a white-space byte ends the token, a token of `LINE_SIZE - 1`
bytes is handed over before the next byte is taken, and the token left at
the end is handed over last. -/
def feed_tokens : List Nat → List Nat → List (List Nat)
  | t, [] => if t.length > 0 then [t] else []
  | t, c :: bs =>
    if isspace c then
      if t.length > 0 then t :: feed_tokens [] bs else feed_tokens t bs
    else if t.length = LINE_SIZE - 1 then t :: feed_tokens [c] bs
    else feed_tokens (t ++ [c]) bs

/-- The runs of bytes between white space, `t` being the run in progress. -/
def run_tokens : List Nat → List Nat → List (List Nat)
  | t, [] => if t.length > 0 then [t] else []
  | t, c :: bs =>
    if isspace c then
      if t.length > 0 then t :: run_tokens [] bs else run_tokens t bs
    else run_tokens (t ++ [c]) bs

/-- The maximal runs of non-whitespace bytes of a span, in order: the span
is cut wherever a white-space byte is involved, and the white-space bytes
are left out. -/
def span_runs (span : List Nat) : List (List Nat) :=
  (span.splitBy (fun a b => !isspace a && !isspace b)).filter (fun r => !isspace (r.headD 0x20))

/-- A run cut into consecutive pieces of `n` bytes; the last piece holds
what is left. -/
def cut_pieces (n : Nat) (run : List Nat) : List (List Nat) :=
  (List.range ((run.length + n - 1) / n)).map (fun i => (run.drop (i * n)).take n)

/-- Claim C31 in its own words: the maximal runs of non-whitespace bytes of
the span, in order, each run longer than 1023 bytes cut into consecutive
pieces of 1023 bytes. -/
def span_tokens (span : List Nat) : List (List Nat) :=
  ((span_runs span).map (cut_pieces (LINE_SIZE - 1))).flatten

/-! ## The URL and the title of an anchor -/

/-- The URL of the anchor at `a`, in the words of claim C17: `<a href="`
stands at index `a` of the span, `q` is the place of the first `"` after
it, the href between them is not empty and shorter than `URL_SIZE`, and `u`
is what `link_url` makes of the href. -/
def url_of_anchor (base_url str : List Nat) (end_index a : Nat) (u : List Nat) : Prop :=
  occurs_at BEGIN_URL str end_index a ∧
  ∃ q, first_occurrence END_URL str end_index (a + BEGIN_URL.length) q ∧
    a + BEGIN_URL.length < q ∧ q - (a + BEGIN_URL.length) < URL_SIZE ∧
    link_url base_url
      (cstr ((str.drop (a + BEGIN_URL.length)).take (q - (a + BEGIN_URL.length)))) =
      some (some u)

/-- The title of the anchor at `a`: with `q` the place of the first `"`
after the `<a href="`, `g` the first `>` at or after `q` and `e` the first
`</a>` after `g`, the title is the text between `g` and `e`, cut to
`TITLE_SIZE - 1` bytes; it is empty when `e` follows `g` at once, and when
there is no such `g` or no `</a>` after it before the end of the span. -/
def title_of_anchor (str : List Nat) (end_index a : Nat) (t : List Nat) : Prop :=
  ∃ q, first_occurrence END_URL str end_index (a + BEGIN_URL.length) q ∧
    (∀ g e, first_occurrence BEGIN_TITLE str end_index q g →
      first_occurrence END_TITLE str end_index (g + BEGIN_TITLE.length) e →
      t = if g + BEGIN_TITLE.length < e then
            cstr ((str.drop (g + BEGIN_TITLE.length)).take
              (min (e - (g + BEGIN_TITLE.length)) (TITLE_SIZE - 1)))
          else []) ∧
    ((∀ g, first_occurrence BEGIN_TITLE str end_index q g →
        ∀ j, g + BEGIN_TITLE.length ≤ j → ¬ occurs_at END_TITLE str end_index j) → t = [])

/-! ## Lemmas and theorems -/

open MorseFeedError

theorem named_punct_facts (c : Nat) (h : c ∈ named_punct) :
    is_word_char c = false ∧ c ≠ 0x27 ∧ c ≠ 0x22 ∧ c ≤ 0x7F ∧
      ∃ n, ascii_names.lookup c = some n ∧ 0 < (bytes n).length := by
  simp only [named_punct, List.mem_cons, List.mem_singleton, List.not_mem_nil, or_false] at h
  rcases h with h | h | h | h | h | h | h | h | h | h | h | h | h | h | h | h | h | h | h | h |
    h | h | h | h | h | h <;> subst h <;>
    refine ⟨by decide, by decide, by decide, by decide, ?_⟩ <;> exact ⟨_, rfl, by decide⟩

theorem ascii_name_punct_pos (c : Nat) (h : c ∈ named_punct) : 0 < (ascii_name c 0).length := by
  obtain ⟨_, _, h3, _, n, h5, h6⟩ := named_punct_facts c h
  simp [ascii_name, h3, h5, h6]

theorem scan_char_word (c : Nat) (rest : List Nat) (s : Loop) (hc : is_word_char c = true)
    (hex : s.excluding_tag = false) (hl : s.latin1 = false) :
    scan_char false c rest s =
      { excluding_tag := false, entity := s.entity, tag := s.tag, word := s.word ++ [toupper c],
        latin1 := false, name := [], c := c, skip := 0 } := by
  simp [scan_char, scan_chain, scan_latin1, hc, hex, hl]

theorem scan_char_punct (c : Nat) (rest : List Nat) (s : Loop) (hc : c ∈ named_punct)
    (hex : s.excluding_tag = false) (hl : s.latin1 = false) :
    scan_char false c rest s =
      { excluding_tag := false, entity := s.entity, tag := s.tag, word := s.word,
        latin1 := false, name := ascii_name c 0, c := c, skip := 0 } := by
  obtain ⟨h1, h2, h3, h4, n, h5, h6⟩ := named_punct_facts c hc
  simp [scan_char, scan_chain, scan_latin1, h1, h2, h3, h4, hex, hl, ascii_name, h5]

theorem write_word_quiet (word : List Nat) (pf : Bool) (wpr : Int) (w : World)
    (h : pf = true → 1 ≤ w.acks) :
    ∃ w1, write_word word pf wpr DEFAULT false w = some (MF_NO_ERROR, w1) ∧
      w1.words = w.words ++ [word] ∧ w.acks ≤ w1.acks + 1 := by
  refine ⟨(write_word_body word pf wpr DEFAULT w).2, ?_, ?_, ?_⟩
  · simp only [write_word, Bool.false_eq_true, if_false]
    congr 1
    apply Prod.ext
    · simp only [write_word_body, ne_eq, not_true_eq_false, false_and, if_false]
      cases pf
      · simp
      · have := h rfl
        have h0 : w.acks ≠ 0 := by omega
        simp [h0]
    · rfl
  · simp [write_word_body]
  · simp only [write_word_body]
    split <;> omega

theorem emit_name_quiet (pf : Bool) (wpr : Int) (word name : List Nat) (w : World)
    (hn : 0 < name.length) (h : pf = true → (flush_words word).length + 1 ≤ w.acks) :
    ∃ w1, emit_name pf wpr DEFAULT false MF_NO_ERROR word name w = some (MF_NO_ERROR, [], w1) ∧
      w1.words = w.words ++ flush_words word ++ [name] ∧
      w.acks ≤ w1.acks + (flush_words word).length + 1 := by
  by_cases hw : 0 < word.length
  · have hf : flush_words word = [word] := by simp [flush_words, hw]
    rw [hf] at h ⊢
    obtain ⟨w1, e1, a1, b1⟩ :=
      write_word_quiet word pf wpr w (fun hp => by have := h hp; simp at this; omega)
    obtain ⟨w2, e2, a2, b2⟩ :=
      write_word_quiet name pf wpr w1 (fun hp => by have := h hp; simp at this; omega)
    refine ⟨w2, ?_, ?_, ?_⟩
    · simp [emit_name, hn, hw, e1, e2]
    · simp [a1, a2]
    · simp; omega
  · have hf : flush_words word = [] := by simp [flush_words, hw]
    have hw' : word = [] := by
      cases word with
      | nil => rfl
      | cons a l => simp at hw
    rw [hf] at h ⊢
    obtain ⟨w2, e2, a2, b2⟩ :=
      write_word_quiet name pf wpr w (fun hp => by have := h hp; simp at this; omega)
    refine ⟨w2, ?_, ?_, ?_⟩
    · simp [emit_name, hn, hw', e2]
    · simp [a2]
    · simp; omega

theorem flush_words_length_le (word : List Nat) : (flush_words word).length ≤ 1 := by
  unfold flush_words; split <;> simp

theorem plain_loop (pf : Bool) (wpr : Int) (token : List Nat) :
    ∀ s : Loop, s.error = MF_NO_ERROR → s.skip = 0 → s.latin1 = false →
      s.excluding_tag = false → s.word.length + token.length ≤ 1023 →
      (∀ c ∈ token, is_word_char c = true ∨ c ∈ named_punct) →
      (pf = true → (flush_words s.word).length + token.length ≤ s.world.acks) →
      ∃ s1, write_token_loop pf wpr DEFAULT false false token s = some s1 ∧
        s1.error = MF_NO_ERROR ∧ s1.excluding_tag = false ∧ s1.entity = s.entity ∧
        s1.tag = s.tag ∧
        (pf = true → (flush_words s1.word).length ≤ s1.world.acks) ∧
        s1.world.words ++ flush_words s1.word = s.world.words ++ plain_words s.word token := by
  induction token with
  | nil =>
    intro s he _ _ hex _ _ hacks
    exact ⟨s, rfl, he, hex, rfl, rfl, by simpa using hacks, by simp [plain_words]⟩
  | cons c rest ih =>
    intro s he hsk hl hex hlen hch hacks
    have hroom : s.word.length < LINE_SIZE - 1 := by
      simp only [List.length_cons] at hlen
      simp only [LINE_SIZE]; omega
    simp only [List.length_cons] at hlen hacks
    rcases hch c (List.mem_cons_self _ _) with hc | hc
    · -- a letter, a digit or one of the four marks: appended to the word
      have hstep : write_token_step pf wpr DEFAULT false false c rest s =
          some { s with word := s.word ++ [toupper c] } := by
        simp [write_token_step, scan_char_word c rest s hc hex hl, emit_name, he, hsk, hl, hex]
      obtain ⟨s1, e1, a1, a2, a3, a4, a5, a6⟩ := ih { s with word := s.word ++ [toupper c] }
        he hsk hl hex (by simp; omega) (fun x hx => hch x (List.mem_cons_of_mem _ hx))
        (fun hp => by
          have := hacks hp
          have := flush_words_length_le (s.word ++ [toupper c])
          simp only []
          omega)
      refine ⟨s1, ?_, a1, a2, a3, a4, a5, ?_⟩
      · have hsk' : ¬ (0 < s.skip) := by omega
        rw [write_token_loop]
        simp only [hsk', if_false, hroom, if_true, hstep]
        exact e1
      · simp only [plain_words, hc, if_true]
        exact a6
    · -- a named punctuation character: flush, then the name
      have hn := ascii_name_punct_pos c hc
      obtain ⟨w1, e1, b1, b2⟩ := emit_name_quiet pf wpr s.word (ascii_name c 0) s.world hn
        (fun hp => by have := hacks hp; omega)
      have hstep : write_token_step pf wpr DEFAULT false false c rest s =
          some { s with word := [], world := w1 } := by
        simp [write_token_step, scan_char_punct c rest s hc hex hl, he, e1, hsk, hl, hex]
      obtain ⟨s1, e2, a1, a2, a3, a4, a5, a6⟩ := ih { s with word := [], world := w1 }
        he hsk hl hex (by simp; omega) (fun x hx => hch x (List.mem_cons_of_mem _ hx))
        (fun hp => by
          have := hacks hp
          simp [flush_words]
          omega)
      refine ⟨s1, ?_, a1, a2, a3, a4, a5, ?_⟩
      · have hsk' : ¬ (0 < s.skip) := by omega
        rw [write_token_loop]
        simp only [hsk', if_false, hroom, if_true, hstep]
        exact e2
      · have hnw : is_word_char c = false := (named_punct_facts c hc).1
        simp only [plain_words, hnw, Bool.false_eq_true, if_false]
        rw [a6]
        simp [b1, List.append_assoc]

theorem spec_run_word_word (a : Nat) (g : List Nat) (ha : is_word_char a = true)
    (hg : ∀ x ∈ g, is_word_char x = true) :
    spec_run_word ((a :: g).reverse) = (g.reverse ++ [a]).map toupper := by
  have hhead : is_word_char (((a :: g).reverse).headD 0) = true := by
    cases hr : g.reverse with
    | nil => simp [hr, ha]
    | cons x xs =>
      have hx : x ∈ g := by
        have : x ∈ g.reverse := by rw [hr]; exact List.mem_cons_self _ _
        simpa using this
      simp [hr, hg x hx]
  unfold spec_run_word
  rw [if_pos hhead, List.reverse_cons]

theorem spec_run_word_punct (a : Nat) (ha : is_word_char a = false) :
    spec_run_word [a] = ascii_name a 0 := by
  simp [spec_run_word, ha]

theorem plain_words_splitBy_loop (l : List Nat) :
    ∀ (a : Nat) (g : List Nat) (gs : List (List Nat)),
      (is_word_char a = true → ∀ x ∈ g, is_word_char x = true) →
      (is_word_char a = false → g = []) →
      (List.splitBy.loop (fun a b => is_word_char a && is_word_char b) l a g gs).map
          spec_run_word =
        gs.reverse.map spec_run_word ++
          (if is_word_char a then plain_words ((g.reverse ++ [a]).map toupper) l
           else [ascii_name a 0] ++ plain_words [] l) := by
  induction l with
  | nil =>
    intro a g gs h1 h2
    cases ha : is_word_char a with
    | true =>
      have hne : 0 < (List.map toupper (g.reverse ++ [a])).length := by simp
      simp only [List.splitBy.loop, List.reverse_cons (a := (a :: g).reverse), List.map_append,
        List.map_cons, List.map_nil, spec_run_word_word a g ha (h1 ha), if_true, plain_words,
        flush_words, hne]
      simp
    | false =>
      have := h2 ha
      subst this
      simp [List.splitBy.loop, plain_words, flush_words, ha, spec_run_word_punct a ha]
  | cons b l ih =>
    intro a g gs h1 h2
    cases ha : is_word_char a with
    | true =>
      cases hb : is_word_char b with
      | true =>
        have := ih b (a :: g) gs
          (fun _ x hx => by
            rcases List.mem_cons.mp hx with rfl | hx
            · exact ha
            · exact h1 ha x hx)
          (fun h => by rw [hb] at h; cases h)
        simp only [List.splitBy.loop, ha, hb, Bool.and_self]
        rw [this]
        simp [hb, plain_words]
      | false =>
        have := ih b [] ((a :: g).reverse :: gs) (fun _ x hx => by cases hx) (fun _ => rfl)
        simp only [List.splitBy.loop, ha, hb, Bool.and_false]
        rw [this]
        have hne : 0 < (List.map toupper (g.reverse ++ [a])).length := by simp
        simp only [List.reverse_cons (a := (a :: g).reverse), List.map_append,
          List.map_cons, List.map_nil, spec_run_word_word a g ha (h1 ha), if_true, plain_words,
          flush_words, hne, hb, Bool.false_eq_true, if_false, List.append_assoc]
        simp
    | false =>
      have hg := h2 ha
      subst hg
      cases hb : is_word_char b with
      | true =>
        have := ih b [] ([a] :: gs) (fun _ x hx => by cases hx) (fun _ => rfl)
        simp only [List.splitBy.loop, ha, hb, Bool.false_and, List.reverse_cons, List.reverse_nil,
          List.nil_append]
        rw [this]
        simp [hb, plain_words, spec_run_word_punct a ha]
      | false =>
        have := ih b [] ([a] :: gs) (fun _ x hx => by cases hx) (fun _ => rfl)
        simp only [List.splitBy.loop, ha, hb, Bool.false_and, List.reverse_cons, List.reverse_nil,
          List.nil_append]
        rw [this]
        simp [hb, plain_words, flush_words, spec_run_word_punct a ha]

theorem plain_words_eq_spec (token : List Nat) : plain_words [] token = spec_token_words token := by
  cases token with
  | nil => simp [plain_words, spec_token_words, flush_words]
  | cons a l =>
    have := plain_words_splitBy_loop l a [] [] (fun _ x hx => by cases hx) (fun _ => rfl)
    simp only [spec_token_words, List.splitBy]
    rw [this]
    cases ha : is_word_char a <;> simp [plain_words, ha, flush_words]

/-- C1. With HTML filtering disabled, no word limit and no key control (and,
on a pipe, an acknowledgment line for every byte), a token of at most 1023
bytes made of letters, digits, `. , ? /` and the named punctuation other than
the double quote is written as: each maximal run of letters, digits and
`. , ? /` upper-cased as one Word, and each punctuation character as its named
Word, in input order; `write_token` returns `MF_NO_ERROR`.  The tokens
"Hello," and "world!" give "HELLO,", "WORLD", "exclamation". -/
theorem write_token_plain_text :
    (∀ (token : List Nat) (pipe_from_mbeep : Bool) (words_per_row : Int) (h : HtmlState)
        (w : World),
        token.length ≤ 1023 →
        (∀ c ∈ token, is_word_char c = true ∨ c ∈ named_punct) →
        h.excluding_tag = false →
        (pipe_from_mbeep = true → token.length ≤ w.acks) →
        ∃ w1, write_token token pipe_from_mbeep words_per_row DEFAULT false false h w
            = some (MF_NO_ERROR, h, w1) ∧
          w1.words = w.words ++ spec_token_words token) ∧
    (∀ (words_per_row : Int) (h : HtmlState) (w : World), h.excluding_tag = false →
        ∃ w1, write_tokens false words_per_row DEFAULT false false
            [bytes "Hello,", bytes "world!"] h w = some (MF_NO_ERROR, h, w1) ∧
          w1.words = w.words ++ [bytes "HELLO,", bytes "WORLD", bytes "exclamation"]) := by
  have main : ∀ (token : List Nat) (pipe_from_mbeep : Bool) (words_per_row : Int)
      (h : HtmlState) (w : World),
      token.length ≤ 1023 →
      (∀ c ∈ token, is_word_char c = true ∨ c ∈ named_punct) →
      h.excluding_tag = false →
      (pipe_from_mbeep = true → token.length ≤ w.acks) →
      ∃ w1, write_token token pipe_from_mbeep words_per_row DEFAULT false false h w
          = some (MF_NO_ERROR, h, w1) ∧
        w1.words = w.words ++ spec_token_words token := by
    intro token pf wpr h w hlen hch hex hacks
    obtain ⟨s1, e1, a1, a2, a3, a4, a5, a6⟩ := plain_loop pf wpr token
      { error := MF_NO_ERROR, word := [], latin1 := false, skip := 0,
        excluding_tag := h.excluding_tag, entity := h.entity, tag := h.tag, world := w }
      rfl rfl rfl hex (by simpa using hlen) hch
      (fun hp => by simpa [flush_words] using hacks hp)
    have hh : ({ excluding_tag := s1.excluding_tag, entity := s1.entity, tag := s1.tag } :
        HtmlState) = h := by
      cases h
      simp only [a2, a3, a4] at *
      simp [hex]
    rw [plain_words_eq_spec] at a6
    by_cases hw : 0 < s1.word.length
    · obtain ⟨w1, e2, b1, _⟩ := write_word_quiet s1.word pf wpr s1.world
        (fun hp => by have := a5 hp; simpa [flush_words, hw] using this)
      refine ⟨w1, ?_, ?_⟩
      · simp only [write_token, e1, a1, hw, gt_iff_lt, and_self, if_true, e2, hh]
      · rw [b1, ← a6]
        simp [flush_words, hw]
    · refine ⟨s1.world, ?_, ?_⟩
      · simp only [write_token, e1, a1, hw, gt_iff_lt, and_false, if_false, hh]
      · rw [← a6]
        simp [flush_words, hw]
  refine ⟨main, ?_⟩
  intro wpr h w hex
  obtain ⟨w1, e1, b1⟩ := main (bytes "Hello,") false wpr h w (by decide) (by decide) hex
    (by simp)
  obtain ⟨w2, e2, b2⟩ := main (bytes "world!") false wpr h w1 (by decide) (by decide) hex
    (by simp)
  refine ⟨w2, ?_, ?_⟩
  · simp [write_tokens, e1, e2]
  · rw [b2, b1]
    have h1 : spec_token_words (bytes "Hello,") = [bytes "HELLO,"] := by decide
    have h2 : spec_token_words (bytes "world!") = [bytes "WORLD", bytes "exclamation"] := by
      decide
    rw [h1, h2]
    simp

/-- Witness for C1 at the token "world!" on an empty file sink. -/
theorem write_token_plain_text_witness :
    ∃ w1, write_token (bytes "world!") false 5 DEFAULT false false
        { excluding_tag := false, entity := [], tag := [] }
        { output := [], words := [], word_number := 0, keys := [], acks := 0 }
        = some (MF_NO_ERROR, { excluding_tag := false, entity := [], tag := [] }, w1) ∧
      w1.words = [] ++ spec_token_words (bytes "world!") :=
  write_token_plain_text.1 (bytes "world!") false 5
    { excluding_tag := false, entity := [], tag := [] }
    { output := [], words := [], word_number := 0, keys := [], acks := 0 }
    (by decide) (by decide) rfl (by simp)

/-- C2, counterexample: the token "café" in UTF-8 (63 61 66 C3 A9), with HTML
filtering off and no limit, is written as the one plain Word "CAFe", which
holds a lower-case letter and is no named substitution. -/
theorem write_token_lower_case_counterexample :
    write_token [0x63, 0x61, 0x66, 0xC3, 0xA9] false 5 DEFAULT false false
        { excluding_tag := false, entity := [], tag := [] }
        { output := [], words := [], word_number := 0, keys := [], acks := 0 }
      = some (MF_NO_ERROR, { excluding_tag := false, entity := [], tag := [] },
          { output := bytes "CAFe", words := [bytes "CAFe"], word_number := 1, keys := [],
            acks := 0 }) ∧
      ¬ claimed_word_ok (bytes "CAFe") := by
  constructor
  · decide
  · decide

theorem lookup_mem {β : Type} (c : Nat) (n : β) :
    ∀ l : List (Nat × β), l.lookup c = some n → (c, n) ∈ l := by
  intro l
  induction l with
  | nil => intro h; simp at h
  | cons p l ih =>
    intro h
    obtain ⟨k, v⟩ := p
    simp only [List.lookup] at h
    split at h
    · rename_i heq
      simp only [beq_iff_eq] at heq
      simp only [Option.some.injEq] at h
      subst heq; subst h
      exact List.mem_cons_self _ _
    · exact List.mem_cons_of_mem _ (ih h)

theorem latin1_cstr_plain : ∀ p ∈ latin1_cstr, ∀ x ∈ bytes p.2, is_plain_char x = true := by
  decide

theorem toupper_plain (c : Nat) (h : is_word_char c = true) : is_plain_char (toupper c) = true := by
  simp only [is_word_char, Bool.or_eq_true, Bool.and_eq_true, decide_eq_true_eq] at h
  simp only [is_plain_char, is_upper_plain_char, toupper, Bool.or_eq_true, Bool.and_eq_true,
    decide_eq_true_eq]
  left
  split <;> omega

theorem ascii_lookup_named (c : Nat) (n : String) (h : ascii_names.lookup c = some n) :
    bytes n ∈ named_words := by
  have := lookup_mem c n ascii_names h
  simp only [named_words, List.mem_append, List.mem_map]
  exact Or.inl (Or.inl (Or.inr ⟨(c, n), this, rfl⟩))

theorem utf8_lookup_named (c : Nat) (n : String) (h : utf8_names.lookup c = some n) :
    bytes n ∈ named_words := by
  have := lookup_mem c n utf8_names h
  simp only [named_words, List.mem_append, List.mem_map]
  exact Or.inl (Or.inr ⟨(c, n), this, rfl⟩)

theorem latin1_lookup_named (c : Nat) (n : String) (h : latin1_names.lookup c = some n) :
    bytes n ∈ named_words := by
  have := lookup_mem c n latin1_names h
  simp only [named_words, List.mem_append, List.mem_map]
  exact Or.inr ⟨(c, n), this, rfl⟩

theorem ascii_name_named (c n : Nat) : ascii_name c n = [] ∨ ascii_name c n ∈ named_words := by
  unfold ascii_name
  split
  · split
    · exact Or.inr (by decide)
    · exact Or.inr (by decide)
  · split
    · rename_i s hs
      exact Or.inr (ascii_lookup_named c s hs)
    · exact Or.inl rfl

theorem entity_name_named (e : List Nat) (n : Nat) :
    entity_name e n = [] ∨ entity_name e n ∈ named_words := by
  unfold entity_name
  split_ifs
  all_goals first
    | exact Or.inl rfl
    | exact Or.inr (by decide)

theorem scan_chain_ok (filter_html : Bool) (c : Nat) (rest : List Nat) (s : Loop)
    (hw : ∀ x ∈ s.word, is_plain_char x = true) :
    scan_ok (scan_chain filter_html c rest s) := by
  have hbar : bytes "|" ∈ named_words := by decide
  have hsp : bytes " " ∈ named_words := by decide
  unfold scan_chain
  dsimp only
  by_cases h1 : filter_html = true ∧ c = 0x3C
  · rw [if_pos h1]; exact ⟨hw, Or.inl rfl⟩
  rw [if_neg h1]
  by_cases h2 : s.excluding_tag = true ∧ c = 0x3E
  · rw [if_pos h2]
    refine ⟨hw, Or.inr ?_⟩
    show (if _ then _ else _) ∈ named_words
    split
    · exact hbar
    · exact hsp
  rw [if_neg h2]
  by_cases h3 : s.excluding_tag = true
  · rw [if_pos h3]; exact ⟨hw, Or.inl rfl⟩
  rw [if_neg h3]
  by_cases h4 : filter_html = true ∧ c = 0x26
  · rw [if_pos h4]; exact ⟨hw, Or.inl rfl⟩
  rw [if_neg h4]
  by_cases h5 : filter_html = true ∧ s.entity ≠ []
  · rw [if_pos h5]
    by_cases h6 : c = 0x3B
    · rw [if_pos h6]; exact ⟨hw, entity_name_named _ _⟩
    · rw [if_neg h6]; exact ⟨hw, Or.inl rfl⟩
  rw [if_neg h5]
  by_cases h7 : is_word_char c = true
  · rw [if_pos h7]
    refine ⟨?_, Or.inl rfl⟩
    intro x hx
    simp only [List.mem_append, List.mem_singleton] at hx
    rcases hx with hx | hx
    · exact hw x hx
    · subst hx; exact toupper_plain c h7
  rw [if_neg h7]
  by_cases h8 : c = 0x27
  · rw [if_pos h8]; exact ⟨hw, Or.inl rfl⟩
  rw [if_neg h8]
  by_cases h9 : c ≤ 0x7F
  · rw [if_pos h9]; exact ⟨hw, ascii_name_named _ _⟩
  rw [if_neg h9]
  by_cases h10 : c &&& 0xE0 = 0xC0
  · rw [if_pos h10]
    cases rest with
    | nil => exact ⟨hw, Or.inl rfl⟩
    | cons c1 tl =>
      dsimp only
      by_cases h11 : is_cont c1 = true
      · rw [if_pos h11]
        by_cases h12 : (c &&& 0x1F) <<< 6 ||| c1 &&& 0x3F ≤ 0xFF
        · rw [if_pos h12]; exact ⟨hw, Or.inl rfl⟩
        · rw [if_neg h12]
          refine ⟨hw, ?_⟩
          dsimp only
          split
          · rename_i n hn
            exact Or.inr (utf8_lookup_named _ n hn)
          · exact Or.inl rfl
      · rw [if_neg h11]; exact ⟨hw, Or.inl rfl⟩
  rw [if_neg h10]
  by_cases h13 : c &&& 0xF0 = 0xE0
  · rw [if_pos h13]
    split
    · split <;> exact ⟨hw, Or.inl rfl⟩
    · exact ⟨hw, Or.inl rfl⟩
  rw [if_neg h13]
  by_cases h14 : c &&& 0xF8 = 0xF0
  · rw [if_pos h14]
    split
    · split <;> exact ⟨hw, Or.inl rfl⟩
    · exact ⟨hw, Or.inl rfl⟩
  rw [if_neg h14]
  exact ⟨hw, Or.inl rfl⟩

theorem scan_char_ok (filter_html : Bool) (c : Nat) (rest : List Nat) (s : Loop)
    (hw : ∀ x ∈ s.word, is_plain_char x = true) :
    (∀ x ∈ (scan_char filter_html c rest s).word, is_plain_char x = true) ∧
      word_ok (scan_char filter_html c rest s).name := by
  obtain ⟨h1, h2⟩ := scan_chain_ok filter_html c rest s hw
  have hnm : word_ok (scan_chain filter_html c rest s).name := by
    rcases h2 with h2 | h2
    · right; rw [h2]; intro x hx; cases hx
    · exact Or.inl h2
  unfold scan_char scan_latin1
  generalize scan_chain filter_html c rest s = a at h1 hnm
  by_cases hl : a.latin1 = true
  · rw [if_pos hl]
    dsimp only
    have hname : word_ok (match latin1_names.lookup a.c with
        | some n => bytes n
        | none => a.name) := by
      split
      · rename_i n hn
        exact Or.inl (latin1_lookup_named _ n hn)
      · exact hnm
    generalize (match latin1_names.lookup a.c with
        | some n => bytes n
        | none => a.name) = name at hname
    by_cases h0 : name.length = 0
    · rw [if_pos h0]
      split
      · rename_i cstr hc
        have hp := latin1_cstr_plain (a.c, cstr) (lookup_mem _ _ _ hc)
        split
        · refine ⟨?_, hname⟩
          intro x hx
          simp only [List.mem_append] at hx
          rcases hx with hx | hx
          · exact h1 x hx
          · exact hp x hx
        · exact ⟨h1, Or.inr hp⟩
      · exact ⟨h1, hname⟩
    · rw [if_neg h0]
      exact ⟨h1, hname⟩
  · rw [if_neg hl]
    exact ⟨h1, hnm⟩

/-- The Words written between two states of the streams, all of them
named substitutions or plain Words. -/
theorem write_word_words (word : List Nat) (pf : Bool) (wpr wc : Int) (ukc : Bool) (w : World)
    (e : MorseFeedError) (w1 : World)
    (h : write_word word pf wpr wc ukc w = some (e, w1)) :
    w1.words = w.words ∨ w1.words = w.words ++ [word] := by
  unfold write_word at h
  split at h
  · split at h
    · cases h
    · split at h
      · simp only [Option.some.injEq] at h
        right
        have := congrArg (fun p => p.2.words) h
        simpa [write_word_body] using this.symm
      · simp only [Option.some.injEq, Prod.mk.injEq] at h
        left
        rw [← h.2]
  · simp only [Option.some.injEq] at h
    right
    have := congrArg (fun p => p.2.words) h
    simpa [write_word_body] using this.symm

theorem emitted_ok_write_word (w0 w : World) (word : List Nat) (pf : Bool) (wpr wc : Int)
    (ukc : Bool) (e : MorseFeedError) (w1 : World) (h0 : emitted_ok w0 w) (hw : word_ok word)
    (h : write_word word pf wpr wc ukc w = some (e, w1)) : emitted_ok w0 w1 := by
  obtain ⟨new, h1, h2⟩ := h0
  rcases write_word_words word pf wpr wc ukc w e w1 h with h3 | h3
  · exact ⟨new, by rw [h3, h1], h2⟩
  · refine ⟨new ++ [word], by rw [h3, h1, List.append_assoc], ?_⟩
    intro x hx
    simp only [List.mem_append, List.mem_singleton] at hx
    rcases hx with hx | hx
    · exact h2 x hx
    · subst hx; exact hw

theorem emit_name_ok (w0 w : World) (pf : Bool) (wpr wc : Int) (ukc : Bool)
    (err : MorseFeedError) (word name : List Nat) (e : MorseFeedError) (word1 : List Nat)
    (w1 : World) (h0 : emitted_ok w0 w) (hw : ∀ c ∈ word, is_plain_char c = true)
    (hn : word_ok name)
    (h : emit_name pf wpr wc ukc err word name w = some (e, word1, w1)) :
    emitted_ok w0 w1 ∧ ∀ c ∈ word1, is_plain_char c = true := by
  unfold emit_name at h
  split at h
  · -- a name is to be written
    dsimp only at h
    by_cases hlen : word.length > 0
    · rw [if_pos hlen] at h
      cases hf : write_word word pf wpr wc ukc w with
      | none => rw [hf] at h; cases h
      | some r =>
        obtain ⟨e1, wa⟩ := r
        rw [hf] at h
        dsimp only at h
        have ha := emitted_ok_write_word w0 w word pf wpr wc ukc e1 wa h0 (Or.inr hw) hf
        split at h
        · cases hg : write_word name pf wpr wc ukc wa with
          | none => rw [hg] at h; cases h
          | some r2 =>
            obtain ⟨e2, wb⟩ := r2
            rw [hg] at h
            simp only [Option.some.injEq, Prod.mk.injEq] at h
            obtain ⟨_, h2, h3⟩ := h
            subst h2; subst h3
            exact ⟨emitted_ok_write_word w0 wa name pf wpr wc ukc e2 wb ha hn hg,
              fun c hc => by cases hc⟩
        · simp only [Option.some.injEq, Prod.mk.injEq] at h
          obtain ⟨_, h2, h3⟩ := h
          subst h2; subst h3
          exact ⟨ha, fun c hc => by cases hc⟩
    · rw [if_neg hlen] at h
      dsimp only at h
      split at h
      · cases hg : write_word name pf wpr wc ukc w with
        | none => rw [hg] at h; cases h
        | some r2 =>
          obtain ⟨e2, wb⟩ := r2
          rw [hg] at h
          simp only [Option.some.injEq, Prod.mk.injEq] at h
          obtain ⟨_, h2, h3⟩ := h
          subst h2; subst h3
          exact ⟨emitted_ok_write_word w0 w name pf wpr wc ukc e2 wb h0 hn hg, hw⟩
      · simp only [Option.some.injEq, Prod.mk.injEq] at h
        obtain ⟨_, h2, h3⟩ := h
        subst h2; subst h3
        exact ⟨h0, hw⟩
  · simp only [Option.some.injEq, Prod.mk.injEq] at h
    obtain ⟨_, h2, h3⟩ := h
    subst h2; subst h3
    exact ⟨h0, hw⟩

theorem write_token_step_ok (w0 : World) (pf : Bool) (wpr wc : Int) (ukc filter_html : Bool)
    (c : Nat) (rest : List Nat) (s s1 : Loop)
    (h0 : emitted_ok w0 s.world) (hw : ∀ c ∈ s.word, is_plain_char c = true)
    (h : write_token_step pf wpr wc ukc filter_html c rest s = some s1) :
    emitted_ok w0 s1.world ∧ ∀ c ∈ s1.word, is_plain_char c = true := by
  obtain ⟨ha, hb⟩ := scan_char_ok filter_html c rest s hw
  unfold write_token_step at h
  dsimp only at h
  cases he : emit_name pf wpr wc ukc s.error (scan_char filter_html c rest s).word
      (scan_char filter_html c rest s).name s.world with
  | none => rw [he] at h; cases h
  | some r =>
    obtain ⟨e, word1, w1⟩ := r
    rw [he] at h
    simp only [Option.some.injEq] at h
    subst h
    exact emit_name_ok w0 s.world pf wpr wc ukc s.error _ _ e word1 w1 h0 ha hb he

theorem write_token_loop_ok (w0 : World) (pf : Bool) (wpr wc : Int) (ukc filter_html : Bool)
    (token : List Nat) :
    ∀ s s1 : Loop, emitted_ok w0 s.world → (∀ c ∈ s.word, is_plain_char c = true) →
      write_token_loop pf wpr wc ukc filter_html token s = some s1 →
      emitted_ok w0 s1.world ∧ ∀ c ∈ s1.word, is_plain_char c = true := by
  induction token with
  | nil =>
    intro s s1 h0 hw h
    simp only [write_token_loop, Option.some.injEq] at h
    subst h
    exact ⟨h0, hw⟩
  | cons c rest ih =>
    intro s s1 h0 hw h
    rw [write_token_loop] at h
    split at h
    · exact ih { s with skip := s.skip - 1 } s1 h0 hw h
    · split at h
      · cases hs : write_token_step pf wpr wc ukc filter_html c rest s with
        | none => rw [hs] at h; cases h
        | some s2 =>
          rw [hs] at h
          obtain ⟨ha, hb⟩ := write_token_step_ok w0 pf wpr wc ukc filter_html c rest s s2 h0 hw hs
          exact ih s2 s1 ha hb h
      · simp only [Option.some.injEq] at h
        subst h
        exact ⟨h0, hw⟩

theorem write_word_total (word : List Nat) (pf : Bool) (wpr wc : Int) (w : World) :
    ∃ r, write_word word pf wpr wc false w = some r := by
  simp [write_word]

theorem emit_name_total (pf : Bool) (wpr wc : Int) (err : MorseFeedError) (word name : List Nat)
    (w : World) : ∃ r, emit_name pf wpr wc false err word name w = some r := by
  unfold emit_name
  simp only [write_word, Bool.false_eq_true, if_false]
  by_cases hn : name.length > 0
  · rw [if_pos hn]
    by_cases hw : word.length > 0
    · simp only [if_pos hw]
      split <;> exact ⟨_, rfl⟩
    · simp only [if_neg hw]
      split <;> exact ⟨_, rfl⟩
  · rw [if_neg hn]
    exact ⟨_, rfl⟩

theorem write_token_loop_total (pf : Bool) (wpr wc : Int) (filter_html : Bool) (token : List Nat) :
    ∀ s : Loop, ∃ s1, write_token_loop pf wpr wc false filter_html token s = some s1 := by
  induction token with
  | nil => intro s; exact ⟨s, rfl⟩
  | cons c rest ih =>
    intro s
    rw [write_token_loop]
    split
    · exact ih _
    · split
      · unfold write_token_step
        dsimp only
        obtain ⟨r, hr⟩ := emit_name_total pf wpr wc s.error
          (scan_char filter_html c rest s).word (scan_char filter_html c rest s).name s.world
        rw [hr]
        exact ih _
      · exact ⟨_, rfl⟩

/-- C2 (amended). For every token (any bytes), either setting of HTML
filtering, any word limit, sink and key control: every Word that
`write_token` writes is a fixed named substitution or a plain Word made only
of digits, upper-case letters, `. , ? /` and the lower-case letters of the
Latin-1 transliterations (a c e h i n o s t u x y).  Without key control the
call always returns. -/
theorem write_token_words_ok (token : List Nat) (pipe_from_mbeep : Bool)
    (words_per_row word_count : Int) (use_key_control filter_html : Bool) (h : HtmlState)
    (w : World) :
    (∀ e h1 w1, write_token token pipe_from_mbeep words_per_row word_count use_key_control
          filter_html h w = some (e, h1, w1) →
        ∃ new, w1.words = w.words ++ new ∧ ∀ x ∈ new, word_ok x) ∧
    (use_key_control = false →
      ∃ r, write_token token pipe_from_mbeep words_per_row word_count use_key_control
          filter_html h w = some r) := by
  constructor
  · intro e h1 w1 hr
    unfold write_token at hr
    cases hl : write_token_loop pipe_from_mbeep words_per_row word_count use_key_control
        filter_html token
        { error := MF_NO_ERROR, word := [], latin1 := false, skip := 0,
          excluding_tag := h.excluding_tag, entity := h.entity, tag := h.tag, world := w } with
    | none => rw [hl] at hr; cases hr
    | some s =>
      rw [hl] at hr
      dsimp only at hr
      obtain ⟨ha, hb⟩ := write_token_loop_ok w pipe_from_mbeep words_per_row word_count
        use_key_control filter_html token _ s ⟨[], by simp, fun x hx => by cases hx⟩
        (fun c hc => by cases hc) hl
      split at hr
      · cases hf : write_word s.word pipe_from_mbeep words_per_row word_count use_key_control
            s.world with
        | none => rw [hf] at hr; cases hr
        | some r =>
          obtain ⟨e2, w2⟩ := r
          rw [hf] at hr
          simp only [Option.some.injEq, Prod.mk.injEq] at hr
          obtain ⟨_, _, h3⟩ := hr
          subst h3
          exact emitted_ok_write_word w s.world s.word pipe_from_mbeep words_per_row word_count
            use_key_control e2 w2 ha (Or.inr hb) hf
      · simp only [Option.some.injEq, Prod.mk.injEq] at hr
        obtain ⟨_, _, h3⟩ := hr
        subst h3
        exact ha
  · intro hk
    subst hk
    unfold write_token
    obtain ⟨s, hs⟩ := write_token_loop_total pipe_from_mbeep words_per_row word_count filter_html
      token { error := MF_NO_ERROR, word := [], latin1 := false, skip := 0,
              excluding_tag := h.excluding_tag, entity := h.entity, tag := h.tag, world := w }
    rw [hs]
    dsimp only
    split
    · obtain ⟨r, hr⟩ := write_word_total s.word pipe_from_mbeep words_per_row word_count s.world
      rw [hr]
      exact ⟨_, rfl⟩
    · exact ⟨_, rfl⟩

/-- Witness for C2 (amended): the Word "CAFe" written for "café". -/
theorem write_token_words_ok_witness :
    ∃ new, [bytes "CAFe"] = [] ++ new ∧ ∀ x ∈ new, word_ok x :=
  (write_token_words_ok [0x63, 0x61, 0x66, 0xC3, 0xA9] false 5 DEFAULT false false
    { excluding_tag := false, entity := [], tag := [] }
    { output := [], words := [], word_number := 0, keys := [], acks := 0 }).1
    MF_NO_ERROR { excluding_tag := false, entity := [], tag := [] }
    { output := bytes "CAFe", words := [bytes "CAFe"], word_number := 1, keys := [], acks := 0 }
    (by decide)

/-! ### ASCII bytes and tags -/

theorem scan_latin1_skip (a : Scan) : (scan_latin1 a).skip = a.skip := by
  unfold scan_latin1
  split
  · dsimp only
    split
    · split
      · split <;> rfl
      · rfl
    · rfl
  · rfl

theorem scan_latin1_off (a : Scan) (h : a.latin1 = false) : scan_latin1 a = a := by
  unfold scan_latin1
  simp [h]

/-- On an ASCII byte the chain does not look ahead, leaves `latin1` and `c`
alone, asks for no extra step of `index`, and adds at most one byte to the
word. -/
theorem scan_chain_ascii (filter_html : Bool) (c : Nat) (rest : List Nat) (s : Loop)
    (hc : c ≤ 0x7F) :
    scan_chain filter_html c rest s = scan_chain filter_html c [] s ∧
      (scan_chain filter_html c rest s).skip = 0 ∧
      (scan_chain filter_html c rest s).latin1 = s.latin1 ∧
      (scan_chain filter_html c rest s).word.length ≤ s.word.length + 1 := by
  unfold scan_chain
  dsimp only
  by_cases h1 : filter_html = true ∧ c = 0x3C
  · simp only [if_pos h1]; simp
  simp only [if_neg h1]
  by_cases h2 : s.excluding_tag = true ∧ c = 0x3E
  · simp only [if_pos h2]; simp
  simp only [if_neg h2]
  by_cases h3 : s.excluding_tag = true
  · simp only [if_pos h3]; simp
  simp only [if_neg h3]
  by_cases h4 : filter_html = true ∧ c = 0x26
  · simp only [if_pos h4]; simp
  simp only [if_neg h4]
  by_cases h5 : filter_html = true ∧ s.entity ≠ []
  · simp only [if_pos h5]
    by_cases h6 : c = 0x3B
    · simp only [if_pos h6]; simp
    · simp only [if_neg h6]; simp
  simp only [if_neg h5]
  by_cases h7 : is_word_char c = true
  · simp only [if_pos h7]; simp
  simp only [if_neg h7]
  by_cases h8 : c = 0x27
  · simp only [if_pos h8]; simp
  simp only [if_neg h8]
  simp only [if_pos hc]
  simp

theorem emit_name_word (pf : Bool) (wpr wc : Int) (ukc : Bool) (err : MorseFeedError)
    (word name : List Nat) (w : World) (e : MorseFeedError) (word1 : List Nat) (w1 : World)
    (h : emit_name pf wpr wc ukc err word name w = some (e, word1, w1)) :
    word1 = word ∨ word1 = [] := by
  unfold emit_name at h
  by_cases hn : name.length > 0
  · rw [if_pos hn] at h
    by_cases hw : word.length > 0
    · simp only [if_pos hw] at h
      cases hf : write_word word pf wpr wc ukc w with
      | none => rw [hf] at h; cases h
      | some r =>
        rw [hf] at h
        dsimp only at h
        split at h
        · split at h
          · cases h
          · simp only [Option.some.injEq, Prod.mk.injEq] at h
            exact Or.inr h.2.1.symm
        · simp only [Option.some.injEq, Prod.mk.injEq] at h
          exact Or.inr h.2.1.symm
    · simp only [if_neg hw] at h
      split at h
      · split at h
        · cases h
        · simp only [Option.some.injEq, Prod.mk.injEq] at h
          exact Or.inl h.2.1.symm
      · simp only [Option.some.injEq, Prod.mk.injEq] at h
        exact Or.inl h.2.1.symm
  · rw [if_neg hn] at h
    simp only [Option.some.injEq, Prod.mk.injEq] at h
    exact Or.inl h.2.1.symm

theorem write_token_step_ascii (pf : Bool) (wpr wc : Int) (ukc filter_html : Bool) (c : Nat)
    (rest : List Nat) (s : Loop) (hc : c ≤ 0x7F) :
    write_token_step pf wpr wc ukc filter_html c rest s =
      write_token_step pf wpr wc ukc filter_html c [] s := by
  unfold write_token_step scan_char
  rw [(scan_chain_ascii filter_html c rest s hc).1]

theorem write_token_step_ascii_state (pf : Bool) (wpr wc : Int) (ukc filter_html : Bool) (c : Nat)
    (rest : List Nat) (s s1 : Loop) (hc : c ≤ 0x7F) (hl : s.latin1 = false)
    (h : write_token_step pf wpr wc ukc filter_html c rest s = some s1) :
    s1.skip = 0 ∧ s1.latin1 = false ∧ s1.word.length ≤ s.word.length + 1 := by
  obtain ⟨_, h2, h3, h4⟩ := scan_chain_ascii filter_html c rest s hc
  have hoff : scan_char filter_html c rest s = scan_chain filter_html c rest s := by
    unfold scan_char
    exact scan_latin1_off _ (by rw [h3, hl])
  unfold write_token_step at h
  dsimp only at h
  rw [hoff] at h
  cases he : emit_name pf wpr wc ukc s.error (scan_chain filter_html c rest s).word
      (scan_chain filter_html c rest s).name s.world with
  | none => rw [he] at h; cases h
  | some r =>
    obtain ⟨e, word1, w1⟩ := r
    rw [he] at h
    simp only [Option.some.injEq] at h
    subst h
    refine ⟨h2, by rw [h3, hl], ?_⟩
    rcases emit_name_word pf wpr wc ukc _ _ _ _ e word1 w1 he with hw | hw
    · rw [hw]; exact h4
    · rw [hw]; simp

/-- Once the word buffer is full the loop stops: with bytes left the call
ends in `MF_PROGRAM_ERR`. -/
theorem write_token_loop_full (pf : Bool) (wpr wc : Int) (ukc filter_html : Bool) (q : List Nat)
    (s : Loop) (hsk : s.skip = 0) (hfull : ¬ s.word.length < LINE_SIZE - 1) :
    write_token_loop pf wpr wc ukc filter_html q s =
      some (if q = [] then s else { s with error := MF_PROGRAM_ERR }) := by
  cases q with
  | nil => simp [write_token_loop]
  | cons c rest =>
    rw [write_token_loop]
    have hsk' : ¬ (0 < s.skip) := by omega
    simp only [hsk', if_false, hfull]
    simp

theorem write_token_loop_append_ascii (pf : Bool) (wpr wc : Int) (ukc filter_html : Bool)
    (p q : List Nat) (hp : ∀ c ∈ p, c ≤ 0x7F) :
    ∀ s : Loop, s.skip = 0 → s.latin1 = false →
      write_token_loop pf wpr wc ukc filter_html (p ++ q) s =
        (write_token_loop pf wpr wc ukc filter_html p s).bind
          (fun s1 => write_token_loop pf wpr wc ukc filter_html q s1) := by
  induction p with
  | nil => intro s _ _; simp [write_token_loop]
  | cons c rest ih =>
    intro s hsk hl
    have hc : c ≤ 0x7F := hp c (List.mem_cons_self _ _)
    have hsk' : ¬ (0 < s.skip) := by omega
    rw [List.cons_append, write_token_loop, write_token_loop]
    simp only [hsk', if_false]
    by_cases hroom : s.word.length < LINE_SIZE - 1
    · simp only [hroom, if_true]
      rw [write_token_step_ascii pf wpr wc ukc filter_html c (rest ++ q) s hc,
        write_token_step_ascii pf wpr wc ukc filter_html c rest s hc]
      cases hs : write_token_step pf wpr wc ukc filter_html c [] s with
      | none => simp
      | some s1 =>
        obtain ⟨h1, h2, _⟩ := write_token_step_ascii_state pf wpr wc ukc filter_html c [] s s1 hc
          hl hs
        exact ih (fun x hx => hp x (List.mem_cons_of_mem _ hx)) s1 h1 h2
    · simp only [hroom, if_false, Option.some_bind]
      rw [write_token_loop_full pf wpr wc ukc filter_html q
        { s with error := MF_PROGRAM_ERR } hsk hroom]
      split <;> rfl

theorem write_token_loop_ascii_state (pf : Bool) (wpr wc : Int) (ukc filter_html : Bool)
    (p : List Nat) (hp : ∀ c ∈ p, c ≤ 0x7F) :
    ∀ s s1 : Loop, s.skip = 0 → s.latin1 = false →
      write_token_loop pf wpr wc ukc filter_html p s = some s1 →
      s1.skip = 0 ∧ s1.latin1 = false ∧ s1.word.length ≤ s.word.length + p.length := by
  induction p with
  | nil =>
    intro s s1 hsk hl h
    simp only [write_token_loop, Option.some.injEq] at h
    subst h
    exact ⟨hsk, hl, by simp⟩
  | cons c rest ih =>
    intro s s1 hsk hl h
    have hc : c ≤ 0x7F := hp c (List.mem_cons_self _ _)
    have hsk' : ¬ (0 < s.skip) := by omega
    rw [write_token_loop] at h
    simp only [hsk', if_false] at h
    by_cases hroom : s.word.length < LINE_SIZE - 1
    · simp only [hroom, if_true] at h
      cases hs : write_token_step pf wpr wc ukc filter_html c rest s with
      | none => rw [hs] at h; cases h
      | some s2 =>
        rw [hs] at h
        obtain ⟨h1, h2, h3⟩ := write_token_step_ascii_state pf wpr wc ukc filter_html c rest s s2
          hc hl hs
        obtain ⟨a1, a2, a3⟩ := ih (fun x hx => hp x (List.mem_cons_of_mem _ hx)) s2 s1 h1 h2 h
        refine ⟨a1, a2, ?_⟩
        simp only [List.length_cons]
        omega
    · simp only [hroom, if_false, Option.some.injEq] at h
      subst h
      exact ⟨hsk, hl, by simp⟩

theorem scan_char_open (c : Nat) (rest : List Nat) (s : Loop) (hc : c = 0x3C)
    (hl : s.latin1 = false) :
    scan_char true c rest s =
      { excluding_tag := true, entity := s.entity, tag := buf_append TAG_SIZE s.tag c,
        word := s.word, latin1 := false, name := [], c := c, skip := 0 } := by
  simp [scan_char, scan_chain, scan_latin1, hc, hl]

theorem scan_char_in_tag (filter_html : Bool) (c : Nat) (rest : List Nat) (s : Loop)
    (hc : c ≠ 0x3E) (hex : s.excluding_tag = true) (hl : s.latin1 = false) :
    scan_char filter_html c rest s =
      { excluding_tag := true, entity := s.entity, tag := buf_append TAG_SIZE s.tag c,
        word := s.word, latin1 := false, name := [], c := c, skip := 0 } := by
  by_cases h1 : filter_html = true ∧ c = 0x3C
  · simp [scan_char, scan_chain, scan_latin1, h1, hl]
  · simp [scan_char, scan_chain, scan_latin1, h1, hc, hex, hl]

theorem scan_char_close (filter_html : Bool) (rest : List Nat) (s : Loop)
    (hex : s.excluding_tag = true) (hl : s.latin1 = false) :
    scan_char filter_html 0x3E rest s =
      { excluding_tag := false, entity := s.entity, tag := [],
        word := s.word, latin1 := false, name := tag_word (buf_append TAG_SIZE s.tag 0x3E),
        c := 0x3E, skip := 0 } := by
  simp [scan_char, scan_chain, scan_latin1, hex, hl, tag_word]

theorem write_token_step_quiet (pf : Bool) (wpr wc : Int) (ukc filter_html : Bool) (c : Nat)
    (rest : List Nat) (s : Loop) (a : Scan) (ha : scan_char filter_html c rest s = a)
    (hn : a.name = []) :
    write_token_step pf wpr wc ukc filter_html c rest s =
      some { error := s.error, word := a.word, latin1 := a.latin1, skip := a.skip,
             excluding_tag := a.excluding_tag, entity := a.entity, tag := a.tag,
             world := s.world } := by
  unfold write_token_step
  rw [ha]
  simp [emit_name, hn]

theorem write_token_loop_in_tag (pf : Bool) (wpr wc : Int) (ukc filter_html : Bool)
    (x q : List Nat) (hx : ∀ c ∈ x, c ≠ 0x3E) :
    ∀ s : Loop, s.skip = 0 → s.latin1 = false → s.excluding_tag = true →
      s.word.length < LINE_SIZE - 1 →
      write_token_loop pf wpr wc ukc filter_html (x ++ q) s =
        write_token_loop pf wpr wc ukc filter_html q { s with tag := tag_buf s.tag x } := by
  induction x with
  | nil => intro s _ _ _ _; simp [tag_buf]
  | cons c rest ih =>
    intro s hsk hl hex hroom
    have hsk' : ¬ (0 < s.skip) := by omega
    rw [List.cons_append, write_token_loop]
    simp only [hsk', if_false, hroom, if_true]
    rw [write_token_step_quiet pf wpr wc ukc filter_html c (rest ++ q) s _
      (scan_char_in_tag filter_html c (rest ++ q) s (hx c (List.mem_cons_self _ _)) hex hl) rfl]
    dsimp only
    rw [ih (fun y hy => hx y (List.mem_cons_of_mem _ hy))
      { error := s.error, word := s.word, latin1 := false, skip := 0, excluding_tag := true,
        entity := s.entity, tag := buf_append TAG_SIZE s.tag c, world := s.world }
      rfl rfl rfl hroom]
    simp only [tag_buf, List.foldl_cons, hl, hsk, hex]

theorem write_token_eq (token : List Nat) (pf : Bool) (wpr wc : Int) (ukc filter_html : Bool)
    (h : HtmlState) (w : World) :
    write_token token pf wpr wc ukc filter_html h w =
      (write_token_loop pf wpr wc ukc filter_html token (loop_init h w)).bind
        (write_token_end pf wpr wc ukc) := by
  unfold write_token loop_init
  cases write_token_loop pf wpr wc ukc filter_html token
    { error := MF_NO_ERROR, word := [], latin1 := false, skip := 0,
      excluding_tag := h.excluding_tag, entity := h.entity, tag := h.tag, world := w } with
  | none => rfl
  | some s => rfl

theorem write_tokens_append (pf : Bool) (wpr wc : Int) (ukc filter_html : Bool)
    (a b : List (List Nat)) :
    ∀ (h : HtmlState) (w : World),
      write_tokens pf wpr wc ukc filter_html (a ++ b) h w =
        (write_tokens pf wpr wc ukc filter_html a h w).bind (fun r =>
          if r.1 = MF_NO_ERROR then write_tokens pf wpr wc ukc filter_html b r.2.1 r.2.2
          else some r) := by
  induction a with
  | nil => intro h w; simp [write_tokens]
  | cons t ts ih =>
    intro h w
    rw [List.cons_append, write_tokens, write_tokens]
    cases ht : write_token t pf wpr wc ukc filter_html h w with
    | none => simp
    | some r =>
      obtain ⟨e, h1, w1⟩ := r
      dsimp only
      by_cases he : e = MF_NO_ERROR
      · simp only [he, if_true]
        exact ih h1 w1
      · simp only [he, if_false, Option.some_bind]

theorem tag_buf_take (l : List Nat) :
    ∀ buf : List Nat, buf.length ≤ 7 → tag_buf buf l = buf ++ l.take (7 - buf.length) := by
  induction l with
  | nil => intro buf _; simp [tag_buf]
  | cons c rest ih =>
    intro buf hb
    simp only [tag_buf, List.foldl_cons]
    by_cases hlt : buf.length < 7
    · have h1 : buf_append TAG_SIZE buf c = buf ++ [c] := by
        simp [buf_append, TAG_SIZE, hlt]
      rw [h1]
      have := ih (buf ++ [c]) (by simp; omega)
      simp only [tag_buf] at this
      rw [this]
      have h2 : 7 - buf.length = (7 - (buf ++ [c]).length) + 1 := by simp; omega
      rw [h2, List.take_succ_cons]
      simp
    · have h1 : buf_append TAG_SIZE buf c = buf := by
        simp [buf_append, TAG_SIZE, hlt]
      rw [h1]
      have := ih buf hb
      simp only [tag_buf] at this
      rw [this]
      have h2 : 7 - buf.length = 0 := by omega
      simp [h2]

/-- A completed tag whose text is not `</li>` gives the filler. -/
theorem tag_word_filler (l : List Nat) (hne : l ≠ bytes "</li>") :
    tag_word (tag_buf [] l) = bytes " " := by
  have ht := tag_buf_take l [] (by simp)
  simp only [List.nil_append, List.length_nil, Nat.sub_zero] at ht
  unfold tag_word
  rw [if_neg]
  intro heq
  rw [ht] at heq
  have hlen : (l.take 7).length = 5 := by rw [heq]; decide
  have hl : l.length = 5 := by
    simp only [List.length_take] at hlen
    omega
  have : l.take 7 = l := List.take_of_length_le (by omega)
  rw [this] at heq
  exact hne heq

theorem tag_buf_append (buf l1 l2 : List Nat) :
    tag_buf (tag_buf buf l1) l2 = tag_buf buf (l1 ++ l2) := by
  simp [tag_buf, List.foldl_append]

theorem write_token_step_close (pf : Bool) (wpr wc : Int) (ukc filter_html : Bool)
    (q : List Nat) (s : Loop) (hex : s.excluding_tag = true) (hl : s.latin1 = false) :
    write_token_step pf wpr wc ukc filter_html 0x3E q s =
      (emit_name pf wpr wc ukc s.error s.word (tag_word (buf_append TAG_SIZE s.tag 0x3E))
          s.world).bind
        (fun r => some
          { error := r.1, word := r.2.1, latin1 := false, skip := 0, excluding_tag := false,
            entity := s.entity, tag := [], world := r.2.2 }) := by
  unfold write_token_step
  rw [scan_char_close filter_html q s hex hl]
  dsimp only
  cases emit_name pf wpr wc ukc s.error s.word (tag_word (buf_append TAG_SIZE s.tag 0x3E))
    s.world with
  | none => rfl
  | some r => rfl

/-- The loop from inside an open tag up to its `>`: the bytes go to the tag
buffer only; at `>` the word in progress is flushed and the Word of the tag
is written. -/
theorem write_token_loop_tag_tail (pf : Bool) (wpr wc : Int) (ukc filter_html : Bool)
    (y q : List Nat) (s : Loop)
    (hy : ∀ c ∈ y, c ≠ 0x3E) (hsk : s.skip = 0) (hl : s.latin1 = false)
    (hex : s.excluding_tag = true) (hroom : s.word.length < LINE_SIZE - 1) :
    write_token_loop pf wpr wc ukc filter_html (y ++ 0x3E :: q) s =
      (emit_name pf wpr wc ukc s.error s.word (tag_word (tag_buf s.tag (y ++ [0x3E])))
          s.world).bind
        (fun r => write_token_loop pf wpr wc ukc filter_html q
          { error := r.1, word := r.2.1, latin1 := false, skip := 0, excluding_tag := false,
            entity := s.entity, tag := [], world := r.2.2 }) := by
  rw [write_token_loop_in_tag pf wpr wc ukc filter_html y (0x3E :: q) hy s hsk hl hex hroom]
  rw [write_token_loop]
  have hsk' : ¬ (0 < ({ s with tag := tag_buf s.tag y } : Loop).skip) := by
    show ¬ (0 < s.skip)
    omega
  have hroom' : ({ s with tag := tag_buf s.tag y } : Loop).word.length < LINE_SIZE - 1 := hroom
  rw [if_neg hsk', if_pos hroom']
  rw [write_token_step_close pf wpr wc ukc filter_html q { s with tag := tag_buf s.tag y } hex hl]
  have htag : buf_append TAG_SIZE (tag_buf s.tag y) 0x3E = tag_buf s.tag (y ++ [0x3E]) := by
    simp [tag_buf, List.foldl_append]
  dsimp only
  rw [htag]
  cases emit_name pf wpr wc ukc s.error s.word (tag_word (tag_buf s.tag (y ++ [0x3E])))
    s.world with
  | none => rfl
  | some r => rfl

/-- The loop across a whole tag, from any state. -/
theorem write_token_loop_tag (pf : Bool) (wpr wc : Int) (ukc : Bool) (x q : List Nat) (s : Loop)
    (hx : ∀ c ∈ x, c ≠ 0x3E) (hsk : s.skip = 0) (hl : s.latin1 = false)
    (hroom : s.word.length < LINE_SIZE - 1) :
    write_token_loop pf wpr wc ukc true (0x3C :: x ++ 0x3E :: q) s =
      (emit_name pf wpr wc ukc s.error s.word (tag_word (tag_buf s.tag (0x3C :: x ++ [0x3E])))
          s.world).bind
        (fun r => write_token_loop pf wpr wc ukc true q
          { error := r.1, word := r.2.1, latin1 := false, skip := 0, excluding_tag := false,
            entity := s.entity, tag := [], world := r.2.2 }) := by
  have hsk' : ¬ (0 < s.skip) := by omega
  rw [List.cons_append, write_token_loop]
  simp only [hsk', if_false, hroom, if_true]
  rw [write_token_step_quiet pf wpr wc ukc true 0x3C (x ++ 0x3E :: q) s _
    (scan_char_open 0x3C (x ++ 0x3E :: q) s rfl hl) rfl]
  dsimp only
  rw [write_token_loop_tag_tail pf wpr wc ukc true x q
    { error := s.error, word := s.word, latin1 := false, skip := 0, excluding_tag := true,
      entity := s.entity, tag := buf_append TAG_SIZE s.tag 0x3C, world := s.world }
    hx rfl rfl rfl hroom]
  have htag : tag_buf (buf_append TAG_SIZE s.tag 0x3C) (x ++ [0x3E]) =
      tag_buf s.tag (0x3C :: x ++ [0x3E]) := by
    simp [tag_buf]
  dsimp only
  rw [htag]

theorem tag_word_length (t : List Nat) : (tag_word t).length > 0 := by
  unfold tag_word
  split <;> decide

/-- What a call that returns `MF_NO_ERROR` says of the loop it ran. -/
theorem write_token_ok_inv (p : List Nat) (pf : Bool) (wpr wc : Int) (ukc filter_html : Bool)
    (h0 h1 : HtmlState) (w0 w1 : World)
    (h : write_token p pf wpr wc ukc filter_html h0 w0 = some (MF_NO_ERROR, h1, w1)) :
    ∃ s1, write_token_loop pf wpr wc ukc filter_html p (loop_init h0 w0) = some s1 ∧
      s1.error = MF_NO_ERROR ∧
      h1 = { excluding_tag := s1.excluding_tag, entity := s1.entity, tag := s1.tag } ∧
      ((s1.word.length > 0 ∧ write_word s1.word pf wpr wc ukc s1.world = some (MF_NO_ERROR, w1)) ∨
        (s1.word = [] ∧ w1 = s1.world)) := by
  rw [write_token_eq] at h
  cases hl : write_token_loop pf wpr wc ukc filter_html p (loop_init h0 w0) with
  | none => rw [hl] at h; cases h
  | some s1 =>
    rw [hl] at h
    simp only [Option.some_bind, write_token_end] at h
    refine ⟨s1, rfl, ?_⟩
    by_cases hc : s1.error = MF_NO_ERROR ∧ s1.word.length > 0
    · rw [if_pos hc] at h
      cases hf : write_word s1.word pf wpr wc ukc s1.world with
      | none => rw [hf] at h; cases h
      | some r =>
        obtain ⟨e, w2⟩ := r
        rw [hf] at h
        simp only [Option.some.injEq, Prod.mk.injEq] at h
        obtain ⟨a1, a2, a3⟩ := h
        subst a1; subst a3
        exact ⟨hc.1, a2.symm, Or.inl ⟨hc.2, rfl⟩⟩
    · rw [if_neg hc] at h
      simp only [Option.some.injEq, Prod.mk.injEq] at h
      obtain ⟨a1, a2, a3⟩ := h
      refine ⟨a1, a2.symm, Or.inr ⟨?_, a3.symm⟩⟩
      have : ¬ s1.word.length > 0 := fun hpos => hc ⟨a1, hpos⟩
      cases hw : s1.word with
      | nil => rfl
      | cons a l => rw [hw] at this; simp at this

/-- Flushing the word and writing a name, seen from the caller that already
flushed: only the name is left to write. -/
theorem emit_name_after_flush (pf : Bool) (wpr wc : Int) (ukc : Bool) (word name : List Nat)
    (w w1 : World) (hn : name.length > 0)
    (h : (word.length > 0 ∧ write_word word pf wpr wc ukc w = some (MF_NO_ERROR, w1)) ∨
      (word = [] ∧ w1 = w)) :
    emit_name pf wpr wc ukc MF_NO_ERROR word name w =
      (write_word name pf wpr wc ukc w1).bind (fun r => some (r.1, [], r.2)) := by
  unfold emit_name
  rw [if_pos hn]
  rcases h with ⟨h1, h2⟩ | ⟨h1, h2⟩
  · simp only [if_pos h1, h2, if_true]
    cases write_word name pf wpr wc ukc w1 with
    | none => rfl
    | some r => rfl
  · subst h1; subst h2
    simp only [List.length_nil, gt_iff_lt, Nat.lt_irrefl, if_false, if_true]
    cases write_word name pf wpr wc ukc w1 with
    | none => rfl
    | some r => rfl

/-- A token that holds a whole tag: the call does what the call on the bytes
before the tag does, then writes the Word of the tag, then does what the call
on the bytes after the tag does. -/
theorem write_token_tag (pf : Bool) (wpr wc : Int) (ukc : Bool) (p x s : List Nat)
    (h0 h1 : HtmlState) (w0 w1 w2 : World)
    (hp : ∀ c ∈ p, c ≤ 0x7F) (hlen : p.length < 1023) (hx : ∀ c ∈ x, c ≠ 0x3E)
    (H1 : write_token p pf wpr wc ukc true h0 w0 = some (MF_NO_ERROR, h1, w1))
    (hclosed : h1.excluding_tag = false) (htag : h1.tag = [])
    (H3 : write_word (tag_word (tag_buf [] (0x3C :: x ++ [0x3E]))) pf wpr wc ukc w1 =
      some (MF_NO_ERROR, w2)) :
    write_token (p ++ 0x3C :: x ++ 0x3E :: s) pf wpr wc ukc true h0 w0 =
      write_token s pf wpr wc ukc true h1 w2 := by
  obtain ⟨s1, e1, a1, a2, a3⟩ := write_token_ok_inv p pf wpr wc ukc true h0 h1 w0 w1 H1
  obtain ⟨b1, b2, b3⟩ := write_token_loop_ascii_state pf wpr wc ukc true p hp _ s1 rfl rfl e1
  have hroom : s1.word.length < LINE_SIZE - 1 := by
    simp only [loop_init, List.length_nil, Nat.zero_add] at b3
    simp only [LINE_SIZE]
    omega
  have ht : s1.tag = [] := by rw [a2] at htag; exact htag
  rw [List.append_assoc, write_token_eq, write_token_eq,
    write_token_loop_append_ascii pf wpr wc ukc true p _ hp _ rfl rfl, e1, Option.some_bind,
    write_token_loop_tag pf wpr wc ukc x s s1 hx b1 b2 hroom, a1, ht,
    emit_name_after_flush pf wpr wc ukc s1.word _ s1.world w1 (tag_word_length _) a3, H3]
  simp only [Option.some_bind]
  have hh : h1 = { excluding_tag := false, entity := s1.entity, tag := [] } := by
    rw [a2] at hclosed
    simp only [] at hclosed
    rw [a2, hclosed, ht]
  rw [hh]
  rfl

/-- A token that opens a tag and ends inside it. -/
theorem write_token_tag_head (pf : Bool) (wpr wc : Int) (ukc : Bool) (p x : List Nat)
    (h0 h1 : HtmlState) (w0 w1 : World)
    (hp : ∀ c ∈ p, c ≤ 0x7F) (hlen : p.length < 1023) (hx : ∀ c ∈ x, c ≠ 0x3E)
    (H1 : write_token p pf wpr wc ukc true h0 w0 = some (MF_NO_ERROR, h1, w1))
    (htag : h1.tag = []) :
    write_token (p ++ 0x3C :: x) pf wpr wc ukc true h0 w0 =
      some (MF_NO_ERROR,
        { excluding_tag := true, entity := h1.entity, tag := tag_buf [] (0x3C :: x) }, w1) := by
  obtain ⟨s1, e1, a1, a2, a3⟩ := write_token_ok_inv p pf wpr wc ukc true h0 h1 w0 w1 H1
  obtain ⟨b1, b2, b3⟩ := write_token_loop_ascii_state pf wpr wc ukc true p hp _ s1 rfl rfl e1
  have hroom : s1.word.length < LINE_SIZE - 1 := by
    simp only [loop_init, List.length_nil, Nat.zero_add] at b3
    simp only [LINE_SIZE]
    omega
  have ht : s1.tag = [] := by rw [a2] at htag; exact htag
  have hsk' : ¬ (0 < s1.skip) := by omega
  rw [write_token_eq, write_token_loop_append_ascii pf wpr wc ukc true p _ hp _ rfl rfl, e1,
    Option.some_bind, write_token_loop]
  simp only [hsk', if_false, hroom, if_true]
  rw [write_token_step_quiet pf wpr wc ukc true 0x3C x s1 _
    (scan_char_open 0x3C x s1 rfl b2) rfl]
  dsimp only
  have := write_token_loop_in_tag pf wpr wc ukc true x [] hx
    { error := s1.error, word := s1.word, latin1 := false, skip := 0, excluding_tag := true,
      entity := s1.entity, tag := buf_append TAG_SIZE s1.tag 0x3C, world := s1.world }
    rfl rfl rfl hroom
  rw [List.append_nil] at this
  rw [this]
  simp only [write_token_loop, Option.some_bind, write_token_end, a1, true_and]
  have hb : tag_buf (buf_append TAG_SIZE s1.tag 0x3C) x = tag_buf [] (0x3C :: x) := by
    rw [ht]; simp [tag_buf]
  have he : h1.entity = s1.entity := by rw [a2]
  rcases a3 with ⟨c1, c2⟩ | ⟨c1, c2⟩
  · rw [if_pos c1, c2, hb, he]
  · rw [c1]
    simp only [List.length_nil, gt_iff_lt, Nat.lt_irrefl, if_false]
    rw [hb, he, c2]

/-- Tokens that lie wholly inside an open tag write nothing. -/
theorem write_tokens_in_tag (pf : Bool) (wpr wc : Int) (ukc filter_html : Bool)
    (mid : List (List Nat)) (hmid : ∀ m ∈ mid, ∀ c ∈ m, c ≠ 0x3E) :
    ∀ (entity tag : List Nat) (w : World),
      write_tokens pf wpr wc ukc filter_html mid
          { excluding_tag := true, entity := entity, tag := tag } w =
        some (MF_NO_ERROR,
          { excluding_tag := true, entity := entity, tag := tag_buf tag mid.flatten }, w) := by
  induction mid with
  | nil => intro entity tag w; simp [write_tokens, tag_buf]
  | cons m rest ih =>
    intro entity tag w
    have hm := write_token_loop_in_tag pf wpr wc ukc filter_html m []
      (hmid m (List.mem_cons_self _ _))
      (loop_init { excluding_tag := true, entity := entity, tag := tag } w) rfl rfl rfl
      (by simp [loop_init, LINE_SIZE])
    rw [List.append_nil] at hm
    rw [write_tokens, write_token_eq, hm]
    simp only [write_token_loop, Option.some_bind, write_token_end, loop_init, List.length_nil,
      gt_iff_lt, Nat.lt_irrefl, and_false, if_false, if_true]
    rw [ih (fun x hx => hmid x (List.mem_cons_of_mem _ hx))]
    simp [tag_buf, List.foldl_append]

/-- A token that starts inside an open tag and closes it. -/
theorem write_token_tag_tail (pf : Bool) (wpr wc : Int) (ukc filter_html : Bool) (y s : List Nat)
    (entity tag : List Nat) (w1 w2 : World) (hy : ∀ c ∈ y, c ≠ 0x3E)
    (H3 : write_word (tag_word (tag_buf tag (y ++ [0x3E]))) pf wpr wc ukc w1 =
      some (MF_NO_ERROR, w2)) :
    write_token (y ++ 0x3E :: s) pf wpr wc ukc filter_html
        { excluding_tag := true, entity := entity, tag := tag } w1 =
      write_token s pf wpr wc ukc filter_html
        { excluding_tag := false, entity := entity, tag := [] } w2 := by
  rw [write_token_eq, write_token_eq,
    write_token_loop_tag_tail pf wpr wc ukc filter_html y s _ hy rfl rfl rfl
      (by simp [loop_init, LINE_SIZE])]
  simp only [loop_init]
  rw [emit_name_after_flush pf wpr wc ukc [] _ w1 w1 (tag_word_length _) (Or.inr ⟨rfl, rfl⟩), H3]
  simp only [Option.some_bind]

theorem scan_char_tag_inv (filter_html : Bool) (c : Nat) (rest : List Nat) (s : Loop)
    (hi : tag_inv s.excluding_tag s.tag) :
    tag_inv (scan_char filter_html c rest s).excluding_tag (scan_char filter_html c rest s).tag := by
  have hl : ∀ a : Scan, (scan_latin1 a).excluding_tag = a.excluding_tag ∧
      (scan_latin1 a).tag = a.tag := by
    intro a
    unfold scan_latin1
    split
    · dsimp only
      split
      · split
        · split <;> exact ⟨rfl, rfl⟩
        · exact ⟨rfl, rfl⟩
      · exact ⟨rfl, rfl⟩
    · exact ⟨rfl, rfl⟩
  unfold scan_char
  rw [(hl _).1, (hl _).2]
  unfold scan_chain
  dsimp only
  by_cases h1 : filter_html = true ∧ c = 0x3C
  · rw [if_pos h1]; intro h; cases h
  rw [if_neg h1]
  by_cases h2 : s.excluding_tag = true ∧ c = 0x3E
  · rw [if_pos h2]; intro _; rfl
  rw [if_neg h2]
  by_cases h3 : s.excluding_tag = true
  · rw [if_pos h3]; intro h; rw [h3] at h; cases h
  rw [if_neg h3]
  by_cases h4 : filter_html = true ∧ c = 0x26
  · rw [if_pos h4]; exact hi
  rw [if_neg h4]
  by_cases h5 : filter_html = true ∧ s.entity ≠ []
  · rw [if_pos h5]
    by_cases h6 : c = 0x3B
    · rw [if_pos h6]; exact hi
    · rw [if_neg h6]; exact hi
  rw [if_neg h5]
  by_cases h7 : is_word_char c = true
  · rw [if_pos h7]; exact hi
  rw [if_neg h7]
  by_cases h8 : c = 0x27
  · rw [if_pos h8]; exact hi
  rw [if_neg h8]
  by_cases h9 : c ≤ 0x7F
  · rw [if_pos h9]; exact hi
  rw [if_neg h9]
  by_cases h10 : c &&& 0xE0 = 0xC0
  · rw [if_pos h10]
    split
    · split
      · split <;> exact hi
      · exact hi
    · exact hi
  rw [if_neg h10]
  by_cases h13 : c &&& 0xF0 = 0xE0
  · rw [if_pos h13]
    split
    · split <;> exact hi
    · exact hi
  rw [if_neg h13]
  by_cases h14 : c &&& 0xF8 = 0xF0
  · rw [if_pos h14]
    split
    · split <;> exact hi
    · exact hi
  rw [if_neg h14]
  exact hi

theorem write_token_loop_tag_inv (pf : Bool) (wpr wc : Int) (ukc filter_html : Bool)
    (token : List Nat) :
    ∀ s s1 : Loop, tag_inv s.excluding_tag s.tag →
      write_token_loop pf wpr wc ukc filter_html token s = some s1 →
      tag_inv s1.excluding_tag s1.tag := by
  induction token with
  | nil =>
    intro s s1 hi h
    simp only [write_token_loop, Option.some.injEq] at h
    subst h
    exact hi
  | cons c rest ih =>
    intro s s1 hi h
    rw [write_token_loop] at h
    split at h
    · exact ih { s with skip := s.skip - 1 } s1 hi h
    · split at h
      · cases hs : write_token_step pf wpr wc ukc filter_html c rest s with
        | none => rw [hs] at h; cases h
        | some s2 =>
          rw [hs] at h
          refine ih s2 s1 ?_ h
          unfold write_token_step at hs
          dsimp only at hs
          cases he : emit_name pf wpr wc ukc s.error (scan_char filter_html c rest s).word
              (scan_char filter_html c rest s).name s.world with
          | none => rw [he] at hs; cases hs
          | some r =>
            rw [he] at hs
            simp only [Option.some.injEq] at hs
            subst hs
            exact scan_char_tag_inv filter_html c rest s hi
      · simp only [Option.some.injEq] at h
        subst h
        exact hi

theorem write_token_tag_inv (token : List Nat) (pf : Bool) (wpr wc : Int) (ukc filter_html : Bool)
    (h h1 : HtmlState) (w w1 : World) (e : MorseFeedError)
    (hi : tag_inv h.excluding_tag h.tag)
    (hr : write_token token pf wpr wc ukc filter_html h w = some (e, h1, w1)) :
    tag_inv h1.excluding_tag h1.tag := by
  rw [write_token_eq] at hr
  cases hl : write_token_loop pf wpr wc ukc filter_html token (loop_init h w) with
  | none => rw [hl] at hr; cases hr
  | some s =>
    rw [hl] at hr
    have := write_token_loop_tag_inv pf wpr wc ukc filter_html token (loop_init h w) s hi hl
    simp only [Option.some_bind, write_token_end] at hr
    split at hr
    · split at hr
      · cases hr
      · simp only [Option.some.injEq, Prod.mk.injEq] at hr
        rw [← hr.2.1]
        exact this
    · simp only [Option.some.injEq, Prod.mk.injEq] at hr
      rw [← hr.2.1]
      exact this

theorem write_tokens_tag_inv (pf : Bool) (wpr wc : Int) (ukc filter_html : Bool)
    (ts : List (List Nat)) :
    ∀ (h h1 : HtmlState) (w w1 : World) (e : MorseFeedError),
      tag_inv h.excluding_tag h.tag →
      write_tokens pf wpr wc ukc filter_html ts h w = some (e, h1, w1) →
      tag_inv h1.excluding_tag h1.tag := by
  induction ts with
  | nil =>
    intro h h1 w w1 e hi hr
    simp only [write_tokens, Option.some.injEq, Prod.mk.injEq] at hr
    rw [← hr.2.1]
    exact hi
  | cons t rest ih =>
    intro h h1 w w1 e hi hr
    rw [write_tokens] at hr
    cases ht : write_token t pf wpr wc ukc filter_html h w with
    | none => rw [ht] at hr; cases hr
    | some r =>
      obtain ⟨e2, h2, w2⟩ := r
      rw [ht] at hr
      dsimp only at hr
      have hi2 := write_token_tag_inv t pf wpr wc ukc filter_html h h2 w w2 e2 hi ht
      split at hr
      · exact ih h2 h1 w2 w1 e hi2 hr
      · simp only [Option.some.injEq, Prod.mk.injEq] at hr
        rw [← hr.2.1]
        exact hi2

theorem write_tokens_snoc_inv (pf : Bool) (wpr wc : Int) (ukc filter_html : Bool)
    (pre : List (List Nat)) (p : List Nat) (h h1 : HtmlState) (w w1 : World)
    (H : write_tokens pf wpr wc ukc filter_html (pre ++ [p]) h w = some (MF_NO_ERROR, h1, w1)) :
    ∃ h0 w0, write_tokens pf wpr wc ukc filter_html pre h w = some (MF_NO_ERROR, h0, w0) ∧
      write_token p pf wpr wc ukc filter_html h0 w0 = some (MF_NO_ERROR, h1, w1) := by
  rw [write_tokens_append] at H
  cases hp : write_tokens pf wpr wc ukc filter_html pre h w with
  | none => rw [hp] at H; cases H
  | some r =>
    obtain ⟨e0, h0, w0⟩ := r
    rw [hp] at H
    simp only [Option.some_bind] at H
    by_cases he : e0 = MF_NO_ERROR
    · subst he
      simp only [if_true, write_tokens] at H
      refine ⟨h0, w0, rfl, ?_⟩
      cases ht : write_token p pf wpr wc ukc filter_html h0 w0 with
      | none => rw [ht] at H; cases H
      | some r2 =>
        obtain ⟨e2, h2, w2⟩ := r2
        rw [ht] at H
        dsimp only at H
        split at H
        · rename_i he2
          simp only [Option.some.injEq, Prod.mk.injEq] at H
          rw [he2, H.2.1, H.2.2]
        · exact H
    · rw [if_neg he] at H
      simp only [Option.some.injEq, Prod.mk.injEq] at H
      exact absurd H.1 he

/-- C3. HTML filtering on, starting with no tag open and an empty tag buffer.
Take a stream of tokens in which `p` is the ASCII text of a token before a
`<` that arrives while no tag is open, and the tag runs to the next `>` with
a text other than `</li>`, inside one token (first part) or across several
tokens (second part).  As long as no call of `write_word` up to the filler
returns an error code, the stream is written as: what the tokens up to `p`
give (`p` flushed as its own Word), then exactly one single-space Word, then
what the rest of the stream after `>` gives; no byte of the tag reaches a
Word.  Third part: the tokens `<p>Hi</p>` and `there` give " ", "HI", " ",
"THERE". -/
theorem write_tokens_tag_filler :
    (∀ (pf : Bool) (wpr wc : Int) (ukc : Bool) (pre post : List (List Nat)) (p x s : List Nat)
        (h h1 : HtmlState) (w w1 w2 : World),
        tag_closed h → (∀ c ∈ p, c ≤ 0x7F) → p.length < 1023 → (∀ c ∈ x, c ≠ 0x3E) →
        0x3C :: x ++ [0x3E] ≠ bytes "</li>" →
        write_tokens pf wpr wc ukc true (pre ++ [p]) h w = some (MF_NO_ERROR, h1, w1) →
        h1.excluding_tag = false →
        write_word (bytes " ") pf wpr wc ukc w1 = some (MF_NO_ERROR, w2) →
        write_tokens pf wpr wc ukc true (pre ++ [p ++ 0x3C :: x ++ 0x3E :: s] ++ post) h w =
          write_tokens pf wpr wc ukc true (s :: post) h1 w2) ∧
    (∀ (pf : Bool) (wpr wc : Int) (ukc : Bool) (pre mid post : List (List Nat))
        (p x y s : List Nat) (h h1 : HtmlState) (w w1 w2 : World),
        tag_closed h → (∀ c ∈ p, c ≤ 0x7F) → p.length < 1023 → (∀ c ∈ x, c ≠ 0x3E) →
        (∀ m ∈ mid, ∀ c ∈ m, c ≠ 0x3E) → (∀ c ∈ y, c ≠ 0x3E) →
        0x3C :: x ++ mid.flatten ++ y ++ [0x3E] ≠ bytes "</li>" →
        write_tokens pf wpr wc ukc true (pre ++ [p]) h w = some (MF_NO_ERROR, h1, w1) →
        h1.excluding_tag = false →
        write_word (bytes " ") pf wpr wc ukc w1 = some (MF_NO_ERROR, w2) →
        write_tokens pf wpr wc ukc true
            (pre ++ [p ++ 0x3C :: x] ++ mid ++ [y ++ 0x3E :: s] ++ post) h w =
          write_tokens pf wpr wc ukc true (s :: post) h1 w2) ∧
    write_tokens false 5 DEFAULT false true [bytes "<p>Hi</p>", bytes "there"]
        { excluding_tag := false, entity := [], tag := [] }
        { output := [], words := [], word_number := 0, keys := [], acks := 0 } =
      some (MF_NO_ERROR, { excluding_tag := false, entity := [], tag := [] },
        { output := bytes " HI   THERE",
          words := [bytes " ", bytes "HI", bytes " ", bytes "THERE"], word_number := 2,
          keys := [], acks := 0 }) := by
  refine ⟨?_, ?_, by decide⟩
  · intro pf wpr wc ukc pre post p x s h h1 w w1 w2 hcl hp hlen hx hne H1 hex H3
    obtain ⟨h0, w0, e0, e1⟩ := write_tokens_snoc_inv pf wpr wc ukc true pre p h h1 w w1 H1
    have htag : h1.tag = [] :=
      write_tokens_tag_inv pf wpr wc ukc true (pre ++ [p]) h h1 w w1 MF_NO_ERROR
        (fun _ => hcl.2) H1 hex
    have hname : tag_word (tag_buf [] (0x3C :: x ++ [0x3E])) = bytes " " :=
      tag_word_filler _ hne
    rw [List.append_assoc, write_tokens_append, e0]
    simp only [Option.some_bind, if_true, List.singleton_append]
    rw [write_tokens, write_tokens,
      write_token_tag pf wpr wc ukc p x s h0 h1 w0 w1 w2 hp hlen hx e1 hex htag
        (by rw [hname]; exact H3)]
  · intro pf wpr wc ukc pre mid post p x y s h h1 w w1 w2 hcl hp hlen hx hmid hy hne H1 hex H3
    obtain ⟨h0, w0, e0, e1⟩ := write_tokens_snoc_inv pf wpr wc ukc true pre p h h1 w w1 H1
    have htag : h1.tag = [] :=
      write_tokens_tag_inv pf wpr wc ukc true (pre ++ [p]) h h1 w w1 MF_NO_ERROR
        (fun _ => hcl.2) H1 hex
    have hname : tag_word (tag_buf (tag_buf (tag_buf [] (0x3C :: x)) mid.flatten)
        (y ++ [0x3E])) = bytes " " := by
      rw [tag_buf_append, tag_buf_append]
      have : (0x3C :: x) ++ (mid.flatten ++ (y ++ [0x3E])) =
          0x3C :: x ++ mid.flatten ++ y ++ [0x3E] := by
        simp
      rw [this]
      exact tag_word_filler _ hne
    have hh : h1 = { excluding_tag := false, entity := h1.entity, tag := [] } := by
      cases h1
      simp only [] at hex htag
      simp [hex, htag]
    have hassoc : pre ++ [p ++ 0x3C :: x] ++ mid ++ [y ++ 0x3E :: s] ++ post =
        pre ++ ((p ++ 0x3C :: x) :: (mid ++ ((y ++ 0x3E :: s) :: post))) := by simp
    rw [hassoc, write_tokens_append, e0]
    simp only [Option.some_bind, if_true]
    rw [write_tokens, write_token_tag_head pf wpr wc ukc p x h0 h1 w0 w1 hp hlen hx e1 htag]
    simp only [if_true]
    rw [write_tokens_append, write_tokens_in_tag pf wpr wc ukc true mid hmid]
    simp only [Option.some_bind, if_true]
    rw [write_tokens,
      write_token_tag_tail pf wpr wc ukc true y s h1.entity _ w1 w2 hy
        (by rw [hname]; exact H3),
      ← hh, write_tokens]

/-- Witness for C3: the token `a<b>c` on an empty file sink; `a` alone gives
the Word "A", the filler follows, and the rest is what `c` gives. -/
theorem write_tokens_tag_filler_witness :
    write_tokens false 5 DEFAULT false true ([] ++ [bytes "a" ++ 0x3C :: bytes "b" ++ 0x3E :: bytes "c"] ++ [])
        { excluding_tag := false, entity := [], tag := [] }
        { output := [], words := [], word_number := 0, keys := [], acks := 0 } =
      write_tokens false 5 DEFAULT false true (bytes "c" :: [])
        { excluding_tag := false, entity := [], tag := [] }
        { output := bytes "A  ", words := [bytes "A", bytes " "], word_number := 1, keys := [],
          acks := 0 } :=
  write_tokens_tag_filler.1 false 5 DEFAULT false [] [] (bytes "a") (bytes "b") (bytes "c")
    { excluding_tag := false, entity := [], tag := [] }
    { excluding_tag := false, entity := [], tag := [] }
    { output := [], words := [], word_number := 0, keys := [], acks := 0 }
    { output := bytes "A", words := [bytes "A"], word_number := 1, keys := [], acks := 0 }
    { output := bytes "A  ", words := [bytes "A", bytes " "], word_number := 1, keys := [],
      acks := 0 }
    ⟨rfl, rfl⟩ (by decide) (by decide) (by decide) (by decide) (by decide) rfl (by decide)

theorem latin1_names_high : ∀ p ∈ latin1_names, 0x80 ≤ p.1 := by decide

theorem latin1_cstr_high : ∀ p ∈ latin1_cstr, 0x80 ≤ p.1 := by decide

/-- The block `if (latin1)` changes nothing on an ASCII byte: none of its
cases is below 0x80. -/
theorem scan_latin1_ascii (a : Scan) (h : a.c ≤ 0x7F) : scan_latin1 a = a := by
  have h1 : latin1_names.lookup a.c = none := by
    cases hl : latin1_names.lookup a.c with
    | none => rfl
    | some n =>
      have := latin1_names_high _ (lookup_mem _ _ _ hl)
      simp only [] at this
      omega
  have h2 : latin1_cstr.lookup a.c = none := by
    cases hl : latin1_cstr.lookup a.c with
    | none => rfl
    | some n =>
      have := latin1_cstr_high _ (lookup_mem _ _ _ hl)
      simp only [] at this
      omega
  unfold scan_latin1
  simp only [h1, h2]
  split
  · split <;> rfl
  · rfl

theorem scan_char_open_any (c : Nat) (rest : List Nat) (s : Loop) (hc : c = 0x3C) :
    scan_char true c rest s =
      { excluding_tag := true, entity := s.entity, tag := buf_append TAG_SIZE s.tag c,
        word := s.word, latin1 := s.latin1, name := [], c := c, skip := 0 } := by
  have h : scan_chain true c rest s =
      { excluding_tag := true, entity := s.entity, tag := buf_append TAG_SIZE s.tag c,
        word := s.word, latin1 := s.latin1, name := [], c := c, skip := 0 } := by
    simp [scan_chain, hc]
  unfold scan_char
  rw [h]
  exact scan_latin1_ascii _ (by simp [hc])

theorem scan_char_in_tag_ascii (filter_html : Bool) (c : Nat) (rest : List Nat) (s : Loop)
    (hc : c ≠ 0x3E) (ha : c ≤ 0x7F) (hex : s.excluding_tag = true) :
    scan_char filter_html c rest s =
      { excluding_tag := true, entity := s.entity, tag := buf_append TAG_SIZE s.tag c,
        word := s.word, latin1 := s.latin1, name := [], c := c, skip := 0 } := by
  have h : scan_chain filter_html c rest s =
      { excluding_tag := true, entity := s.entity, tag := buf_append TAG_SIZE s.tag c,
        word := s.word, latin1 := s.latin1, name := [], c := c, skip := 0 } := by
    by_cases h1 : filter_html = true ∧ c = 0x3C
    · simp [scan_chain, h1]
    · simp [scan_chain, h1, hc, hex]
  unfold scan_char
  rw [h]
  exact scan_latin1_ascii _ ha

theorem scan_char_close_any (filter_html : Bool) (rest : List Nat) (s : Loop)
    (hex : s.excluding_tag = true) :
    scan_char filter_html 0x3E rest s =
      { excluding_tag := false, entity := s.entity, tag := [],
        word := s.word, latin1 := s.latin1, name := tag_word (buf_append TAG_SIZE s.tag 0x3E),
        c := 0x3E, skip := 0 } := by
  have h : scan_chain filter_html 0x3E rest s =
      { excluding_tag := false, entity := s.entity, tag := [],
        word := s.word, latin1 := s.latin1, name := tag_word (buf_append TAG_SIZE s.tag 0x3E),
        c := 0x3E, skip := 0 } := by
    simp [scan_chain, hex, tag_word]
  unfold scan_char
  rw [h]
  exact scan_latin1_ascii _ (by simp)

/-- The loop on `</li>` from any state in which no tag is open: the word in
progress is flushed and "|" is written; everything else is as before. -/
theorem write_token_loop_li (pf : Bool) (wpr wc : Int) (ukc : Bool) (q : List Nat) (s : Loop)
    (hsk : s.skip = 0) (hex : s.excluding_tag = false) (htag : s.tag = [])
    (hroom : s.word.length < LINE_SIZE - 1) :
    write_token_loop pf wpr wc ukc true (bytes "</li>" ++ q) s =
      (emit_name pf wpr wc ukc s.error s.word (bytes "|") s.world).bind
        (fun r => write_token_loop pf wpr wc ukc true q
          { s with error := r.1, word := r.2.1, world := r.2.2 }) := by
  have hb : bytes "</li>" = [0x3C, 0x2F, 0x6C, 0x69, 0x3E] := by decide
  have hsk' : ¬ (0 < s.skip) := by omega
  have h0 : ¬ (0 < 0) := Nat.lt_irrefl 0
  rw [hb]
  simp only [List.cons_append, List.nil_append]
  rw [write_token_loop, if_neg hsk', if_pos hroom,
    write_token_step_quiet pf wpr wc ukc true 0x3C _ s _ (scan_char_open_any 0x3C _ s rfl) rfl]
  dsimp only
  rw [write_token_loop, if_neg h0, if_pos hroom,
    write_token_step_quiet pf wpr wc ukc true 0x2F _ _ _
      (scan_char_in_tag_ascii true 0x2F _ _ (by decide) (by decide) rfl) rfl]
  dsimp only
  rw [write_token_loop, if_neg h0, if_pos hroom,
    write_token_step_quiet pf wpr wc ukc true 0x6C _ _ _
      (scan_char_in_tag_ascii true 0x6C _ _ (by decide) (by decide) rfl) rfl]
  dsimp only
  rw [write_token_loop, if_neg h0, if_pos hroom,
    write_token_step_quiet pf wpr wc ukc true 0x69 _ _ _
      (scan_char_in_tag_ascii true 0x69 _ _ (by decide) (by decide) rfl) rfl]
  dsimp only
  rw [write_token_loop, if_neg h0, if_pos hroom]
  unfold write_token_step
  rw [scan_char_close_any true q _ rfl]
  dsimp only
  have hname : tag_word (buf_append TAG_SIZE (buf_append TAG_SIZE (buf_append TAG_SIZE
      (buf_append TAG_SIZE (buf_append TAG_SIZE s.tag 0x3C) 0x2F) 0x6C) 0x69) 0x3E) =
      bytes "|" := by
    rw [htag]; decide
  rw [hname]
  cases emit_name pf wpr wc ukc s.error s.word (bytes "|") s.world with
  | none => rfl
  | some r =>
    simp only [Option.some_bind, hex, htag, hsk]

/-- C4, counterexample: in the list item `<li>1 < 2</li>` the `<` of the text
opens a tag, so the tag that closes at `</li>` has the text `<2</li>`: the
tokens `<li>1`, `<`, `2</li>` give " ", "1", " " and never "|". -/
theorem write_tokens_li_counterexample :
    write_tokens false 5 DEFAULT false true [bytes "<li>1", bytes "<", bytes "2</li>"]
        { excluding_tag := false, entity := [], tag := [] }
        { output := [], words := [], word_number := 0, keys := [], acks := 0 } =
      some (MF_NO_ERROR, { excluding_tag := false, entity := [], tag := [] },
        { output := bytes " 1  ", words := [bytes " ", bytes "1", bytes " "], word_number := 1,
          keys := [], acks := 0 }) ∧
      bytes "|" ∉ [bytes " ", bytes "1", bytes " "] := by
  constructor
  · decide
  · decide

/-- C4 (amended). HTML filtering on.  First part: from every state of the
loop of `write_token` (whatever text came before) in which no tag is open
and the word buffer is not full, the five characters `</li>` make the loop
run the block that flushes the word in progress and writes "|", and change
nothing else.  Second part: in a stream of tokens, when `</li>` follows the
ASCII text `p` of its token at a point where no tag is open, and no call of
`write_word` up to there returns an error code, the stream is written as
what the tokens up to `p` give, then the Word "|", then what the rest of the
stream gives. -/
theorem write_token_li_bar :
    (∀ (pf : Bool) (wpr wc : Int) (ukc : Bool) (q : List Nat) (s : Loop),
        s.skip = 0 → s.excluding_tag = false → s.tag = [] → s.word.length < LINE_SIZE - 1 →
        write_token_loop pf wpr wc ukc true (bytes "</li>" ++ q) s =
          (emit_name pf wpr wc ukc s.error s.word (bytes "|") s.world).bind
            (fun r => write_token_loop pf wpr wc ukc true q
              { s with error := r.1, word := r.2.1, world := r.2.2 })) ∧
    (∀ (pf : Bool) (wpr wc : Int) (ukc : Bool) (pre post : List (List Nat)) (p s : List Nat)
        (h h1 : HtmlState) (w w1 w2 : World),
        tag_closed h → (∀ c ∈ p, c ≤ 0x7F) → p.length < 1023 →
        write_tokens pf wpr wc ukc true (pre ++ [p]) h w = some (MF_NO_ERROR, h1, w1) →
        h1.excluding_tag = false →
        write_word (bytes "|") pf wpr wc ukc w1 = some (MF_NO_ERROR, w2) →
        write_tokens pf wpr wc ukc true (pre ++ [p ++ bytes "</li>" ++ s] ++ post) h w =
          write_tokens pf wpr wc ukc true (s :: post) h1 w2) := by
  refine ⟨write_token_loop_li, ?_⟩
  intro pf wpr wc ukc pre post p s h h1 w w1 w2 hcl hp hlen H1 hex H3
  obtain ⟨h0, w0, e0, e1⟩ := write_tokens_snoc_inv pf wpr wc ukc true pre p h h1 w w1 H1
  have htag : h1.tag = [] :=
    write_tokens_tag_inv pf wpr wc ukc true (pre ++ [p]) h h1 w w1 MF_NO_ERROR
      (fun _ => hcl.2) H1 hex
  have hname : tag_word (tag_buf [] (0x3C :: bytes "/li" ++ [0x3E])) = bytes "|" := by decide
  have htok : p ++ bytes "</li>" ++ s = p ++ 0x3C :: bytes "/li" ++ 0x3E :: s := by
    have : bytes "</li>" = 0x3C :: bytes "/li" ++ [0x3E] := by decide
    rw [this]
    simp
  rw [htok, List.append_assoc, write_tokens_append, e0]
  simp only [Option.some_bind, if_true, List.singleton_append]
  rw [write_tokens, write_tokens,
    write_token_tag pf wpr wc ukc p (bytes "/li") s h0 h1 w0 w1 w2 hp hlen (by decide) e1 hex
      htag (by rw [hname]; exact H3)]

/-- Witness for C4 (amended): the token `a</li>b` on an empty file sink. -/
theorem write_token_li_bar_witness :
    write_tokens false 5 DEFAULT false true ([] ++ [bytes "a" ++ bytes "</li>" ++ bytes "b"] ++ [])
        { excluding_tag := false, entity := [], tag := [] }
        { output := [], words := [], word_number := 0, keys := [], acks := 0 } =
      write_tokens false 5 DEFAULT false true (bytes "b" :: [])
        { excluding_tag := false, entity := [], tag := [] }
        { output := bytes "A |", words := [bytes "A", bytes "|"], word_number := 2, keys := [],
          acks := 0 } :=
  write_token_li_bar.2 false 5 DEFAULT false [] [] (bytes "a") (bytes "b")
    { excluding_tag := false, entity := [], tag := [] }
    { excluding_tag := false, entity := [], tag := [] }
    { output := [], words := [], word_number := 0, keys := [], acks := 0 }
    { output := bytes "A", words := [bytes "A"], word_number := 1, keys := [], acks := 0 }
    { output := bytes "A |", words := [bytes "A", bytes "|"], word_number := 2, keys := [],
      acks := 0 }
    ⟨rfl, rfl⟩ (by decide) (by decide) (by decide) rfl (by decide)

theorem scan_char_amp (rest : List Nat) (s : Loop) (hex : s.excluding_tag = false) :
    scan_char true 0x26 rest s =
      { excluding_tag := false, entity := bytes "&", tag := s.tag,
        word := s.word, latin1 := s.latin1, name := [], c := 0x26, skip := 0 } := by
  have h : scan_chain true 0x26 rest s =
      { excluding_tag := false, entity := bytes "&", tag := s.tag,
        word := s.word, latin1 := s.latin1, name := [], c := 0x26, skip := 0 } := by
    simp [scan_chain, hex]
  unfold scan_char
  rw [h]
  exact scan_latin1_ascii _ (by simp)

theorem scan_char_in_entity (c : Nat) (rest : List Nat) (s : Loop)
    (h1 : c ≠ 0x3C) (h2 : c ≠ 0x26) (h3 : c ≠ 0x3B) (hl : s.latin1 = false ∨ c ≤ 0x7F)
    (hex : s.excluding_tag = false) (hen : s.entity ≠ []) :
    scan_char true c rest s =
      { excluding_tag := false, entity := buf_append ENTITY_SIZE s.entity c, tag := s.tag,
        word := s.word, latin1 := s.latin1, name := [], c := c, skip := 0 } := by
  have h : scan_chain true c rest s =
      { excluding_tag := false, entity := buf_append ENTITY_SIZE s.entity c, tag := s.tag,
        word := s.word, latin1 := s.latin1, name := [], c := c, skip := 0 } := by
    simp [scan_chain, hex, h1, h2, h3, hen]
  unfold scan_char
  rw [h]
  rcases hl with hl | hl
  · exact scan_latin1_off _ hl
  · exact scan_latin1_ascii _ hl

theorem scan_char_semicolon (rest : List Nat) (s : Loop)
    (hex : s.excluding_tag = false) (hen : s.entity ≠ []) :
    scan_char true 0x3B rest s =
      { excluding_tag := false, entity := [], tag := s.tag,
        word := s.word, latin1 := s.latin1,
        name := entity_name (buf_append ENTITY_SIZE s.entity 0x3B) s.word.length,
        c := 0x3B, skip := 0 } := by
  have h : scan_chain true 0x3B rest s =
      { excluding_tag := false, entity := [], tag := s.tag,
        word := s.word, latin1 := s.latin1,
        name := entity_name (buf_append ENTITY_SIZE s.entity 0x3B) s.word.length,
        c := 0x3B, skip := 0 } := by
    simp [scan_chain, hex, hen]
  unfold scan_char
  rw [h]
  exact scan_latin1_ascii _ (by simp)

theorem buf_append_ne_nil (size : Nat) (buf : List Nat) (c : Nat) (h : buf ≠ []) :
    buf_append size buf c ≠ [] := by
  unfold buf_append
  split
  · simp
  · exact h

theorem write_token_loop_in_entity (pf : Bool) (wpr wc : Int) (ukc : Bool)
    (x q : List Nat) (hx : ∀ c ∈ x, c ≠ 0x3C ∧ c ≠ 0x26 ∧ c ≠ 0x3B) :
    ∀ s : Loop, s.skip = 0 → (s.latin1 = false ∨ ∀ c ∈ x, c ≤ 0x7F) →
      s.excluding_tag = false → s.entity ≠ [] → s.word.length < LINE_SIZE - 1 →
      write_token_loop pf wpr wc ukc true (x ++ q) s =
        write_token_loop pf wpr wc ukc true q
          { s with entity := x.foldl (buf_append ENTITY_SIZE) s.entity } := by
  induction x with
  | nil => intro s _ _ _ _ _; simp
  | cons c rest ih =>
    intro s hsk hl hex hen hroom
    have hsk' : ¬ (0 < s.skip) := by omega
    obtain ⟨c1, c2, c3⟩ := hx c (List.mem_cons_self _ _)
    have hlc : s.latin1 = false ∨ c ≤ 0x7F := by
      rcases hl with hl | hl
      · exact Or.inl hl
      · exact Or.inr (hl c (List.mem_cons_self _ _))
    rw [List.cons_append, write_token_loop, if_neg hsk', if_pos hroom]
    rw [write_token_step_quiet pf wpr wc ukc true c (rest ++ q) s _
      (scan_char_in_entity c (rest ++ q) s c1 c2 c3 hlc hex hen) rfl]
    dsimp only
    rw [ih (fun y hy => hx y (List.mem_cons_of_mem _ hy))
      { error := s.error, word := s.word, latin1 := s.latin1, skip := 0, excluding_tag := false,
        entity := buf_append ENTITY_SIZE s.entity c, tag := s.tag, world := s.world }
      rfl
      (by
        rcases hl with hl | hl
        · exact Or.inl hl
        · exact Or.inr (fun y hy => hl y (List.mem_cons_of_mem _ hy)))
      rfl (buf_append_ne_nil _ _ _ hen) hroom]
    simp only [List.foldl_cons, hsk, hex]

/-- The loop across an entity `&x;`, from any state in which no tag is open:
the bytes go to the entity buffer; at `;` the block that flushes the word
and writes the name runs with the name of the entity (a block that does
nothing when the name is empty), and the entity buffer is left empty. -/
theorem write_token_loop_entity (pf : Bool) (wpr wc : Int) (ukc : Bool) (x q : List Nat)
    (s : Loop) (hx : ∀ c ∈ x, c ≠ 0x3C ∧ c ≠ 0x26 ∧ c ≠ 0x3B) (hsk : s.skip = 0)
    (hl : s.latin1 = false ∨ ∀ c ∈ x, c ≤ 0x7F) (hex : s.excluding_tag = false)
    (hroom : s.word.length < LINE_SIZE - 1) :
    write_token_loop pf wpr wc ukc true (0x26 :: x ++ 0x3B :: q) s =
      (emit_name pf wpr wc ukc s.error s.word (entity_name (entity_buf x) s.word.length)
          s.world).bind
        (fun r => write_token_loop pf wpr wc ukc true q
          { s with error := r.1, word := r.2.1, world := r.2.2, entity := [] }) := by
  have hsk' : ¬ (0 < s.skip) := by omega
  have h0 : ¬ (0 < 0) := Nat.lt_irrefl 0
  rw [List.cons_append, write_token_loop, if_neg hsk', if_pos hroom,
    write_token_step_quiet pf wpr wc ukc true 0x26 _ s _ (scan_char_amp _ s hex) rfl]
  dsimp only
  have hamp : bytes "&" ≠ [] := by decide
  rw [write_token_loop_in_entity pf wpr wc ukc x (0x3B :: q) hx
    { error := s.error, word := s.word, latin1 := s.latin1, skip := 0, excluding_tag := false,
      entity := bytes "&", tag := s.tag, world := s.world }
    rfl hl rfl hamp hroom]
  dsimp only
  rw [write_token_loop, if_neg h0, if_pos hroom]
  have hne : x.foldl (buf_append ENTITY_SIZE) (bytes "&") ≠ [] := by
    have : ∀ (l b : List Nat), b ≠ [] → l.foldl (buf_append ENTITY_SIZE) b ≠ [] := by
      intro l
      induction l with
      | nil => intro b hb; exact hb
      | cons a l ih => intro b hb; exact ih _ (buf_append_ne_nil _ _ _ hb)
    exact this x _ hamp
  unfold write_token_step
  rw [scan_char_semicolon q _ rfl hne]
  dsimp only
  have hbuf : buf_append ENTITY_SIZE (x.foldl (buf_append ENTITY_SIZE) (bytes "&")) 0x3B =
      entity_buf x := by
    simp [entity_buf, List.foldl_append]
  rw [hbuf]
  cases emit_name pf wpr wc ukc s.error s.word (entity_name (entity_buf x) s.word.length)
    s.world with
  | none => rfl
  | some r =>
    simp only [Option.some_bind, hex, hsk]

theorem foldl_buf_append_take (size : Nat) (l : List Nat) :
    ∀ buf : List Nat, buf.length ≤ size - 1 →
      l.foldl (buf_append size) buf = buf ++ l.take (size - 1 - buf.length) := by
  induction l with
  | nil => intro buf _; simp
  | cons c rest ih =>
    intro buf hb
    simp only [List.foldl_cons]
    by_cases hlt : buf.length < size - 1
    · have h1 : buf_append size buf c = buf ++ [c] := by simp [buf_append, hlt]
      rw [h1, ih (buf ++ [c]) (by simp; omega)]
      have h2 : size - 1 - buf.length = (size - 1 - (buf ++ [c]).length) + 1 := by simp; omega
      rw [h2, List.take_succ_cons]
      simp
    · have h1 : buf_append size buf c = buf := by simp [buf_append, hlt]
      rw [h1, ih buf hb]
      have h2 : size - 1 - buf.length = 0 := by omega
      simp [h2]

theorem entity_buf_take (x : List Nat) : entity_buf x = (0x26 :: x ++ [0x3B]).take 15 := by
  have := foldl_buf_append_take ENTITY_SIZE (x ++ [0x3B]) (bytes "&") (by decide)
  unfold entity_buf
  rw [this]
  have h1 : bytes "&" = [0x26] := by decide
  rw [h1]
  simp [ENTITY_SIZE]

theorem entity_name_named_only (e : List Nat) (n : Nat) (h : entity_name e n ≠ []) :
    e ∈ named_entities := by
  unfold entity_name at h
  simp only [named_entities, List.mem_cons, List.mem_singleton, List.not_mem_nil, or_false]
  by_cases h1 : e = bytes "&amp;"
  · exact Or.inl h1
  rw [if_neg h1] at h
  by_cases h2 : e = bytes "&#x27;"
  · rw [if_pos h2] at h; exact absurd rfl h
  rw [if_neg h2] at h
  by_cases h3 : e = bytes "&quot;"
  · exact Or.inr (Or.inl h3)
  rw [if_neg h3] at h
  by_cases h4 : e = bytes "&middot;"
  · exact Or.inr (Or.inr (Or.inl h4))
  rw [if_neg h4] at h
  by_cases h5 : e = bytes "&gt;"
  · exact Or.inr (Or.inr (Or.inr (Or.inl h5)))
  rw [if_neg h5] at h
  by_cases h6 : e = bytes "&lt;"
  · exact Or.inr (Or.inr (Or.inr (Or.inr (Or.inl h6))))
  rw [if_neg h6] at h
  by_cases h7 : e = bytes "&copy;"
  · exact Or.inr (Or.inr (Or.inr (Or.inr (Or.inr h7))))
  rw [if_neg h7] at h
  exact absurd rfl h

theorem named_entities_short : ∀ e ∈ named_entities, e.length < 15 := by decide

/-- An entity that is not in the table has the empty name. -/
theorem entity_name_other (x : List Nat) (n : Nat)
    (h : 0x26 :: x ++ [0x3B] ∉ named_entities) : entity_name (entity_buf x) n = [] := by
  by_contra hne
  have hm := entity_name_named_only _ n hne
  have hs := named_entities_short _ hm
  rw [entity_buf_take] at hm hs
  have hlen : (0x26 :: x ++ [0x3B]).length < 15 := by
    simp only [List.length_take] at hs
    omega
  rw [List.take_of_length_le (by omega)] at hm
  exact h hm

theorem write_token_some_inv (p : List Nat) (pf : Bool) (wpr wc : Int) (ukc filter_html : Bool)
    (h0 h1 : HtmlState) (w0 w1 : World) (e : MorseFeedError)
    (h : write_token p pf wpr wc ukc filter_html h0 w0 = some (e, h1, w1)) :
    ∃ s1, write_token_loop pf wpr wc ukc filter_html p (loop_init h0 w0) = some s1 ∧
      h1 = { excluding_tag := s1.excluding_tag, entity := s1.entity, tag := s1.tag } := by
  rw [write_token_eq] at h
  cases hl : write_token_loop pf wpr wc ukc filter_html p (loop_init h0 w0) with
  | none => rw [hl] at h; cases h
  | some s1 =>
    rw [hl] at h
    simp only [Option.some_bind, write_token_end] at h
    refine ⟨s1, rfl, ?_⟩
    split at h
    · split at h
      · cases h
      · simp only [Option.some.injEq, Prod.mk.injEq] at h
        exact h.2.1.symm
    · simp only [Option.some.injEq, Prod.mk.injEq] at h
      exact h.2.1.symm

/-- A token that holds an entity with a name: the call does what the call on
the bytes before the entity does, then writes the name, then does what the
call on the bytes after the entity does. -/
theorem write_token_named_entity (pf : Bool) (wpr wc : Int) (ukc : Bool) (p x s nm : List Nat)
    (h0 h1 : HtmlState) (w0 w1 w2 : World)
    (hp : ∀ c ∈ p, c ≤ 0x7F) (hlen : p.length < 1023)
    (hx : ∀ c ∈ x, c ≠ 0x3C ∧ c ≠ 0x26 ∧ c ≠ 0x3B)
    (hname : ∀ n, entity_name (entity_buf x) n = nm) (hnm : nm.length > 0)
    (H1 : write_token p pf wpr wc ukc true h0 w0 = some (MF_NO_ERROR, h1, w1))
    (hclosed : h1.excluding_tag = false)
    (H3 : write_word nm pf wpr wc ukc w1 = some (MF_NO_ERROR, w2)) :
    write_token (p ++ 0x26 :: x ++ 0x3B :: s) pf wpr wc ukc true h0 w0 =
      write_token s pf wpr wc ukc true { h1 with entity := [] } w2 := by
  obtain ⟨s1, e1, a1, a2, a3⟩ := write_token_ok_inv p pf wpr wc ukc true h0 h1 w0 w1 H1
  obtain ⟨b1, b2, b3⟩ := write_token_loop_ascii_state pf wpr wc ukc true p hp _ s1 rfl rfl e1
  have hroom : s1.word.length < LINE_SIZE - 1 := by
    simp only [loop_init, List.length_nil, Nat.zero_add] at b3
    simp only [LINE_SIZE]
    omega
  have hex : s1.excluding_tag = false := by rw [a2] at hclosed; exact hclosed
  rw [List.append_assoc, write_token_eq, write_token_eq,
    write_token_loop_append_ascii pf wpr wc ukc true p _ hp _ rfl rfl, e1, Option.some_bind,
    write_token_loop_entity pf wpr wc ukc x s s1 hx b1 (Or.inl b2) hex hroom, a1, hname,
    emit_name_after_flush pf wpr wc ukc s1.word _ s1.world w1 hnm a3, H3]
  simp only [Option.some_bind]
  rw [a2]
  simp only [loop_init, hex, b1, b2]

/-- A token that holds an entity without a name: the entity is dropped, the
call is the call on the token without it. -/
theorem write_token_dropped_entity (pf : Bool) (wpr wc : Int) (ukc : Bool) (p x s : List Nat)
    (h0 h1 : HtmlState) (w0 w1 : World) (e : MorseFeedError)
    (hp : ∀ c ∈ p, c ≤ 0x7F) (hlen : p.length < 1023)
    (hx : ∀ c ∈ x, c ≠ 0x3C ∧ c ≠ 0x26 ∧ c ≠ 0x3B)
    (hname : 0x26 :: x ++ [0x3B] ∉ named_entities)
    (H1 : write_token p pf wpr wc ukc true h0 w0 = some (e, h1, w1))
    (hclosed : h1.excluding_tag = false) (hent : h1.entity = []) :
    write_token (p ++ 0x26 :: x ++ 0x3B :: s) pf wpr wc ukc true h0 w0 =
      write_token (p ++ s) pf wpr wc ukc true h0 w0 := by
  obtain ⟨s1, e1, a2⟩ := write_token_some_inv p pf wpr wc ukc true h0 h1 w0 w1 e H1
  obtain ⟨b1, b2, b3⟩ := write_token_loop_ascii_state pf wpr wc ukc true p hp _ s1 rfl rfl e1
  have hroom : s1.word.length < LINE_SIZE - 1 := by
    simp only [loop_init, List.length_nil, Nat.zero_add] at b3
    simp only [LINE_SIZE]
    omega
  have hex : s1.excluding_tag = false := by rw [a2] at hclosed; exact hclosed
  have hen : s1.entity = [] := by rw [a2] at hent; exact hent
  rw [List.append_assoc, write_token_eq, write_token_eq,
    write_token_loop_append_ascii pf wpr wc ukc true p _ hp _ rfl rfl, e1, Option.some_bind,
    write_token_loop_append_ascii pf wpr wc ukc true p _ hp _ rfl rfl, e1, Option.some_bind,
    write_token_loop_entity pf wpr wc ukc x s s1 hx b1 (Or.inl b2) hex hroom,
    entity_name_other x _ hname]
  have hemit : emit_name pf wpr wc ukc s1.error s1.word [] s1.world =
      some (s1.error, s1.word, s1.world) := by
    simp [emit_name]
  rw [hemit]
  simp only [Option.some_bind]
  have hs : ({ s1 with error := s1.error, word := s1.word, world := s1.world, entity := [] } :
      Loop) = s1 := by
    cases s1
    simp only [] at hen
    simp [hen]
  rw [hs]

/-- C5, counterexample: `&quot;` is none of the five entities of the claim,
yet it is written as the Word "quote". -/
theorem write_tokens_quot_counterexample :
    write_tokens false 5 DEFAULT false true [bytes "&quot;"]
        { excluding_tag := false, entity := [], tag := [] }
        { output := [], words := [], word_number := 0, keys := [], acks := 0 } =
      some (MF_NO_ERROR, { excluding_tag := false, entity := [], tag := [] },
        { output := bytes "quote", words := [bytes "quote"], word_number := 1, keys := [],
          acks := 0 }) ∧
      bytes "quot" ∉ entity_table.map (fun e => e.1) := by
  constructor
  · decide
  · decide

theorem entity_table_facts : ∀ e ∈ entity_table,
    (∀ c ∈ e.1, c ≠ 0x3C ∧ c ≠ 0x26 ∧ c ≠ 0x3B) ∧ e.2.length > 0 ∧
      entity_buf e.1 ≠ bytes "&#x27;" ∧ entity_buf e.1 ≠ bytes "&quot;" ∧
      entity_name (entity_buf e.1) 0 = e.2 := by
  decide

theorem entity_name_length_free (e : List Nat) (n : Nat) (h : e ≠ bytes "&quot;") :
    entity_name e n = entity_name e 0 := by
  unfold entity_name
  simp only [h, if_false]

/-- C5 (amended). HTML filtering on.
First part: from every state of the loop of `write_token` in which no tag is
open and the word buffer is not full, an entity `&x;` (`x` without `<`, `&`,
`;`) makes the loop run the block that flushes the word in progress and
writes the name of the entity, a block that does nothing for an empty name.
Second part: the names are "andsign", "dot", "greaterthan", "lessthan",
"copyright" for `&amp; &middot; &gt; &lt; &copy;`, "quote" or "unquote" for
`&quot;` (by whether the word in progress is empty), and empty for every
other entity.
Third part: in a stream of tokens, when one of the five entities follows the
ASCII text `p` of its token at a point where no tag is open, and no call of
`write_word` up to there returns an error code, the stream is written as
what the tokens up to `p` give, then the Word of the entity, then what the
rest of the stream gives.
Fourth part: a token with an entity outside the table, at a point where no
tag and no entity is open, is written as the token without the entity.
Fifth part: the tokens `Tom`, `&amp;`, `Jerry` give "TOM", "andsign",
"JERRY". -/
theorem write_token_entity :
    (∀ (pf : Bool) (wpr wc : Int) (ukc : Bool) (x q : List Nat) (s : Loop),
        (∀ c ∈ x, c ≠ 0x3C ∧ c ≠ 0x26 ∧ c ≠ 0x3B) → s.skip = 0 →
        (s.latin1 = false ∨ ∀ c ∈ x, c ≤ 0x7F) → s.excluding_tag = false →
        s.word.length < LINE_SIZE - 1 →
        write_token_loop pf wpr wc ukc true (0x26 :: x ++ 0x3B :: q) s =
          (emit_name pf wpr wc ukc s.error s.word (entity_name (entity_buf x) s.word.length)
              s.world).bind
            (fun r => write_token_loop pf wpr wc ukc true q
              { s with error := r.1, word := r.2.1, world := r.2.2, entity := [] })) ∧
    ((∀ e ∈ entity_table, ∀ n, entity_name (entity_buf e.1) n = e.2) ∧
      (∀ n, entity_name (entity_buf (bytes "quot")) n =
        if n = 0 then bytes "quote" else bytes "unquote") ∧
      (∀ x n, 0x26 :: x ++ [0x3B] ∉ named_entities → entity_name (entity_buf x) n = []) ∧
      entity_name (entity_buf (bytes "nbsp")) 0 = [] ∧
      (∀ pf wpr wc ukc e word w, emit_name pf wpr wc ukc e word [] w = some (e, word, w))) ∧
    (∀ (pf : Bool) (wpr wc : Int) (ukc : Bool) (pre post : List (List Nat)) (p s : List Nat)
        (e : List Nat × List Nat) (h h1 : HtmlState) (w w1 w2 : World),
        e ∈ entity_table → (∀ c ∈ p, c ≤ 0x7F) → p.length < 1023 →
        write_tokens pf wpr wc ukc true (pre ++ [p]) h w = some (MF_NO_ERROR, h1, w1) →
        h1.excluding_tag = false →
        write_word e.2 pf wpr wc ukc w1 = some (MF_NO_ERROR, w2) →
        write_tokens pf wpr wc ukc true (pre ++ [p ++ 0x26 :: e.1 ++ 0x3B :: s] ++ post) h w =
          write_tokens pf wpr wc ukc true (s :: post) { h1 with entity := [] } w2) ∧
    (∀ (pf : Bool) (wpr wc : Int) (ukc : Bool) (p x s : List Nat) (h0 h1 : HtmlState)
        (w0 w1 : World) (e : MorseFeedError),
        (∀ c ∈ p, c ≤ 0x7F) → p.length < 1023 →
        (∀ c ∈ x, c ≠ 0x3C ∧ c ≠ 0x26 ∧ c ≠ 0x3B) →
        0x26 :: x ++ [0x3B] ∉ named_entities →
        write_token p pf wpr wc ukc true h0 w0 = some (e, h1, w1) →
        h1.excluding_tag = false → h1.entity = [] →
        write_token (p ++ 0x26 :: x ++ 0x3B :: s) pf wpr wc ukc true h0 w0 =
          write_token (p ++ s) pf wpr wc ukc true h0 w0) ∧
    write_tokens false 5 DEFAULT false true [bytes "Tom", bytes "&amp;", bytes "Jerry"]
        { excluding_tag := false, entity := [], tag := [] }
        { output := [], words := [], word_number := 0, keys := [], acks := 0 } =
      some (MF_NO_ERROR, { excluding_tag := false, entity := [], tag := [] },
        { output := bytes "TOM andsign JERRY",
          words := [bytes "TOM", bytes "andsign", bytes "JERRY"], word_number := 3,
          keys := [], acks := 0 }) := by
  refine ⟨?_, ⟨?_, ?_, entity_name_other, by decide, ?_⟩, ?_, ?_, by decide⟩
  · intro pf wpr wc ukc x q s hx hsk hl hex hroom
    exact write_token_loop_entity pf wpr wc ukc x q s hx hsk hl hex hroom
  · intro e he n
    obtain ⟨_, _, _, h4, h5⟩ := entity_table_facts e he
    rw [entity_name_length_free _ n h4, h5]
  · intro n
    have hb : entity_buf (bytes "quot") = bytes "&quot;" := by decide
    rw [hb]
    by_cases hn : n = 0
    · subst hn; decide
    · have h1 : bytes "&quot;" ≠ bytes "&amp;" := by decide
      have h2 : bytes "&quot;" ≠ bytes "&#x27;" := by decide
      simp only [entity_name, h1, h2, if_false, if_true, hn]
  · intro pf wpr wc ukc e word w
    simp [emit_name]
  · intro pf wpr wc ukc pre post p s e h h1 w w1 w2 he hp hlen H1 hex H3
    obtain ⟨h0, w0, e0, e1⟩ := write_tokens_snoc_inv pf wpr wc ukc true pre p h h1 w w1 H1
    obtain ⟨f1, f2, _, f4, f5⟩ := entity_table_facts e he
    rw [List.append_assoc, write_tokens_append, e0]
    simp only [Option.some_bind, if_true, List.singleton_append]
    rw [write_tokens, write_tokens,
      write_token_named_entity pf wpr wc ukc p e.1 s e.2 h0 h1 w0 w1 w2 hp hlen f1
        (fun n => by rw [entity_name_length_free _ n f4, f5]) f2 e1 hex H3]
  · intro pf wpr wc ukc p x s h0 h1 w0 w1 e hp hlen hx hname H1 hex hent
    exact write_token_dropped_entity pf wpr wc ukc p x s h0 h1 w0 w1 e hp hlen hx hname H1 hex
      hent

/-- Witness for C5 (amended): the token `a&nbsp;b` is written as the token
`ab`. -/
theorem write_token_entity_witness :
    write_token (bytes "a" ++ 0x26 :: bytes "nbsp" ++ 0x3B :: bytes "b") false 5 DEFAULT false
        true { excluding_tag := false, entity := [], tag := [] }
        { output := [], words := [], word_number := 0, keys := [], acks := 0 } =
      write_token (bytes "a" ++ bytes "b") false 5 DEFAULT false true
        { excluding_tag := false, entity := [], tag := [] }
        { output := [], words := [], word_number := 0, keys := [], acks := 0 } :=
  write_token_entity.2.2.2.1 false 5 DEFAULT false (bytes "a") (bytes "nbsp") (bytes "b")
    { excluding_tag := false, entity := [], tag := [] }
    { excluding_tag := false, entity := [], tag := [] }
    { output := [], words := [], word_number := 0, keys := [], acks := 0 }
    { output := bytes "A", words := [bytes "A"], word_number := 1, keys := [], acks := 0 }
    MF_NO_ERROR (by decide) (by decide) (by decide) (by decide) (by decide) rfl rfl

/-! ### The row writer -/

theorem tmod_cast (i w : Nat) : (i : Int).tmod (w : Int) = ((i % w : Nat) : Int) :=
  (Int.ofNat_tmod i w).symm

/-- One real word on a file sink without limit: the leading space, the word,
the newline at the end of a row, and the count moved on by one. -/
theorem write_word_real (x : List Nat) (w i : Nat) (w0 : World) (hw : 1 ≤ w)
    (hx : is_real_word x) (hi : w0.word_number = (i : Int)) :
    write_word x false (w : Int) DEFAULT false w0 =
      some (MF_NO_ERROR,
        { w0 with output := w0.output ++ ((if i % w ≠ 0 then [0x20] else []) ++ x ++
                    (if i % w = w - 1 then [0x0A] else []))
                  words := w0.words ++ [x]
                  word_number := ((i + 1 : Nat) : Int) }) := by
  obtain ⟨h1, h2⟩ := hx
  have hlen : x.length ≠ 0 := by
    cases x with
    | nil => exact absurd rfl h1
    | cons a l => simp
  have e1 : ((i % w : Nat) : Int) = 0 ↔ i % w = 0 := by omega
  have e2 : ((i % w : Nat) : Int) = (w : Int) - 1 ↔ i % w = w - 1 := by omega
  simp only [write_word, Bool.false_eq_true, if_false, write_word_body, hi, tmod_cast, e1, e2,
    Bool.and_false, Bool.false_and, hlen, h2, ne_eq, not_false_eq_true, and_self, if_true,
    not_true_eq_false, false_and, Option.some.injEq, Prod.mk.injEq, true_and]
  by_cases ha : i % w = 0 <;> by_cases hb : i % w = w - 1 <;>
    simp [ha, hb, List.append_assoc]

theorem write_words_real (w : Nat) (hw : 1 ≤ w) (xs : List (List Nat)) :
    ∀ (i : Nat) (w0 : World), (∀ x ∈ xs, is_real_word x) → w0.word_number = (i : Int) →
      write_words false (w : Int) DEFAULT false xs w0 =
        some (MF_NO_ERROR,
          { w0 with output := w0.output ++ spec_rows w i xs
                    words := w0.words ++ xs
                    word_number := ((i + xs.length : Nat) : Int) }) := by
  induction xs with
  | nil =>
    intro i w0 _ hi
    cases w0
    simp only [] at hi
    simp [write_words, spec_rows, hi]
  | cons x xs ih =>
    intro i w0 hx hi
    rw [write_words, write_word_real x w i w0 hw (hx x (List.mem_cons_self _ _)) hi]
    simp only [if_true]
    rw [ih (i + 1) _ (fun y hy => hx y (List.mem_cons_of_mem _ hy)) rfl]
    simp only [spec_rows, List.length_cons, List.append_assoc, Option.some.injEq, Prod.mk.injEq,
      true_and, List.singleton_append]
    congr 2
    omega

/-- C6. For every `words_per_row = w ≥ 1`, no word limit, a file sink and no
key control, starting from `word_number = 0`: the real words `x_0 .. x_(n-1)`
(fewer than 2^31 of them) sent through `write_word` are all written, with
`MF_NO_ERROR`, and the bytes that reach the output are, for each `i` in
order, a space if `i mod w ≠ 0`, then `x_i`, then a newline if
`i mod w = w - 1`; the count ends at `n`.  With `w = 3` and seven words the
output is `x0 x1 x2\nx3 x4 x5\nx6`, and `process_and_send` closes it with one
newline. -/
theorem write_word_rows :
    (∀ (w : Nat) (xs : List (List Nat)) (w0 : World),
        1 ≤ w → xs.length < 2 ^ 31 → (∀ x ∈ xs, is_real_word x) → w0.word_number = 0 →
        write_words false (w : Int) DEFAULT false xs w0 =
          some (MF_NO_ERROR,
            { w0 with output := w0.output ++ spec_rows w 0 xs
                      words := w0.words ++ xs
                      word_number := (xs.length : Int) })) ∧
    (∀ (x0 x1 x2 x3 x4 x5 x6 : List Nat) (w0 : World),
        (∀ x ∈ [x0, x1, x2, x3, x4, x5, x6], is_real_word x) → w0.word_number = 0 →
        w0.output = [] →
        ∃ w1, write_words false 3 DEFAULT false [x0, x1, x2, x3, x4, x5, x6] w0 =
            some (MF_NO_ERROR, w1) ∧
          w1.output = x0 ++ bytes " " ++ x1 ++ bytes " " ++ x2 ++ bytes "\n" ++
            x3 ++ bytes " " ++ x4 ++ bytes " " ++ x5 ++ bytes "\n" ++ x6 ∧
          (final_newline MF_NO_ERROR false w1).output = w1.output ++ bytes "\n") := by
  have main : ∀ (w : Nat) (xs : List (List Nat)) (w0 : World),
      1 ≤ w → (∀ x ∈ xs, is_real_word x) → w0.word_number = 0 →
      write_words false (w : Int) DEFAULT false xs w0 =
        some (MF_NO_ERROR,
          { w0 with output := w0.output ++ spec_rows w 0 xs
                    words := w0.words ++ xs
                    word_number := (xs.length : Int) }) := by
    intro w xs w0 hw hx h0
    have := write_words_real w hw xs 0 w0 hx (by simpa using h0)
    simpa using this
  refine ⟨fun w xs w0 hw _ hx h0 => main w xs w0 hw hx h0, ?_⟩
  intro x0 x1 x2 x3 x4 x5 x6 w0 hx h0 hout
  have := main 3 [x0, x1, x2, x3, x4, x5, x6] w0 (by decide) hx h0
  refine ⟨_, this, ?_, ?_⟩
  · have hs : bytes " " = [0x20] := by decide
    have hn : bytes "\n" = [0x0A] := by decide
    simp [spec_rows, hout, hs, hn]
  · have hn : bytes "\n" = [0x0A] := by decide
    simp [final_newline, hn]

/-- Witness for C6: three words in rows of two. -/
theorem write_word_rows_witness :
    write_words false ((2 : Nat) : Int) DEFAULT false [bytes "A", bytes "B", bytes "C"]
        { output := [], words := [], word_number := 0, keys := [], acks := 0 } =
      some (MF_NO_ERROR,
        { output := [] ++ spec_rows 2 0 [bytes "A", bytes "B", bytes "C"],
          words := [] ++ [bytes "A", bytes "B", bytes "C"],
          word_number := (([bytes "A", bytes "B", bytes "C"].length : Nat) : Int),
          keys := [], acks := 0 }) :=
  write_word_rows.1 2 [bytes "A", bytes "B", bytes "C"]
    { output := [], words := [], word_number := 0, keys := [], acks := 0 }
    (by decide) (by decide) (by decide) rfl

/-- C7, counterexample: seven real words in rows of three with one filler
after the second word.  The filler comes when `word_number mod 3 = 2`, so it
is followed by a newline, and so is the third word: the rows hold 2, 1, 3
and 1 real words. -/
theorem write_words_filler_counterexample :
    write_words false 3 DEFAULT false
        [bytes "A", bytes "B", bytes " ", bytes "C", bytes "D", bytes "E", bytes "F", bytes "G"]
        { output := [], words := [], word_number := 0, keys := [], acks := 0 } =
      some (MF_NO_ERROR,
        { output := bytes "A B  \n C\nD E F\nG",
          words := [bytes "A", bytes "B", bytes " ", bytes "C", bytes "D", bytes "E", bytes "F",
            bytes "G"],
          word_number := 7, keys := [], acks := 0 }) ∧
      row_word_counts (bytes "A B  \n C\nD E F\nG" ++ bytes "\n") = [2, 1, 3, 1] := by
  constructor
  · decide
  · decide

theorem row_scan_inside (x : List Nat) (hx : ∀ c ∈ x, c ≠ 0x20 ∧ c ≠ 0x0A) :
    ∀ s : RowScan, s.in_word = true → x.foldl row_scan_byte s = s := by
  induction x with
  | nil => intro s _; rfl
  | cons a l ih =>
    intro s hs
    obtain ⟨h1, h2⟩ := hx a (List.mem_cons_self _ _)
    have : row_scan_byte s a = s := by simp [row_scan_byte, h1, h2, hs]
    rw [List.foldl_cons, this]
    exact ih (fun c hc => hx c (List.mem_cons_of_mem _ hc)) s hs

theorem row_scan_solid (x : List Nat) (hx : is_solid_word x) (s : RowScan)
    (hs : s.in_word = false) :
    x.foldl row_scan_byte s = { s with in_word := true, count := s.count + 1 } := by
  obtain ⟨hne, hc⟩ := hx
  cases x with
  | nil => exact absurd rfl hne
  | cons a l =>
    obtain ⟨h1, h2⟩ := hc a (List.mem_cons_self _ _)
    have : row_scan_byte s a = { s with in_word := true, count := s.count + 1 } := by
      simp [row_scan_byte, h1, h2, hs]
    rw [List.foldl_cons, this]
    exact row_scan_inside l (fun c hc' => hc c (List.mem_cons_of_mem _ hc')) _ rfl

/-- The single-space filler on a file sink without limit: the leading space,
the filler, the newline at the end of a row; the count stays. -/
theorem write_word_filler (w i : Nat) (w0 : World) (hi : w0.word_number = (i : Int)) :
    write_word [0x20] false (w : Int) DEFAULT false w0 =
      some (MF_NO_ERROR,
        { w0 with output := w0.output ++ ((if i % w ≠ 0 then [0x20] else []) ++ [0x20] ++
                    (if i % w = w - 1 ∧ 1 ≤ w then [0x0A] else []))
                  words := w0.words ++ [[0x20]] }) := by
  have e1 : ((i % w : Nat) : Int) = 0 ↔ i % w = 0 := by omega
  have e2 : ((i % w : Nat) : Int) = (w : Int) - 1 ↔ (i % w = w - 1 ∧ 1 ≤ w) := by
    constructor
    · intro h; omega
    · intro h; omega
  cases w0
  simp only [] at hi
  simp only [write_word, Bool.false_eq_true, if_false, write_word_body, hi, tmod_cast, e1, e2,
    Bool.and_false, Bool.false_and, ne_eq, not_true_eq_false, and_false, false_and,
    Option.some.injEq, Prod.mk.injEq, true_and, World.mk.injEq, and_true]
  by_cases ha : i % w = 0 <;> by_cases hb : i % w = w - 1 ∧ 1 ≤ w <;>
    simp [ha, hb, List.append_assoc]

theorem succ_mod_end (w i : Nat) (hw : 1 ≤ w) (hb : i % w = w - 1) :
    (i + 1) % w = 0 ∧ (i + 1) / w = i / w + 1 := by
  have h1 := Nat.mod_add_div i w
  have h2 : i + 1 = w * (i / w + 1) := by
    rw [Nat.mul_add, Nat.mul_one]; omega
  constructor
  · rw [h2]; exact Nat.mul_mod_right _ _
  · rw [h2, Nat.mul_div_cancel_left _ (by omega : 0 < w)]

theorem succ_mod_mid (w i : Nat) (hw : 1 ≤ w) (hb : i % w ≠ w - 1) :
    (i + 1) % w = i % w + 1 ∧ (i + 1) / w = i / w := by
  have hlt : i % w < w := Nat.mod_lt _ (by omega)
  have h1 := Nat.mod_add_div i w
  have h2 : i + 1 = (i % w + 1) + w * (i / w) := by omega
  constructor
  · rw [h2, Nat.add_mul_mod_self_left]; exact Nat.mod_eq_of_lt (by omega)
  · rw [h2, Nat.add_mul_div_left _ _ (by omega : 0 < w),
      Nat.div_eq_of_lt (by omega), Nat.zero_add]

/-- What the reader of rows has seen after the real words so far, in rows of
`w`, when no filler stands right before the last word of a row. -/
theorem write_words_fill (w : Nat) (hw : 1 ≤ w) (xs : List (List Nat)) :
    ∀ (i : Nat) (w0 : World) (b : Bool), fillers_off_row_end w i xs →
      w0.word_number = (i : Int) →
      w0.output.foldl row_scan_byte { in_word := false, count := 0, rows := [] } =
        { in_word := b, count := i % w, rows := List.replicate (i / w) w } →
      (i % w = 0 → b = false) →
      ∃ w1 b1, write_words false (w : Int) DEFAULT false xs w0 = some (MF_NO_ERROR, w1) ∧
        w1.word_number = ((i + (real_words xs).length : Nat) : Int) ∧
        w1.output.foldl row_scan_byte { in_word := false, count := 0, rows := [] } =
          { in_word := b1, count := (i + (real_words xs).length) % w,
            rows := List.replicate ((i + (real_words xs).length) / w) w } := by
  induction xs with
  | nil =>
    intro i w0 b _ hi hs _
    exact ⟨w0, b, rfl, by simpa [real_words] using hi, by simpa [real_words] using hs⟩
  | cons x xs ih =>
    intro i w0 b hf hi hs hin
    unfold fillers_off_row_end at hf
    by_cases hx : x = [0x20]
    · -- a filler
      subst hx
      simp only [if_true] at hf
      obtain ⟨hne, hrest⟩ := hf
      have hnl : ¬ (i % w = w - 1 ∧ 1 ≤ w) := fun h => hne h.1
      rw [write_words, write_word_filler w i w0 hi]
      simp only [if_true, hnl, if_false, List.append_nil]
      have hreal : real_words ([0x20] :: xs) = real_words xs := by simp [real_words]
      rw [hreal]
      refine ih i _ false hrest hi ?_ (fun _ => rfl)
      simp only [List.foldl_append, hs]
      by_cases h0 : i % w = 0 <;> simp [h0, row_scan_byte]
    · -- a real word
      simp only [hx, if_false] at hf
      obtain ⟨hsolid, hrest⟩ := hf
      have hrw : is_real_word x := ⟨hsolid.1, hx⟩
      rw [write_words, write_word_real x w i w0 hw hrw hi]
      simp only [if_true]
      have hreal : real_words (x :: xs) = x :: real_words xs := by simp [real_words, hx]
      rw [hreal]
      have hlen : i + (x :: real_words xs).length = (i + 1) + (real_words xs).length := by
        simp only [List.length_cons]; omega
      rw [hlen]
      -- the reader after the leading space
      have hlead : ((if i % w ≠ 0 then [0x20] else []).foldl row_scan_byte
          { in_word := b, count := i % w, rows := List.replicate (i / w) w }) =
          { in_word := false, count := i % w, rows := List.replicate (i / w) w } := by
        by_cases h0 : i % w = 0
        · rw [hin h0]; simp [h0]
        · simp [h0, row_scan_byte]
      by_cases hb : i % w = w - 1
      · obtain ⟨hm, hd⟩ := succ_mod_end w i hw hb
        refine ih (i + 1) _ false hrest rfl ?_ (fun _ => rfl)
        simp only [List.foldl_append, hs, hlead, row_scan_solid x hsolid
          { in_word := false, count := i % w, rows := List.replicate (i / w) w } rfl]
        simp [hb, row_scan_byte, hm, hd, List.replicate_succ']
        omega
      · obtain ⟨hm, hd⟩ := succ_mod_mid w i hw hb
        refine ih (i + 1) _ true hrest rfl ?_ (fun h => by omega)
        simp only [List.foldl_append, hs, hlead, row_scan_solid x hsolid
          { in_word := false, count := i % w, rows := List.replicate (i / w) w } rfl]
        simp [hb, hm, hd]

/-- C7, amended: fillers never count as words, and as long as no filler is
emitted right before the last word of a row, every newline-terminated row
holds `w` real words: `n` real words with fillers among them give `n / w`
full rows and a last row of `n % w`; for seven words in rows of three, rows
of 3, 3 and 1. A filler emitted right before the last word of a row is
followed by a newline itself (file sink, no limit, no key control). -/
theorem write_words_filler_rows :
    (∀ (w : Nat) (items : List (List Nat)) (w0 : World),
      1 ≤ w → fillers_off_row_end w 0 items → w0.word_number = 0 → w0.output = [] →
      ∃ w1, write_words false (w : Int) DEFAULT false items w0 = some (MF_NO_ERROR, w1) ∧
        w1.word_number = ((real_words items).length : Int) ∧
        row_word_counts (final_newline MF_NO_ERROR false w1).output =
          List.replicate ((real_words items).length / w) w ++ [(real_words items).length % w]) ∧
    (∀ (items : List (List Nat)) (w0 : World),
      fillers_off_row_end 3 0 items → (real_words items).length = 7 →
      w0.word_number = 0 → w0.output = [] →
      ∃ w1, write_words false 3 DEFAULT false items w0 = some (MF_NO_ERROR, w1) ∧
        w1.word_number = 7 ∧
        row_word_counts (final_newline MF_NO_ERROR false w1).output = [3, 3, 1]) ∧
    (∀ (w i : Nat) (w0 : World), 1 ≤ w → w0.word_number = (i : Int) → i % w = w - 1 →
      write_word [0x20] false (w : Int) DEFAULT false w0 =
        some (MF_NO_ERROR,
          { w0 with output := w0.output ++ (if i % w ≠ 0 then [0x20] else []) ++ [0x20, 0x0A]
                    words := w0.words ++ [[0x20]] })) := by
  have gen : ∀ (w : Nat) (items : List (List Nat)) (w0 : World),
      1 ≤ w → fillers_off_row_end w 0 items → w0.word_number = 0 → w0.output = [] →
      ∃ w1, write_words false (w : Int) DEFAULT false items w0 = some (MF_NO_ERROR, w1) ∧
        w1.word_number = ((real_words items).length : Int) ∧
        row_word_counts (final_newline MF_NO_ERROR false w1).output =
          List.replicate ((real_words items).length / w) w ++
            [(real_words items).length % w] := by
    intro w items w0 hw hf hn ho
    obtain ⟨w1, b1, h1, h2, h3⟩ := write_words_fill w hw items 0 w0 false hf
      (by simpa using hn) (by simp [ho]) (fun _ => rfl)
    refine ⟨w1, h1, by simpa using h2, ?_⟩
    simp only [Nat.zero_add] at h3
    simp [row_word_counts, final_newline, List.foldl_append, h3, row_scan_byte]
  refine ⟨gen, ?_, ?_⟩
  · intro items w0 hf hlen hn ho
    obtain ⟨w1, h1, h2, h3⟩ := gen 3 items w0 (by decide) hf hn ho
    rw [hlen] at h2 h3
    exact ⟨w1, h1, h2, h3⟩
  · intro w i w0 hw hi hb
    rw [write_word_filler w i w0 hi]
    simp [hb, hw, List.append_assoc]

theorem write_words_filler_rows_witness :
    ∃ w1, write_words false 3 DEFAULT false
        [bytes "A", bytes " ", bytes "B", bytes "C", bytes "D", bytes " ", bytes " ",
          bytes "E", bytes "F", bytes "G"]
        { output := [], words := [], word_number := 0, keys := [], acks := 0 } =
          some (MF_NO_ERROR, w1) ∧
      w1.word_number = 7 ∧
      row_word_counts (final_newline MF_NO_ERROR false w1).output = [3, 3, 1] :=
  write_words_filler_rows.2.1
    [bytes "A", bytes " ", bytes "B", bytes "C", bytes "D", bytes " ", bytes " ",
      bytes "E", bytes "F", bytes "G"]
    { output := [], words := [], word_number := 0, keys := [], acks := 0 }
    (by decide) (by decide) rfl rfl

/-- C8, the code at the failing input: with a limit of one word, the token
`a!b!c` writes the Words `A` and `B`; the count ends at 2. The flush of `A`
returns `MF_EXIT` and the name for `!` is skipped, but the scan goes on and the
second `!` flushes `B`. -/
theorem write_token_limit_overrun :
    write_token (bytes "a!b!c") false 5 1 false false
        { excluding_tag := false, entity := [], tag := [] }
        { output := [], words := [], word_number := 0, keys := [], acks := 0 } =
      some (MF_EXIT, { excluding_tag := false, entity := [], tag := [] },
        { output := bytes "A B", words := [bytes "A", bytes "B"], word_number := 2,
          keys := [], acks := 0 }) := by
  decide

/-- C9, counterexample: the list-item Word `|` written from a count of 0
leaves the count at 1, while the single-space filler leaves it at 0. -/
theorem write_word_bar_counterexample :
    write_word (bytes "|") false 5 DEFAULT false
        { output := [], words := [], word_number := 0, keys := [], acks := 0 } =
      some (MF_NO_ERROR,
        { output := bytes "|", words := [bytes "|"], word_number := 1, keys := [], acks := 0 }) ∧
    write_word (bytes " ") false 5 DEFAULT false
        { output := [], words := [], word_number := 0, keys := [], acks := 0 } =
      some (MF_NO_ERROR,
        { output := bytes " ", words := [bytes " "], word_number := 0, keys := [], acks := 0 }) := by
  constructor
  · decide
  · decide

theorem key_control_error (ks : List (Option Nat)) :
    ∀ (paused : Bool) (e : MorseFeedError) (ks1 : List (Option Nat)),
      key_control paused ks = some (e, ks1) → e = MF_NO_ERROR ∨ (e = MF_EXIT ∨ e = MF_NEXT) := by
  induction ks with
  | nil =>
    intro paused e ks1 h
    cases paused <;> simp [key_control] at h
    exact Or.inl h.1.symm
  | cons k ks ih =>
    intro paused e ks1 h
    cases k with
    | none =>
      cases paused
      · simp [key_control] at h; exact Or.inl h.1.symm
      · simp only [key_control, if_true] at h; exact ih _ _ _ h
    | some c =>
      unfold key_control at h
      by_cases h1 : c = 0x20
      · rw [if_pos h1] at h
        cases paused
        · simp only [Bool.not_false, if_true] at h; exact ih _ _ _ h
        · simp at h; exact Or.inl h.1.symm
      · rw [if_neg h1] at h
        by_cases h2 : c = 0x71 ∨ c = 0x51
        · rw [if_pos h2] at h; simp at h; exact Or.inr (Or.inl h.1.symm)
        · rw [if_neg h2] at h
          by_cases h3 : c = 0x6E ∨ c = 0x4E
          · rw [if_pos h3] at h; simp at h; exact Or.inr (Or.inr h.1.symm)
          · rw [if_neg h3] at h
            cases paused
            · simp at h; exact Or.inl h.1.symm
            · simp only [if_true] at h; exact ih _ _ _ h

/-- C9, amended: only the empty Word and the single-space filler leave
`word_number` unchanged; every other Word, the list-item Word `|` included,
advances it by one. Without key control `write_word` always returns and
writes the Word; with key control a returning call either writes nothing and
leaves the count (quit, next) or writes the Word and counts it the same way. -/
theorem write_word_counts :
    (∀ (word : List Nat) (pf : Bool) (wpr wc : Int) (w : World),
      ∃ e w1, write_word word pf wpr wc false w = some (e, w1) ∧
        w1.words = w.words ++ [word] ∧
        w1.word_number = if word = [] ∨ word = [0x20] then w.word_number
          else w.word_number + 1) ∧
    (∀ (pf : Bool) (wpr wc : Int) (w : World),
      ∃ e w1, write_word (bytes "|") pf wpr wc false w = some (e, w1) ∧
        w1.word_number = w.word_number + 1) ∧
    (∀ (word : List Nat) (pf : Bool) (wpr wc : Int) (w : World) (e : MorseFeedError)
      (w1 : World), write_word word pf wpr wc true w = some (e, w1) →
        (w1.words = w.words ∧ w1.word_number = w.word_number ∧ (e = MF_EXIT ∨ e = MF_NEXT)) ∨
        (w1.words = w.words ++ [word] ∧
          w1.word_number = if word = [] ∨ word = [0x20] then w.word_number
            else w.word_number + 1)) := by
  have body : ∀ (word : List Nat) (pf : Bool) (wpr wc : Int) (w : World),
      (write_word_body word pf wpr wc w).2.words = w.words ++ [word] ∧
      (write_word_body word pf wpr wc w).2.word_number =
        if word = [] ∨ word = [0x20] then w.word_number else w.word_number + 1 := by
    intro word pf wpr wc w
    constructor
    · simp [write_word_body]
    · by_cases h1 : word = []
      · simp [write_word_body, h1]
      · by_cases h2 : word = [0x20]
        · simp [write_word_body, h2]
        · have h3 : word.length ≠ 0 := fun h => h1 (List.length_eq_zero.mp h)
          simp [write_word_body, h1, h2]
  refine ⟨?_, ?_, ?_⟩
  · intro word pf wpr wc w
    exact ⟨(write_word_body word pf wpr wc w).1, (write_word_body word pf wpr wc w).2,
      by simp [write_word], (body word pf wpr wc w).1, (body word pf wpr wc w).2⟩
  · intro pf wpr wc w
    refine ⟨(write_word_body (bytes "|") pf wpr wc w).1,
      (write_word_body (bytes "|") pf wpr wc w).2, by simp [write_word], ?_⟩
    rw [(body (bytes "|") pf wpr wc w).2]
    have : ¬ (bytes "|" = [] ∨ bytes "|" = [0x20]) := by decide
    rw [if_neg this]
  · intro word pf wpr wc w e w1 h
    simp only [write_word, if_true] at h
    cases hk : key_control false w.keys with
    | none => rw [hk] at h; simp at h
    | some r =>
      obtain ⟨e0, ks⟩ := r
      rw [hk] at h
      dsimp only at h
      by_cases he : e0 = MF_NO_ERROR
      · rw [if_pos he, Option.some.injEq] at h
        right
        have hb := body word pf wpr wc { w with keys := ks }
        rw [h] at hb
        exact hb
      · rw [if_neg he, Option.some.injEq, Prod.mk.injEq] at h
        obtain ⟨h1, h2⟩ := h
        left
        subst h1 h2
        refine ⟨rfl, rfl, ?_⟩
        rcases key_control_error w.keys false e0 ks hk with h0 | h0
        · exact absurd h0 he
        · exact h0

theorem write_word_counts_witness :
    ∃ e w1, write_word (bytes "|") true 5 3 false
        { output := [], words := [], word_number := 4, keys := [], acks := 1 } = some (e, w1) ∧
      w1.word_number = 4 + 1 :=
  write_word_counts.2.1 true 5 3
    { output := [], words := [], word_number := 4, keys := [], acks := 1 }

/-- C10, the code at the failing input: on an empty store, writing position
11 for the key `a` followed by 510 tab bytes (511 bytes) and reading the same
key back gives `MF_NO_ERROR` and position 0. The record written is one line
of 1034 bytes; `read_string_array` reads it in pieces of 1023 bytes, the
first piece ends with the backslash of an escaped tab, and that pair is read
as a backslash and a `t`, so the key read back differs. The keys of the
tests of the code (`file1`, `file2`) come back as the claim says. -/
theorem write_saved_position_long_key :
    (0x61 :: List.replicate 510 0x09).length = 511 ∧
    write_then_read [] (0x61 :: List.replicate 510 0x09) 11 =
      some (MF_NO_ERROR, MF_NO_ERROR, 0) ∧
    write_then_read [] (bytes "file1") 11 = some (MF_NO_ERROR, MF_NO_ERROR, 11) ∧
    write_then_read (bytes "position\tfile1\t11\nposition\tfile2\t22\n") (bytes "file2") 200 =
      some (MF_NO_ERROR, MF_NO_ERROR, 200) := by
  refine ⟨by rw [List.length_cons, List.length_replicate], ?_, by decide, by decide⟩
  decide!

/-! ### The state file read back -/

theorem fgets_line (body rest : List Nat) (hb : ∀ c ∈ body, c ≠ 0x0A) :
    ∀ n, body.length < n → fgets n (body ++ 0x0A :: rest) = (body ++ [0x0A], rest, false) := by
  induction body with
  | nil =>
    intro n hn
    cases n with
    | zero => simp at hn
    | succ n => simp [fgets]
  | cons c body ih =>
    intro n hn
    cases n with
    | zero => simp at hn
    | succ n =>
      have hc : c ≠ 0x0A := hb c (List.mem_cons_self _ _)
      have := ih (fun d hd => hb d (List.mem_cons_of_mem _ hd)) n
        (by simp only [List.length_cons] at hn; omega)
      simp [fgets, hc, this]

theorem write_char_ne (c : Nat) (hc : c ≠ 0) : ∀ d ∈ write_char c, d ≠ 0x0A ∧ d ≠ 0 := by
  intro d hd
  unfold write_char at hd
  by_cases h1 : c = 0x09
  · rw [if_pos h1] at hd; simp at hd; rcases hd with h | h <;> subst h <;> decide
  · rw [if_neg h1] at hd
    by_cases h2 : c = 0x0A
    · rw [if_pos h2] at hd; simp at hd; rcases hd with h | h <;> subst h <;> decide
    · rw [if_neg h2] at hd
      by_cases h3 : c = 0x0D
      · rw [if_pos h3] at hd; simp at hd; rcases hd with h | h <;> subst h <;> decide
      · rw [if_neg h3] at hd
        by_cases h4 : c = 0x5C
        · rw [if_pos h4] at hd; simp at hd; subst hd; decide
        · rw [if_neg h4] at hd; simp at hd; subst hd; exact ⟨h2, hc⟩

theorem write_cell_ne (cell : List Nat) (hc : ∀ c ∈ cell, c ≠ 0) :
    ∀ d ∈ write_cell cell, d ≠ 0x0A ∧ d ≠ 0 := by
  induction cell with
  | nil => intro d hd; simp [write_cell] at hd
  | cons c cell ih =>
    intro d hd
    simp only [write_cell, List.mem_append] at hd
    rcases hd with h | h
    · exact write_char_ne c (hc c (List.mem_cons_self _ _)) d h
    · exact ih (fun e he => hc e (List.mem_cons_of_mem _ he)) d h

/-- The written line of a row without its final newline. -/
theorem write_row_body (row : List (List Nat)) (hc : ∀ cell ∈ row, ∀ c ∈ cell, c ≠ 0) :
    ∃ body, write_row row = body ++ [0x0A] ∧ ∀ d ∈ body, d ≠ 0x0A ∧ d ≠ 0 := by
  induction row with
  | nil => exact ⟨[], rfl, by simp⟩
  | cons str row ih =>
    cases row with
    | nil =>
      exact ⟨write_cell str, rfl, write_cell_ne str (hc str (List.mem_cons_self _ _))⟩
    | cons str2 row =>
      obtain ⟨body, hb, hn⟩ := ih (fun cell h => hc cell (List.mem_cons_of_mem _ h))
      refine ⟨write_cell str ++ 0x09 :: body, ?_, ?_⟩
      · have hw : write_row (str :: str2 :: row) =
            write_cell str ++ 0x09 :: write_row (str2 :: row) := rfl
        rw [hw, hb]; simp
      · intro d hd
        simp only [List.mem_append, List.mem_cons] at hd
        rcases hd with h | h | h
        · exact write_cell_ne str (hc str (List.mem_cons_self _ _)) d h
        · subst h; decide
        · exact hn d h

theorem read_cell_char_add (c : Nat) (escape at_end : Bool) (s : Reader)
    (hc : escape = true ∨ (c ≠ 0x09 ∧ c ≠ 0x0A)) (hl : s.cell.length < CELL_SIZE - 1) :
    read_cell_char c escape at_end false s = { s with cell := s.cell ++ [c] } := by
  unfold read_cell_char
  have h : ¬ ((c = 0x09 ∧ escape = false) ∨ (c = 0x0A ∧ escape = false) ∨
      (at_end = true ∧ false = true)) := by
    rintro (⟨h1, h2⟩ | ⟨h1, h2⟩ | ⟨_, h2⟩)
    · rcases hc with h | h
      · rw [h] at h2; exact Bool.noConfusion h2
      · exact h.1 h1
    · rcases hc with h | h
      · rw [h] at h2; exact Bool.noConfusion h2
      · exact h.2 h1
    · exact Bool.noConfusion h2
  rw [if_neg h, if_pos hl]

theorem read_cell_char_close (c : Nat) (at_end : Bool) (s : Reader)
    (hc : c = 0x09 ∨ c = 0x0A) :
    read_cell_char c false at_end false s =
      { s with array := row_push s.array s.cell, cell := [] } := by
  unfold read_cell_char
  have h : (c = 0x09 ∧ false = false) ∨ (c = 0x0A ∧ false = false) ∨
      (at_end = true ∧ false = true) := by
    rcases hc with h | h
    · exact Or.inl ⟨h, rfl⟩
    · exact Or.inr (Or.inl ⟨h, rfl⟩)
  rw [if_pos h]

theorem read_line_plain (eof : Bool) (c : Nat) (line : List Nat) (s : Reader) (hc : c ≠ 0x5C) :
    read_line eof (c :: line) s =
      read_line eof line (read_cell_char c false (decide (line = [])) eof s) := by
  cases line with
  | nil => simp [read_line, hc]
  | cons d line => simp [read_line, hc]

/-- Reading what `write_string_array` wrote for the characters of a cell
adds these characters to the cell being collected. -/
theorem read_line_write_cell (cell : List Nat) :
    ∀ (rest : List Nat) (s : Reader), s.cell.length + cell.length ≤ CELL_SIZE - 1 →
      read_line false (write_cell cell ++ rest) s =
        read_line false rest { s with cell := s.cell ++ cell } := by
  induction cell with
  | nil => intro rest s _; simp [write_cell]
  | cons c cell ih =>
    intro rest s hl
    simp only [List.length_cons] at hl
    have hlt : s.cell.length < CELL_SIZE - 1 := by omega
    have hnext : ∀ (e : Bool) (a : Bool) (d : Nat), (e = true ∨ (d ≠ 0x09 ∧ d ≠ 0x0A)) →
        read_line false (write_cell cell ++ rest) (read_cell_char d e a false s) =
          read_line false rest { s with cell := s.cell ++ d :: cell } := by
      intro e a d hd
      have hl2 : (s.cell ++ [d]).length + cell.length ≤ CELL_SIZE - 1 := by
        simp only [List.length_append, List.length_cons, List.length_nil]; omega
      rw [read_cell_char_add d e a s hd hlt, ih rest { s with cell := s.cell ++ [d] } hl2]
      simp
    unfold write_cell write_char
    by_cases h1 : c = 0x09
    · subst h1
      rw [if_pos rfl]
      simp only [List.cons_append, List.nil_append, read_line, if_true]
      exact hnext true _ _ (Or.inl rfl)
    · rw [if_neg h1]
      by_cases h2 : c = 0x0A
      · subst h2
        rw [if_pos rfl]
        simp only [List.cons_append, List.nil_append, read_line, if_true]
        exact hnext true _ _ (Or.inl rfl)
      · rw [if_neg h2]
        by_cases h3 : c = 0x0D
        · subst h3
          rw [if_pos rfl]
          simp only [List.cons_append, List.nil_append, read_line, if_true]
          exact hnext true _ _ (Or.inl rfl)
        · rw [if_neg h3]
          by_cases h4 : c = 0x5C
          · subst h4
            rw [if_pos rfl]
            simp only [List.cons_append, List.nil_append, read_line, if_true]
            exact hnext true _ _ (Or.inl rfl)
          · rw [if_neg h4]
            simp only [List.cons_append, List.nil_append]
            rw [read_line_plain false c _ s h4]
            exact hnext false _ c (Or.inr ⟨h1, h2⟩)

theorem row_push_last (R : List (List (List Nat))) (r : List (List Nat)) (cell : List Nat) :
    row_push (R ++ [r]) cell = R ++ [r ++ [cell]] := by
  induction R with
  | nil => rfl
  | cons x R ih =>
    cases R with
    | nil => simp [row_push]
    | cons y R =>
      simp only [List.cons_append] at ih ⊢
      have : row_push (x :: y :: (R ++ [r])) cell = x :: row_push (y :: (R ++ [r])) cell := rfl
      rw [this, ih]

/-- Reading the line written for a row adds the cells of the row to the
current row of the array. -/
theorem read_line_write_row (row : List (List Nat)) (hne : row ≠ [])
    (hc : ∀ cell ∈ row, cell_ok cell) :
    ∀ (R : List (List (List Nat))) (r : List (List Nat)) (t : Bool),
      read_line false (write_row row) { array := R ++ [r], cell := [], cell_truncated := t } =
        { array := R ++ [r ++ row], cell := [], cell_truncated := t } := by
  induction row with
  | nil => exact absurd rfl hne
  | cons str row ih =>
    intro R r t
    have hstr : ([] : List Nat).length + str.length ≤ CELL_SIZE - 1 := by
      have := (hc str (List.mem_cons_self _ _)).1
      simp only [List.length_nil]; omega
    cases row with
    | nil =>
      have hw : write_row [str] = write_cell str ++ [0x0A] := rfl
      rw [hw, read_line_write_cell str [0x0A] _ hstr,
        read_line_plain false 0x0A [] _ (by decide),
        read_cell_char_close 0x0A _ _ (Or.inr rfl)]
      simp [read_line, row_push_last]
    | cons str2 row =>
      have hw : write_row (str :: str2 :: row) =
          write_cell str ++ 0x09 :: write_row (str2 :: row) := rfl
      rw [hw, read_line_write_cell str _ _ hstr,
        read_line_plain false 0x09 _ _ (by decide),
        read_cell_char_close 0x09 _ _ (Or.inl rfl)]
      simp only [List.nil_append, row_push_last]
      rw [ih (by simp) (fun cell h => hc cell (List.mem_cons_of_mem _ h)) R (r ++ [str]) t]
      simp

theorem write_row_length_pos (row : List (List Nat)) : 0 < (write_row row).length := by
  induction row with
  | nil => simp [write_row]
  | cons str row ih =>
    cases row with
    | nil =>
      have hw : write_row [str] = write_cell str ++ [0x0A] := rfl
      rw [hw]; simp
    | cons str2 row =>
      have hw : write_row (str :: str2 :: row) =
          write_cell str ++ 0x09 :: write_row (str2 :: row) := rfl
      rw [hw]; simp

/-- The loop of `read_string_array` on a file written by
`write_string_array` from well-formed rows gives these rows back. -/
theorem read_lines_write (array : List (List (List Nat))) (hok : array_ok array) :
    ∀ (fuel : Nat) (R : List (List (List Nat))) (t : Bool),
      (write_string_array array).length ≤ fuel →
      read_lines fuel (write_string_array array) true
          { array := R, cell := [], cell_truncated := t } =
        some { array := R ++ array, cell := [], cell_truncated := t } := by
  induction array with
  | nil =>
    intro fuel R t _
    cases fuel <;> simp [write_string_array, read_lines]
  | cons row array ih =>
    intro fuel R t hf
    obtain ⟨hne, hlen, hcells⟩ := hok row (List.mem_cons_self _ _)
    obtain ⟨body, hb, hn⟩ := write_row_body row (fun cell h => (hcells cell h).2)
    have hpos := write_row_length_pos row
    simp only [write_string_array, List.length_append] at hf
    cases fuel with
    | zero => omega
    | succ fuel =>
      have hfile : write_string_array (row :: array) = body ++ 0x0A :: write_string_array array := by
        simp [write_string_array, hb]
      have hbl : body.length < LINE_BUFFER_SIZE - 1 := by
        rw [hb] at hlen
        simp only [List.length_append, List.length_cons, List.length_nil] at hlen
        omega
      have hne2 : body ++ 0x0A :: write_string_array array ≠ [] := by simp
      have htw : List.takeWhile (fun c => decide (c ≠ 0)) (body ++ [0x0A]) = body ++ [0x0A] := by
        rw [List.takeWhile_eq_self_iff]
        intro x hx
        simp only [List.mem_append, List.mem_singleton] at hx
        rcases hx with h | h
        · simpa using (hn x h).2
        · subst h; decide
      rw [hfile, read_lines, if_neg hne2]
      simp only [fgets_line body _ (fun c h => (hn c h).1) _ hbl, htw]
      have hne3 : body ++ [0x0A] ≠ [] := by simp
      rw [if_neg hne3]
      simp only [if_true, List.getLast?_concat, decide_True]
      rw [← hb, read_line_write_row row hne hcells R [] t]
      have := ih (fun r h => hok r (List.mem_cons_of_mem _ h)) fuel (R ++ [row]) t (by omega)
      simpa using this

/-- Store file round trip for well-formed rows whose lines fit the line
buffer. -/
theorem read_write_string_array (array : List (List (List Nat))) (hok : array_ok array) :
    read_string_array (write_string_array array) = some array := by
  unfold read_string_array
  rw [read_lines_write array hok _ [] false (Nat.le_refl _)]
  simp

/-! ### The saved positions -/

theorem find_position_none (label : List Nat) (array : List (List (List Nat))) :
    ∀ i, find_position label array i = none → ∀ x ∈ array, is_position_row label x = false := by
  induction array with
  | nil => intro i _ x hx; simp at hx
  | cons next array ih =>
    intro i h x hx
    unfold find_position at h
    by_cases hp : next.length = 3 ∧ next.get? 0 = some (bytes "position") ∧
        next.get? 1 = some label
    · rw [if_pos hp] at h; exact Option.noConfusion h
    · rw [if_neg hp] at h
      rcases List.mem_cons.mp hx with hx | hx
      · subst hx; unfold is_position_row; exact decide_eq_false hp
      · exact ih (i + 1) h x hx

theorem find_position_some (label : List Nat) (array : List (List (List Nat))) :
    ∀ i k, find_position label array i = some k →
      ∃ pre next post, array = pre ++ next :: post ∧ k = i + pre.length ∧
        is_position_row label next = true ∧ ∀ x ∈ pre, is_position_row label x = false := by
  induction array with
  | nil => intro i k h; simp [find_position] at h
  | cons next array ih =>
    intro i k h
    unfold find_position at h
    by_cases hp : next.length = 3 ∧ next.get? 0 = some (bytes "position") ∧
        next.get? 1 = some label
    · rw [if_pos hp] at h
      refine ⟨[], next, array, rfl, ?_, decide_eq_true hp, by simp⟩
      simpa using (Option.some.inj h).symm
    · rw [if_neg hp] at h
      obtain ⟨pre, r, post, h1, h2, h3, h4⟩ := ih (i + 1) k h
      refine ⟨next :: pre, r, post, by rw [h1]; rfl, by simp only [List.length_cons]; omega,
        h3, ?_⟩
      intro x hx
      rcases List.mem_cons.mp hx with hx | hx
      · subst hx; unfold is_position_row; exact decide_eq_false hp
      · exact h4 x hx

theorem find_none_of_all_false {α : Type} (p : α → Bool) (xs : List α)
    (h : ∀ x ∈ xs, p x = false) : xs.find? p = none := by
  rw [List.find?_eq_none]
  intro x hx
  simp [h x hx]

theorem filter_nil_of_all_false {α : Type} (p : α → Bool) (xs : List α)
    (h : ∀ x ∈ xs, p x = false) : xs.filter p = [] := by
  rw [List.filter_eq_nil_iff]
  intro x hx
  simp [h x hx]

theorem filter_not_of_all_false {α : Type} (p : α → Bool) (xs : List α)
    (h : ∀ x ∈ xs, p x = false) : xs.filter (fun x => !p x) = xs := by
  rw [List.filter_eq_self]
  intro x hx
  simp [h x hx]

theorem find_append_first {α : Type} (p : α → Bool) (pre post : List α) (r : α)
    (h : ∀ x ∈ pre, p x = false) (hr : p r = true) : (pre ++ r :: post).find? p = some r := by
  induction pre with
  | nil => simp [hr]
  | cons x pre ih =>
    have hx : p x = false := h x (List.mem_cons_self _ _)
    simp only [List.cons_append, List.find?_cons, hx]
    exact ih (fun y hy => h y (List.mem_cons_of_mem _ hy))

/-- What `read_saved_position` returns for a store that reads as `array`. -/
theorem read_saved_position_eq (store label : List Nat) (array : List (List (List Nat)))
    (h : read_string_array store = some array) :
    read_saved_position store label = some (MF_NO_ERROR, array_position label array) := by
  unfold read_saved_position array_position
  rw [h]
  dsimp only
  cases hf : find_position label array 0 with
  | none =>
    rw [find_none_of_all_false _ _ (find_position_none label array 0 hf)]
  | some k =>
    obtain ⟨pre, next, post, h1, h2, h3, h4⟩ := find_position_some label array 0 k hf
    have hk : k = pre.length := by omega
    subst hk
    subst h1
    rw [find_append_first _ pre post next h4 h3]
    have hg : (pre ++ next :: post).get? pre.length = some next := by
      rw [List.get?_eq_getElem?, List.getElem?_append_right (Nat.le_refl _)]
      simp
    dsimp only
    rw [hg]
    rfl

theorem eraseIdx_append_length {α : Type} (pre post : List α) (r : α) :
    (pre ++ r :: post).eraseIdx pre.length = pre ++ post := by
  induction pre with
  | nil => rfl
  | cons x pre ih => simp only [List.cons_append, List.length_cons, List.eraseIdx_cons_succ, ih]

theorem set_append_length {α : Type} (pre post : List α) (r new : α) :
    (pre ++ r :: post).set pre.length new = pre ++ new :: post := by
  induction pre with
  | nil => rfl
  | cons x pre ih => simp only [List.cons_append, List.length_cons, List.set_cons_succ, ih]

theorem is_position_row_entry (label value : List Nat) :
    is_position_row label [bytes "position", label, value] = true := by
  simp [is_position_row]

/-- The store after `write_saved_position`, for a store that reads as
well-formed rows and a record that fits one line: it reads back as an array
with the same rows other than the records of the label, in the same order,
and of the records of the label the first one is removed (position 0) or
replaced by the new record. -/
theorem write_saved_position_array (store label : List Nat) (position : Nat)
    (array : List (List (List Nat))) (h : read_string_array store = some array)
    (hok : array_ok array)
    (hnew : position ≠ 0 → row_ok [bytes "position", label, sprintf_ld position]) :
    ∃ store1 array1, write_saved_position store label position = some (MF_NO_ERROR, store1) ∧
      read_string_array store1 = some array1 ∧ array_ok array1 ∧
      array1.filter (fun x => !is_position_row label x) =
        array.filter (fun x => !is_position_row label x) ∧
      array1.filter (is_position_row label) =
        (if position = 0 then [] else [[bytes "position", label, sprintf_ld position]]) ++
          (array.filter (is_position_row label)).tail := by
  unfold write_saved_position
  rw [h]
  dsimp only
  cases hf : find_position label array 0 with
  | none =>
    have hall := find_position_none label array 0 hf
    by_cases hv : position = 0
    · rw [if_pos hv]
      refine ⟨store, array, rfl, h, hok, rfl, ?_⟩
      rw [if_pos hv, filter_nil_of_all_false _ _ hall]; rfl
    · rw [if_neg hv]
      have hok1 : array_ok (array ++ [[bytes "position", label, sprintf_ld position]]) := by
        intro row hrow
        rcases List.mem_append.mp hrow with hr | hr
        · exact hok row hr
        · rw [List.mem_singleton.mp hr]; exact hnew hv
      refine ⟨_, array ++ [[bytes "position", label, sprintf_ld position]], rfl,
        read_write_string_array _ hok1, hok1, ?_, ?_⟩
      · simp [List.filter_append, is_position_row_entry]
      · rw [if_neg hv, List.filter_append, filter_nil_of_all_false _ _ hall]
        simp [is_position_row_entry]
  | some k =>
    obtain ⟨pre, next, post, h1, h2, h3, h4⟩ := find_position_some label array 0 k hf
    have hk : k = pre.length := by omega
    subst hk
    subst h1
    have hfil : (pre ++ next :: post).filter (is_position_row label) =
        next :: post.filter (is_position_row label) := by
      rw [List.filter_append, filter_nil_of_all_false _ _ h4]
      simp [h3]
    have hnot : (pre ++ next :: post).filter (fun x => !is_position_row label x) =
        pre ++ post.filter (fun x => !is_position_row label x) := by
      rw [List.filter_append, filter_not_of_all_false _ _ h4]
      simp [h3]
    by_cases hv : position = 0
    · rw [if_pos hv]
      dsimp only
      rw [eraseIdx_append_length]
      have hok1 : array_ok (pre ++ post) := by
        intro row hrow
        rcases List.mem_append.mp hrow with hr | hr
        · exact hok row (List.mem_append_left _ hr)
        · exact hok row (List.mem_append_right _ (List.mem_cons_of_mem _ hr))
      refine ⟨_, pre ++ post, rfl, read_write_string_array _ hok1, hok1, ?_, ?_⟩
      · rw [hnot, List.filter_append, filter_not_of_all_false _ _ h4]
      · rw [if_pos hv, hfil, List.filter_append, filter_nil_of_all_false _ _ h4]
        rfl
    · rw [if_neg hv]
      dsimp only
      rw [set_append_length]
      have hok1 : array_ok (pre ++ [bytes "position", label, sprintf_ld position] :: post) := by
        intro row hrow
        rcases List.mem_append.mp hrow with hr | hr
        · exact hok row (List.mem_append_left _ hr)
        · rcases List.mem_cons.mp hr with hr | hr
          · rw [hr]; exact hnew hv
          · exact hok row (List.mem_append_right _ (List.mem_cons_of_mem _ hr))
      refine ⟨_, pre ++ [bytes "position", label, sprintf_ld position] :: post, rfl,
        read_write_string_array _ hok1, hok1, ?_, ?_⟩
      · rw [hnot, List.filter_append, filter_not_of_all_false _ _ h4]
        simp [is_position_row_entry]
      · rw [if_neg hv, hfil, List.filter_append, filter_nil_of_all_false _ _ h4]
        simp [is_position_row_entry]

theorem array_position_none (label : List Nat) (array : List (List (List Nat)))
    (h : array.filter (is_position_row label) = []) : array_position label array = 0 := by
  unfold array_position
  have : array.find? (is_position_row label) = none := by
    rw [List.find?_eq_none]
    intro x hx hp
    have : x ∈ array.filter (is_position_row label) := List.mem_filter.mpr ⟨hx, hp⟩
    rw [h] at this
    exact List.not_mem_nil _ this
  rw [this]

/-- C11, counterexample: a store with two position records for `doc.txt`
(42, then 7). Writing position 0 removes the first record only, and the read
that follows returns 7. -/
theorem write_saved_position_zero_counterexample :
    write_saved_position (bytes "position\tdoc.txt\t42\nposition\tdoc.txt\t7\n")
        (bytes "doc.txt") 0 = some (MF_NO_ERROR, bytes "position\tdoc.txt\t7\n") ∧
    read_saved_position (bytes "position\tdoc.txt\t7\n") (bytes "doc.txt") =
      some (MF_NO_ERROR, 7) := by
  constructor
  · decide
  · decide

/-- C11, amended: for a store that reads as well-formed rows (each line
fitting the line buffer), `write_saved_position(store, k, 0)` removes the
first position record of `k` and nothing else; when the store held at most
one record for `k`, it then holds none and `read_saved_position(store, k)`
returns `MF_NO_ERROR` and 0. Reading a key without a record, or from a
missing (empty) store, returns `MF_NO_ERROR` and 0. -/
theorem write_saved_position_zero :
    (∀ (store label : List Nat) (array : List (List (List Nat))),
      read_string_array store = some array → array_ok array →
      ∃ store1 array1, write_saved_position store label 0 = some (MF_NO_ERROR, store1) ∧
        read_string_array store1 = some array1 ∧
        array1.filter (is_position_row label) = (array.filter (is_position_row label)).tail ∧
        ((array.filter (is_position_row label)).length ≤ 1 →
          array1.filter (is_position_row label) = [] ∧
          read_saved_position store1 label = some (MF_NO_ERROR, 0))) ∧
    (∀ (store label : List Nat) (array : List (List (List Nat))),
      read_string_array store = some array → array.filter (is_position_row label) = [] →
      read_saved_position store label = some (MF_NO_ERROR, 0)) ∧
    (∀ label : List Nat, read_saved_position [] label = some (MF_NO_ERROR, 0)) ∧
    (∃ store1, write_saved_position [] (bytes "doc.txt") 42 = some (MF_NO_ERROR, store1) ∧
      read_saved_position store1 (bytes "doc.txt") = some (MF_NO_ERROR, 42) ∧
      ∃ store2, write_saved_position store1 (bytes "doc.txt") 0 = some (MF_NO_ERROR, store2) ∧
        read_saved_position store2 (bytes "doc.txt") = some (MF_NO_ERROR, 0)) := by
  refine ⟨?_, ?_, ?_, ?_⟩
  · intro store label array h hok
    obtain ⟨store1, array1, h1, h2, _, _, h5⟩ :=
      write_saved_position_array store label 0 array h hok (fun h0 => absurd rfl h0)
    rw [if_pos rfl, List.nil_append] at h5
    refine ⟨store1, array1, h1, h2, h5, ?_⟩
    intro hlen
    have hnil : array1.filter (is_position_row label) = [] := by
      rw [h5]
      cases hq : array.filter (is_position_row label) with
      | nil => rfl
      | cons x xs =>
        rw [hq] at hlen
        simp only [List.length_cons] at hlen
        have : xs.length = 0 := by omega
        simpa using this
    refine ⟨hnil, ?_⟩
    rw [read_saved_position_eq store1 label array1 h2, array_position_none label array1 hnil]
  · intro store label array h hnil
    rw [read_saved_position_eq store label array h, array_position_none label array hnil]
  · intro label
    rfl
  · refine ⟨bytes "position\tdoc.txt\t42\n", by decide, by decide, [], by decide, by decide⟩

theorem write_saved_position_zero_witness :
    ∃ store1, write_saved_position (bytes "position\tother\t5\nposition\tdoc.txt\t42\n")
        (bytes "doc.txt") 0 = some (MF_NO_ERROR, store1) ∧
      read_saved_position store1 (bytes "doc.txt") = some (MF_NO_ERROR, 0) := by
  obtain ⟨store1, array1, h1, _, _, h4⟩ :=
    write_saved_position_zero.1 (bytes "position\tother\t5\nposition\tdoc.txt\t42\n")
      (bytes "doc.txt")
      [[bytes "position", bytes "other", bytes "5"],
        [bytes "position", bytes "doc.txt", bytes "42"]]
      (by decide) (by decide)
  exact ⟨store1, h1, (h4 (by decide)).2⟩

theorem is_position_row_other (k k1 : List Nat) (hk : k1 ≠ k) (x : List (List Nat))
    (h : is_position_row k1 x = true) : is_position_row k x = false := by
  unfold is_position_row at h ⊢
  have h1 := of_decide_eq_true h
  apply decide_eq_false
  rintro ⟨_, _, h2⟩
  rw [h1.2.2] at h2
  exact hk (Option.some.inj h2)

theorem find_filter_other (k k1 : List Nat) (hk : k1 ≠ k) (array : List (List (List Nat))) :
    (array.filter (fun x => !is_position_row k x)).find? (is_position_row k1) =
      array.find? (is_position_row k1) := by
  induction array with
  | nil => rfl
  | cons x array ih =>
    by_cases h1 : is_position_row k1 x = true
    · have h2 := is_position_row_other k k1 hk x h1
      simp [List.filter_cons, h2, List.find?_cons, h1]
    · have h1 : is_position_row k1 x = false := by simpa using h1
      by_cases h2 : is_position_row k x = true
      · simp [List.filter_cons, h2, List.find?_cons, h1, ih]
      · have h2 : is_position_row k x = false := by simpa using h2
        simp [List.filter_cons, h2, List.find?_cons, h1, ih]

/-- C12, counterexample: on an empty store, writing position 5 for a key of
512 bytes (511 times `a`, then `x`) changes what the key of 511 times `a`
reads, from 0 to 5: the key cell is cut at 511 bytes when the store is read. -/
theorem write_saved_position_frame_counterexample :
    read_saved_position [] (List.replicate 511 0x61) = some (MF_NO_ERROR, 0) ∧
    List.replicate 511 0x61 ≠ List.replicate 511 0x61 ++ [0x78] ∧
    ∃ store1, write_saved_position [] (List.replicate 511 0x61 ++ [0x78]) 5 =
        some (MF_NO_ERROR, store1) ∧
      read_saved_position store1 (List.replicate 511 0x61) = some (MF_NO_ERROR, 5) := by
  refine ⟨rfl, ?_, _, rfl, ?_⟩
  · intro h
    have := congrArg List.length h
    simp only [List.length_append, List.length_replicate, List.length_cons,
      List.length_nil] at this
    omega
  · decide!

/-- C12, amended: for a store that reads as well-formed rows (each line
fitting the line buffer), a key `k` without zero byte and of at most 511
bytes whose record fits one line, and a position below `2 ^ 63` (0
included), `write_saved_position(store, k, v)` returns `MF_NO_ERROR`, every
key `k1` different from `k` reads the same value after the call as before,
and the rows other than the position records of `k` are the same rows in the
same order. -/
theorem write_saved_position_frame (store k k1 : List Nat) (v : Nat)
    (array : List (List (List Nat))) (h : read_string_array store = some array)
    (hok : array_ok array) (hk : k1 ≠ k) (_hv : v < 2 ^ 63)
    (hnew : v ≠ 0 → row_ok [bytes "position", k, sprintf_ld v]) :
    ∃ store1 array1, write_saved_position store k v = some (MF_NO_ERROR, store1) ∧
      read_string_array store1 = some array1 ∧
      read_saved_position store1 k1 = read_saved_position store k1 ∧
      array1.filter (fun x => !is_position_row k x) =
        array.filter (fun x => !is_position_row k x) := by
  obtain ⟨store1, array1, h1, h2, _, h4, _⟩ :=
    write_saved_position_array store k v array h hok hnew
  refine ⟨store1, array1, h1, h2, ?_, h4⟩
  rw [read_saved_position_eq store1 k1 array1 h2, read_saved_position_eq store k1 array h]
  unfold array_position
  rw [← find_filter_other k k1 hk array1, ← find_filter_other k k1 hk array, h4]

theorem write_saved_position_frame_witness :
    ∃ store1 array1,
      write_saved_position (bytes "position\tfile1\t11\nposition\tfile2\t22\n")
        (bytes "file2") 200 = some (MF_NO_ERROR, store1) ∧
      read_string_array store1 = some array1 ∧
      read_saved_position store1 (bytes "file1") =
        read_saved_position (bytes "position\tfile1\t11\nposition\tfile2\t22\n")
          (bytes "file1") ∧
      array1.filter (fun x => !is_position_row (bytes "file2") x) =
        [[bytes "position", bytes "file1", bytes "11"],
          [bytes "position", bytes "file2", bytes "22"]].filter
            (fun x => !is_position_row (bytes "file2") x) :=
  write_saved_position_frame (bytes "position\tfile1\t11\nposition\tfile2\t22\n")
    (bytes "file2") (bytes "file1") 200
    [[bytes "position", bytes "file1", bytes "11"], [bytes "position", bytes "file2", bytes "22"]]
    (by decide) (by decide) (by decide) (by decide) (fun _ => by decide)

/-! ### `memmem` and `find_string` -/

theorem starts_with_iff (s t : List Nat) : starts_with s t = true ↔ s.take t.length = t := by
  induction t generalizing s with
  | nil => cases s <;> simp [starts_with]
  | cons d t ih =>
    cases s with
    | nil => simp [starts_with]
    | cons c s =>
      simp only [starts_with, Bool.and_eq_true, decide_eq_true_eq, List.length_cons,
        List.take_succ_cons, List.cons.injEq, ih]

theorem memmem_some (m : List Nat) (h : List Nat) :
    ∀ p, memmem h m = some p →
      p ≤ h.length ∧ starts_with (h.drop p) m = true ∧
        ∀ j, j < p → starts_with (h.drop j) m = false := by
  induction h with
  | nil =>
    intro p hp
    unfold memmem at hp
    by_cases hm : m = []
    · rw [if_pos hm] at hp
      have : p = 0 := (Option.some.inj hp).symm
      subst this
      subst hm
      exact ⟨Nat.le_refl _, rfl, fun j hj => absurd hj (Nat.not_lt_zero _)⟩
    · rw [if_neg hm] at hp; exact Option.noConfusion hp
  | cons c h ih =>
    intro p hp
    unfold memmem at hp
    by_cases hs : starts_with (c :: h) m = true
    · rw [if_pos hs] at hp
      have : p = 0 := (Option.some.inj hp).symm
      subst this
      exact ⟨Nat.zero_le _, hs, fun j hj => absurd hj (Nat.not_lt_zero _)⟩
    · rw [if_neg hs] at hp
      cases hq : memmem h m with
      | none => rw [hq] at hp; exact Option.noConfusion hp
      | some q =>
        rw [hq] at hp
        have hp' : p = q + 1 := (Option.some.inj hp).symm
        subst hp'
        obtain ⟨h1, h2, h3⟩ := ih q hq
        refine ⟨by simp only [List.length_cons]; omega, h2, ?_⟩
        intro j hj
        cases j with
        | zero => simpa using hs
        | succ j => exact h3 j (by omega)

theorem memmem_none (m : List Nat) (h : List Nat) :
    memmem h m = none → ∀ j, j ≤ h.length → starts_with (h.drop j) m = false := by
  induction h with
  | nil =>
    intro hp j hj
    unfold memmem at hp
    by_cases hm : m = []
    · rw [if_pos hm] at hp; exact Option.noConfusion hp
    · cases m with
      | nil => exact absurd rfl hm
      | cons d m => simp [starts_with]
  | cons c h ih =>
    intro hp j hj
    unfold memmem at hp
    by_cases hs : starts_with (c :: h) m = true
    · rw [if_pos hs] at hp; exact Option.noConfusion hp
    · rw [if_neg hs] at hp
      cases hq : memmem h m with
      | some q => rw [hq] at hp; exact Option.noConfusion hp
      | none =>
        cases j with
        | zero => simpa using hs
        | succ j => exact ih hq j (by simp only [List.length_cons] at hj; omega)

theorem memmem_least (m h : List Nat) (p : Nat) (hp : p ≤ h.length)
    (hs : starts_with (h.drop p) m = true)
    (hl : ∀ j, j < p → starts_with (h.drop j) m = false) : memmem h m = some p := by
  cases hq : memmem h m with
  | none =>
    have := memmem_none m h hq p hp
    rw [hs] at this; exact Bool.noConfusion this
  | some q =>
    obtain ⟨h1, h2, h3⟩ := memmem_some m h q hq
    rcases Nat.lt_trichotomy q p with hlt | heq | hgt
    · have := hl q hlt
      rw [h2] at this; exact Bool.noConfusion this
    · rw [heq]
    · have := h3 p hgt
      rw [hs] at this; exact Bool.noConfusion this

/-- The comparison of `memmem` at place `j - k` of the searched part is the
needle standing at index `j` of the buffer. -/
theorem starts_with_occurs (m b : List Nat) (n k j : Nat) (hn : n ≤ b.length) (hk : k ≤ j)
    (hj : j ≤ n) :
    starts_with (((b.take n).drop k).drop (j - k)) m = true ↔ occurs_at m b n j := by
  have hd : ((b.take n).drop k).drop (j - k) = (b.take n).drop j := by
    rw [List.drop_drop]
    congr 1
    omega
  rw [hd, starts_with_iff]
  unfold occurs_at
  constructor
  · intro h
    refine ⟨?_, h⟩
    have hl := congrArg List.length h
    simp only [List.length_take, List.length_drop] at hl
    omega
  · intro h
    exact h.2

theorem find_string_first (m b : List Nat) (n k i : Nat) (hn : n ≤ b.length)
    (h : first_occurrence m b n k i) : find_string m b n k = some i := by
  obtain ⟨hki, ho, hl⟩ := h
  have hi : i ≤ n := by have := ho.1; omega
  have hk : k ≤ n := by omega
  unfold find_string
  rw [if_pos hk]
  have hm : memmem ((b.take n).drop k) m = some (i - k) := by
    apply memmem_least
    · simp only [List.length_drop, List.length_take]; omega
    · exact (starts_with_occurs m b n k i hn hki hi).mpr ho
    · intro j hj
      have hne : ¬ occurs_at m b n (k + j) := hl (k + j) (by omega) (by omega)
      have := starts_with_occurs m b n k (k + j) hn (by omega) (by omega)
      rw [Nat.add_sub_cancel_left] at this
      cases hs : starts_with (((b.take n).drop k).drop j) m with
      | false => rfl
      | true => exact absurd (this.mp hs) hne
  rw [hm]
  simp only [Option.some.injEq]
  omega

theorem find_string_absent (m b : List Nat) (n k : Nat) (hn : n ≤ b.length) (hk : k ≤ n)
    (h : ∀ j, k ≤ j → ¬ occurs_at m b n j) : find_string m b n k = some n := by
  unfold find_string
  rw [if_pos hk]
  cases hq : memmem ((b.take n).drop k) m with
  | none => rfl
  | some q =>
    obtain ⟨h1, h2, _⟩ := memmem_some m _ q hq
    simp only [List.length_drop, List.length_take] at h1
    have := (starts_with_occurs m b n k (k + q) hn (by omega) (by omega)).mp
      (by rw [Nat.add_sub_cancel_left]; exact h2)
    exact absurd this (h (k + q) (by omega))

/-- What `find_string` returns: the end of the searched part, or the first
place at or after the start at which the needle stands. -/
theorem find_string_result (m b : List Nat) (n k i : Nat) (hn : n ≤ b.length)
    (h : find_string m b n k = some i) :
    k ≤ i ∧ i ≤ n ∧ (first_occurrence m b n k i ∨ (i = n ∧ ∀ j, k ≤ j → ¬ occurs_at m b n j)) := by
  unfold find_string at h
  by_cases hk : k ≤ n
  · rw [if_pos hk] at h
    cases hq : memmem ((b.take n).drop k) m with
    | none =>
      rw [hq] at h
      have hi : i = n := (Option.some.inj h).symm
      subst hi
      refine ⟨hk, Nat.le_refl _, Or.inr ⟨rfl, ?_⟩⟩
      intro j hj ho
      have hjn : j ≤ i := by have := ho.1; omega
      have h1 := (starts_with_occurs m b i k j hn hj hjn).mpr ho
      have h2 := memmem_none m _ hq (j - k)
        (by simp only [List.length_drop, List.length_take]; omega)
      rw [h1] at h2; exact Bool.noConfusion h2
    | some q =>
      rw [hq] at h
      have hi : i = k + q := (Option.some.inj h).symm
      subst hi
      obtain ⟨h1, h2, h3⟩ := memmem_some m _ q hq
      simp only [List.length_drop, List.length_take] at h1
      have hin : k + q ≤ n := by omega
      refine ⟨by omega, hin, Or.inl ⟨by omega, ?_, ?_⟩⟩
      · exact (starts_with_occurs m b n k (k + q) hn (by omega) hin).mp
          (by rw [Nat.add_sub_cancel_left]; exact h2)
      · intro j hj hlt ho
        have h4 := (starts_with_occurs m b n k j hn hj (by omega)).mpr ho
        have h5 := h3 (j - k) (by omega)
        rw [h4] at h5; exact Bool.noConfusion h5
  · rw [if_neg hk] at h; exact Option.noConfusion h

/-! ### The span of `process_and_send` -/

theorem select_after_offset (text_after : Option (List Nat)) (p : List Nat) (a : Nat)
    (h : after_offset text_after p a) : select_after text_after p (p.length + 1) = some a := by
  cases text_after with
  | none =>
    have : a = 0 := h
    rw [this]; rfl
  | some marker =>
    unfold select_after
    simp only [Nat.add_sub_cancel]
    rcases h with ⟨i, hf, ha⟩ | ⟨hn, ha⟩
    · rw [find_string_first marker p p.length 0 i (Nat.le_refl _) hf]
      dsimp only
      have hle := hf.2.1.1
      by_cases hi : i < p.length
      · rw [if_pos hi, ha]
      · rw [if_neg hi, ha]
        have hm : marker.length = 0 := by omega
        have hi0 : i = 0 := by
          by_contra hne
          have h0 : 0 < i := Nat.pos_of_ne_zero hne
          apply hf.2.2 0 (Nat.le_refl _) h0
          unfold occurs_at
          refine ⟨by omega, ?_⟩
          rw [hm, List.take_zero]
          exact (List.length_eq_zero.mp hm).symm
        rw [hi0, hm]
    · rw [find_string_absent marker p p.length 0 (Nat.le_refl _) (Nat.zero_le _)
        (fun j _ => hn j)]
      dsimp only
      rw [if_neg (Nat.lt_irrefl _), ha]

theorem select_saved_max (save : Bool) (store label : List Nat) (a r : Nat)
    (hr : save = true → read_saved_position store label = some (MF_NO_ERROR, r))
    (h0 : save = false → r = 0) :
    select_saved save store label a = some (MF_NO_ERROR, max a r) := by
  unfold select_saved
  cases save with
  | false =>
    rw [h0 rfl]
    simp
  | true =>
    rw [if_pos rfl, hr rfl]
    dsimp only
    by_cases h : r > a
    · rw [if_pos h, Nat.max_eq_right (Nat.le_of_lt h)]
    · rw [if_neg h, Nat.max_eq_left (by omega)]

/-- C13: the start of the span is `max a r`, with `a` the offset just past
the first occurrence of the text-after marker (0 without marker or
occurrence) and `r` the saved position read from the store (0 when position
saving is off): `buffer_index` is `a` after the text-after block and
`max a r` after the saved-position block, and this is the start
`process_and_send` goes on with. For the buffer `This is a small buffer of
text.` and the marker `is` (first at 2, so `a` = 4), a saved position of 10
gives 10 and a saved position of 0 gives 4. -/
theorem select_start_max :
    (∀ (text_after : Option (List Nat)) (save : Bool) (store label p : List Nat) (a r : Nat),
      after_offset text_after p a →
      (save = true → read_saved_position store label = some (MF_NO_ERROR, r)) →
      (save = false → r = 0) →
      select_after text_after p (p.length + 1) = some a ∧
      select_saved save store label a = some (MF_NO_ERROR, max a r) ∧
      select_span text_after none save store label p (p.length + 1) =
        some (MF_NO_ERROR, max a r, p.length + 1) ∧
      ∀ (text_before : Option (List Nat)) (e : MorseFeedError) (s u : Nat),
        select_span text_after text_before save store label p (p.length + 1) = some (e, s, u) →
        e = MF_NO_ERROR ∧ s = max a r) ∧
    select_span (some (bytes "is")) none true (bytes "position\tf\t10\n") (bytes "f")
        (bytes "This is a small buffer of text.") 32 = some (MF_NO_ERROR, 10, 32) ∧
    select_span (some (bytes "is")) none true [] (bytes "f")
        (bytes "This is a small buffer of text.") 32 = some (MF_NO_ERROR, 4, 32) := by
  refine ⟨?_, by decide, by decide⟩
  intro text_after save store label p a r ha hr h0
  have h1 := select_after_offset text_after p a ha
  have h2 := select_saved_max save store label a r hr h0
  refine ⟨h1, h2, ?_, ?_⟩
  · unfold select_span
    rw [h1]
    dsimp only
    rw [h2]
    rfl
  · intro text_before e s u h
    unfold select_span at h
    rw [h1] at h
    dsimp only at h
    rw [h2] at h
    dsimp only at h
    rw [if_pos rfl] at h
    cases hb : select_before text_before p (p.length + 1) (max a r) with
    | none => rw [hb] at h; exact Option.noConfusion h
    | some u1 =>
      rw [hb] at h
      simp only [Option.some.injEq, Prod.mk.injEq] at h
      exact ⟨h.1.symm, h.2.1.symm⟩

theorem select_start_max_witness :
    select_after (some (bytes "is")) (bytes "This is a small buffer of text.")
        ((bytes "This is a small buffer of text.").length + 1) = some 4 ∧
    select_saved true (bytes "position\tf\t10\n") (bytes "f") 4 =
      some (MF_NO_ERROR, max 4 10) :=
  have h := select_start_max.1 (some (bytes "is")) true (bytes "position\tf\t10\n") (bytes "f")
    (bytes "This is a small buffer of text.") 4 10
    (Or.inl ⟨2, ⟨Nat.zero_le _, by decide, fun j _ hj => by
      have : j = 0 ∨ j = 1 := by omega
      rcases this with h | h <;> subst h <;> decide⟩, rfl⟩)
    (fun _ => by decide) (fun h => Bool.noConfusion h)
  ⟨h.1, h.2.1⟩

theorem select_before_found (marker p : List Nat) (b i : Nat)
    (h : first_occurrence marker p p.length b i) :
    select_before (some marker) p (p.length + 1) b = some (i + 1) := by
  unfold select_before
  simp only [Nat.add_sub_cancel]
  rw [find_string_first marker p p.length b i (Nat.le_refl _) h]
  dsimp only
  have hle := h.2.1.1
  by_cases hi : i < p.length
  · rw [if_pos hi]
  · rw [if_neg hi]
    have : i = p.length := by omega
    rw [this]

theorem select_before_absent (marker p : List Nat) (b : Nat) (hb : b ≤ p.length)
    (h : ∀ j, b ≤ j → ¬ occurs_at marker p p.length j) :
    select_before (some marker) p (p.length + 1) b = some (p.length + 1) := by
  unfold select_before
  simp only [Nat.add_sub_cancel]
  rw [find_string_absent marker p p.length b (Nat.le_refl _) hb h]
  dsimp only
  rw [if_neg (Nat.lt_irrefl _)]

/-- C14: with a text-before marker and a span start `b` inside the buffer,
the end of the span (`text_buffer.used - 1`) becomes the index of the first
occurrence of the marker at or after `b`, whatever stands before `b`; when
the marker does not occur at or after `b` the end stays the length of the
buffer; and a text-after marker that does not occur leaves the start at 0.
In `This is a small buffer of text.` with the start 4, the marker `is`
(also at 2) gives the end 5. -/
theorem select_before_first :
    (∀ (text_after : Option (List Nat)) (save : Bool) (store label marker p : List Nat)
        (b0 b : Nat),
      select_after text_after p (p.length + 1) = some b0 →
      select_saved save store label b0 = some (MF_NO_ERROR, b) →
      b ≤ p.length →
      (∀ i, first_occurrence marker p p.length b i →
        select_span text_after (some marker) save store label p (p.length + 1) =
          some (MF_NO_ERROR, b, i + 1)) ∧
      ((∀ j, b ≤ j → ¬ occurs_at marker p p.length j) →
        select_span text_after (some marker) save store label p (p.length + 1) =
          some (MF_NO_ERROR, b, p.length + 1))) ∧
    (∀ (marker p : List Nat), (∀ j, ¬ occurs_at marker p p.length j) →
      select_after (some marker) p (p.length + 1) = some 0) ∧
    select_span (some (bytes "This")) (some (bytes "is")) false [] []
        (bytes "This is a small buffer of text.") 32 = some (MF_NO_ERROR, 4, 6) := by
  refine ⟨?_, ?_, by decide⟩
  · intro text_after save store label marker p b0 b h1 h2 hb
    constructor
    · intro i hf
      unfold select_span
      rw [h1]
      dsimp only
      rw [h2]
      dsimp only
      rw [if_pos rfl, select_before_found marker p b i hf]
    · intro hn
      unfold select_span
      rw [h1]
      dsimp only
      rw [h2]
      dsimp only
      rw [if_pos rfl, select_before_absent marker p b hb hn]
  · intro marker p hn
    exact select_after_offset (some marker) p 0 (Or.inr ⟨hn, rfl⟩)

theorem select_before_first_witness :
    select_span (some (bytes "a")) (some (bytes "b")) false [] [] (bytes "babab")
        ((bytes "babab").length + 1) = some (MF_NO_ERROR, 2, 2 + 1) :=
  (select_before_first.1 (some (bytes "a")) false [] [] (bytes "b") (bytes "babab") 2 2
    (by decide) (by decide) (by decide)).1 2
    ⟨Nat.le_refl _, by decide, fun j h1 h2 => absurd h2 (by omega)⟩

/-- C15, the code at the failing input: the buffer `abc` (3 bytes) and a
store with the record `position`, `f`, `10`. With position saving on and no
markers the span starts at 10 and ends at 3; `fbgets` then returns an empty
line and leaves the index at 10, on every call; with a text-before marker
`find_string` searches outside the buffer. When the saved position is at
most the length of the buffer, the span has start ≤ end ≤ length. -/
theorem select_span_saved_beyond :
    select_span none none true (bytes "position\tf\t10\n") (bytes "f") (bytes "abc") 4 =
      some (MF_NO_ERROR, 10, 4) ∧
    fbgets LINE_SIZE (bytes "abc") (4 - 1) 10 = some ([], 10) ∧
    select_span none (some (bytes "c")) true (bytes "position\tf\t10\n") (bytes "f")
      (bytes "abc") 4 = none ∧
    (∀ (text_after text_before : Option (List Nat)) (save : Bool) (store label p : List Nat)
        (e : MorseFeedError) (s u r : Nat),
      (save = true → read_saved_position store label = some (MF_NO_ERROR, r)) →
      (save = false → r = 0) → r ≤ p.length →
      select_span text_after text_before save store label p (p.length + 1) = some (e, s, u) →
      s ≤ u - 1 ∧ u - 1 ≤ p.length) := by
  refine ⟨by decide, by decide, by decide, ?_⟩
  intro text_after text_before save store label p e s u r hr h0 hrl h
  unfold select_span at h
  cases ha : select_after text_after p (p.length + 1) with
  | none => rw [ha] at h; exact Option.noConfusion h
  | some a =>
    rw [ha] at h
    dsimp only at h
    rw [select_saved_max save store label a r hr h0] at h
    dsimp only at h
    rw [if_pos rfl] at h
    -- the text-after block stays inside the buffer
    have hal : a ≤ p.length := by
      cases text_after with
      | none =>
        have : a = 0 := (Option.some.inj ha).symm
        omega
      | some marker =>
        unfold select_after at ha
        simp only [Nat.add_sub_cancel] at ha
        cases hq : find_string marker p p.length 0 with
        | none => rw [hq] at ha; exact Option.noConfusion ha
        | some q =>
          rw [hq] at ha
          dsimp only at ha
          obtain ⟨_, _, hres⟩ := find_string_result marker p p.length 0 q (Nat.le_refl _) hq
          by_cases hlt : q < p.length
          · rw [if_pos hlt] at ha
            rcases hres with hf | hf
            · have := hf.2.1.1
              have : a = q + marker.length := (Option.some.inj ha).symm
              omega
            · omega
          · rw [if_neg hlt] at ha
            have : a = 0 := (Option.some.inj ha).symm
            omega
    have hsl : max a r ≤ p.length := Nat.max_le.mpr ⟨hal, hrl⟩
    cases text_before with
    | none =>
      simp only [select_before, Option.some.injEq, Prod.mk.injEq] at h
      obtain ⟨_, h2, h3⟩ := h
      subst h2 h3
      simp only [Nat.add_sub_cancel]
      exact ⟨hsl, Nat.le_refl _⟩
    | some marker =>
      unfold select_before at h
      simp only [Nat.add_sub_cancel] at h
      cases hq : find_string marker p p.length (max a r) with
      | none =>
        rw [hq] at h; exact Option.noConfusion h
      | some q =>
        rw [hq] at h
        dsimp only at h
        obtain ⟨h1, h2, _⟩ := find_string_result marker p p.length _ q (Nat.le_refl _) hq
        by_cases hlt : q < p.length
        · rw [if_pos hlt] at h
          simp only [Option.some.injEq, Prod.mk.injEq] at h
          obtain ⟨_, h3, h4⟩ := h
          subst h3 h4
          simp only [Nat.add_sub_cancel]
          exact ⟨h1, h2⟩
        · rw [if_neg hlt] at h
          simp only [Option.some.injEq, Prod.mk.injEq] at h
          obtain ⟨_, h3, h4⟩ := h
          subst h3 h4
          simp only [Nat.add_sub_cancel]
          exact ⟨hsl, Nat.le_refl _⟩

/-! ### Links -/

theorem not_http_of_slash (h : List Nat) (hs : h.head? = some 0x2F) :
    starts_with h HTTP_PREFIX = false ∧ starts_with h HTTPS_PREFIX = false := by
  cases h with
  | nil => simp at hs
  | cons c h =>
    simp only [List.head?_cons, Option.some.injEq] at hs
    subst hs
    constructor <;> rfl

theorem link_url_root (b h : List Nat) (slash_at : Nat) (hsize : b.length + 1 + h.length ≤ 1023)
    (hs : h.head? = some 0x2F)
    (hfind : (match find_string (bytes "//") b b.length 0 with
      | none => none
      | some i => if i + 2 < b.length then find_string (bytes "/") b b.length (i + 2)
          else some i) = some slash_at) :
    link_url b h = some (some ((if slash_at < b.length then b.take slash_at else b) ++ h)) := by
  obtain ⟨h1, h2⟩ := not_http_of_slash h hs
  unfold link_url
  have hsz : ¬ (b.length + 1 + h.length > URL_SIZE - 1) := by
    simp only [URL_SIZE]; omega
  have hf1 : ¬ (false = true) := Bool.noConfusion
  rw [h1, h2, if_neg hf1, if_neg hf1, if_neg hsz, if_pos hs]
  cases hq : find_string (bytes "//") b b.length 0 with
  | none => rw [hq] at hfind; exact Option.noConfusion hfind
  | some i =>
    rw [hq] at hfind
    dsimp only at hfind ⊢
    rw [hfind]

/-- C16: the URL stored for an href `h` found in the page of `b`. An `h`
that starts with `http://` or `https://` is stored unchanged. Otherwise, for
`len(b) + 1 + len(h) <= 1023`: if `h` starts with `/` and `b` has its first
`//` at `i`, followed by at least one byte, the URL is `b` cut at the first
`/` at or after `i + 2` (all of `b` when there is none), followed by `h`;
if `h` does not start with `/` and `b` is not empty, it is `b`, then `/`
unless `b` ends in `/`, then `h`. A `b` without `//` is not cut, and a `b`
whose first `//` is its end is cut at that `//`. In the page of
`https://example.com/x/y`, `/a/b` gives `https://example.com/a/b` and `c`
gives `https://example.com/x/y/c`. -/
theorem link_url_resolve :
    (∀ b h : List Nat, starts_with h HTTP_PREFIX = true ∨ starts_with h HTTPS_PREFIX = true →
      link_url b h = some (some h)) ∧
    (∀ (b h : List Nat) (i : Nat), b.length + 1 + h.length ≤ 1023 → h.head? = some 0x2F →
      first_occurrence (bytes "//") b b.length 0 i → i + 2 < b.length →
      (∀ j, first_occurrence (bytes "/") b b.length (i + 2) j →
        link_url b h = some (some (b.take j ++ h))) ∧
      ((∀ j, i + 2 ≤ j → ¬ occurs_at (bytes "/") b b.length j) →
        link_url b h = some (some (b ++ h)))) ∧
    (∀ (b h : List Nat), b.length + 1 + h.length ≤ 1023 →
      starts_with h HTTP_PREFIX = false → starts_with h HTTPS_PREFIX = false →
      h.head? ≠ some 0x2F → b ≠ [] →
      link_url b h =
        some (some (b ++ (if b.getLast? = some 0x2F then [] else [0x2F]) ++ h))) ∧
    (∀ (b h : List Nat), b.length + 1 + h.length ≤ 1023 → h.head? = some 0x2F →
      ((∀ j, ¬ occurs_at (bytes "//") b b.length j) → link_url b h = some (some (b ++ h))) ∧
      (∀ i, first_occurrence (bytes "//") b b.length 0 i → i + 2 = b.length →
        link_url b h = some (some (b.take i ++ h)))) ∧
    (extract_urls 3 (bytes "https://example.com/x/y")
        (bytes "<a href=\"/a/b\">A</a> <a href=\"c\">C</a>") 0 38).map (fun s => s.urls) =
      some [bytes "https://example.com/a/b", bytes "https://example.com/x/y/c"] := by
  refine ⟨?_, ?_, ?_, ?_, by decide⟩
  · intro b h hp
    unfold link_url
    rcases hp with hp | hp
    · rw [if_pos hp]
    · by_cases h1 : starts_with h HTTP_PREFIX = true
      · rw [if_pos h1]
      · rw [if_neg h1, if_pos hp]
  · intro b h i hsize hs hf hi
    have h1 := find_string_first (bytes "//") b b.length 0 i (Nat.le_refl _) hf
    constructor
    · intro j hj
      have h2 := find_string_first (bytes "/") b b.length (i + 2) j (Nat.le_refl _) hj
      have hjl : j < b.length := by
        have := hj.2.1.1
        simp only [bytes] at this
        simp at this
        omega
      have := link_url_root b h j hsize hs (by rw [h1]; dsimp only; rw [if_pos hi, h2])
      rw [if_pos hjl] at this
      exact this
    · intro hn
      have h2 := find_string_absent (bytes "/") b b.length (i + 2) (Nat.le_refl _)
        (by omega) hn
      have := link_url_root b h b.length hsize hs (by rw [h1]; dsimp only; rw [if_pos hi, h2])
      rw [if_neg (Nat.lt_irrefl _)] at this
      exact this
  · intro b h hsize h1 h2 hs hb
    unfold link_url
    have hsz : ¬ (b.length + 1 + h.length > URL_SIZE - 1) := by
      simp only [URL_SIZE]; omega
    have hf1 : ¬ (false = true) := Bool.noConfusion
    rw [h1, h2, if_neg hf1, if_neg hf1, if_neg hsz, if_neg hs, if_neg hb]
    by_cases hl : b.getLast? = some 0x2F
    · simp [hl]
    · simp [hl]
  · intro b h hsize hs
    constructor
    · intro hn
      have h1 := find_string_absent (bytes "//") b b.length 0 (Nat.le_refl _)
        (Nat.zero_le _) (fun j _ => hn j)
      have := link_url_root b h b.length hsize hs
        (by rw [h1]; dsimp only; rw [if_neg (by omega)])
      rw [if_neg (Nat.lt_irrefl _)] at this
      exact this
    · intro i hf hi
      have h1 := find_string_first (bytes "//") b b.length 0 i (Nat.le_refl _) hf
      have := link_url_root b h i hsize hs
        (by rw [h1]; dsimp only; rw [if_neg (by omega)])
      rw [if_pos (by omega)] at this
      exact this

theorem link_url_resolve_witness :
    link_url (bytes "https://example.com/x/y") (bytes "/a/b") =
      some (some ((bytes "https://example.com/x/y").take 19 ++ bytes "/a/b")) :=
  (link_url_resolve.2.1 (bytes "https://example.com/x/y") (bytes "/a/b") 6 (by decide)
    (by decide)
    ⟨Nat.zero_le _, by decide, fun j _ hj => by
      have : j = 0 ∨ j = 1 ∨ j = 2 ∨ j = 3 ∨ j = 4 ∨ j = 5 := by omega
      rcases this with h | h | h | h | h | h <;> subst h <;> decide⟩
    (by decide)).1 19
    ⟨by decide, by decide, fun j h1 h2 => by
      have : j = 8 ∨ j = 9 ∨ j = 10 ∨ j = 11 ∨ j = 12 ∨ j = 13 ∨ j = 14 ∨ j = 15 ∨ j = 16 ∨
          j = 17 ∨ j = 18 := by omega
      rcases this with h | h | h | h | h | h | h | h | h | h | h <;> subst h <;> decide⟩

theorem find_string_bounds (m b : List Nat) (n k i : Nat)
    (h : find_string m b n k = some i) : k ≤ i ∧ i ≤ n := by
  unfold find_string at h
  by_cases hk : k ≤ n
  · rw [if_pos hk] at h
    cases hq : memmem ((b.take n).drop k) m with
    | none =>
      rw [hq] at h
      have hi : i = n := (Option.some.inj h).symm
      omega
    | some q =>
      rw [hq] at h
      have hi : i = k + q := (Option.some.inj h).symm
      obtain ⟨h1, _, _⟩ := memmem_some m _ q hq
      simp only [List.length_drop, List.length_take] at h1
      omega
  · rw [if_neg hk] at h; exact Option.noConfusion h

/-- One round of the loop of `extract_urls`: the search position does not
go back; either nothing is pushed, or one URL and one title are pushed, for
an anchor that lies at or after the old search position and before the new
one, and the title is empty when no `</a>` stands at or after the anchor. -/
theorem extract_urls_step_spec (base_url str : List Nat) (end_index : Nat)
    (hn : end_index ≤ str.length) (s s1 : Links)
    (h : extract_urls_step base_url str end_index s = some s1) :
    s.found_at ≤ s1.found_at ∧
    ((s1.urls = s.urls ∧ s1.titles = s.titles ∧ s1.anchors = s.anchors ∧
        (s.found_at < s1.found_at ∨ end_index ≤ s1.found_at ∨
          (s1.found_at = s.found_at ∧ s.found_at + BEGIN_URL.length = end_index ∧
            occurs_at BEGIN_URL str end_index s.found_at))) ∨
      ∃ u t a, s1.urls = s.urls ++ [u] ∧ s1.titles = s.titles ++ [t] ∧
        s1.anchors = s.anchors ++ [a] ∧ s.found_at ≤ a ∧ a < s1.found_at ∧
        occurs_at BEGIN_URL str end_index a ∧
        ((∀ j, a ≤ j → ¬ occurs_at END_TITLE str end_index j) → t = [])) := by
  unfold extract_urls_step at h
  cases hq1 : find_string BEGIN_URL str end_index s.found_at with
  | none => rw [hq1] at h; exact Option.noConfusion h
  | some anchor =>
    rw [hq1] at h
    dsimp only at h
    obtain ⟨ha1, ha2, ha3⟩ := find_string_result BEGIN_URL str end_index _ anchor hn hq1
    generalize hq2 : (if anchor + BEGIN_URL.length < end_index then
        find_string END_URL str end_index (anchor + BEGIN_URL.length)
      else some anchor) = r2 at h
    cases r2 with
    | none => exact Option.noConfusion h
    | some f2 =>
      dsimp only at h
      have hf2 : anchor ≤ f2 ∧ (anchor + BEGIN_URL.length < f2 →
          anchor + BEGIN_URL.length < end_index) ∧
          (s.found_at < f2 ∨ end_index ≤ f2 ∨
            (f2 = s.found_at ∧ s.found_at + BEGIN_URL.length = end_index ∧
              occurs_at BEGIN_URL str end_index s.found_at)) := by
        by_cases hc : anchor + BEGIN_URL.length < end_index
        · rw [if_pos hc] at hq2
          have := find_string_bounds _ _ _ _ _ hq2
          have hlen : BEGIN_URL.length = 9 := rfl
          exact ⟨by omega, fun _ => hc, Or.inl (by omega)⟩
        · rw [if_neg hc] at hq2
          have : f2 = anchor := (Option.some.inj hq2).symm
          refine ⟨by omega, fun hlt => by omega, ?_⟩
          rcases ha3 with hf | hf
          · rcases Nat.lt_or_ge s.found_at anchor with hlt | hge
            · exact Or.inl (by omega)
            · have heq : anchor = s.found_at := by omega
              have ho := hf.2.1
              have := ho.1
              rw [heq] at ho
              exact Or.inr (Or.inr ⟨by omega, by omega, ho⟩)
          · exact Or.inr (Or.inl (by omega))
      generalize hq3 : (if anchor + BEGIN_URL.length < f2 ∧
          f2 - (anchor + BEGIN_URL.length) < URL_SIZE ∧ f2 < end_index then
          link_url base_url (cstr ((str.drop (anchor + BEGIN_URL.length)).take
            (f2 - (anchor + BEGIN_URL.length))))
        else some none) = r3 at h
      cases r3 with
      | none => exact Option.noConfusion h
      | some o =>
        cases o with
        | none =>
          dsimp only at h
          have := Option.some.inj h
          subst this
          exact ⟨by dsimp only; omega, Or.inl ⟨rfl, rfl, rfl, hf2.2.2⟩⟩
        | some url =>
          dsimp only at h
          have hc : anchor + BEGIN_URL.length < f2 ∧
              f2 - (anchor + BEGIN_URL.length) < URL_SIZE ∧ f2 < end_index := by
            by_contra hc
            rw [if_neg hc] at hq3
            exact Option.noConfusion (Option.some.inj hq3)
          cases hq4 : find_string BEGIN_TITLE str end_index f2 with
          | none => rw [hq4] at h; exact Option.noConfusion h
          | some t1 =>
            rw [hq4] at h
            dsimp only at h
            have ht1 := find_string_bounds _ _ _ _ _ hq4
            generalize hq5 : (if t1 + BEGIN_TITLE.length < end_index then
                find_string END_TITLE str end_index (t1 + BEGIN_TITLE.length)
              else some t1) = r5 at h
            cases r5 with
            | none => exact Option.noConfusion h
            | some f3 =>
              dsimp only at h
              have := Option.some.inj h
              subst this
              have hocc : occurs_at BEGIN_URL str end_index anchor := by
                rcases ha3 with hf | hf
                · exact hf.2.1
                · omega
              have hf3 : t1 ≤ f3 := by
                by_cases hc5 : t1 + BEGIN_TITLE.length < end_index
                · rw [if_pos hc5] at hq5
                  have := find_string_bounds _ _ _ _ _ hq5
                  omega
                · rw [if_neg hc5] at hq5
                  have : f3 = t1 := (Option.some.inj hq5).symm
                  omega
              refine ⟨by dsimp only; omega, Or.inr ⟨url, _, anchor, rfl, rfl, rfl, ha1,
                by dsimp only; omega, hocc, ?_⟩⟩
              intro hno
              by_cases hc6 : t1 + BEGIN_TITLE.length < f3 ∧ f3 < end_index
              · exfalso
                by_cases hc5 : t1 + BEGIN_TITLE.length < end_index
                · rw [if_pos hc5] at hq5
                  obtain ⟨_, _, hres⟩ :=
                    find_string_result END_TITLE str end_index _ f3 hn hq5
                  rcases hres with hf | hf
                  · exact hno f3 (by omega) hf.2.1
                  · omega
                · rw [if_neg hc5] at hq5
                  have : f3 = t1 := (Option.some.inj hq5).symm
                  omega
              · rw [if_neg hc6]

theorem extract_urls_step_inv (base_url str : List Nat) (start_index end_index : Nat)
    (hn : end_index ≤ str.length) (s s1 : Links)
    (h : extract_urls_step base_url str end_index s = some s1)
    (hi : links_inv str start_index end_index s) : links_inv str start_index end_index s1 := by
  obtain ⟨h1, h2, h3, h4, h5⟩ := hi
  obtain ⟨hm, hc⟩ := extract_urls_step_spec base_url str end_index hn s s1 h
  rcases hc with ⟨e1, e2, e3, _⟩ | ⟨u, t, a, e1, e2, e3, ha1, ha2, ha3, _⟩
  · refine ⟨by rw [e1, e2]; exact h1, by rw [e1, e3]; exact h2, by rw [e3]; exact h3, ?_,
      by omega⟩
    intro a ha
    rw [e3] at ha
    obtain ⟨g1, g2, g3⟩ := h4 a ha
    exact ⟨g1, by omega, g3⟩
  · refine ⟨by rw [e1, e2]; simp [h1], by rw [e1, e3]; simp [h2], ?_, ?_, by omega⟩
    · rw [e3, List.pairwise_append]
      refine ⟨h3, List.pairwise_singleton _ _, ?_⟩
      intro x hx y hy
      rw [List.mem_singleton] at hy
      subst hy
      have := (h4 x hx).2.1
      omega
    · intro x hx
      rw [e3, List.mem_append, List.mem_singleton] at hx
      rcases hx with hx | hx
      · obtain ⟨g1, g2, g3⟩ := h4 x hx
        exact ⟨g1, by omega, g3⟩
      · subst hx
        exact ⟨by omega, ha2, ha3⟩

theorem extract_urls_loop_inv (base_url str : List Nat) (start_index end_index : Nat)
    (hn : end_index ≤ str.length) :
    ∀ (fuel : Nat) (s s1 : Links), extract_urls_loop base_url str end_index fuel s = some s1 →
      links_inv str start_index end_index s → links_inv str start_index end_index s1 := by
  intro fuel
  induction fuel with
  | zero => intro s s1 h _; exact Option.noConfusion h
  | succ fuel ih =>
    intro s s1 h hi
    unfold extract_urls_loop at h
    cases hq : extract_urls_step base_url str end_index s with
    | none => rw [hq] at h; exact Option.noConfusion h
    | some s2 =>
      rw [hq] at h
      dsimp only at h
      have hi2 := extract_urls_step_inv base_url str start_index end_index hn s s2 hq hi
      by_cases hc : s2.found_at < end_index
      · rw [if_pos hc] at h
        exact ih s2 s1 h hi2
      · rw [if_neg hc] at h
        rw [← Option.some.inj h]
        exact hi2

/-- One round of the loop of `extract_urls` pushes nothing, or the URL and
the title of one anchor. -/
theorem extract_urls_step_tied (base_url str : List Nat) (end_index : Nat)
    (hn : end_index ≤ str.length) (s s1 : Links)
    (h : extract_urls_step base_url str end_index s = some s1) :
    (s1.urls = s.urls ∧ s1.titles = s.titles ∧ s1.anchors = s.anchors) ∨
      ∃ u t a, s1.urls = s.urls ++ [u] ∧ s1.titles = s.titles ++ [t] ∧
        s1.anchors = s.anchors ++ [a] ∧
        url_of_anchor base_url str end_index a u ∧ title_of_anchor str end_index a t := by
  unfold extract_urls_step at h
  cases hq1 : find_string BEGIN_URL str end_index s.found_at with
  | none => rw [hq1] at h; exact Option.noConfusion h
  | some anchor =>
    rw [hq1] at h
    dsimp only at h
    obtain ⟨ha1, ha2, ha3⟩ := find_string_result BEGIN_URL str end_index _ anchor hn hq1
    generalize hq2 : (if anchor + BEGIN_URL.length < end_index then
        find_string END_URL str end_index (anchor + BEGIN_URL.length)
      else some anchor) = r2 at h
    cases r2 with
    | none => exact Option.noConfusion h
    | some f2 =>
      dsimp only at h
      generalize hq3 : (if anchor + BEGIN_URL.length < f2 ∧
          f2 - (anchor + BEGIN_URL.length) < URL_SIZE ∧ f2 < end_index then
          link_url base_url (cstr ((str.drop (anchor + BEGIN_URL.length)).take
            (f2 - (anchor + BEGIN_URL.length))))
        else some none) = r3 at h
      cases r3 with
      | none => exact Option.noConfusion h
      | some o =>
        cases o with
        | none =>
          dsimp only at h
          have := Option.some.inj h
          subst this
          exact Or.inl ⟨rfl, rfl, rfl⟩
        | some url =>
          dsimp only at h
          have hc : anchor + BEGIN_URL.length < f2 ∧
              f2 - (anchor + BEGIN_URL.length) < URL_SIZE ∧ f2 < end_index := by
            by_contra hc
            rw [if_neg hc] at hq3
            exact Option.noConfusion (Option.some.inj hq3)
          rw [if_pos hc] at hq3
          have hoff : anchor + BEGIN_URL.length < end_index := by omega
          rw [if_pos hoff] at hq2
          have hq : first_occurrence END_URL str end_index (anchor + BEGIN_URL.length) f2 := by
            obtain ⟨_, _, hres⟩ := find_string_result END_URL str end_index _ f2 hn hq2
            rcases hres with hf | hf
            · exact hf
            · omega
          have hocc : occurs_at BEGIN_URL str end_index anchor := by
            rcases ha3 with hf | hf
            · exact hf.2.1
            · omega
          cases hq4 : find_string BEGIN_TITLE str end_index f2 with
          | none => rw [hq4] at h; exact Option.noConfusion h
          | some t1 =>
            rw [hq4] at h
            dsimp only at h
            generalize hq5 : (if t1 + BEGIN_TITLE.length < end_index then
                find_string END_TITLE str end_index (t1 + BEGIN_TITLE.length)
              else some t1) = r5 at h
            cases r5 with
            | none => exact Option.noConfusion h
            | some f3 =>
              dsimp only at h
              have := Option.some.inj h
              subst this
              have hlt : BEGIN_TITLE.length = 1 := rfl
              have hle : END_TITLE.length = 4 := rfl
              refine Or.inr ⟨url, _, anchor, rfl, rfl, rfl, ⟨hocc, f2, hq, hc.1, hc.2.1, hq3⟩,
                f2, hq, ?_, ?_⟩
              · intro g e hg he
                have hg1 := find_string_first BEGIN_TITLE str end_index f2 g hn hg
                rw [hq4] at hg1
                have hg2 : t1 = g := Option.some.inj hg1
                subst hg2
                have he1 := he.2.1.1
                have he2 := he.1
                have hc5 : t1 + BEGIN_TITLE.length < end_index := by omega
                rw [if_pos hc5] at hq5
                have he3 := find_string_first END_TITLE str end_index _ e hn he
                rw [hq5] at he3
                have he4 : f3 = e := Option.some.inj he3
                subst he4
                by_cases hlt2 : t1 + BEGIN_TITLE.length < f3
                · rw [if_pos ⟨hlt2, by omega⟩, if_pos hlt2]
                · rw [if_neg (fun hh => hlt2 hh.1), if_neg hlt2]
              · intro hno
                by_cases hc6 : t1 + BEGIN_TITLE.length < f3 ∧ f3 < end_index
                · exfalso
                  have hc5 : t1 + BEGIN_TITLE.length < end_index := by omega
                  rw [if_pos hc5] at hq5
                  obtain ⟨_, _, hres⟩ := find_string_result BEGIN_TITLE str end_index _ t1 hn hq4
                  have ht1 : first_occurrence BEGIN_TITLE str end_index f2 t1 := by
                    rcases hres with hf | hf
                    · exact hf
                    · omega
                  obtain ⟨_, _, hres5⟩ :=
                    find_string_result END_TITLE str end_index _ f3 hn hq5
                  rcases hres5 with hf | hf
                  · exact hno t1 ht1 f3 hf.1 hf.2.1
                  · omega
                · rw [if_neg hc6]

theorem extract_urls_loop_tied (base_url str : List Nat) (end_index : Nat)
    (hn : end_index ≤ str.length) :
    ∀ (fuel : Nat) (s s1 : Links), extract_urls_loop base_url str end_index fuel s = some s1 →
      List.Forall₂ (url_of_anchor base_url str end_index) s.anchors s.urls →
      List.Forall₂ (title_of_anchor str end_index) s.anchors s.titles →
      List.Forall₂ (url_of_anchor base_url str end_index) s1.anchors s1.urls ∧
        List.Forall₂ (title_of_anchor str end_index) s1.anchors s1.titles := by
  intro fuel
  induction fuel with
  | zero => intro s s1 h _ _; exact Option.noConfusion h
  | succ fuel ih =>
    intro s s1 h hu ht
    unfold extract_urls_loop at h
    cases hq : extract_urls_step base_url str end_index s with
    | none => rw [hq] at h; exact Option.noConfusion h
    | some s2 =>
      rw [hq] at h
      dsimp only at h
      have h2 : List.Forall₂ (url_of_anchor base_url str end_index) s2.anchors s2.urls ∧
          List.Forall₂ (title_of_anchor str end_index) s2.anchors s2.titles := by
        rcases extract_urls_step_tied base_url str end_index hn s s2 hq with
          ⟨e1, e2, e3⟩ | ⟨u, t, a, e1, e2, e3, hu1, ht1⟩
        · rw [e1, e2, e3]
          exact ⟨hu, ht⟩
        · rw [e1, e2, e3]
          exact ⟨List.rel_append hu (List.Forall₂.cons hu1 List.Forall₂.nil),
            List.rel_append ht (List.Forall₂.cons ht1 List.Forall₂.nil)⟩
      by_cases hc : s2.found_at < end_index
      · rw [if_pos hc] at h
        exact ih s2 s1 h h2.1 h2.2
      · rw [if_neg hc] at h
        rw [← Option.some.inj h]
        exact h2

theorem first_occurrence_unique (m b : List Nat) (n k i j : Nat)
    (hi : first_occurrence m b n k i) (hj : first_occurrence m b n k j) : i = j := by
  rcases Nat.lt_trichotomy i j with h | h | h
  · exact absurd hi.2.1 (hj.2.2 i hi.1 h)
  · exact h
  · exact absurd hj.2.1 (hi.2.2 j hj.1 h)

theorem first_occurrence_of_occurs (m b : List Nat) (n k j : Nat) (hk : k ≤ j)
    (hj : occurs_at m b n j) : ∃ i, first_occurrence m b n k i := by
  have hex : ∃ i, k ≤ i ∧ occurs_at m b n i := ⟨j, hk, hj⟩
  refine ⟨Nat.find hex, (Nat.find_spec hex).1, (Nat.find_spec hex).2, ?_⟩
  intro x hx hlt ho
  exact Nat.find_min hex hlt ⟨hx, ho⟩

theorem url_of_anchor_unique (base_url str : List Nat) (end_index a : Nat) (u v : List Nat)
    (hu : url_of_anchor base_url str end_index a u)
    (hv : url_of_anchor base_url str end_index a v) : u = v := by
  obtain ⟨_, q, hq, _, _, e1⟩ := hu
  obtain ⟨_, r, hr, _, _, e2⟩ := hv
  have := first_occurrence_unique _ _ _ _ _ _ hq hr
  subst this
  rw [e1] at e2
  exact Option.some.inj (Option.some.inj e2)

theorem title_of_anchor_unique (str : List Nat) (end_index a : Nat) (t v : List Nat)
    (ht : title_of_anchor str end_index a t) (hv : title_of_anchor str end_index a v) :
    t = v := by
  obtain ⟨q, hq, t1, t2⟩ := ht
  obtain ⟨r, hr, v1, v2⟩ := hv
  have := first_occurrence_unique _ _ _ _ _ _ hq hr
  subst this
  by_cases hex : ∃ g e, first_occurrence BEGIN_TITLE str end_index q g ∧
      first_occurrence END_TITLE str end_index (g + BEGIN_TITLE.length) e
  · obtain ⟨g, e, hg, he⟩ := hex
    rw [t1 g e hg he, v1 g e hg he]
  · have hno : ∀ g, first_occurrence BEGIN_TITLE str end_index q g →
        ∀ j, g + BEGIN_TITLE.length ≤ j → ¬ occurs_at END_TITLE str end_index j := by
      intro g hg j hj ho
      obtain ⟨e, he⟩ := first_occurrence_of_occurs END_TITLE str end_index _ j hj ho
      exact hex ⟨g, e, hg, he⟩
    rw [t2 hno, v2 hno]

theorem extract_urls_example_eval :
    extract_urls 3 (bytes "https://example.com/x/y")
        (bytes "<a href=\"/a/b\">A</a> <a href=\"c\">C</a>") 0 38 =
      some { found_at := 38
             urls := [bytes "https://example.com/a/b", bytes "https://example.com/x/y/c"]
             titles := [bytes "A", bytes "C"]
             anchors := [0, 21] } := by
  decide

/-- C17: whenever `extract_urls` returns (on a span inside the buffer), the
URL list and the title list have the same length, and the URLs are in the
order of their anchors: there are places `a_0 < a_1 < ...` at or after the
start of the span, as many as URLs, at each of which `<a href="` stands,
and for every `i` the `i`-th URL is the URL of the anchor at `a_i` (what
`link_url` makes of the href between that `<a href="` and the first `"`
after it) and the `i`-th title is the title of that anchor (the text between
the first `>` after the href and the first `</a>` after it, cut to 127
bytes, empty when one of them is missing before the end of the span). An
anchor has one URL and one title at most, so the places determine both
lists. In every round of the loop either nothing is pushed (this is what
happens to an oversized URL), or the URL and the title of one anchor, which
lies at or after the old search position and before the new one; the title
is empty when no `</a>` stands at or after the anchor before the end of the
span. On the span `<a href="/a/b">A</a> <a href="c">C</a>` with the base
`https://example.com/x/y` the URLs are `https://example.com/a/b` and
`https://example.com/x/y/c`, the titles `A` and `C`, the anchors 0 and 21. -/
theorem extract_urls_parallel :
    (∀ (fuel : Nat) (base_url str : List Nat) (start_index end_index : Nat) (s : Links),
      end_index ≤ str.length →
      extract_urls fuel base_url str start_index end_index = some s →
      s.urls.length = s.titles.length ∧ s.anchors.length = s.urls.length ∧
      s.anchors.Pairwise (fun a b => a < b) ∧
      (∀ a ∈ s.anchors, start_index ≤ a ∧ occurs_at BEGIN_URL str end_index a) ∧
      List.Forall₂ (url_of_anchor base_url str end_index) s.anchors s.urls ∧
      List.Forall₂ (title_of_anchor str end_index) s.anchors s.titles) ∧
    (∀ (base_url str : List Nat) (end_index a : Nat) (u v : List Nat),
      url_of_anchor base_url str end_index a u → url_of_anchor base_url str end_index a v →
      u = v) ∧
    (∀ (str : List Nat) (end_index a : Nat) (t v : List Nat),
      title_of_anchor str end_index a t → title_of_anchor str end_index a v → t = v) ∧
    (∀ (base_url str : List Nat) (end_index : Nat) (s s1 : Links),
      end_index ≤ str.length → extract_urls_step base_url str end_index s = some s1 →
      (s1.urls = s.urls ∧ s1.titles = s.titles ∧ s1.anchors = s.anchors) ∨
      ∃ u t a, s1.urls = s.urls ++ [u] ∧ s1.titles = s.titles ++ [t] ∧
        s1.anchors = s.anchors ++ [a] ∧ s.found_at ≤ a ∧ a < s1.found_at ∧
        url_of_anchor base_url str end_index a u ∧ title_of_anchor str end_index a t ∧
        ((∀ j, a ≤ j → ¬ occurs_at END_TITLE str end_index j) → t = [])) ∧
    extract_urls 3 (bytes "https://example.com/x/y")
        (bytes "<a href=\"/a/b\">A</a> <a href=\"c\">C</a>") 0 38 =
      some { found_at := 38
             urls := [bytes "https://example.com/a/b", bytes "https://example.com/x/y/c"]
             titles := [bytes "A", bytes "C"]
             anchors := [0, 21] } := by
  refine ⟨?_, url_of_anchor_unique, title_of_anchor_unique, ?_, extract_urls_example_eval⟩
  · intro fuel base_url str start_index end_index s hn h
    have hinv := extract_urls_loop_inv base_url str start_index end_index hn fuel _ s h
      ⟨rfl, rfl, List.Pairwise.nil, fun a ha => absurd ha (List.not_mem_nil _), Nat.le_refl _⟩
    have htied := extract_urls_loop_tied base_url str end_index hn fuel _ s h
      List.Forall₂.nil List.Forall₂.nil
    obtain ⟨h1, h2, h3, h4, _⟩ := hinv
    exact ⟨h1, h2, h3, fun a ha => ⟨(h4 a ha).1, (h4 a ha).2.2⟩, htied.1, htied.2⟩
  · intro base_url str end_index s s1 hn h
    obtain ⟨_, hc⟩ := extract_urls_step_spec base_url str end_index hn s s1 h
    rcases hc with ⟨e1, e2, e3, _⟩ | ⟨u, t, a, e1, e2, e3, ha1, ha2, _, ha4⟩
    · exact Or.inl ⟨e1, e2, e3⟩
    · rcases extract_urls_step_tied base_url str end_index hn s s1 h with
        ⟨f1, _, _⟩ | ⟨u1, t1, a1, f1, f2, f3, hu1, ht1⟩
      · exfalso
        have := congrArg List.length (e1.symm.trans f1)
        simp at this
      · have hu : u1 = u := by
          have := (f1.symm.trans e1)
          exact List.singleton_inj.mp (List.append_cancel_left this)
        have ht : t1 = t := by
          have := (f2.symm.trans e2)
          exact List.singleton_inj.mp (List.append_cancel_left this)
        have ha : a1 = a := by
          have := (f3.symm.trans e3)
          exact List.singleton_inj.mp (List.append_cancel_left this)
        subst hu ht ha
        exact Or.inr ⟨u1, t1, a1, e1, e2, e3, ha1, ha2, hu1, ht1, ha4⟩

theorem extract_urls_parallel_witness :
    [bytes "https://example.com/a/b", bytes "https://example.com/x/y/c"].length =
      [bytes "A", bytes "C"].length ∧
    [0, 21].length = [bytes "https://example.com/a/b", bytes "https://example.com/x/y/c"].length ∧
    [0, 21].Pairwise (fun a b => a < b) ∧
    (∀ a ∈ [0, 21], 0 ≤ a ∧
      occurs_at BEGIN_URL (bytes "<a href=\"/a/b\">A</a> <a href=\"c\">C</a>") 38 a) ∧
    List.Forall₂ (url_of_anchor (bytes "https://example.com/x/y")
        (bytes "<a href=\"/a/b\">A</a> <a href=\"c\">C</a>") 38) [0, 21]
      [bytes "https://example.com/a/b", bytes "https://example.com/x/y/c"] ∧
    List.Forall₂ (title_of_anchor (bytes "<a href=\"/a/b\">A</a> <a href=\"c\">C</a>") 38) [0, 21]
      [bytes "A", bytes "C"] :=
  extract_urls_parallel.1 3 (bytes "https://example.com/x/y")
    (bytes "<a href=\"/a/b\">A</a> <a href=\"c\">C</a>") 0 38
    { found_at := 38
      urls := [bytes "https://example.com/a/b", bytes "https://example.com/x/y/c"]
      titles := [bytes "A", bytes "C"]
      anchors := [0, 21] }
    (by decide) (by decide)

theorem extract_urls_loop_stuck (base_url str : List Nat) (end_index : Nat) (s : Links)
    (hs : extract_urls_step base_url str end_index s = some s) (hlt : s.found_at < end_index) :
    ∀ fuel, extract_urls_loop base_url str end_index fuel s = none := by
  intro fuel
  induction fuel with
  | zero => rfl
  | succ fuel ih =>
    unfold extract_urls_loop
    rw [hs]
    dsimp only
    rw [if_pos hlt]
    exact ih

theorem find_string_some (m b : List Nat) (n k : Nat) (hk : k ≤ n) :
    ∃ i, find_string m b n k = some i := by
  unfold find_string
  rw [if_pos hk]
  cases memmem ((b.take n).drop k) m with
  | none => exact ⟨_, rfl⟩
  | some q => exact ⟨_, rfl⟩

theorem link_url_some (base_url url : List Nat) (hb : base_url ≠ []) :
    ∃ o, link_url base_url url = some o := by
  unfold link_url
  by_cases h1 : starts_with url HTTP_PREFIX = true
  · rw [if_pos h1]; exact ⟨_, rfl⟩
  · rw [if_neg h1]
    by_cases h2 : starts_with url HTTPS_PREFIX = true
    · rw [if_pos h2]; exact ⟨_, rfl⟩
    · rw [if_neg h2]
      by_cases h3 : base_url.length + 1 + url.length > URL_SIZE - 1
      · rw [if_pos h3]; exact ⟨_, rfl⟩
      · rw [if_neg h3]
        by_cases h4 : url.head? = some 0x2F
        · rw [if_pos h4]
          obtain ⟨i, hi⟩ := find_string_some (bytes "//") base_url base_url.length 0
            (Nat.zero_le _)
          rw [hi]
          dsimp only
          by_cases h5 : i + 2 < base_url.length
          · rw [if_pos h5]
            obtain ⟨j, hj⟩ := find_string_some (bytes "/") base_url base_url.length (i + 2)
              (by omega)
            rw [hj]
            exact ⟨_, rfl⟩
          · rw [if_neg h5]
            exact ⟨_, rfl⟩
        · rw [if_neg h4, if_neg hb]
          exact ⟨_, rfl⟩

theorem extract_urls_step_some (base_url str : List Nat) (end_index : Nat) (s : Links)
    (hb : base_url ≠ []) (hs : s.found_at ≤ end_index) :
    ∃ s1, extract_urls_step base_url str end_index s = some s1 := by
  unfold extract_urls_step
  obtain ⟨anchor, ha⟩ := find_string_some BEGIN_URL str end_index s.found_at hs
  rw [ha]
  dsimp only
  have h2 : ∃ f2, (if anchor + BEGIN_URL.length < end_index then
        find_string END_URL str end_index (anchor + BEGIN_URL.length)
      else some anchor) = some f2 := by
    by_cases hc : anchor + BEGIN_URL.length < end_index
    · rw [if_pos hc]; exact find_string_some _ _ _ _ (by omega)
    · rw [if_neg hc]; exact ⟨_, rfl⟩
  obtain ⟨f2, hf2⟩ := h2
  rw [hf2]
  dsimp only
  by_cases hc : anchor + BEGIN_URL.length < f2 ∧
      f2 - (anchor + BEGIN_URL.length) < URL_SIZE ∧ f2 < end_index
  · rw [if_pos hc]
    obtain ⟨o, ho⟩ := link_url_some base_url
      (cstr ((str.drop (anchor + BEGIN_URL.length)).take (f2 - (anchor + BEGIN_URL.length)))) hb
    rw [ho]
    cases o with
    | none => exact ⟨_, rfl⟩
    | some url =>
      dsimp only
      obtain ⟨t1, ht1⟩ := find_string_some BEGIN_TITLE str end_index f2 (by omega)
      rw [ht1]
      dsimp only
      have h5 : ∃ f3, (if t1 + BEGIN_TITLE.length < end_index then
            find_string END_TITLE str end_index (t1 + BEGIN_TITLE.length)
          else some t1) = some f3 := by
        by_cases hc5 : t1 + BEGIN_TITLE.length < end_index
        · rw [if_pos hc5]; exact find_string_some _ _ _ _ (by omega)
        · rw [if_neg hc5]; exact ⟨_, rfl⟩
      obtain ⟨f3, hf3⟩ := h5
      rw [hf3]
      exact ⟨_, rfl⟩
  · rw [if_neg hc]
    exact ⟨_, rfl⟩

/-- The loop of `extract_urls` ends within `end_index - found_at + 1` rounds
when the span does not end with `<a href="`. -/
theorem extract_urls_loop_some (base_url str : List Nat) (end_index : Nat)
    (hn : end_index ≤ str.length) (hb : base_url ≠ [])
    (hend : ∀ k, k + 9 = end_index → ¬ occurs_at BEGIN_URL str end_index k) :
    ∀ (d : Nat) (s : Links), end_index - s.found_at ≤ d → s.found_at ≤ end_index →
      ∃ s1, extract_urls_loop base_url str end_index (d + 1) s = some s1 := by
  intro d
  induction d with
  | zero =>
    intro s hd hs
    obtain ⟨s2, h2⟩ := extract_urls_step_some base_url str end_index s hb hs
    obtain ⟨hm, _⟩ := extract_urls_step_spec base_url str end_index hn s s2 h2
    unfold extract_urls_loop
    rw [h2]
    dsimp only
    rw [if_neg (by omega)]
    exact ⟨_, rfl⟩
  | succ d ih =>
    intro s hd hs
    obtain ⟨s2, h2⟩ := extract_urls_step_some base_url str end_index s hb hs
    obtain ⟨hm, hc⟩ := extract_urls_step_spec base_url str end_index hn s s2 h2
    unfold extract_urls_loop
    rw [h2]
    dsimp only
    by_cases hlt : s2.found_at < end_index
    · rw [if_pos hlt]
      have hprog : s.found_at < s2.found_at := by
        rcases hc with ⟨_, _, _, hp⟩ | ⟨u, t, a, _, _, _, ha1, ha2, _, _⟩
        · rcases hp with hp | hp | ⟨_, g2, g3⟩
          · exact hp
          · omega
          · exact absurd g3 (hend s.found_at g2)
        · omega
      exact ih s2 (by omega) (by omega)
    · rw [if_neg hlt]
      exact ⟨_, rfl⟩

/-- C18, the code at the failing input: the span is the 9 bytes
`<a href="`. A round of the loop of `extract_urls` that starts with
`found_at` = 0 ends with `found_at` = 0, below `end_index` = 9, and nothing
pushed; so the loop takes the same round again and again, and no number of
rounds lets `extract_urls` return. In general a round leaves `found_at`
greater, or at `end_index` or beyond, or else the span ends with the
`<a href="` that stands at `found_at` and the round changes nothing; on a
span that does not end with `<a href="` (and with a base URL that is not
empty) `extract_urls` returns within `end_index - start_index + 1` rounds. -/
theorem extract_urls_stuck :
    (∀ base_url : List Nat,
      extract_urls_step base_url (bytes "<a href=\"") 9
          { found_at := 0, urls := [], titles := [], anchors := [] } =
        some { found_at := 0, urls := [], titles := [], anchors := [] }) ∧
    (∀ (base_url : List Nat) (fuel : Nat),
      extract_urls fuel base_url (bytes "<a href=\"") 0 9 = none) ∧
    (∀ (base_url str : List Nat) (end_index : Nat) (s s1 : Links),
      end_index ≤ str.length → extract_urls_step base_url str end_index s = some s1 →
      s.found_at < s1.found_at ∨ end_index ≤ s1.found_at ∨
        (s1 = s ∧ s.found_at + 9 = end_index ∧ occurs_at BEGIN_URL str end_index s.found_at)) ∧
    (∀ (base_url str : List Nat) (start_index end_index : Nat),
      start_index ≤ end_index → end_index ≤ str.length → base_url ≠ [] →
      (∀ k, k + 9 = end_index → ¬ occurs_at BEGIN_URL str end_index k) →
      ∃ s, extract_urls (end_index - start_index + 1) base_url str start_index end_index =
        some s) := by
  have hstep : ∀ base_url : List Nat,
      extract_urls_step base_url (bytes "<a href=\"") 9
          { found_at := 0, urls := [], titles := [], anchors := [] } =
        some { found_at := 0, urls := [], titles := [], anchors := [] } := by
    intro base_url
    rfl
  refine ⟨hstep, ?_, ?_, ?_⟩
  · intro base_url fuel
    exact extract_urls_loop_stuck base_url _ 9 _ (hstep base_url) (by decide) fuel
  · intro base_url str end_index s s1 hn h
    obtain ⟨_, hc⟩ := extract_urls_step_spec base_url str end_index hn s s1 h
    rcases hc with ⟨e1, e2, e3, hp⟩ | ⟨u, t, a, _, _, _, ha1, ha2, _, _⟩
    · rcases hp with hp | hp | ⟨g1, g2, g3⟩
      · exact Or.inl hp
      · exact Or.inr (Or.inl hp)
      · refine Or.inr (Or.inr ⟨?_, g2, g3⟩)
        cases s
        cases s1
        simp only [Links.mk.injEq] at e1 e2 e3 g1 ⊢
        exact ⟨g1, e1, e2, e3⟩
    · exact Or.inl (by omega)
  · intro base_url str start_index end_index hs hn hb hend
    exact extract_urls_loop_some base_url str end_index hn hb hend _ _ (Nat.le_refl _) hs

/-! ### Linked pages, quit and skip -/

/-- C19, the code at the failing input: two linked pages, `one` and `two`,
written to a file in rows of five. The Words written are `ONE` and `TWO`,
with no `=` between them: the separator is written only in a pass that is
neither the first nor the last. With three pages (`one`, `two`, `three`)
the Words are `ONE`, `=`, `TWO`, `THREE`: one separator, none before the
last page. -/
theorem send_linked_separators :
    (send_linked false 5 DEFAULT false true
        (fun url => if url = bytes "u1" then some (bytes "one\n")
          else if url = bytes "u2" then some (bytes "two\n") else none)
        none none 2 [bytes "u1", bytes "u2"] 0
        { error := MF_NO_ERROR, token := [], line_offset := 0, token_offset := 0
          html := { excluding_tag := false, entity := [], tag := [] }
          world := { output := [], words := [], word_number := 0, keys := [], acks := 0 } }).map
      (fun s => (s.error, s.world.words)) = some (MF_NO_ERROR, [bytes "ONE", bytes "TWO"]) ∧
    (send_linked false 5 DEFAULT false true
        (fun url => if url = bytes "u1" then some (bytes "one\n")
          else if url = bytes "u2" then some (bytes "two\n")
          else if url = bytes "u3" then some (bytes "three\n") else none)
        none none 3 [bytes "u1", bytes "u2", bytes "u3"] 0
        { error := MF_NO_ERROR, token := [], line_offset := 0, token_offset := 0
          html := { excluding_tag := false, entity := [], tag := [] }
          world := { output := [], words := [], word_number := 0, keys := [], acks := 0 } }).map
      (fun s => (s.error, s.world.words)) =
        some (MF_NO_ERROR, [bytes "ONE", bytes "=", bytes "TWO", bytes "THREE"]) := by
  constructor
  · decide
  · decide

/-- C20, the code at the failing input: the token `a!b!c` sent to the
subprocess with key control, the key `q` (or `n`) waiting. The first call of
`write_word`, for `A`, returns `MF_EXIT` (`MF_NEXT`) and writes nothing, and
the name for `!` is skipped; the scan goes on, the second `!` flushes `B`
with a call of `write_word` that finds no key, and `write_token` writes `B`,
`exclamation` and `C` and returns `MF_NO_ERROR`. For the token `a!b` the
code is returned and nothing is written. -/
theorem write_token_quit_lost :
    write_token (bytes "a!b!c") true 1 DEFAULT true false
        { excluding_tag := false, entity := [], tag := [] }
        { output := [], words := [], word_number := 0, keys := [some 0x71], acks := 3 } =
      some (MF_NO_ERROR, { excluding_tag := false, entity := [], tag := [] },
        { output := bytes "B\nexclamation\nC\n"
          words := [bytes "B", bytes "exclamation", bytes "C"]
          word_number := 3, keys := [], acks := 0 }) ∧
    write_token (bytes "a!b!c") true 1 DEFAULT true false
        { excluding_tag := false, entity := [], tag := [] }
        { output := [], words := [], word_number := 0, keys := [some 0x6E], acks := 3 } =
      some (MF_NO_ERROR, { excluding_tag := false, entity := [], tag := [] },
        { output := bytes "B\nexclamation\nC\n"
          words := [bytes "B", bytes "exclamation", bytes "C"]
          word_number := 3, keys := [], acks := 0 }) ∧
    write_token (bytes "a!b") true 1 DEFAULT true false
        { excluding_tag := false, entity := [], tag := [] }
        { output := [], words := [], word_number := 0, keys := [some 0x71], acks := 3 } =
      some (MF_EXIT, { excluding_tag := false, entity := [], tag := [] },
        { output := [], words := [], word_number := 0, keys := [], acks := 3 }) := by
  refine ⟨by decide, by decide, by decide⟩

/-! ### Acknowledgments -/

theorem write_word_ack_eval :
    write_word (bytes "A") true 1 1 false
        { output := [], words := [], word_number := 0, keys := [], acks := 0 } =
      some (MF_EXIT,
        { output := bytes "A\n", words := [bytes "A"], word_number := 1, keys := [],
          acks := 0 }) ∧
    write_word (bytes "A") true 1 1 true
        { output := [], words := [], word_number := 0, keys := [none], acks := 0 } =
      some (MF_EXIT,
        { output := bytes "A\n", words := [bytes "A"], word_number := 1, keys := [],
          acks := 0 }) ∧
    write_word (bytes "A") true 1 DEFAULT false
        { output := [], words := [], word_number := 0, keys := [], acks := 0 } =
      some (MF_PIPE_ERROR,
        { output := bytes "A\n", words := [bytes "A"], word_number := 1, keys := [],
          acks := 0 }) := by
  refine ⟨by decide, by decide, by decide⟩

theorem write_word_body_ack (word : List Nat) (pf : Bool) (wpr wc : Int) (w : World) :
    (write_word_body word pf wpr wc w).2.words = w.words ++ [word] ∧
    (write_word_body word pf wpr wc w).2.keys = w.keys ∧
    (w.word_number.tmod wpr = wpr - 1 → pf = true →
      (write_word_body word pf wpr wc w).2.acks = w.acks - 1) ∧
    (¬ (w.word_number.tmod wpr = wpr - 1 ∧ pf = true) →
      (write_word_body word pf wpr wc w).2.acks = w.acks) ∧
    (w.word_number.tmod wpr = wpr - 1 → pf = true → w.acks = 0 →
      (write_word_body word pf wpr wc w).1 =
        if wc ≠ DEFAULT ∧ (write_word_body word pf wpr wc w).2.word_number ≥ wc then MF_EXIT
        else MF_PIPE_ERROR) ∧
    (¬ (wc ≠ DEFAULT ∧ (write_word_body word pf wpr wc w).2.word_number ≥ wc) →
      ((write_word_body word pf wpr wc w).1 = MF_PIPE_ERROR ↔
        (w.word_number.tmod wpr = wpr - 1 ∧ pf = true ∧ w.acks = 0))) ∧
    (pf = false → (write_word_body word pf wpr wc w).1 ≠ MF_PIPE_ERROR) := by
  refine ⟨by simp [write_word_body], by simp [write_word_body], ?_, ?_, ?_, ?_, ?_⟩
  · intro hr hp
    simp [write_word_body, hr, hp]
  · intro hn
    by_cases hr : w.word_number.tmod wpr = wpr - 1
    · have hp : pf = false := by
        cases pf
        · rfl
        · exact absurd ⟨hr, rfl⟩ hn
      simp [write_word_body, hr, hp]
    · simp [write_word_body, hr]
  · intro hr hp ha
    simp [write_word_body, hr, hp, ha]
  · intro hl
    have hl2 : ¬ (wc ≠ DEFAULT ∧ (if word.length ≠ 0 ∧ word ≠ [0x20] then w.word_number + 1
        else w.word_number) ≥ wc) := hl
    simp only [write_word_body, if_neg hl2]
    by_cases hr : w.word_number.tmod wpr = wpr - 1
    · cases pf
      · simp [hr]
      · by_cases ha : w.acks = 0
        · simp [hr, ha]
        · simp [hr, ha]
    · simp [hr]
  · intro hp
    by_cases hl : wc ≠ DEFAULT ∧ (if word.length ≠ 0 ∧ word ≠ [0x20] then w.word_number + 1
        else w.word_number) ≥ wc
    · simp only [write_word_body, hp, Bool.and_false, Bool.false_and, Bool.false_eq_true,
        if_false, if_pos hl]
      decide
    · simp only [write_word_body, hp, Bool.and_false, Bool.false_and, Bool.false_eq_true,
        if_false, if_neg hl]
      decide

/-- C21, the code at the failing input, and what every call does. With the
subprocess as the sink, one Word per row, a limit of one Word and no
acknowledgment line to come, the Word completes its row, the read finds
nothing, and `write_word` returns `MF_EXIT`, not `MF_PIPE_ERROR` (with or
without key control); without the limit it returns `MF_PIPE_ERROR`. For
every call, with or without key control: when the key loop never ends the
call does not return; when a key asks to quit or to skip, the Word is not
written, nothing is read and that code is returned; otherwise the Word is
written, and with the subprocess as the sink one acknowledgment line is
taken when the Word completes a row (`word_number % words_per_row ==
words_per_row - 1` before the call) and none otherwise. When the line is
absent the result is `MF_PIPE_ERROR`, unless the Word reaches the word
limit, in which case it is `MF_EXIT`; when the limit is not reached the
result is `MF_PIPE_ERROR` exactly when the Word completes a row and the line
is absent. With a file as the sink nothing is read and `MF_PIPE_ERROR` is
never returned. -/
theorem write_word_ack :
    (write_word (bytes "A") true 1 1 false
        { output := [], words := [], word_number := 0, keys := [], acks := 0 } =
      some (MF_EXIT,
        { output := bytes "A\n", words := [bytes "A"], word_number := 1, keys := [],
          acks := 0 }) ∧
    write_word (bytes "A") true 1 1 true
        { output := [], words := [], word_number := 0, keys := [none], acks := 0 } =
      some (MF_EXIT,
        { output := bytes "A\n", words := [bytes "A"], word_number := 1, keys := [],
          acks := 0 }) ∧
    write_word (bytes "A") true 1 DEFAULT false
        { output := [], words := [], word_number := 0, keys := [], acks := 0 } =
      some (MF_PIPE_ERROR,
        { output := bytes "A\n", words := [bytes "A"], word_number := 1, keys := [],
          acks := 0 })) ∧
    (∀ (word : List Nat) (pf : Bool) (wpr wc : Int) (w : World),
      key_control false w.keys = none → write_word word pf wpr wc true w = none) ∧
    (∀ (word : List Nat) (pf : Bool) (wpr wc : Int) (w : World) (e : MorseFeedError)
        (keys : List (Option Nat)),
      key_control false w.keys = some (e, keys) → e ≠ MF_NO_ERROR →
      write_word word pf wpr wc true w = some (e, { w with keys := keys }) ∧
        (e = MF_EXIT ∨ e = MF_NEXT)) ∧
    (∀ (word : List Nat) (wpr wc : Int) (ukc : Bool) (w : World) (keys : List (Option Nat)),
      (if ukc = true then key_control false w.keys else some (MF_NO_ERROR, w.keys)) =
        some (MF_NO_ERROR, keys) →
      ∃ e w1, write_word word true wpr wc ukc w = some (e, w1) ∧
        w1.words = w.words ++ [word] ∧ w1.keys = keys ∧
        (w.word_number.tmod wpr = wpr - 1 → w1.acks = w.acks - 1) ∧
        (¬ w.word_number.tmod wpr = wpr - 1 → w1.acks = w.acks) ∧
        (w.word_number.tmod wpr = wpr - 1 → w.acks = 0 →
          e = if wc ≠ DEFAULT ∧ w1.word_number ≥ wc then MF_EXIT else MF_PIPE_ERROR) ∧
        (¬ (wc ≠ DEFAULT ∧ w1.word_number ≥ wc) →
          (e = MF_PIPE_ERROR ↔ (w.word_number.tmod wpr = wpr - 1 ∧ w.acks = 0)))) ∧
    (∀ (word : List Nat) (wpr wc : Int) (ukc : Bool) (w : World) (e : MorseFeedError)
        (w1 : World),
      write_word word false wpr wc ukc w = some (e, w1) →
      w1.acks = w.acks ∧ e ≠ MF_PIPE_ERROR) := by
  refine ⟨write_word_ack_eval, ?_, ?_, ?_, ?_⟩
  · intro word pf wpr wc w hk
    simp [write_word, hk]
  · intro word pf wpr wc w e keys hk he
    refine ⟨by simp [write_word, hk, he], ?_⟩
    rcases key_control_error w.keys false e keys hk with h | h
    · exact absurd h he
    · exact h
  · intro word wpr wc ukc w keys hk
    have hrun : write_word word true wpr wc ukc w =
        some (write_word_body word true wpr wc { w with keys := keys }) := by
      cases ukc
      · simp only [Bool.false_eq_true, if_false, Option.some.injEq, Prod.mk.injEq,
          true_and] at hk
        simp only [write_word, Bool.false_eq_true, if_false]
        rw [← hk]
      · simp only [if_true] at hk
        simp [write_word, hk]
    obtain ⟨b1, b2, b3, b4, b5, b6, _⟩ :=
      write_word_body_ack word true wpr wc { w with keys := keys }
    refine ⟨_, _, hrun, b1, b2, fun hr => b3 hr rfl, fun hr => b4 (fun h => hr h.1),
      fun hr ha => b5 hr rfl ha,
      fun hl => (b6 hl).trans ⟨fun h => ⟨h.1, h.2.2⟩, fun h => ⟨h.1, rfl, h.2⟩⟩⟩
  · intro word wpr wc ukc w e w1 h
    have hbody : ∀ w2 : World, w2.acks = w.acks →
        (write_word_body word false wpr wc w2).2.acks = w.acks ∧
          (write_word_body word false wpr wc w2).1 ≠ MF_PIPE_ERROR := by
      intro w2 h2
      obtain ⟨_, _, _, b4, _, _, b7⟩ := write_word_body_ack word false wpr wc w2
      exact ⟨by rw [b4 (fun h => Bool.noConfusion h.2), h2], b7 rfl⟩
    cases ukc
    · simp only [write_word, Bool.false_eq_true, if_false, Option.some.injEq] at h
      have := hbody w rfl
      rw [h] at this
      exact this
    · simp only [write_word, if_true] at h
      cases hk : key_control false w.keys with
      | none => rw [hk] at h; exact Option.noConfusion h
      | some r =>
        obtain ⟨e1, keys⟩ := r
        rw [hk] at h
        dsimp only at h
        by_cases he : e1 = MF_NO_ERROR
        · rw [if_pos he] at h
          have := hbody { w with keys := keys } rfl
          rw [Option.some.inj h] at this
          exact this
        · rw [if_neg he] at h
          have h2 := Option.some.inj h
          have h3 : e = e1 := (congrArg Prod.fst h2).symm
          have h4 : w1 = { w with keys := keys } := (congrArg Prod.snd h2).symm
          refine ⟨by rw [h4], ?_⟩
          rcases key_control_error w.keys false e1 keys hk with g | g | g
          · exact absurd g he
          · rw [h3, g]; decide
          · rw [h3, g]; decide

theorem write_word_ack_witness :
    ∃ e w1, write_word (bytes "A") true 2 DEFAULT true
        { output := [], words := [], word_number := 1, keys := [none, some 0x71], acks := 3 } =
        some (e, w1) ∧
      w1.words = [] ++ [bytes "A"] ∧ w1.keys = [some 0x71] ∧ w1.acks = 3 - 1 :=
  let ⟨e, w1, h1, h2, h3, h4, _⟩ := write_word_ack.2.2.2.1 (bytes "A") 2 DEFAULT true
    { output := [], words := [], word_number := 1, keys := [none, some 0x71], acks := 3 }
    [some 0x71] (by decide)
  ⟨e, w1, h1, h2, h3, h4 (by decide)⟩

/-! ### Multi-byte sequences -/

theorem two_byte_below (c c1 : Nat) : ((c &&& 0x1F) <<< 6) ||| (c1 &&& 0x3F) < 0x800 := by
  have h1 : c &&& 0x1F ≤ 0x1F := Nat.and_le_right
  have h2 : c1 &&& 0x3F ≤ 0x3F := Nat.and_le_right
  have h3 : (c &&& 0x1F) <<< 6 < 2 ^ 11 := by
    rw [Nat.shiftLeft_eq]
    omega
  have h4 : c1 &&& 0x3F < 2 ^ 11 := by omega
  exact Nat.or_lt_two_pow h3 h4

/-- C26, the code at the failing input: the tokens E2 80 9C and E2 80 9D
(U+201C and U+201D in UTF-8, three bytes each) make `write_token` write no
Word at all and return `MF_NO_ERROR`. The cases `0x201C` and `0x201D` (and
`0xC2A9`) stand in the `switch (u)` of the branch for two-byte sequences,
where `u` is below `0x800`: no pair of bytes reaches them. -/
theorem write_token_curly_quote :
    write_token [0xE2, 0x80, 0x9C] false 5 DEFAULT false false
        { excluding_tag := false, entity := [], tag := [] }
        { output := [], words := [], word_number := 0, keys := [], acks := 0 } =
      some (MF_NO_ERROR, { excluding_tag := false, entity := [], tag := [] },
        { output := [], words := [], word_number := 0, keys := [], acks := 0 }) ∧
    write_token [0xE2, 0x80, 0x9D] false 5 DEFAULT false false
        { excluding_tag := false, entity := [], tag := [] }
        { output := [], words := [], word_number := 0, keys := [], acks := 0 } =
      some (MF_NO_ERROR, { excluding_tag := false, entity := [], tag := [] },
        { output := [], words := [], word_number := 0, keys := [], acks := 0 }) ∧
    (∀ c c1 : Nat, utf8_names.lookup (((c &&& 0x1F) <<< 6) ||| (c1 &&& 0x3F)) = none) := by
  refine ⟨by decide, by decide, ?_⟩
  intro c c1
  have h := two_byte_below c c1
  have e1 : ((((c &&& 0x1F) <<< 6) ||| (c1 &&& 0x3F)) == 0x201C) = false := by
    rw [beq_eq_false_iff_ne]; omega
  have e2 : ((((c &&& 0x1F) <<< 6) ||| (c1 &&& 0x3F)) == 0x201D) = false := by
    rw [beq_eq_false_iff_ne]; omega
  have e3 : ((((c &&& 0x1F) <<< 6) ||| (c1 &&& 0x3F)) == 0xC2A9) = false := by
    rw [beq_eq_false_iff_ne]; omega
  simp only [utf8_names, List.lookup, e1, e2, e3]

theorem write_token_loop_cons (pf : Bool) (wpr wc : Int) (ukc fh : Bool) (c : Nat)
    (rest : List Nat) (s : Loop) (hsk : s.skip = 0) (hroom : s.word.length < LINE_SIZE - 1) :
    write_token_loop pf wpr wc ukc fh (c :: rest) s =
      (write_token_step pf wpr wc ukc fh c rest s).bind
        (write_token_loop pf wpr wc ukc fh rest) := by
  have hsk' : ¬ (0 < s.skip) := by omega
  rw [write_token_loop, if_neg hsk', if_pos hroom]
  cases write_token_step pf wpr wc ukc fh c rest s with
  | none => rfl
  | some s1 => rfl

theorem write_token_loop_drop (pf : Bool) (wpr wc : Int) (ukc fh : Bool) (c : Nat)
    (rest : List Nat) (s : Loop) (hsk : 0 < s.skip) :
    write_token_loop pf wpr wc ukc fh (c :: rest) s =
      write_token_loop pf wpr wc ukc fh rest { s with skip := s.skip - 1 } := by
  rw [write_token_loop, if_pos hsk]

theorem lead_three_facts (c : Nat) (hc : c &&& 0xF0 = 0xE0) :
    0x7F < c ∧ c &&& 0xE0 ≠ 0xC0 := by
  have h1 : c &&& 0xF0 ≤ c := Nat.and_le_left
  have h2 : c &&& 0xE0 = 0xE0 := by
    have e : (0xF0 &&& 0xE0 : Nat) = 0xE0 := by decide
    have : (c &&& 0xF0) &&& 0xE0 = c &&& 0xE0 := by
      rw [Nat.land_assoc, e]
    rw [← this, hc]
    decide
  exact ⟨by omega, by rw [h2]; decide⟩

theorem lead_four_facts (c : Nat) (hc : c &&& 0xF8 = 0xF0) :
    0x7F < c ∧ c &&& 0xE0 ≠ 0xC0 ∧ c &&& 0xF0 ≠ 0xE0 := by
  have h1 : c &&& 0xF8 ≤ c := Nat.and_le_left
  have h2 : c &&& 0xE0 = 0xE0 := by
    have e : (0xF8 &&& 0xE0 : Nat) = 0xE0 := by decide
    have : (c &&& 0xF8) &&& 0xE0 = c &&& 0xE0 := by
      rw [Nat.land_assoc, e]
    rw [← this, hc]
    decide
  have h3 : c &&& 0xF0 = 0xF0 := by
    have e : (0xF8 &&& 0xF0 : Nat) = 0xF0 := by decide
    have : (c &&& 0xF8) &&& 0xF0 = c &&& 0xF0 := by
      rw [Nat.land_assoc, e]
    rw [← this, hc]
    decide
  exact ⟨by omega, by rw [h2]; decide, by rw [h3]; decide⟩

theorem not_word_char_high (c : Nat) (hc : 0x7F < c) : is_word_char c = false := by
  unfold is_word_char
  have h1 : ¬ c ≤ 0x39 := by omega
  have h2 : ¬ c ≤ 0x5A := by omega
  have h3 : ¬ c ≤ 0x7A := by omega
  have h4 : c ≠ 0x2E := by omega
  have h5 : c ≠ 0x2C := by omega
  have h6 : c ≠ 0x3F := by omega
  have h7 : c ≠ 0x2F := by omega
  simp [h1, h2, h3, h4, h5, h6, h7]

/-- The chain on a byte above 0x7F when no tag and no entity is open: what
the branches for multi-byte sequences make of it. -/
theorem scan_chain_high (fh : Bool) (c : Nat) (rest : List Nat) (s : Loop) (hc : 0x7F < c)
    (hex : s.excluding_tag = false) (hent : fh = true → s.entity = []) (a : Scan)
    (ha : (if c &&& 0xE0 = 0xC0 then
        match rest with
        | c1 :: _ =>
          if is_cont c1 then
            let u := ((c &&& 0x1F) <<< 6) ||| (c1 &&& 0x3F)
            if u ≤ 0xFF then
              ({ excluding_tag := s.excluding_tag, entity := s.entity, tag := s.tag,
                 word := s.word, latin1 := true, name := [], c := u, skip := 1 } : Scan)
            else
              { excluding_tag := s.excluding_tag, entity := s.entity, tag := s.tag,
                word := s.word, latin1 := s.latin1,
                name := (match utf8_names.lookup u with
                         | some n => bytes n
                         | none => []), c := c, skip := 1 }
          else
            { excluding_tag := s.excluding_tag, entity := s.entity, tag := s.tag,
              word := s.word, latin1 := true, name := [], c := c, skip := 0 }
        | [] =>
          { excluding_tag := s.excluding_tag, entity := s.entity, tag := s.tag,
            word := s.word, latin1 := true, name := [], c := c, skip := 0 }
      else if c &&& 0xF0 = 0xE0 then
        match rest with
        | c1 :: c2 :: _ =>
          if is_cont c1 ∧ is_cont c2 then
            { excluding_tag := s.excluding_tag, entity := s.entity, tag := s.tag,
              word := s.word, latin1 := s.latin1, name := [], c := c, skip := 2 }
          else
            { excluding_tag := s.excluding_tag, entity := s.entity, tag := s.tag,
              word := s.word, latin1 := true, name := [], c := c, skip := 0 }
        | _ =>
          { excluding_tag := s.excluding_tag, entity := s.entity, tag := s.tag,
            word := s.word, latin1 := true, name := [], c := c, skip := 0 }
      else if c &&& 0xF8 = 0xF0 then
        match rest with
        | c1 :: c2 :: c3 :: _ =>
          if is_cont c1 ∧ is_cont c2 ∧ is_cont c3 then
            { excluding_tag := s.excluding_tag, entity := s.entity, tag := s.tag,
              word := s.word, latin1 := s.latin1, name := [], c := c, skip := 3 }
          else
            { excluding_tag := s.excluding_tag, entity := s.entity, tag := s.tag,
              word := s.word, latin1 := true, name := [], c := c, skip := 0 }
        | _ =>
          { excluding_tag := s.excluding_tag, entity := s.entity, tag := s.tag,
            word := s.word, latin1 := true, name := [], c := c, skip := 0 }
      else
        { excluding_tag := s.excluding_tag, entity := s.entity, tag := s.tag,
          word := s.word, latin1 := true, name := [], c := c, skip := 0 }) = a) :
    scan_chain fh c rest s = a := by
  unfold scan_chain
  dsimp only
  have h1 : ¬ (fh = true ∧ c = 0x3C) := fun h => by omega
  have h2 : ¬ (s.excluding_tag = true ∧ c = 0x3E) := fun h => by omega
  have h3 : ¬ (s.excluding_tag = true) := by rw [hex]; exact Bool.noConfusion
  have h4 : ¬ (fh = true ∧ c = 0x26) := fun h => by omega
  have h5 : ¬ (fh = true ∧ s.entity ≠ []) := fun h => h.2 (hent h.1)
  have h7 : ¬ (is_word_char c = true) := by rw [not_word_char_high c hc]; exact Bool.noConfusion
  have h8 : ¬ (c = 0x27) := by omega
  have h9 : ¬ (c ≤ 0x7F) := by omega
  rw [if_neg h1, if_neg h2, if_neg h3, if_neg h4, if_neg h5, if_neg h7, if_neg h8, if_neg h9]
  exact ha

theorem write_token_loop_drops (pf : Bool) (wpr wc : Int) (ukc fh : Bool) (xs rest : List Nat) :
    ∀ s : Loop, s.skip = xs.length →
      write_token_loop pf wpr wc ukc fh (xs ++ rest) s =
        write_token_loop pf wpr wc ukc fh rest { s with skip := 0 } := by
  induction xs with
  | nil =>
    intro s hs
    have : s = { s with skip := 0 } := by
      cases s
      simp only [List.length_nil] at hs
      simp [hs]
    rw [List.nil_append, ← this]
  | cons x xs ih =>
    intro s hs
    simp only [List.length_cons] at hs
    rw [List.cons_append, write_token_loop_drop pf wpr wc ukc fh x _ s (by omega),
      ih { s with skip := s.skip - 1 } (by dsimp only; omega)]

theorem write_token_step_keep (pf : Bool) (wpr wc : Int) (ukc fh : Bool) (c : Nat)
    (rest : List Nat) (s : Loop) (k : Nat)
    (ha : scan_chain fh c rest s =
      { excluding_tag := s.excluding_tag, entity := s.entity, tag := s.tag, word := s.word,
        latin1 := s.latin1, name := [], c := c, skip := k })
    (hl : s.latin1 = false) :
    write_token_step pf wpr wc ukc fh c rest s = some { s with skip := k } := by
  have hs : scan_char fh c rest s =
      { excluding_tag := s.excluding_tag, entity := s.entity, tag := s.tag, word := s.word,
        latin1 := s.latin1, name := [], c := c, skip := k } := by
    unfold scan_char
    rw [ha]
    exact scan_latin1_off _ hl
  rw [write_token_step_quiet pf wpr wc ukc fh c rest s _ hs rfl]

/-- A valid three-byte sequence met with no tag and no entity open and no
Latin-1 byte earlier in the token is stepped over. -/
theorem write_token_loop_three (pf : Bool) (wpr wc : Int) (ukc fh : Bool) (c c1 c2 : Nat)
    (rest : List Nat) (s : Loop) (hc : c &&& 0xF0 = 0xE0) (h1 : is_cont c1 = true)
    (h2 : is_cont c2 = true) (hsk : s.skip = 0) (hl : s.latin1 = false)
    (hex : s.excluding_tag = false) (hent : fh = true → s.entity = [])
    (hroom : s.word.length < LINE_SIZE - 1) :
    write_token_loop pf wpr wc ukc fh (c :: c1 :: c2 :: rest) s =
      write_token_loop pf wpr wc ukc fh rest s := by
  obtain ⟨f1, f2⟩ := lead_three_facts c hc
  have ha : scan_chain fh c (c1 :: c2 :: rest) s =
      { excluding_tag := s.excluding_tag, entity := s.entity, tag := s.tag, word := s.word,
        latin1 := s.latin1, name := [], c := c, skip := 2 } := by
    apply scan_chain_high fh c _ s f1 hex hent
    rw [if_neg f2, if_pos hc]
    dsimp only
    rw [if_pos ⟨h1, h2⟩]
  rw [write_token_loop_cons pf wpr wc ukc fh c _ s hsk hroom,
    write_token_step_keep pf wpr wc ukc fh c _ s 2 ha hl, Option.some_bind]
  have := write_token_loop_drops pf wpr wc ukc fh [c1, c2] rest { s with skip := 2 } rfl
  simp only [List.cons_append, List.nil_append] at this
  rw [this]
  congr 1
  cases s
  simp only [] at hsk
  simp [hsk]

/-- A valid four-byte sequence, likewise. -/
theorem write_token_loop_four (pf : Bool) (wpr wc : Int) (ukc fh : Bool) (c c1 c2 c3 : Nat)
    (rest : List Nat) (s : Loop) (hc : c &&& 0xF8 = 0xF0) (h1 : is_cont c1 = true)
    (h2 : is_cont c2 = true) (h3 : is_cont c3 = true) (hsk : s.skip = 0)
    (hl : s.latin1 = false) (hex : s.excluding_tag = false) (hent : fh = true → s.entity = [])
    (hroom : s.word.length < LINE_SIZE - 1) :
    write_token_loop pf wpr wc ukc fh (c :: c1 :: c2 :: c3 :: rest) s =
      write_token_loop pf wpr wc ukc fh rest s := by
  obtain ⟨f1, f2, f3⟩ := lead_four_facts c hc
  have ha : scan_chain fh c (c1 :: c2 :: c3 :: rest) s =
      { excluding_tag := s.excluding_tag, entity := s.entity, tag := s.tag, word := s.word,
        latin1 := s.latin1, name := [], c := c, skip := 3 } := by
    apply scan_chain_high fh c _ s f1 hex hent
    rw [if_neg f2, if_neg f3, if_pos hc]
    dsimp only
    rw [if_pos ⟨h1, h2, h3⟩]
  rw [write_token_loop_cons pf wpr wc ukc fh c _ s hsk hroom,
    write_token_step_keep pf wpr wc ukc fh c _ s 3 ha hl, Option.some_bind]
  have := write_token_loop_drops pf wpr wc ukc fh [c1, c2, c3] rest { s with skip := 3 } rfl
  simp only [List.cons_append, List.nil_append] at this
  rw [this]
  congr 1
  cases s
  simp only [] at hsk
  simp [hsk]

theorem scan_latin1_frame (a : Scan) :
    (scan_latin1 a).excluding_tag = a.excluding_tag ∧ (scan_latin1 a).entity = a.entity ∧
      (scan_latin1 a).tag = a.tag := by
  unfold scan_latin1
  split
  · dsimp only
    split
    · split
      · split <;> exact ⟨rfl, rfl, rfl⟩
      · exact ⟨rfl, rfl, rfl⟩
    · exact ⟨rfl, rfl, rfl⟩
  · exact ⟨rfl, rfl, rfl⟩

/-- Without HTML filtering a round opens no tag. -/
theorem scan_char_plain_ex (c : Nat) (rest : List Nat) (s : Loop)
    (hex : s.excluding_tag = false) : (scan_char false c rest s).excluding_tag = false := by
  unfold scan_char
  rw [(scan_latin1_frame _).1]
  unfold scan_chain
  dsimp only
  have h1 : ¬ (false = true ∧ c = 0x3C) := fun h => Bool.noConfusion h.1
  have h2 : ¬ (s.excluding_tag = true ∧ c = 0x3E) := by rw [hex]; exact fun h => Bool.noConfusion h.1
  have h3 : ¬ (s.excluding_tag = true) := by rw [hex]; exact Bool.noConfusion
  have h4 : ¬ (false = true ∧ c = 0x26) := fun h => Bool.noConfusion h.1
  have h5 : ¬ (false = true ∧ s.entity ≠ []) := fun h => Bool.noConfusion h.1
  rw [if_neg h1, if_neg h2, if_neg h3, if_neg h4, if_neg h5]
  by_cases h7 : is_word_char c = true
  · rw [if_pos h7]; exact hex
  rw [if_neg h7]
  by_cases h8 : c = 0x27
  · rw [if_pos h8]; exact hex
  rw [if_neg h8]
  by_cases h9 : c ≤ 0x7F
  · rw [if_pos h9]; exact hex
  rw [if_neg h9]
  by_cases h10 : c &&& 0xE0 = 0xC0
  · rw [if_pos h10]
    split
    · split
      · split <;> exact hex
      · exact hex
    · exact hex
  rw [if_neg h10]
  by_cases h13 : c &&& 0xF0 = 0xE0
  · rw [if_pos h13]
    split
    · split <;> exact hex
    · exact hex
  rw [if_neg h13]
  by_cases h14 : c &&& 0xF8 = 0xF0
  · rw [if_pos h14]
    split
    · split <;> exact hex
    · exact hex
  rw [if_neg h14]
  exact hex

theorem write_token_loop_plain_ex (pf : Bool) (wpr wc : Int) (ukc : Bool) (token : List Nat) :
    ∀ s s1 : Loop, s.excluding_tag = false →
      write_token_loop pf wpr wc ukc false token s = some s1 → s1.excluding_tag = false := by
  induction token with
  | nil =>
    intro s s1 hi h
    simp only [write_token_loop, Option.some.injEq] at h
    subst h
    exact hi
  | cons c rest ih =>
    intro s s1 hi h
    rw [write_token_loop] at h
    split at h
    · exact ih { s with skip := s.skip - 1 } s1 hi h
    · split at h
      · cases hs : write_token_step pf wpr wc ukc false c rest s with
        | none => rw [hs] at h; cases h
        | some s2 =>
          rw [hs] at h
          refine ih s2 s1 ?_ h
          unfold write_token_step at hs
          dsimp only at hs
          cases he : emit_name pf wpr wc ukc s.error (scan_char false c rest s).word
              (scan_char false c rest s).name s.world with
          | none => rw [he] at hs; cases hs
          | some r =>
            rw [he] at hs
            simp only [Option.some.injEq] at hs
            subst hs
            exact scan_char_plain_ex c rest s hi
      · simp only [Option.some.injEq] at h
        subst h
        exact hi

theorem write_token_loop_long_seq (pf : Bool) (wpr wc : Int) (ukc fh : Bool) (q rest : List Nat)
    (s : Loop) (hq : is_long_seq q = true) (hsk : s.skip = 0) (hl : s.latin1 = false)
    (hex : s.excluding_tag = false) (hent : fh = true → s.entity = [])
    (hroom : s.word.length < LINE_SIZE - 1) :
    write_token_loop pf wpr wc ukc fh (q ++ rest) s =
      write_token_loop pf wpr wc ukc fh rest s := by
  match q, hq with
  | [c, c1, c2], hq =>
    simp only [is_long_seq, Bool.and_eq_true, decide_eq_true_eq] at hq
    exact write_token_loop_three pf wpr wc ukc fh c c1 c2 rest s hq.1.1 hq.1.2 hq.2 hsk hl hex
      hent hroom
  | [c, c1, c2, c3], hq =>
    simp only [is_long_seq, Bool.and_eq_true, decide_eq_true_eq] at hq
    exact write_token_loop_four pf wpr wc ukc fh c c1 c2 c3 rest s hq.1.1.1 hq.1.1.2 hq.1.2 hq.2
      hsk hl hex hent hroom

theorem long_seq_leak_eval :
    is_long_seq [0xE2, 0x80, 0x9C] = true ∧ is_long_seq [0xE2, 0x80, 0x9D] = true ∧
    write_token [0xE9] false 5 DEFAULT false false
        { excluding_tag := false, entity := [], tag := [] }
        { output := [], words := [], word_number := 0, keys := [], acks := 0 } =
      some (MF_NO_ERROR, { excluding_tag := false, entity := [], tag := [] },
        { output := bytes "e", words := [bytes "e"], word_number := 1, keys := [],
          acks := 0 }) ∧
    write_token [0xE9, 0xE2, 0x80, 0x9C] false 5 DEFAULT false false
        { excluding_tag := false, entity := [], tag := [] }
        { output := [], words := [], word_number := 0, keys := [], acks := 0 } =
      some (MF_NO_ERROR, { excluding_tag := false, entity := [], tag := [] },
        { output := bytes "ea", words := [bytes "ea"], word_number := 1, keys := [],
          acks := 0 }) ∧
    write_token (bytes "caf" ++ [0xC3, 0xA9]) false 5 DEFAULT false false
        { excluding_tag := false, entity := [], tag := [] }
        { output := [], words := [], word_number := 0, keys := [], acks := 0 } =
      some (MF_NO_ERROR, { excluding_tag := false, entity := [], tag := [] },
        { output := bytes "CAFe", words := [bytes "CAFe"], word_number := 1, keys := [],
          acks := 0 }) ∧
    write_token (bytes "caf" ++ [0xC3, 0xA9] ++ [0xE2, 0x80, 0x9D]) false 5 DEFAULT false false
        { excluding_tag := false, entity := [], tag := [] }
        { output := [], words := [], word_number := 0, keys := [], acks := 0 } =
      some (MF_NO_ERROR, { excluding_tag := false, entity := [], tag := [] },
        { output := bytes "CAFea", words := [bytes "CAFea"], word_number := 1, keys := [],
          acks := 0 }) ∧
    write_token (bytes "caf" ++ [0xC3, 0xA9] ++ [0xE2, 0x80, 0x9D]) false 5 DEFAULT false true
        { excluding_tag := false, entity := [], tag := [] }
        { output := [], words := [], word_number := 0, keys := [], acks := 0 } =
      some (MF_NO_ERROR, { excluding_tag := false, entity := [], tag := [] },
        { output := bytes "CAFea", words := [bytes "CAFea"], word_number := 1, keys := [],
          acks := 0 }) := by
  refine ⟨by decide, by decide, by decide, by decide, by decide, by decide, by decide⟩

/-- C27, the code at the failing input, and the claim where no Latin-1
character comes earlier in the token. The token E9 (a Latin-1 `é`) gives the
Word `e`; with the three bytes E2 80 9C inserted after it the Word is `ea`.
The UTF-8 text `café` (63 61 66 C3 A9) gives `CAFe`; with the closing
quotation mark E2 80 9D after it the Word is `CAFea`, with or without HTML
filtering. The first Latin-1 character has set the flag `latin1` of the
call, which is never cleared, and the Latin-1 block then runs on the lead
byte E2 of the sequence that the three-byte branch has just stepped over.
With the flag off, a three-byte or four-byte sequence that passes the checks
of `write_token`, met with no tag and no entity open and room left in the
word, is stepped over without any effect: the loop goes on with the bytes
after it in the same state. So, without HTML filtering, for every ASCII
string `p` of fewer than 1023 bytes, every such sequence `q` and every
string `s`, the tokens `p ++ q ++ s` and `p ++ s` give the same result (the
same Words, error code and state). -/
theorem write_token_long_seq :
    (is_long_seq [0xE2, 0x80, 0x9C] = true ∧ is_long_seq [0xE2, 0x80, 0x9D] = true ∧
      write_token [0xE9] false 5 DEFAULT false false
          { excluding_tag := false, entity := [], tag := [] }
          { output := [], words := [], word_number := 0, keys := [], acks := 0 } =
        some (MF_NO_ERROR, { excluding_tag := false, entity := [], tag := [] },
          { output := bytes "e", words := [bytes "e"], word_number := 1, keys := [],
            acks := 0 }) ∧
      write_token [0xE9, 0xE2, 0x80, 0x9C] false 5 DEFAULT false false
          { excluding_tag := false, entity := [], tag := [] }
          { output := [], words := [], word_number := 0, keys := [], acks := 0 } =
        some (MF_NO_ERROR, { excluding_tag := false, entity := [], tag := [] },
          { output := bytes "ea", words := [bytes "ea"], word_number := 1, keys := [],
            acks := 0 }) ∧
      write_token (bytes "caf" ++ [0xC3, 0xA9]) false 5 DEFAULT false false
          { excluding_tag := false, entity := [], tag := [] }
          { output := [], words := [], word_number := 0, keys := [], acks := 0 } =
        some (MF_NO_ERROR, { excluding_tag := false, entity := [], tag := [] },
          { output := bytes "CAFe", words := [bytes "CAFe"], word_number := 1, keys := [],
            acks := 0 }) ∧
      write_token (bytes "caf" ++ [0xC3, 0xA9] ++ [0xE2, 0x80, 0x9D]) false 5 DEFAULT false false
          { excluding_tag := false, entity := [], tag := [] }
          { output := [], words := [], word_number := 0, keys := [], acks := 0 } =
        some (MF_NO_ERROR, { excluding_tag := false, entity := [], tag := [] },
          { output := bytes "CAFea", words := [bytes "CAFea"], word_number := 1, keys := [],
            acks := 0 }) ∧
      write_token (bytes "caf" ++ [0xC3, 0xA9] ++ [0xE2, 0x80, 0x9D]) false 5 DEFAULT false true
          { excluding_tag := false, entity := [], tag := [] }
          { output := [], words := [], word_number := 0, keys := [], acks := 0 } =
        some (MF_NO_ERROR, { excluding_tag := false, entity := [], tag := [] },
          { output := bytes "CAFea", words := [bytes "CAFea"], word_number := 1, keys := [],
            acks := 0 })) ∧
    (∀ (pf : Bool) (wpr wc : Int) (ukc fh : Bool) (q rest : List Nat) (s : Loop),
      is_long_seq q = true → s.skip = 0 → s.latin1 = false → s.excluding_tag = false →
      (fh = true → s.entity = []) → s.word.length < LINE_SIZE - 1 →
      write_token_loop pf wpr wc ukc fh (q ++ rest) s =
        write_token_loop pf wpr wc ukc fh rest s) ∧
    (∀ (pf : Bool) (wpr wc : Int) (ukc : Bool) (p q s : List Nat) (h : HtmlState) (w : World),
      (∀ c ∈ p, c ≤ 0x7F) → p.length < 1023 → is_long_seq q = true →
      h.excluding_tag = false →
      write_token (p ++ q ++ s) pf wpr wc ukc false h w =
        write_token (p ++ s) pf wpr wc ukc false h w) := by
  refine ⟨long_seq_leak_eval, ?_, ?_⟩
  · intro pf wpr wc ukc fh q rest s hq hsk hl hex hent hroom
    exact write_token_loop_long_seq pf wpr wc ukc fh q rest s hq hsk hl hex hent hroom
  · intro pf wpr wc ukc p q s h w hp hlen hq hex
    rw [write_token_eq, write_token_eq, List.append_assoc,
      write_token_loop_append_ascii pf wpr wc ukc false p (q ++ s) hp _ rfl rfl,
      write_token_loop_append_ascii pf wpr wc ukc false p s hp _ rfl rfl]
    cases hl : write_token_loop pf wpr wc ukc false p (loop_init h w) with
    | none => rfl
    | some t =>
      obtain ⟨t1, t2, t3⟩ := write_token_loop_ascii_state pf wpr wc ukc false p hp _ t rfl rfl hl
      have t4 := write_token_loop_plain_ex pf wpr wc ukc p _ t hex hl
      have hroom : t.word.length < LINE_SIZE - 1 := by
        have : (loop_init h w).word.length = 0 := rfl
        simp only [LINE_SIZE]
        omega
      simp only [Option.some_bind]
      rw [write_token_loop_long_seq pf wpr wc ukc false q s t hq t1 t2 t4
        (fun hf => Bool.noConfusion hf) hroom]

theorem write_token_long_seq_witness :
    write_token (bytes "ab" ++ [0xE2, 0x80, 0x9C] ++ bytes "cd") false 5 DEFAULT false false
        { excluding_tag := false, entity := [], tag := [] }
        { output := [], words := [], word_number := 0, keys := [], acks := 0 } =
      write_token (bytes "ab" ++ bytes "cd") false 5 DEFAULT false false
        { excluding_tag := false, entity := [], tag := [] }
        { output := [], words := [], word_number := 0, keys := [], acks := 0 } :=
  write_token_long_seq.2.2 false 5 DEFAULT false (bytes "ab") [0xE2, 0x80, 0x9C] (bytes "cd")
    { excluding_tag := false, entity := [], tag := [] }
    { output := [], words := [], word_number := 0, keys := [], acks := 0 }
    (by decide) (by decide) (by decide) rfl

theorem utf8_two_facts : ∀ u, u < 256 → 0x80 ≤ u →
    (0xC0 ||| (u >>> 6)) &&& 0xE0 = 0xC0 ∧ 0x7F < (0xC0 ||| (u >>> 6)) ∧
    is_cont (0x80 ||| (u &&& 0x3F)) = true ∧
    (((0xC0 ||| (u >>> 6)) &&& 0x1F) <<< 6) ||| ((0x80 ||| (u &&& 0x3F)) &&& 0x3F) = u := by
  decide!

theorem not_cont_ascii (c : Nat) (hc : c ≤ 0x7F) : ¬ (is_cont c = true) := by
  unfold is_cont
  have h1 : c &&& 0xC0 ≤ c := Nat.and_le_left
  simp only [decide_eq_true_eq]
  omega

theorem scan_latin1_set_skip (a : Scan) (k : Nat) :
    scan_latin1 { a with skip := k } = { scan_latin1 a with skip := k } := by
  unfold scan_latin1
  dsimp only
  split
  · split
    · split
      · split <;> rfl
      · rfl
    · rfl
  · rfl

/-- The chain on a lone byte above 0x7F that ASCII bytes (or nothing)
follow: the Latin-1 flag is set, nothing else. -/
theorem scan_chain_lone (fh : Bool) (u : Nat) (rest : List Nat) (s : Loop) (hu : 0x7F < u)
    (hrest : ∀ x ∈ rest, x ≤ 0x7F) (hex : s.excluding_tag = false)
    (hent : fh = true → s.entity = []) :
    scan_chain fh u rest s =
      { excluding_tag := s.excluding_tag, entity := s.entity, tag := s.tag, word := s.word,
        latin1 := true, name := [], c := u, skip := 0 } := by
  apply scan_chain_high fh u rest s hu hex hent
  by_cases h2 : u &&& 0xE0 = 0xC0
  · rw [if_pos h2]
    cases rest with
    | nil => rfl
    | cons c1 r =>
      dsimp only
      rw [if_neg (not_cont_ascii c1 (hrest c1 (List.mem_cons_self _ _)))]
  rw [if_neg h2]
  by_cases h3 : u &&& 0xF0 = 0xE0
  · rw [if_pos h3]
    cases rest with
    | nil => rfl
    | cons c1 r =>
      cases r with
      | nil => rfl
      | cons c2 r =>
        dsimp only
        rw [if_neg (fun h => not_cont_ascii c1 (hrest c1 (List.mem_cons_self _ _)) h.1)]
  rw [if_neg h3]
  by_cases h4 : u &&& 0xF8 = 0xF0
  · rw [if_pos h4]
    cases rest with
    | nil => rfl
    | cons c1 r =>
      cases r with
      | nil => rfl
      | cons c2 r =>
        cases r with
        | nil => rfl
        | cons c3 r =>
          dsimp only
          rw [if_neg (fun h => not_cont_ascii c1 (hrest c1 (List.mem_cons_self _ _)) h.1)]
  rw [if_neg h4]

/-- The chain on the two-byte sequence of a code point from 0x80 to 0xFF:
the code point replaces the byte, the Latin-1 flag is set, and the second
byte is stepped over. -/
theorem scan_chain_two (fh : Bool) (u : Nat) (rest : List Nat) (s : Loop) (hu1 : 0x80 ≤ u)
    (hu2 : u ≤ 0xFF) (hex : s.excluding_tag = false) (hent : fh = true → s.entity = []) :
    scan_chain fh (0xC0 ||| (u >>> 6)) ((0x80 ||| (u &&& 0x3F)) :: rest) s =
      { excluding_tag := s.excluding_tag, entity := s.entity, tag := s.tag, word := s.word,
        latin1 := true, name := [], c := u, skip := 1 } := by
  obtain ⟨f1, f2, f3, f4⟩ := utf8_two_facts u (by omega) hu1
  apply scan_chain_high fh _ _ s f2 hex hent
  rw [if_pos f1]
  dsimp only
  rw [if_pos f3, f4, if_pos hu2]

/-- Without a tag or an entity open, the two-byte sequence of a code point
from 0x80 to 0xFF does to the loop what the lone byte does when ASCII bytes
(or nothing) follow. -/
theorem write_token_loop_two (pf : Bool) (wpr wc : Int) (ukc fh : Bool) (u : Nat)
    (rest : List Nat) (s : Loop) (hu1 : 0x80 ≤ u) (hu2 : u ≤ 0xFF)
    (hrest : ∀ x ∈ rest, x ≤ 0x7F) (hsk : s.skip = 0) (hex : s.excluding_tag = false)
    (hent : fh = true → s.entity = []) :
    write_token_loop pf wpr wc ukc fh (utf8_two u ++ rest) s =
      write_token_loop pf wpr wc ukc fh (u :: rest) s := by
  unfold utf8_two
  simp only [List.cons_append, List.nil_append]
  by_cases hroom : s.word.length < LINE_SIZE - 1
  · rw [write_token_loop_cons pf wpr wc ukc fh _ _ s hsk hroom,
      write_token_loop_cons pf wpr wc ukc fh u _ s hsk hroom]
    have h1 : scan_char fh (0xC0 ||| (u >>> 6)) ((0x80 ||| (u &&& 0x3F)) :: rest) s =
        { scan_char fh u rest s with skip := 1 } := by
      unfold scan_char
      rw [scan_chain_two fh u rest s hu1 hu2 hex hent,
        scan_chain_lone fh u rest s (by omega) hrest hex hent]
      exact scan_latin1_set_skip
        { excluding_tag := s.excluding_tag, entity := s.entity, tag := s.tag, word := s.word,
          latin1 := true, name := [], c := u, skip := 0 } 1
    have h0 : (scan_char fh u rest s).skip = 0 := by
      unfold scan_char
      rw [scan_latin1_skip, scan_chain_lone fh u rest s (by omega) hrest hex hent]
    unfold write_token_step
    rw [h1]
    dsimp only
    cases emit_name pf wpr wc ukc s.error (scan_char fh u rest s).word
        (scan_char fh u rest s).name s.world with
    | none => rfl
    | some r =>
      simp only [Option.some_bind]
      rw [write_token_loop_drop pf wpr wc ukc fh _ rest _ (Nat.zero_lt_one)]
      dsimp only
      rw [h0]
  · rw [write_token_loop_full pf wpr wc ukc fh _ s hsk hroom,
      write_token_loop_full pf wpr wc ukc fh _ s hsk hroom]
    simp

/-- C28: without HTML filtering (and with no tag open), for every code point
`u` from 0x80 to 0xFF and all ASCII strings `p` and `s`, the token
`p ++ utf8(u) ++ s` gives the same result as the token `p ++ [u] ++ s`:
the same Words, error code and state, whatever the sink, the limit and the
keys. The tokens C2 A9 and A9 both give the Word `copyright`. -/
theorem write_token_two_byte_latin1 :
    (∀ (pf : Bool) (wpr wc : Int) (ukc : Bool) (u : Nat) (p s : List Nat) (h : HtmlState)
        (w : World),
      0x80 ≤ u → u ≤ 0xFF → (∀ c ∈ p, c ≤ 0x7F) → (∀ c ∈ s, c ≤ 0x7F) →
      h.excluding_tag = false →
      write_token (p ++ utf8_two u ++ s) pf wpr wc ukc false h w =
        write_token (p ++ [u] ++ s) pf wpr wc ukc false h w) ∧
    utf8_two 0xA9 = [0xC2, 0xA9] ∧
    write_token [0xC2, 0xA9] false 5 DEFAULT false false
        { excluding_tag := false, entity := [], tag := [] }
        { output := [], words := [], word_number := 0, keys := [], acks := 0 } =
      some (MF_NO_ERROR, { excluding_tag := false, entity := [], tag := [] },
        { output := bytes "copyright", words := [bytes "copyright"], word_number := 1,
          keys := [], acks := 0 }) ∧
    write_token [0xA9] false 5 DEFAULT false false
        { excluding_tag := false, entity := [], tag := [] }
        { output := [], words := [], word_number := 0, keys := [], acks := 0 } =
      some (MF_NO_ERROR, { excluding_tag := false, entity := [], tag := [] },
        { output := bytes "copyright", words := [bytes "copyright"], word_number := 1,
          keys := [], acks := 0 }) := by
  refine ⟨?_, by decide, by decide, by decide⟩
  intro pf wpr wc ukc u p s h w hu1 hu2 hp hs hex
  rw [write_token_eq, write_token_eq, List.append_assoc, List.append_assoc,
    write_token_loop_append_ascii pf wpr wc ukc false p _ hp _ rfl rfl,
    write_token_loop_append_ascii pf wpr wc ukc false p _ hp _ rfl rfl]
  cases hl : write_token_loop pf wpr wc ukc false p (loop_init h w) with
  | none => rfl
  | some t =>
    obtain ⟨t1, _, _⟩ := write_token_loop_ascii_state pf wpr wc ukc false p hp _ t rfl rfl hl
    have t4 := write_token_loop_plain_ex pf wpr wc ukc p _ t hex hl
    simp only [Option.some_bind]
    rw [write_token_loop_two pf wpr wc ukc false u s t hu1 hu2 hs t1 t4
      (fun hf => Bool.noConfusion hf)]
    rfl

theorem write_token_two_byte_latin1_witness :
    write_token (bytes "caf" ++ utf8_two 0xE9 ++ bytes "s") false 5 DEFAULT false false
        { excluding_tag := false, entity := [], tag := [] }
        { output := [], words := [], word_number := 0, keys := [], acks := 0 } =
      write_token (bytes "caf" ++ [0xE9] ++ bytes "s") false 5 DEFAULT false false
        { excluding_tag := false, entity := [], tag := [] }
        { output := [], words := [], word_number := 0, keys := [], acks := 0 } :=
  write_token_two_byte_latin1.1 false 5 DEFAULT false 0xE9 (bytes "caf") (bytes "s")
    { excluding_tag := false, entity := [], tag := [] }
    { output := [], words := [], word_number := 0, keys := [], acks := 0 }
    (by decide) (by decide) (by decide) (by decide) rfl

theorem scan_char_quote (fh : Bool) (rest : List Nat) (s : Loop)
    (hex : s.excluding_tag = false) (hent : fh = true → s.entity = []) :
    scan_char fh 0x22 rest s =
      { excluding_tag := false, entity := s.entity, tag := s.tag, word := s.word,
        latin1 := s.latin1,
        name := if s.word.length = 0 then bytes "quote" else bytes "unquote",
        c := 0x22, skip := 0 } := by
  have h : scan_chain fh 0x22 rest s =
      { excluding_tag := false, entity := s.entity, tag := s.tag, word := s.word,
        latin1 := s.latin1,
        name := if s.word.length = 0 then bytes "quote" else bytes "unquote",
        c := 0x22, skip := 0 } := by
    cases fh with
    | false => simp [scan_chain, hex, is_word_char, ascii_name]
    | true => simp [scan_chain, hex, hent rfl, is_word_char, ascii_name]
  unfold scan_char
  rw [h]
  exact scan_latin1_ascii _ (by simp)

theorem emit_name_named_word (pf : Bool) (wpr wc : Int) (ukc : Bool) (err : MorseFeedError)
    (word name : List Nat) (w : World) (e : MorseFeedError) (word1 : List Nat) (w1 : World)
    (hn : name ≠ [])
    (h : emit_name pf wpr wc ukc err word name w = some (e, word1, w1)) :
    word1 = [] := by
  rcases emit_name_word pf wpr wc ukc err word name w e word1 w1 h with hw | hw
  · by_cases hpos : word.length > 0
    · have hn1 : name.length > 0 := List.length_pos.mpr hn
      unfold emit_name at h
      rw [if_pos hn1] at h
      simp only [if_pos hpos] at h
      cases hf : write_word word pf wpr wc ukc w with
      | none => rw [hf] at h; cases h
      | some r =>
        rw [hf] at h
        dsimp only at h
        split at h
        · split at h
          · cases h
          · simp only [Option.some.injEq, Prod.mk.injEq] at h
            exact h.2.1.symm
        · simp only [Option.some.injEq, Prod.mk.injEq] at h
          exact h.2.1.symm
    · rw [hw]
      cases word with
      | nil => rfl
      | cons a l => simp at hpos
  · exact hw

theorem entity_name_quot (n : Nat) :
    entity_name (entity_buf (bytes "quot")) n =
      if n = 0 then bytes "quote" else bytes "unquote" := by
  have e : entity_buf (bytes "quot") = bytes "&quot;" := by decide
  have e1 : ¬ (bytes "&quot;" = bytes "&amp;") := by decide
  have e2 : ¬ (bytes "&quot;" = bytes "&#x27;") := by decide
  rw [e]
  unfold entity_name
  rw [if_neg e1, if_neg e2, if_pos rfl]

/-- C29: in a loop round on the double quote byte (no tag open, and with HTML
filtering no entity open) the block that flushes the word in progress and
writes a name runs with the name `quote` when the word in progress is empty
and `unquote` otherwise; with HTML filtering the entity `&quot;` does the
same. When no error, limit or key interferes that block writes the flushed
word, if any, and then that name, and leaves the word empty. A round that
writes a name leaves the word in progress empty, so a double quote right
after a named Word is `quote`. The token `"Hello"` gives quote, HELLO,
unquote; the token `!"` gives exclamation, quote. -/
theorem write_token_quote :
    (∀ (pf : Bool) (wpr wc : Int) (ukc fh : Bool) (q : List Nat) (s : Loop),
      s.skip = 0 → s.excluding_tag = false → (fh = true → s.entity = []) →
      s.word.length < LINE_SIZE - 1 →
      write_token_loop pf wpr wc ukc fh (0x22 :: q) s =
        (emit_name pf wpr wc ukc s.error s.word
            (if s.word.length = 0 then bytes "quote" else bytes "unquote") s.world).bind
          (fun r => write_token_loop pf wpr wc ukc fh q
            { s with error := r.1, word := r.2.1, world := r.2.2 })) ∧
    (∀ (pf : Bool) (wpr wc : Int) (ukc : Bool) (q : List Nat) (s : Loop),
      s.skip = 0 → s.excluding_tag = false → s.word.length < LINE_SIZE - 1 →
      write_token_loop pf wpr wc ukc true (bytes "&quot;" ++ q) s =
        (emit_name pf wpr wc ukc s.error s.word
            (if s.word.length = 0 then bytes "quote" else bytes "unquote") s.world).bind
          (fun r => write_token_loop pf wpr wc ukc true q
            { s with error := r.1, word := r.2.1, world := r.2.2, entity := [] })) ∧
    (∀ (wpr : Int) (word : List Nat) (w : World),
      ∃ w1, emit_name false wpr DEFAULT false MF_NO_ERROR word
          (if word.length = 0 then bytes "quote" else bytes "unquote") w =
            some (MF_NO_ERROR, [], w1) ∧
        w1.words = w.words ++ flush_words word ++
          [if word.length = 0 then bytes "quote" else bytes "unquote"]) ∧
    (∀ (pf : Bool) (wpr wc : Int) (ukc fh : Bool) (c : Nat) (rest : List Nat) (s s1 : Loop),
      write_token_step pf wpr wc ukc fh c rest s = some s1 →
      (scan_char fh c rest s).name ≠ [] → s1.word = []) ∧
    write_token (bytes "\"Hello\"") false 5 DEFAULT false false
        { excluding_tag := false, entity := [], tag := [] }
        { output := [], words := [], word_number := 0, keys := [], acks := 0 } =
      some (MF_NO_ERROR, { excluding_tag := false, entity := [], tag := [] },
        { output := bytes "quote HELLO unquote",
          words := [bytes "quote", bytes "HELLO", bytes "unquote"], word_number := 3,
          keys := [], acks := 0 }) ∧
    write_token (bytes "&quot;Hello&quot;") false 5 DEFAULT false true
        { excluding_tag := false, entity := [], tag := [] }
        { output := [], words := [], word_number := 0, keys := [], acks := 0 } =
      some (MF_NO_ERROR, { excluding_tag := false, entity := [], tag := [] },
        { output := bytes "quote HELLO unquote",
          words := [bytes "quote", bytes "HELLO", bytes "unquote"], word_number := 3,
          keys := [], acks := 0 }) ∧
    write_token (bytes "!\"") false 5 DEFAULT false false
        { excluding_tag := false, entity := [], tag := [] }
        { output := [], words := [], word_number := 0, keys := [], acks := 0 } =
      some (MF_NO_ERROR, { excluding_tag := false, entity := [], tag := [] },
        { output := bytes "exclamation quote",
          words := [bytes "exclamation", bytes "quote"], word_number := 2,
          keys := [], acks := 0 }) := by
  refine ⟨?_, ?_, ?_, ?_, by decide, by decide, by decide⟩
  · intro pf wpr wc ukc fh q s hsk hex hent hroom
    rw [write_token_loop_cons pf wpr wc ukc fh 0x22 q s hsk hroom]
    unfold write_token_step
    rw [scan_char_quote fh q s hex hent]
    dsimp only
    cases emit_name pf wpr wc ukc s.error s.word
        (if s.word.length = 0 then bytes "quote" else bytes "unquote") s.world with
    | none => rfl
    | some r =>
      simp only [Option.some_bind, hex, hsk]
  · intro pf wpr wc ukc q s hsk hex hroom
    have hq : bytes "&quot;" ++ q = 0x26 :: bytes "quot" ++ 0x3B :: q := by
      have : bytes "&quot;" = 0x26 :: bytes "quot" ++ [0x3B] := by decide
      rw [this]
      simp
    rw [hq, write_token_loop_entity pf wpr wc ukc (bytes "quot") q s (by decide) hsk
      (Or.inr (by decide)) hex hroom, entity_name_quot]
  · intro wpr word w
    have hn : 0 < (if word.length = 0 then bytes "quote" else bytes "unquote").length := by
      split <;> decide
    obtain ⟨w1, h1, h2, _⟩ := emit_name_quiet false wpr word _ w hn
      (fun hp => Bool.noConfusion hp)
    exact ⟨w1, h1, h2⟩
  · intro pf wpr wc ukc fh c rest s s1 h hn
    unfold write_token_step at h
    dsimp only at h
    cases he : emit_name pf wpr wc ukc s.error (scan_char fh c rest s).word
        (scan_char fh c rest s).name s.world with
    | none => rw [he] at h; cases h
    | some r =>
      obtain ⟨e, word1, w1⟩ := r
      rw [he] at h
      simp only [Option.some.injEq] at h
      subst h
      exact emit_name_named_word pf wpr wc ukc _ _ _ _ e word1 w1 hn he

theorem write_token_quote_witness :
    write_token_loop false 5 DEFAULT false false (0x22 :: bytes "Hi")
        { error := MF_NO_ERROR, word := bytes "OH", latin1 := false, skip := 0,
          excluding_tag := false, entity := [], tag := [],
          world := { output := [], words := [], word_number := 0, keys := [], acks := 0 } } =
      (emit_name false 5 DEFAULT false MF_NO_ERROR (bytes "OH")
          (if (bytes "OH").length = 0 then bytes "quote" else bytes "unquote")
          { output := [], words := [], word_number := 0, keys := [], acks := 0 }).bind
        (fun r => write_token_loop false 5 DEFAULT false false (bytes "Hi")
          { error := r.1, word := r.2.1, latin1 := false, skip := 0,
            excluding_tag := false, entity := [], tag := [], world := r.2.2 }) :=
  write_token_quote.1 false 5 DEFAULT false false (bytes "Hi")
    { error := MF_NO_ERROR, word := bytes "OH", latin1 := false, skip := 0,
      excluding_tag := false, entity := [], tag := [],
      world := { output := [], words := [], word_number := 0, keys := [], acks := 0 } }
    rfl rfl (fun hf => Bool.noConfusion hf) (by decide)

theorem is_alnum_word_char (c : Nat) (h : is_alnum c = true) : is_word_char c = true := by
  unfold is_alnum at h
  unfold is_word_char
  simp only [Bool.or_eq_true] at h ⊢
  exact Or.inl (Or.inl (Or.inl (Or.inl h)))

theorem word_char_facts (c : Nat) (h : is_word_char c = true) :
    c ≠ 0x3C ∧ c ≠ 0x26 ∧ c ≤ 0x7F := by
  unfold is_word_char at h
  simp only [Bool.or_eq_true, Bool.and_eq_true, decide_eq_true_eq] at h
  omega

theorem scan_char_word_any (fh : Bool) (c : Nat) (rest : List Nat) (s : Loop)
    (hc : is_word_char c = true) (hex : s.excluding_tag = false)
    (hent : fh = true → s.entity = []) :
    scan_char fh c rest s =
      { excluding_tag := false, entity := s.entity, tag := s.tag, word := s.word ++ [toupper c],
        latin1 := s.latin1, name := [], c := c, skip := 0 } := by
  obtain ⟨h1, h2, h3⟩ := word_char_facts c hc
  have h : scan_chain fh c rest s =
      { excluding_tag := false, entity := s.entity, tag := s.tag,
        word := s.word ++ [toupper c], latin1 := s.latin1, name := [], c := c, skip := 0 } := by
    cases fh with
    | false => simp [scan_chain, hex, hc]
    | true => simp [scan_chain, hex, hent rfl, hc, h1, h2]
  unfold scan_char
  rw [h]
  exact scan_latin1_ascii _ h3

theorem scan_char_apostrophe (fh : Bool) (rest : List Nat) (s : Loop)
    (hex : s.excluding_tag = false) (hent : fh = true → s.entity = []) :
    scan_char fh 0x27 rest s =
      { excluding_tag := false, entity := s.entity, tag := s.tag, word := s.word,
        latin1 := s.latin1, name := [], c := 0x27, skip := 0 } := by
  have h : scan_chain fh 0x27 rest s =
      { excluding_tag := false, entity := s.entity, tag := s.tag, word := s.word,
        latin1 := s.latin1, name := [], c := 0x27, skip := 0 } := by
    cases fh with
    | false => simp [scan_chain, hex, is_word_char]
    | true => simp [scan_chain, hex, hent rfl, is_word_char]
  unfold scan_char
  rw [h]
  exact scan_latin1_ascii _ (by simp)

/-- The loop over bytes that all go to the word: the word grows by their
upper-case forms and nothing is written. -/
theorem write_token_loop_word_chars (pf : Bool) (wpr wc : Int) (ukc fh : Bool) (x q : List Nat)
    (hx : ∀ c ∈ x, is_word_char c = true) :
    ∀ s : Loop, s.skip = 0 → s.excluding_tag = false → (fh = true → s.entity = []) →
      s.word.length + x.length ≤ LINE_SIZE - 1 →
      write_token_loop pf wpr wc ukc fh (x ++ q) s =
        write_token_loop pf wpr wc ukc fh q { s with word := s.word ++ x.map toupper } := by
  induction x with
  | nil => intro s _ _ _ _; simp
  | cons c rest ih =>
    intro s hsk hex hent hlen
    have hroom : s.word.length < LINE_SIZE - 1 := by
      simp only [List.length_cons] at hlen
      omega
    rw [List.cons_append, write_token_loop_cons pf wpr wc ukc fh c _ s hsk hroom,
      write_token_step_quiet pf wpr wc ukc fh c (rest ++ q) s _
        (scan_char_word_any fh c (rest ++ q) s (hx c (List.mem_cons_self _ _)) hex hent) rfl]
    simp only [Option.some_bind]
    have hlen1 : (s.word ++ [toupper c]).length + rest.length ≤ LINE_SIZE - 1 := by
      simp only [List.length_append, List.length_cons, List.length_nil] at hlen ⊢
      omega
    rw [ih (fun y hy => hx y (List.mem_cons_of_mem _ hy))
      { error := s.error, word := s.word ++ [toupper c], latin1 := s.latin1, skip := 0,
        excluding_tag := false, entity := s.entity, tag := s.tag, world := s.world }
      rfl rfl hent hlen1]
    simp only [List.map_cons, List.append_assoc, List.singleton_append, hsk, hex]

theorem write_token_loop_apostrophe (pf : Bool) (wpr wc : Int) (ukc fh : Bool) (u v : List Nat)
    (s : Loop) (hu : ∀ c ∈ u, is_word_char c = true) (hv : ∀ c ∈ v, is_word_char c = true)
    (hsk : s.skip = 0) (hex : s.excluding_tag = false) (hent : fh = true → s.entity = [])
    (hlen : s.word.length + u.length + v.length ≤ LINE_SIZE - 2) :
    write_token_loop pf wpr wc ukc fh (u ++ [0x27] ++ v) s =
      some { s with word := s.word ++ (u ++ v).map toupper } := by
  have hL : LINE_SIZE = 1024 := rfl
  rw [List.append_assoc, write_token_loop_word_chars pf wpr wc ukc fh u _ hu s hsk hex hent
    (by omega)]
  have hroom : (s.word ++ u.map toupper).length < LINE_SIZE - 1 := by
    simp only [List.length_append, List.length_map]
    omega
  rw [List.singleton_append,
    write_token_loop_cons pf wpr wc ukc fh 0x27 v
      { s with word := s.word ++ u.map toupper } hsk hroom,
    write_token_step_quiet pf wpr wc ukc fh 0x27 v
      { s with word := s.word ++ u.map toupper } _
      (scan_char_apostrophe fh v { s with word := s.word ++ u.map toupper } hex hent) rfl]
  simp only [Option.some_bind]
  have hlen1 : (s.word ++ u.map toupper).length + v.length ≤ LINE_SIZE - 1 := by
    simp only [List.length_append, List.length_map]
    omega
  have h2 := write_token_loop_word_chars pf wpr wc ukc fh v [] hv
    { error := s.error, word := s.word ++ u.map toupper, latin1 := s.latin1, skip := 0,
      excluding_tag := false, entity := s.entity, tag := s.tag, world := s.world }
    rfl rfl hent hlen1
  rw [List.append_nil] at h2
  rw [h2]
  simp only [write_token_loop, List.map_append, List.append_assoc, hsk, hex]

theorem entity_name_apostrophe (n : Nat) : entity_name (entity_buf (bytes "#x27")) n = [] := by
  have e : entity_buf (bytes "#x27") = bytes "&#x27;" := by decide
  have e1 : ¬ (bytes "&#x27;" = bytes "&amp;") := by decide
  rw [e]
  unfold entity_name
  rw [if_neg e1, if_pos rfl]

theorem write_token_loop_apostrophe_entity (pf : Bool) (wpr wc : Int) (ukc : Bool)
    (u v : List Nat) (s : Loop) (hu : ∀ c ∈ u, is_word_char c = true)
    (hv : ∀ c ∈ v, is_word_char c = true)
    (hsk : s.skip = 0) (hex : s.excluding_tag = false) (hent : s.entity = [])
    (hlen : s.word.length + u.length + v.length ≤ LINE_SIZE - 2) :
    write_token_loop pf wpr wc ukc true (u ++ bytes "&#x27;" ++ v) s =
      some { s with word := s.word ++ (u ++ v).map toupper } := by
  have hL : LINE_SIZE = 1024 := rfl
  rw [List.append_assoc, write_token_loop_word_chars pf wpr wc ukc true u _ hu s hsk hex
    (fun _ => hent) (by omega)]
  have hroom : (s.word ++ u.map toupper).length < LINE_SIZE - 1 := by
    simp only [List.length_append, List.length_map]
    omega
  have hq : bytes "&#x27;" ++ v = 0x26 :: bytes "#x27" ++ 0x3B :: v := by
    have : bytes "&#x27;" = 0x26 :: bytes "#x27" ++ [0x3B] := by decide
    rw [this]
    simp
  rw [hq, write_token_loop_entity pf wpr wc ukc (bytes "#x27") v
    { s with word := s.word ++ u.map toupper } (by decide) hsk
    (Or.inr (by decide)) hex hroom, entity_name_apostrophe]
  have he : ∀ (err : MorseFeedError) (word : List Nat) (w : World),
      emit_name pf wpr wc ukc err word [] w = some (err, word, w) := by
    intro err word w
    simp [emit_name]
  rw [he]
  simp only [Option.some_bind]
  have hlen1 : (s.word ++ u.map toupper).length + v.length ≤ LINE_SIZE - 1 := by
    simp only [List.length_append, List.length_map]
    omega
  have h2 := write_token_loop_word_chars pf wpr wc ukc true v [] hv
    { error := s.error, word := s.word ++ u.map toupper, latin1 := s.latin1, skip := s.skip,
      excluding_tag := s.excluding_tag, entity := [], tag := s.tag, world := s.world }
    hsk hex (fun _ => rfl) hlen1
  rw [List.append_nil] at h2
  rw [h2]
  simp only [write_token_loop, List.map_append, List.append_assoc, hent]

theorem write_token_end_word (pf : Bool) (wpr wc : Int) (ukc : Bool) (h : HtmlState) (w : World)
    (word : List Nat) (hw : word ≠ []) :
    write_token_end pf wpr wc ukc { loop_init h w with word := word } =
      (write_word word pf wpr wc ukc w).map (fun r => (r.1, h, r.2)) := by
  have hpos : word.length > 0 := List.length_pos.mpr hw
  unfold write_token_end loop_init
  dsimp only
  rw [if_pos ⟨rfl, hpos⟩]
  cases write_word word pf wpr wc ukc w with
  | none => rfl
  | some r => rfl

/-- C30: for all strings `u` and `v` of ASCII letters and digits, not both
empty and of total length at most 1022, with no tag open (and with HTML
filtering no entity open), `write_token` on `u ++ "'" ++ v` makes exactly
one call of `write_word`, with the Word `upper(u ++ v)`, and returns its
result with the tokenizer state unchanged; with HTML filtering the token
`u ++ "&#x27;" ++ v` does the same. When `u` and `v` are both empty there is
no word and nothing is written. With no limit and no keys that one call
appends the Word to those written. The tokens `don't` and `don&#x27;t` give
DONT. -/
theorem write_token_apostrophe :
    (∀ (pf : Bool) (wpr wc : Int) (ukc fh : Bool) (u v : List Nat) (h : HtmlState) (w : World),
      (∀ c ∈ u, is_alnum c = true) → (∀ c ∈ v, is_alnum c = true) →
      u.length + v.length ≤ 1022 → h.excluding_tag = false → (fh = true → h.entity = []) →
      u ++ v ≠ [] →
      write_token (u ++ [0x27] ++ v) pf wpr wc ukc fh h w =
        (write_word ((u ++ v).map toupper) pf wpr wc ukc w).map (fun r => (r.1, h, r.2))) ∧
    (∀ (pf : Bool) (wpr wc : Int) (ukc : Bool) (u v : List Nat) (h : HtmlState) (w : World),
      (∀ c ∈ u, is_alnum c = true) → (∀ c ∈ v, is_alnum c = true) →
      u.length + v.length ≤ 1022 → h.excluding_tag = false → h.entity = [] →
      u ++ v ≠ [] →
      write_token (u ++ bytes "&#x27;" ++ v) pf wpr wc ukc true h w =
        (write_word ((u ++ v).map toupper) pf wpr wc ukc w).map (fun r => (r.1, h, r.2))) ∧
    (∀ (pf : Bool) (wpr wc : Int) (ukc fh : Bool) (h : HtmlState) (w : World),
      h.excluding_tag = false → (fh = true → h.entity = []) →
      write_token [0x27] pf wpr wc ukc fh h w = some (MF_NO_ERROR, h, w) ∧
      (fh = true → write_token (bytes "&#x27;") pf wpr wc ukc fh h w = some (MF_NO_ERROR, h, w))) ∧
    (∀ (wpr : Int) (word : List Nat) (w : World),
      ∃ w1, write_word word false wpr DEFAULT false w = some (MF_NO_ERROR, w1) ∧
        w1.words = w.words ++ [word]) ∧
    write_token (bytes "don't") false 5 DEFAULT false false
        { excluding_tag := false, entity := [], tag := [] }
        { output := [], words := [], word_number := 0, keys := [], acks := 0 } =
      some (MF_NO_ERROR, { excluding_tag := false, entity := [], tag := [] },
        { output := bytes "DONT", words := [bytes "DONT"], word_number := 1,
          keys := [], acks := 0 }) ∧
    write_token (bytes "don&#x27;t") false 5 DEFAULT false true
        { excluding_tag := false, entity := [], tag := [] }
        { output := [], words := [], word_number := 0, keys := [], acks := 0 } =
      some (MF_NO_ERROR, { excluding_tag := false, entity := [], tag := [] },
        { output := bytes "DONT", words := [bytes "DONT"], word_number := 1,
          keys := [], acks := 0 }) := by
  have hL : LINE_SIZE = 1024 := rfl
  refine ⟨?_, ?_, ?_, ?_, by decide, by decide⟩
  · intro pf wpr wc ukc fh u v h w hu hv hlen hex hent hne
    have h1 := write_token_loop_apostrophe pf wpr wc ukc fh u v (loop_init h w)
      (fun c hc => is_alnum_word_char c (hu c hc)) (fun c hc => is_alnum_word_char c (hv c hc))
      rfl hex hent (by simp only [loop_init, List.length_nil]; omega)
    rw [write_token_eq, h1]
    simp only [Option.some_bind]
    have hw : (u ++ v).map toupper ≠ [] := by
      intro hc
      exact hne (List.map_eq_nil_iff.mp hc)
    exact write_token_end_word pf wpr wc ukc h w _ hw
  · intro pf wpr wc ukc u v h w hu hv hlen hex hent hne
    have h1 := write_token_loop_apostrophe_entity pf wpr wc ukc u v (loop_init h w)
      (fun c hc => is_alnum_word_char c (hu c hc)) (fun c hc => is_alnum_word_char c (hv c hc))
      rfl hex hent (by simp only [loop_init, List.length_nil]; omega)
    rw [write_token_eq, h1]
    simp only [Option.some_bind]
    have hw : (u ++ v).map toupper ≠ [] := by
      intro hc
      exact hne (List.map_eq_nil_iff.mp hc)
    exact write_token_end_word pf wpr wc ukc h w _ hw
  · intro pf wpr wc ukc fh h w hex hent
    constructor
    · have h1 := write_token_loop_apostrophe pf wpr wc ukc fh [] [] (loop_init h w)
        (fun c hc => absurd hc (List.not_mem_nil c)) (fun c hc => absurd hc (List.not_mem_nil c))
        rfl hex hent (by simp only [loop_init, List.length_nil]; omega)
      rw [write_token_eq]
      simp only [List.nil_append, List.append_nil] at h1
      rw [h1]
      rfl
    · intro hf
      subst hf
      have h1 := write_token_loop_apostrophe_entity pf wpr wc ukc [] [] (loop_init h w)
        (fun c hc => absurd hc (List.not_mem_nil c)) (fun c hc => absurd hc (List.not_mem_nil c))
        rfl hex (hent rfl) (by simp only [loop_init, List.length_nil]; omega)
      rw [write_token_eq]
      simp only [List.nil_append, List.append_nil] at h1
      rw [h1]
      rfl
  · intro wpr word w
    obtain ⟨w1, h1, h2, _⟩ := write_word_quiet word false wpr w (fun hp => Bool.noConfusion hp)
    exact ⟨w1, h1, h2⟩

theorem write_token_apostrophe_witness :
    write_token (bytes "rock" ++ [0x27] ++ bytes "n") true 5 7 true false
        { excluding_tag := false, entity := [], tag := [] }
        { output := [], words := [], word_number := 0, keys := [], acks := 1 } =
      (write_word ((bytes "rock" ++ bytes "n").map toupper) true 5 7 true
        { output := [], words := [], word_number := 0, keys := [], acks := 1 }).map
        (fun r => (r.1, { excluding_tag := false, entity := [], tag := [] }, r.2)) :=
  write_token_apostrophe.1 true 5 7 true false (bytes "rock") (bytes "n")
    { excluding_tag := false, entity := [], tag := [] }
    { output := [], words := [], word_number := 0, keys := [], acks := 1 }
    (by decide) (by decide) (by decide) rfl (fun hf => Bool.noConfusion hf) (by decide)

/-! ### Numbers in the store -/

theorem atoi_digits_digit (d : Nat) (hd : d < 10) (rest : List Nat) (a : Int) :
    atoi_digits ((0x30 + d) :: rest) a = atoi_digits rest (a * 10 + (d : Int)) := by
  have h1 : 0x30 ≤ 0x30 + d ∧ 0x30 + d ≤ 0x39 := by omega
  rw [atoi_digits, if_pos h1]
  have h2 : 0x30 + d - 0x30 = d := by omega
  rw [h2]

/-- The digits that `decimal_digits` puts before `acc`, and what
`atoi_digits` makes of them. -/
theorem decimal_digits_spec :
    ∀ (fuel n : Nat) (acc : List Nat) (k : Nat), n < 10 ^ k → 0 < k → k ≤ fuel →
      ∃ ds, decimal_digits fuel n acc = ds ++ acc ∧ ds ≠ [] ∧ ds.length ≤ k ∧
        (∀ c ∈ ds, 0x30 ≤ c ∧ c ≤ 0x39) ∧
        ∀ (a : Int) (rest : List Nat),
          atoi_digits (ds ++ rest) a = atoi_digits rest (a * 10 ^ ds.length + (n : Int)) := by
  intro fuel
  induction fuel with
  | zero => intro n acc k _ h1 h2; omega
  | succ fuel ih =>
    intro n acc k hn hk hkf
    unfold decimal_digits
    by_cases h0 : n / 10 = 0
    · rw [if_pos h0]
      have hn10 : n < 10 := by omega
      have hmod : n % 10 = n := Nat.mod_eq_of_lt hn10
      refine ⟨[0x30 + n % 10], rfl, by simp, by simp; omega, ?_, ?_⟩
      · intro c hc
        simp only [List.mem_singleton] at hc
        omega
      · intro a rest
        rw [List.singleton_append, atoi_digits_digit _ (by omega), hmod]
        simp
    · rw [if_neg h0]
      have hk2 : 2 ≤ k := by
        by_contra hlt
        have hk1 : k = 1 := by omega
        rw [hk1] at hn
        omega
      have hdiv : n / 10 < 10 ^ (k - 1) := by
        have hpow : 10 ^ k = 10 ^ (k - 1) * 10 := by
          rw [← Nat.pow_succ]
          congr 1
          omega
        rw [hpow] at hn
        exact Nat.div_lt_of_lt_mul (by rw [Nat.mul_comm]; exact hn)
      obtain ⟨ds, e1, e2, e3, e4, e5⟩ :=
        ih (n / 10) ((0x30 + n % 10) :: acc) (k - 1) hdiv (by omega) (by omega)
      refine ⟨ds ++ [0x30 + n % 10], by rw [e1]; simp, by simp, by simp; omega, ?_, ?_⟩
      · intro c hc
        rcases List.mem_append.mp hc with hc | hc
        · exact e4 c hc
        · simp only [List.mem_singleton] at hc
          omega
      · intro a rest
        rw [List.append_assoc, e5, List.singleton_append,
          atoi_digits_digit _ (Nat.mod_lt _ (by decide))]
        congr 1
        have hsplit : (n : Int) = ((n / 10 : Nat) : Int) * 10 + ((n % 10 : Nat) : Int) := by
          have := Nat.div_add_mod n 10
          omega
        rw [List.length_append, List.length_singleton, pow_succ]
        rw [hsplit]
        push_cast
        ring

theorem atoi_of_digit_first (d : Nat) (t : List Nat) (hd : 0x30 ≤ d ∧ d ≤ 0x39) :
    atoi (d :: t) = atoi_digits (d :: t) 0 := by
  have hs : isspace d = false := by
    unfold isspace
    apply decide_eq_false
    omega
  have hdrop : (d :: t).dropWhile isspace = d :: t := by
    rw [List.dropWhile_cons, hs]
    rfl
  unfold atoi
  rw [hdrop]
  split
  · rename_i heq
    have := (List.cons.inj heq).1
    omega
  · rename_i heq
    have := (List.cons.inj heq).1
    omega
  · rfl

theorem atoi_minus (t : List Nat) : atoi (0x2D :: t) = - atoi_digits t 0 := by
  have hdrop : (0x2D :: t).dropWhile isspace = 0x2D :: t := by
    rw [List.dropWhile_cons]
    have : isspace 0x2D = false := by decide
    rw [this]
    rfl
  unfold atoi
  rw [hdrop]

/-- Reading back with `atoi` what `sprintf` wrote with `%d`. -/
theorem atoi_sprintf_d (n : Int) (h : n.natAbs < 10 ^ 20) : atoi (sprintf_d n) = n := by
  obtain ⟨ds, e1, e2, _, e4, e5⟩ := decimal_digits_spec 20 n.natAbs [] 20 h (by decide)
    (Nat.le_refl _)
  rw [List.append_nil] at e1
  have hval : atoi_digits ds 0 = (n.natAbs : Int) := by
    have := e5 0 []
    rw [List.append_nil] at this
    rw [this]
    simp [atoi_digits]
  unfold sprintf_d
  by_cases hneg : n < 0
  · rw [if_pos hneg, e1, atoi_minus, hval]
    omega
  · rw [if_neg hneg, e1]
    cases ds with
    | nil => exact absurd rfl e2
    | cons d t =>
      rw [atoi_of_digit_first d t (e4 d (List.mem_cons_self _ _)), hval]
      omega

theorem round_thousandths_int (x : ℚ) (hden : x.den = 1) :
    round_thousandths x = x.num.natAbs * 1000 := by
  unfold round_thousandths
  simp only [hden, Nat.mod_one, Nat.div_one, Nat.mul_zero]
  rw [if_pos (by decide)]

theorem dropWhile_spaces (k : Nat) (c : Nat) (t : List Nat) (hc : isspace c = false) :
    (List.replicate k 0x20 ++ c :: t).dropWhile isspace = c :: t := by
  induction k with
  | zero =>
    rw [List.replicate_zero, List.nil_append, List.dropWhile_cons, hc]
    rfl
  | succ k ih =>
    have hs : isspace 0x20 = true := by decide
    rw [List.replicate_succ, List.cons_append, List.dropWhile_cons, hs]
    exact ih

theorem isdigit_of_range (c : Nat) (h : 0x30 ≤ c ∧ c ≤ 0x39) : isdigit c = true := by
  unfold isdigit
  exact decide_eq_true h

/-- The value `atof` gives to digits followed by `.000`. -/
theorem atof_digits_point (ds : List Nat) (N : Nat) (hne : ds ≠ [])
    (hds : ∀ c ∈ ds, 0x30 ≤ c ∧ c ≤ 0x39)
    (hval : ∀ (a : Int) (rest : List Nat),
      atoi_digits (ds ++ rest) a = atoi_digits rest (a * 10 ^ ds.length + (N : Int))) :
    atof_digits (ds ++ 0x2E :: fraction_digits 0) = (N : ℚ) := by
  have hfr : fraction_digits 0 = [0x30, 0x30, 0x30] := by decide
  have htake : (ds ++ 0x2E :: fraction_digits 0).takeWhile isdigit = ds := by
    rw [List.takeWhile_append_of_pos (fun c hc => isdigit_of_range c (hds c hc))]
    have : (0x2E :: fraction_digits 0).takeWhile isdigit = [] := by decide
    rw [this, List.append_nil]
  have hdrop : (ds ++ 0x2E :: fraction_digits 0).dropWhile isdigit =
      0x2E :: fraction_digits 0 := by
    rw [List.dropWhile_append_of_pos (fun c hc => isdigit_of_range c (hds c hc))]
    decide
  unfold atof_digits
  rw [htake, hdrop]
  dsimp only
  have h3 : (fraction_digits 0).takeWhile isdigit = [0x30, 0x30, 0x30] := by decide
  have h4 : (fraction_digits 0).dropWhile isdigit = [] := by decide
  rw [h3, h4]
  have hcond : ¬ (ds = [] ∧ ([0x30, 0x30, 0x30] : List Nat) = []) := fun h => hne h.1
  rw [if_neg hcond, hval 0 [0x30, 0x30, 0x30]]
  have h5 : atoi_digits [0x30, 0x30, 0x30] (0 * 10 ^ ds.length + (N : Int)) =
      (N : Int) * 1000 := by
    simp only [atoi_digits]
    norm_num
    ring
  rw [h5]
  simp only [atof_exponent, List.length_cons, List.length_nil]
  push_cast
  norm_num

/-- What `sprintf` writes with `%12.3f` for an integer below `10 ^ 16` in
magnitude, and `atof` of it. -/
theorem atof_sprintf_12_3f (x : ℚ) (hden : x.den = 1) (hnum : x.num.natAbs < 10 ^ 16) :
    ∃ str, sprintf_12_3f x = some str ∧ atof str = x ∧ str.length ≤ 21 ∧ ∀ c ∈ str, c ≠ 0 := by
  obtain ⟨ds, e1, e2, e3, e4, e5⟩ := decimal_digits_spec 40 x.num.natAbs [] 16 hnum (by decide)
    (by decide)
  rw [List.append_nil] at e1
  have hm : round_thousandths x = x.num.natAbs * 1000 := round_thousandths_int x hden
  have hq : round_thousandths x / 1000 = x.num.natAbs := by rw [hm]; omega
  have hr : round_thousandths x % 1000 = 0 := by rw [hm]; omega
  have hxnum : ((x.num : Int) : ℚ) = x := Rat.coe_int_num_of_den_eq_one hden
  have hfr : fraction_digits 0 = [0x30, 0x30, 0x30] := by decide
  have hbody : atof_digits (ds ++ 0x2E :: fraction_digits 0) = (x.num.natAbs : ℚ) :=
    atof_digits_point ds _ e2 e4 e5
  unfold sprintf_12_3f
  dsimp only
  rw [hq, hr, e1]
  cases ds with
  | nil => exact absurd rfl e2
  | cons d t =>
    have hd := e4 d (List.mem_cons_self _ _)
    have hsd : isspace d = false := by
      unfold isspace
      apply decide_eq_false
      omega
    have hlen : (d :: t).length ≤ 16 := e3
    by_cases hneg : x < 0
    · have hnn : x.num < 0 := Rat.num_neg.mpr hneg
      rw [if_pos hneg]
      have hstr : (List.replicate (12 - ([0x2D] ++ (d :: t) ++ 0x2E :: fraction_digits 0).length)
          0x20 ++ ([0x2D] ++ (d :: t) ++ 0x2E :: fraction_digits 0)).length < 32 := by
        simp only [hfr, List.length_append, List.length_replicate, List.length_cons,
          List.length_nil] at hlen ⊢
        omega
      rw [if_pos hstr]
      refine ⟨_, rfl, ?_, ?_, ?_⟩
      · have hform : [0x2D] ++ (d :: t) ++ 0x2E :: fraction_digits 0 =
            0x2D :: ((d :: t) ++ 0x2E :: fraction_digits 0) := rfl
        rw [hform]
        unfold atof
        rw [dropWhile_spaces _ 0x2D _ (by decide)]
        dsimp only
        rw [hbody]
        have : ((x.num.natAbs : Nat) : ℚ) = - ((x.num : Int) : ℚ) := by
          have h1 : ((x.num.natAbs : Nat) : Int) = - x.num := by omega
          have h2 : ((x.num.natAbs : Nat) : ℚ) = (((x.num.natAbs : Nat) : Int) : ℚ) :=
            (Int.cast_natCast _).symm
          rw [h2, h1]
          push_cast
          rfl
        rw [this, hxnum]
        ring
      · simp only [hfr, List.length_append, List.length_replicate, List.length_cons,
          List.length_nil] at hlen ⊢
        omega
      · intro c hc
        simp only [hfr, List.mem_append, List.mem_replicate, List.mem_cons, List.mem_singleton,
          List.mem_nil_iff, or_false] at hc
        rcases hc with ⟨_, hc⟩ | (hc | hc | hc) | hc | hc | hc | hc
        · omega
        · omega
        · omega
        · have := e4 c (List.mem_cons_of_mem _ hc); omega
        · omega
        · omega
        · omega
        · omega
    · have hnn : ¬ x.num < 0 := fun h => hneg (Rat.num_neg.mp h)
      rw [if_neg hneg]
      have hstr : (List.replicate (12 - ([] ++ (d :: t) ++ 0x2E :: fraction_digits 0).length)
          0x20 ++ ([] ++ (d :: t) ++ 0x2E :: fraction_digits 0)).length < 32 := by
        simp only [hfr, List.length_append, List.length_replicate, List.length_cons,
          List.length_nil] at hlen ⊢
        omega
      rw [if_pos hstr]
      refine ⟨_, rfl, ?_, ?_, ?_⟩
      · have hform : [] ++ (d :: t) ++ 0x2E :: fraction_digits 0 =
            d :: (t ++ 0x2E :: fraction_digits 0) := rfl
        rw [hform]
        unfold atof
        rw [dropWhile_spaces _ d _ hsd]
        have hbody2 : atof_digits (d :: (t ++ 0x2E :: fraction_digits 0)) =
            (x.num.natAbs : ℚ) := hbody
        have hfin : ((x.num.natAbs : Nat) : ℚ) = x := by
          have h1 : ((x.num.natAbs : Nat) : Int) = x.num := by omega
          have h2 : ((x.num.natAbs : Nat) : ℚ) = (((x.num.natAbs : Nat) : Int) : ℚ) :=
            (Int.cast_natCast _).symm
          rw [h2, h1, hxnum]
        split
        · rename_i heq
          have := (List.cons.inj heq).1
          omega
        · rename_i heq
          have := (List.cons.inj heq).1
          omega
        · rw [hbody2, hfin]
      · simp only [hfr, List.length_append, List.length_replicate, List.length_cons,
          List.length_nil] at hlen ⊢
        omega
      · intro c hc
        simp only [hfr, List.mem_append, List.mem_replicate, List.mem_cons,
          List.mem_nil_iff, or_false] at hc
        rcases hc with ⟨_, hc⟩ | (hc | hc | hc) | hc | hc | hc | hc
        · omega
        · simp at hc
        · omega
        · have := e4 c (List.mem_cons_of_mem _ hc); omega
        · omega
        · omega
        · omega
        · omega

/-! ### The saved options -/

theorem find_state_none (label : List Nat) (array : List (List (List Nat))) :
    ∀ i, find_state label array i = none → ∀ x ∈ array, is_state_row label x = false := by
  induction array with
  | nil => intro i _ x hx; simp at hx
  | cons next array ih =>
    intro i h x hx
    unfold find_state at h
    by_cases hp : next.length = STATE_VECTOR_SIZE ∧ next.get? 0 = some (bytes "state") ∧
        next.get? 1 = some label
    · rw [if_pos hp] at h; exact Option.noConfusion h
    · rw [if_neg hp] at h
      rcases List.mem_cons.mp hx with hx | hx
      · subst hx; unfold is_state_row; exact decide_eq_false hp
      · exact ih (i + 1) h x hx

theorem find_state_some (label : List Nat) (array : List (List (List Nat))) :
    ∀ i k, find_state label array i = some k →
      ∃ pre next post, array = pre ++ next :: post ∧ k = i + pre.length ∧
        is_state_row label next = true ∧ ∀ x ∈ pre, is_state_row label x = false := by
  induction array with
  | nil => intro i k h; simp [find_state] at h
  | cons next array ih =>
    intro i k h
    unfold find_state at h
    by_cases hp : next.length = STATE_VECTOR_SIZE ∧ next.get? 0 = some (bytes "state") ∧
        next.get? 1 = some label
    · rw [if_pos hp] at h
      refine ⟨[], next, array, rfl, ?_, decide_eq_true hp, by simp⟩
      simpa using (Option.some.inj h).symm
    · rw [if_neg hp] at h
      obtain ⟨pre, r, post, h1, h2, h3, h4⟩ := ih (i + 1) k h
      refine ⟨next :: pre, r, post, by rw [h1]; rfl, by simp only [List.length_cons]; omega,
        h3, ?_⟩
      intro x hx
      rcases List.mem_cons.mp hx with hx | hx
      · subst hx; unfold is_state_row; exact decide_eq_false hp
      · exact h4 x hx

/-- What `read_state` returns for a store that reads as `array`. -/
theorem read_state_eq (store label : List Nat) (mfp : MorseFeedParams)
    (array : List (List (List Nat))) (h : read_string_array store = some array) :
    read_state store label mfp = some (array_state label array mfp) := by
  unfold read_state array_state
  rw [h]
  dsimp only
  cases hf : find_state label array 0 with
  | none =>
    rw [find_none_of_all_false _ _ (find_state_none label array 0 hf)]
  | some k =>
    obtain ⟨pre, next, post, h1, h2, h3, h4⟩ := find_state_some label array 0 k hf
    have hk : k = pre.length := by omega
    subst hk
    subst h1
    rw [find_append_first _ pre post next h4 h3]
    have hg : (pre ++ next :: post).get? pre.length = some next := by
      rw [List.get?_eq_getElem?, List.getElem?_append_right (Nat.le_refl _)]
      simp
    dsimp only
    rw [hg]
    rfl

theorem state_entry_shape (label : List Nat) (mfp : MorseFeedParams) (entry : List (List Nat))
    (h : state_entry label mfp = some entry) :
    ∃ s13 s14 s15 s16, sprintf_12_3f mfp.freq = some s13 ∧
      sprintf_12_3f mfp.paris_wpm = some s14 ∧ sprintf_12_3f mfp.codex_wpm = some s15 ∧
      sprintf_12_3f mfp.farnsworth_wpm = some s16 ∧
      entry = [ bytes "state", label, string_or_empty mfp.in_file_name,
        string_or_empty mfp.url, sprintf_d mfp.words_per_row, sprintf_d mfp.word_count,
        (if mfp.fork_mbeep then bytes "1" else bytes "0"),
        (if mfp.save_and_use_position then bytes "1" else bytes "0"),
        (if mfp.follow_links then bytes "1" else bytes "0"),
        string_or_empty mfp.text_after, string_or_empty mfp.text_before,
        string_or_empty mfp.linked_text_after, string_or_empty mfp.linked_text_before,
        s13, s14, s15, s16 ] := by
  unfold state_entry at h
  cases h13 : sprintf_12_3f mfp.freq with
  | none => rw [h13] at h; simp at h
  | some s13 =>
    cases h14 : sprintf_12_3f mfp.paris_wpm with
    | none => rw [h13, h14] at h; simp at h
    | some s14 =>
      cases h15 : sprintf_12_3f mfp.codex_wpm with
      | none => rw [h13, h14, h15] at h; simp at h
      | some s15 =>
        cases h16 : sprintf_12_3f mfp.farnsworth_wpm with
        | none => rw [h13, h14, h15, h16] at h; simp at h
        | some s16 =>
          rw [h13, h14, h15, h16] at h
          exact ⟨s13, s14, s15, s16, rfl, rfl, rfl, rfl, (Option.some.inj h).symm⟩

theorem is_state_row_entry (label : List Nat) (mfp : MorseFeedParams) (entry : List (List Nat))
    (h : state_entry label mfp = some entry) : is_state_row label entry = true := by
  obtain ⟨s13, s14, s15, s16, _, _, _, _, e⟩ := state_entry_shape label mfp entry h
  subst e
  unfold is_state_row
  apply decide_eq_true
  exact ⟨rfl, rfl, rfl⟩

theorem state_row_not_position (label key : List Nat) (x : List (List Nat))
    (h : is_state_row label x = true) : is_position_row key x = false := by
  unfold is_state_row at h
  have h1 := of_decide_eq_true h
  unfold is_position_row
  apply decide_eq_false
  rintro ⟨h2, _, _⟩
  have := h1.1
  rw [h2] at this
  exact absurd this (by decide)

theorem position_row_not_state (label key : List Nat) (x : List (List Nat))
    (h : is_position_row key x = true) : is_state_row label x = false := by
  cases hs : is_state_row label x with
  | false => rfl
  | true =>
    rw [state_row_not_position label key x hs] at h
    exact Bool.noConfusion h

theorem find_skip_false {α : Type} (q : α → Bool) (pre post : List α) (x : α)
    (hx : q x = false) : (pre ++ x :: post).find? q = (pre ++ post).find? q := by
  rw [List.find?_append, List.find?_append, List.find?_cons, hx]

theorem find_push_false {α : Type} (q : α → Bool) (xs : List α) (x : α)
    (hx : q x = false) : (xs ++ [x]).find? q = xs.find? q := by
  rw [List.find?_append, List.find?_cons, hx]
  simp

/-- The store after `save_state`, for a store that reads as well-formed rows
and a record that fits one line: it reads back as an array in which the
first record of the label is the new one; the first record of the label, if
there was one, has been replaced, otherwise the new record has been added
at the end; every search that neither the new record nor a record of the
label matches finds what it found before. -/
theorem save_state_array (store label : List Nat) (p : MorseFeedParams)
    (array : List (List (List Nat))) (entry : List (List Nat))
    (h : read_string_array store = some array) (hok : array_ok array)
    (he : state_entry label p = some entry) (hrow : row_ok entry) :
    ∃ store1 array1, save_state store label p = some (MF_NO_ERROR, store1) ∧
      read_string_array store1 = some array1 ∧ array_ok array1 ∧
      array1.find? (is_state_row label) = some entry ∧
      (∀ q : List (List Nat) → Bool, q entry = false →
        (∀ x, is_state_row label x = true → q x = false) → array1.find? q = array.find? q) ∧
      array1.length =
        (if (array.find? (is_state_row label)).isSome then array.length
          else array.length + 1) := by
  have hent := is_state_row_entry label p entry he
  unfold save_state
  rw [h]
  dsimp only
  rw [he]
  dsimp only
  cases hf : find_state label array 0 with
  | none =>
    have hall := find_state_none label array 0 hf
    have hok1 : array_ok (array ++ [entry]) := by
      intro row hr
      rcases List.mem_append.mp hr with hr | hr
      · exact hok row hr
      · rw [List.mem_singleton.mp hr]; exact hrow
    refine ⟨_, array ++ [entry], rfl, read_write_string_array _ hok1, hok1, ?_, ?_, ?_⟩
    · rw [List.find?_append, find_none_of_all_false _ _ hall, List.find?_cons, hent]
      rfl
    · intro q hq _
      exact find_push_false q array entry hq
    · rw [find_none_of_all_false _ _ hall]
      simp
  | some k =>
    obtain ⟨pre, next, post, h1, h2, h3, h4⟩ := find_state_some label array 0 k hf
    have hk : k = pre.length := by omega
    subst hk
    subst h1
    dsimp only
    rw [set_append_length]
    have hok1 : array_ok (pre ++ entry :: post) := by
      intro row hr
      rcases List.mem_append.mp hr with hr | hr
      · exact hok row (List.mem_append_left _ hr)
      · rcases List.mem_cons.mp hr with hr | hr
        · rw [hr]; exact hrow
        · exact hok row (List.mem_append_right _ (List.mem_cons_of_mem _ hr))
    refine ⟨_, pre ++ entry :: post, rfl, read_write_string_array _ hok1, hok1, ?_, ?_, ?_⟩
    · exact find_append_first _ pre post entry h4 hent
    · intro q hq hstate
      rw [find_skip_false q pre post entry hq, find_skip_false q pre post next (hstate next h3)]
    · rw [find_append_first _ pre post next h4 h3]
      simp

theorem replace_string_or_empty (str : Option (List Nat)) (h : string_field_ok str) :
    replace_with_copy_or_null (some (string_or_empty str)) = str := by
  cases str with
  | none => rfl
  | some s =>
    cases s with
    | nil => exact absurd rfl h
    | cons c t => rfl

theorem atoi_flag (b : Bool) :
    decide (atoi (if b = true then bytes "1" else bytes "0") ≠ 0) = b := by
  cases b <;> decide

theorem atoi_sprintf_int (n : Int) (h : -(2 : Int) ^ 31 ≤ n ∧ n < 2 ^ 31) :
    atoi (sprintf_d n) = n := by
  apply atoi_sprintf_d
  have h1 : (2 : Int) ^ 31 = 2147483648 := by norm_num
  have h2 : (10 : Nat) ^ 20 = 100000000000000000000 := by norm_num
  rw [h1] at h
  rw [h2]
  omega

theorem atof_of_sprintf (x : ℚ) (str : List Nat) (hx : double_is_integer x)
    (h : sprintf_12_3f x = some str) : atof str = x := by
  obtain ⟨s, h1, h2, _, _⟩ := atof_sprintf_12_3f x hx.1 hx.2
  rw [h1] at h
  rw [← Option.some.inj h]
  exact h2

/-- Reading the fields back from the row that `save_state` builds. -/
theorem state_of_row_entry (label : List Nat) (p p0 : MorseFeedParams)
    (entry : List (List Nat)) (he : state_entry label p = some entry) (hp : params_ok p) :
    same_state p (state_of_row entry p0) ∧ same_handles (state_of_row entry p0) p0 := by
  obtain ⟨s13, s14, s15, s16, e13, e14, e15, e16, e⟩ := state_entry_shape label p entry he
  obtain ⟨a1, a2, a3, a4, a5, a6, a7, a8, a9, a10, a11, a12⟩ := hp
  subst e
  refine ⟨⟨?_, ?_, ?_, ?_, ?_, ?_, ?_, ?_, ?_, ?_, ?_, ?_, ?_, ?_, ?_⟩, rfl, rfl, rfl, rfl⟩
  · exact (replace_string_or_empty _ a1).symm
  · exact (replace_string_or_empty _ a2).symm
  · exact (atoi_sprintf_int _ a7).symm
  · exact (atoi_sprintf_int _ a8).symm
  · exact (atoi_flag _).symm
  · exact (atoi_flag _).symm
  · exact (atoi_flag _).symm
  · exact (replace_string_or_empty _ a3).symm
  · exact (replace_string_or_empty _ a4).symm
  · exact (replace_string_or_empty _ a5).symm
  · exact (replace_string_or_empty _ a6).symm
  · exact (atof_of_sprintf _ _ a9 e13).symm
  · exact (atof_of_sprintf _ _ a10 e14).symm
  · exact (atof_of_sprintf _ _ a11 e15).symm
  · exact (atof_of_sprintf _ _ a12 e16).symm

/-- Under the conditions on the record no `sprintf` overruns its buffer: the
row `new_entry` is built. -/
theorem state_entry_some (label : List Nat) (p : MorseFeedParams) (hp : params_ok p) :
    ∃ entry, state_entry label p = some entry := by
  obtain ⟨_, _, _, _, _, _, _, _, a9, a10, a11, a12⟩ := hp
  obtain ⟨s13, h13, _⟩ := atof_sprintf_12_3f p.freq a9.1 a9.2
  obtain ⟨s14, h14, _⟩ := atof_sprintf_12_3f p.paris_wpm a10.1 a10.2
  obtain ⟨s15, h15, _⟩ := atof_sprintf_12_3f p.codex_wpm a11.1 a11.2
  obtain ⟨s16, h16, _⟩ := atof_sprintf_12_3f p.farnsworth_wpm a12.1 a12.2
  unfold state_entry
  rw [h13, h14, h15, h16]
  exact ⟨_, rfl⟩

/-- C22, counterexample: a label of 512 bytes. `save_state` on an empty
store writes the record of `mfp1` (a record within the conditions of the
claim) under the label; `read_string_array` cuts the label cell at 511
bytes, so `read_state` with the same label finds no record, returns
`MF_UNKNOWN_SAVED_STATE` and leaves the record of the caller as it was. -/
theorem save_read_state_counterexample :
    params_ok test_mfp1 ∧
    (save_state [] (List.replicate 512 0x78) test_mfp1).map (fun r => r.1) =
      some MF_NO_ERROR ∧
    (save_state [] (List.replicate 512 0x78) test_mfp1).bind
        (fun r => read_state r.2 (List.replicate 512 0x78) test_mfp2) =
      some (MF_UNKNOWN_SAVED_STATE, test_mfp2) ∧
    (save_state [] (List.replicate 512 0x78) test_mfp1).bind
        (fun r => read_state r.2 (List.replicate 511 0x78) test_mfp2) =
      some (MF_NO_ERROR, test_mfp1) := by
  refine ⟨by decide, ?_, ?_, ?_⟩
  · decide!
  · decide!
  · decide!

/-- C22 (amended): for a store that reads as well-formed rows, a label and
records `p`, `p2` within the conditions of the claim (string fields `NULL`
or non-empty, `int` fields in range, `double` fields integers) whose rows
fit (label and strings NUL-free and of at most 511 bytes, written line of at
most 1023 bytes): `save_state(label, p)` returns `MF_NO_ERROR`, and
`read_state(label)` on the store it leaves returns `MF_NO_ERROR` with the
fifteen saved fields equal to those of `p` and the other fields of the
caller's record untouched; `save_state(label, p2)` after that replaces the
record (the store keeps its number of rows), and `read_state(label)` then
yields the fields of `p2`. -/
theorem save_read_state (store label : List Nat) (p p2 p0 : MorseFeedParams)
    (array : List (List (List Nat))) (entry entry2 : List (List Nat))
    (h : read_string_array store = some array) (hok : array_ok array)
    (hp : params_ok p) (he : state_entry label p = some entry) (hrow : row_ok entry)
    (hp2 : params_ok p2) (he2 : state_entry label p2 = some entry2) (hrow2 : row_ok entry2) :
    ∃ store1 r1 store2 r2,
      save_state store label p = some (MF_NO_ERROR, store1) ∧
      read_state store1 label p0 = some (MF_NO_ERROR, r1) ∧
      same_state p r1 ∧ same_handles r1 p0 ∧
      save_state store1 label p2 = some (MF_NO_ERROR, store2) ∧
      read_state store2 label p0 = some (MF_NO_ERROR, r2) ∧
      same_state p2 r2 ∧ same_handles r2 p0 ∧
      (read_string_array store2).map List.length =
        (read_string_array store1).map List.length := by
  obtain ⟨store1, array1, s1, rd1, ok1, f1, _, _⟩ :=
    save_state_array store label p array entry h hok he hrow
  obtain ⟨store2, array2, s2, rd2, ok2, f2, _, len2⟩ :=
    save_state_array store1 label p2 array1 entry2 rd1 ok1 he2 hrow2
  obtain ⟨c1, c2⟩ := state_of_row_entry label p p0 entry he hp
  obtain ⟨d1, d2⟩ := state_of_row_entry label p2 p0 entry2 he2 hp2
  refine ⟨store1, state_of_row entry p0, store2, state_of_row entry2 p0, s1, ?_, c1, c2, s2, ?_,
    d1, d2, ?_⟩
  · rw [read_state_eq store1 label p0 array1 rd1]
    unfold array_state
    rw [f1]
  · rw [read_state_eq store2 label p0 array2 rd2]
    unfold array_state
    rw [f2]
  · rw [rd1, rd2, f1] at *
    simp only [Option.map_some', Option.isSome_some, if_true] at len2 ⊢
    rw [len2]

theorem save_read_state_witness :
    ∃ store1 r1 store2 r2,
      save_state [] (bytes "one") test_mfp1 = some (MF_NO_ERROR, store1) ∧
      read_state store1 (bytes "one") test_mfp2 = some (MF_NO_ERROR, r1) ∧
      same_state test_mfp1 r1 ∧ same_handles r1 test_mfp2 ∧
      save_state store1 (bytes "one") test_mfp2 = some (MF_NO_ERROR, store2) ∧
      read_state store2 (bytes "one") test_mfp2 = some (MF_NO_ERROR, r2) ∧
      same_state test_mfp2 r2 ∧ same_handles r2 test_mfp2 ∧
      (read_string_array store2).map List.length =
        (read_string_array store1).map List.length :=
  save_read_state [] (bytes "one") test_mfp1 test_mfp2 test_mfp2 []
    (test_entry1 (bytes "one")) (test_entry2 (bytes "one"))
    (by decide) (by decide) (by decide) (by decide!) (by decide!) (by decide) (by decide!)
    (by decide!)

theorem find_filter_of_imp {α : Type} (p q : α → Bool) (xs : List α)
    (h : ∀ x, p x = true → q x = true) : (xs.filter q).find? p = xs.find? p := by
  induction xs with
  | nil => rfl
  | cons x xs ih =>
    by_cases hp : p x = true
    · have hq := h x hp
      simp [List.filter_cons, hq, List.find?_cons, hp]
    · have hp : p x = false := by simpa using hp
      by_cases hq : q x = true
      · simp [List.filter_cons, hq, List.find?_cons, hp, ih]
      · have hq : q x = false := by simpa using hq
        simp [List.filter_cons, hq, List.find?_cons, hp, ih]

/-- On a store that reads as well-formed rows, `save_state` with a record
that fits one line leaves every saved position as it was. -/
theorem save_state_keeps_positions (store label key : List Nat) (p : MorseFeedParams)
    (array : List (List (List Nat))) (entry : List (List Nat))
    (h : read_string_array store = some array) (hok : array_ok array)
    (he : state_entry label p = some entry) (hrow : row_ok entry) :
    ∃ store1, save_state store label p = some (MF_NO_ERROR, store1) ∧
      read_saved_position store1 key = read_saved_position store key := by
  obtain ⟨store1, array1, s1, rd1, _, _, frame, _⟩ :=
    save_state_array store label p array entry h hok he hrow
  refine ⟨store1, s1, ?_⟩
  rw [read_saved_position_eq store1 key array1 rd1, read_saved_position_eq store key array h]
  unfold array_position
  rw [frame (is_position_row key)
    (state_row_not_position label key entry (is_state_row_entry label p entry he))
    (fun x hx => state_row_not_position label key x hx)]

/-- On a store that reads as well-formed rows, `write_saved_position` with a
record that fits one line leaves what `read_state` returns as it was. -/
theorem write_saved_position_keeps_states (store label key : List Nat) (position : Nat)
    (p0 : MorseFeedParams) (array : List (List (List Nat)))
    (h : read_string_array store = some array) (hok : array_ok array)
    (hnew : position ≠ 0 → row_ok [bytes "position", key, sprintf_ld position]) :
    ∃ store1, write_saved_position store key position = some (MF_NO_ERROR, store1) ∧
      read_state store1 label p0 = read_state store label p0 := by
  obtain ⟨store1, array1, s1, rd1, _, keep, _⟩ :=
    write_saved_position_array store key position array h hok hnew
  refine ⟨store1, s1, ?_⟩
  rw [read_state_eq store1 label p0 array1 rd1, read_state_eq store label p0 array h]
  unfold array_state
  have himp : ∀ x, is_state_row label x = true → (!is_position_row key x) = true := by
    intro x hx
    rw [state_row_not_position label key x hx]
    rfl
  rw [← find_filter_of_imp (is_state_row label) (fun x => !is_position_row key x) array1 himp,
    ← find_filter_of_imp (is_state_row label) (fun x => !is_position_row key x) array himp,
    keep]

theorem long_store_eval :
    save_state [] (bytes "L") long_mfp = some (MF_NO_ERROR, long_store) ∧
    (read_state long_store (bytes "L") test_mfp2).map (fun r => (r.1, r.2.url)) =
      some (MF_NO_ERROR, some (List.replicate 502 0x62 ++ [0x5C, 0x74])) ∧
    (write_saved_position long_store (bytes "k") 5).map (fun r => r.1) = some MF_NO_ERROR ∧
    ((write_saved_position long_store (bytes "k") 5).bind
        (fun r => read_state r.2 (bytes "L") test_mfp2)).map (fun r => (r.1, r.2.url)) =
      some (MF_NO_ERROR, some (List.replicate 502 0x62 ++ [0x5C, 0x09])) := by
  refine ⟨?_, ?_, ?_, ?_⟩
  · decide!
  · decide!
  · decide!
  · decide!

theorem tab_key_store_eval :
    write_saved_position [] (0x61 :: List.replicate 510 0x09) 11 =
      some (MF_NO_ERROR, tab_key_store) ∧
    read_saved_position tab_key_store tab_key_read = some (MF_NO_ERROR, 11) ∧
    (save_state tab_key_store (bytes "L") test_mfp1).map (fun r => r.1) = some MF_NO_ERROR ∧
    (save_state tab_key_store (bytes "L") test_mfp1).bind
        (fun r => read_saved_position r.2 tab_key_read) = some (MF_NO_ERROR, 0) := by
  refine ⟨?_, ?_, ?_, ?_⟩
  · decide!
  · decide!
  · decide!
  · decide!

/-- C24, the code at two failing inputs, and the claim on well-formed
stores. (1) `long_store` is what `save_state` writes for the label `L` and a
record whose URL ends with a tab; it is one line of 1106 bytes with the
escaped tab at offsets 1022 and 1023. `read_state` for `L` gives a URL that
ends with a backslash and a `t`; after `write_saved_position` for the key
`k`, `read_state` for `L` gives a URL that ends with a backslash and a tab.
(2) `tab_key_store` is what `write_saved_position` writes for a key of 511
bytes; `read_saved_position` for the key `tab_key_read` gives 11 before
`save_state` for `L` and 0 after it. (3) On a store that reads as
well-formed rows (every line of at most 1023 bytes), with a new record that
fits one line, `save_state` leaves the result of `read_saved_position`
unchanged for every key and `write_saved_position` leaves the result of
`read_state` unchanged for every label. -/
theorem state_position_frame :
    save_state [] (bytes "L") long_mfp = some (MF_NO_ERROR, long_store) ∧
    (read_state long_store (bytes "L") test_mfp2).map (fun r => (r.1, r.2.url)) =
      some (MF_NO_ERROR, some (List.replicate 502 0x62 ++ [0x5C, 0x74])) ∧
    (write_saved_position long_store (bytes "k") 5).map (fun r => r.1) = some MF_NO_ERROR ∧
    ((write_saved_position long_store (bytes "k") 5).bind
        (fun r => read_state r.2 (bytes "L") test_mfp2)).map (fun r => (r.1, r.2.url)) =
      some (MF_NO_ERROR, some (List.replicate 502 0x62 ++ [0x5C, 0x09])) ∧
    write_saved_position [] (0x61 :: List.replicate 510 0x09) 11 =
      some (MF_NO_ERROR, tab_key_store) ∧
    read_saved_position tab_key_store tab_key_read = some (MF_NO_ERROR, 11) ∧
    (save_state tab_key_store (bytes "L") test_mfp1).map (fun r => r.1) = some MF_NO_ERROR ∧
    (save_state tab_key_store (bytes "L") test_mfp1).bind
        (fun r => read_saved_position r.2 tab_key_read) = some (MF_NO_ERROR, 0) ∧
    (∀ (store label key : List Nat) (p : MorseFeedParams) (array : List (List (List Nat)))
        (entry : List (List Nat)),
      read_string_array store = some array → array_ok array →
      state_entry label p = some entry → row_ok entry →
      ∃ store1, save_state store label p = some (MF_NO_ERROR, store1) ∧
        read_saved_position store1 key = read_saved_position store key) ∧
    (∀ (store label key : List Nat) (position : Nat) (p0 : MorseFeedParams)
        (array : List (List (List Nat))),
      read_string_array store = some array → array_ok array →
      (position ≠ 0 → row_ok [bytes "position", key, sprintf_ld position]) →
      ∃ store1, write_saved_position store key position = some (MF_NO_ERROR, store1) ∧
        read_state store1 label p0 = read_state store label p0) := by
  obtain ⟨a1, a2, a3, a4⟩ := long_store_eval
  obtain ⟨b1, b2, b3, b4⟩ := tab_key_store_eval
  refine ⟨a1, a2, a3, a4, b1, b2, b3, b4, ?_, ?_⟩
  · intro store label key p array entry h hok he hrow
    exact save_state_keeps_positions store label key p array entry h hok he hrow
  · intro store label key position p0 array h hok hnew
    exact write_saved_position_keeps_states store label key position p0 array h hok hnew

theorem state_position_frame_witness :
    ∃ store1, save_state (bytes "position\tone\t11\n") (bytes "one") test_mfp1 =
        some (MF_NO_ERROR, store1) ∧
      read_saved_position store1 (bytes "one") =
        read_saved_position (bytes "position\tone\t11\n") (bytes "one") :=
  state_position_frame.2.2.2.2.2.2.2.2.1 (bytes "position\tone\t11\n") (bytes "one")
    (bytes "one") test_mfp1 [[bytes "position", bytes "one", bytes "11"]]
    (test_entry1 (bytes "one")) (by decide) (by decide) (by decide!) (by decide!)

theorem split_row_eval :
    (∀ cell ∈ split_row, cell_ok cell) ∧
    (write_row split_row).length = 1025 ∧
    (write_row split_row).get? 1022 = some 0x5C ∧
    (write_row split_row).get? 1023 = some 0x74 ∧
    read_string_array (write_string_array [split_row]) =
      some [[List.replicate 400 0x61, List.replicate 400 0x62,
        List.replicate 220 0x63 ++ [0x5C, 0x74]]] := by
  refine ⟨?_, ?_, ?_, ?_, ?_⟩
  · decide!
  · decide!
  · decide!
  · decide!
  · decide!

theorem long_plain_row_eval :
    read_string_array (write_string_array
        [[List.replicate 400 0x61, List.replicate 400 0x62, List.replicate 400 0x63]]) =
      some [[List.replicate 400 0x61, List.replicate 400 0x62, List.replicate 400 0x63]] := by
  decide!

/-- C25, the code at the failing input, and the claim for lines that fit one
`fgets`. The row `split_row` has three NUL-free cells of 400, 400 and 221
bytes, the last one ending with a tab; its line has 1025 bytes, with the
backslash and the `t` of the escaped tab at offsets 1022 and 1023. Read
back, the last cell ends with a backslash and a `t` instead of the tab. A
row of three cells of 400 plain bytes (a line of 1203 bytes) and the array
of `vector_tests` are read back as written, and so is every array whose
rows have at least one cell, cells NUL-free of at most 511 bytes and lines
of at most 1023 bytes. -/
theorem string_array_round_trip :
    (∀ cell ∈ split_row, cell_ok cell) ∧
    (write_row split_row).length = 1025 ∧
    read_string_array (write_string_array [split_row]) =
      some [[List.replicate 400 0x61, List.replicate 400 0x62,
        List.replicate 220 0x63 ++ [0x5C, 0x74]]] ∧
    read_string_array (write_string_array
        [[List.replicate 400 0x61, List.replicate 400 0x62, List.replicate 400 0x63]]) =
      some [[List.replicate 400 0x61, List.replicate 400 0x62, List.replicate 400 0x63]] ∧
    read_string_array (write_string_array test_array) = some test_array ∧
    (∀ array : List (List (List Nat)), array_ok array →
      read_string_array (write_string_array array) = some array) := by
  obtain ⟨a1, a2, _, _, a5⟩ := split_row_eval
  exact ⟨a1, a2, a5, long_plain_row_eval, by decide!,
    fun array hok => read_write_string_array array hok⟩

theorem string_array_round_trip_witness :
    read_string_array (write_string_array test_array) = some test_array :=
  string_array_round_trip.2.2.2.2.2 test_array (by decide)

/-! ### `find_string` as a search for the first occurrence -/

/-- C38, counterexample: the empty string searched from the end of the
buffer. `memmem` finds the empty needle at the start of the (empty) rest, so
`find_string` returns `n` = 3, and 3 is an index at or after `k` = 3 at
which the needle stands with `i + len(s) <= n`: the value `n` is returned
although such an index exists. -/
theorem find_string_least_counterexample :
    find_string [] (bytes "abc") 3 3 = some 3 ∧ occurs_at [] (bytes "abc") 3 3 := by
  decide

/-- C38 (amended): for `k <= n` (and a buffer of at least `n` bytes)
`find_string(s, buffer, n, k)` returns; when `s` stands somewhere at an
index `j >= k` with `j + len(s) <= n` the result is the least such index;
when it stands nowhere the result is `n`; for a non-empty `s` the result is
`n` exactly when it stands nowhere; for the empty `s` the result is `k`. On
the buffer of the tests the results are 0 for `This` from 0, 5 for `is` from
3, `n - 1` for `.` and `n` for `foo`. -/
theorem find_string_least :
    (∀ (s buffer : List Nat) (n k : Nat), n ≤ buffer.length → k ≤ n →
      ∃ i, find_string s buffer n k = some i ∧
        ((∃ j, k ≤ j ∧ occurs_at s buffer n j) → first_occurrence s buffer n k i) ∧
        ((∀ j, k ≤ j → ¬ occurs_at s buffer n j) → i = n) ∧
        (s ≠ [] → (i = n ↔ ∀ j, k ≤ j → ¬ occurs_at s buffer n j)) ∧
        (s = [] → i = k)) ∧
    (bytes "This is a small buffer of text.").length = 31 ∧
    find_string (bytes "This") (bytes "This is a small buffer of text.") 31 0 = some 0 ∧
    find_string (bytes "is") (bytes "This is a small buffer of text.") 31 3 = some 5 ∧
    find_string (bytes ".") (bytes "This is a small buffer of text.") 31 0 = some 30 ∧
    find_string (bytes "foo") (bytes "This is a small buffer of text.") 31 0 = some 31 := by
  refine ⟨?_, by decide, by decide, by decide, by decide, by decide⟩
  intro s buffer n k hn hk
  obtain ⟨i, hi⟩ := find_string_some s buffer n k hk
  obtain ⟨h1, h2, h3⟩ := find_string_result s buffer n k i hn hi
  refine ⟨i, hi, ?_, ?_, ?_, ?_⟩
  · rintro ⟨j, hj, ho⟩
    rcases h3 with h3 | ⟨_, h3⟩
    · exact h3
    · exact absurd ho (h3 j hj)
  · intro hno
    rcases h3 with h3 | ⟨h3, _⟩
    · exact absurd h3.2.1 (hno i h3.1)
    · exact h3
  · intro hs
    constructor
    · intro hin
      rcases h3 with h3 | ⟨_, h3⟩
      · exfalso
        have ho := h3.2.1.1
        rw [hin] at ho
        have hl : s.length = 0 := by omega
        exact hs (List.length_eq_zero.mp hl)
      · exact h3
    · intro hno
      rcases h3 with h3 | ⟨h3, _⟩
      · exact absurd h3.2.1 (hno i h3.1)
      · exact h3
  · intro hs
    subst hs
    have hok : occurs_at [] buffer n k := by
      unfold occurs_at
      exact ⟨by simp only [List.length_nil]; omega, by simp⟩
    rcases h3 with h3 | ⟨_, h3⟩
    · by_contra hne
      have hlt : k < i := by omega
      exact h3.2.2 k (Nat.le_refl _) hlt hok
    · exact absurd hok (h3 k (Nat.le_refl _))

theorem find_string_least_witness :
    ∃ i, find_string (bytes "is") (bytes "This is a small buffer of text.") 31 3 = some i ∧
      ((∃ j, 3 ≤ j ∧ occurs_at (bytes "is") (bytes "This is a small buffer of text.") 31 j) →
        first_occurrence (bytes "is") (bytes "This is a small buffer of text.") 31 3 i) ∧
      ((∀ j, 3 ≤ j → ¬ occurs_at (bytes "is") (bytes "This is a small buffer of text.") 31 j) →
        i = 31) ∧
      (bytes "is" ≠ [] →
        (i = 31 ↔
          ∀ j, 3 ≤ j → ¬ occurs_at (bytes "is") (bytes "This is a small buffer of text.") 31 j)) ∧
      (bytes "is" = [] → i = 3) :=
  find_string_least.1 (bytes "is") (bytes "This is a small buffer of text.") 31 3
    (by decide) (by decide)

/-! ### `fbgets` on a buffer -/

theorem fbgets_copy_spec (n : Nat) :
    ∀ l : List Nat, l = fbgets_copy n l ++ l.drop (fbgets_copy n l).length ∧
      (fbgets_copy n l).length ≤ n ∧ (0 < n → l ≠ [] → fbgets_copy n l ≠ []) ∧
      (∀ c ∈ (fbgets_copy n l).dropLast, c ≠ 0x0A) ∧
      ((fbgets_copy n l).getLast? = some 0x0A ∨ (fbgets_copy n l).length = n ∨
        (fbgets_copy n l).length = l.length) := by
  induction n with
  | zero =>
    intro l
    simp [fbgets_copy]
  | succ n ih =>
    intro l
    cases l with
    | nil => simp [fbgets_copy]
    | cons c l =>
      by_cases hc : c = 0x0A
      · simp [fbgets_copy, hc]
      · obtain ⟨h1, h2, h3, h4, h5⟩ := ih l
        have e : fbgets_copy (n + 1) (c :: l) = c :: fbgets_copy n l := by
          simp [fbgets_copy, hc]
        rw [e]
        refine ⟨?_, ?_, ?_, ?_, ?_⟩
        · simp only [List.cons_append, List.length_cons, List.drop_succ_cons]
          rw [← h1]
        · simp only [List.length_cons]; omega
        · intro _ _; simp
        · intro d hd
          cases hr : fbgets_copy n l with
          | nil => rw [hr] at hd; simp at hd
          | cons a r =>
            rw [hr, List.dropLast_cons₂] at hd
            rcases List.mem_cons.mp hd with hd | hd
            · rw [hd]; exact hc
            · apply h4
              rw [hr]
              exact hd
        · rcases h5 with h5 | h5 | h5
          · left
            cases hr : fbgets_copy n l with
            | nil => rw [hr] at h5; simp at h5
            | cons a r =>
              rw [hr] at h5
              rw [List.getLast?_cons_cons]
              exact h5
          · right; left; simp only [List.length_cons]; omega
          · right; right; simp only [List.length_cons]; omega

theorem fbgets_some (line_size : Nat) (buffer : List Nat) (buffer_size next_index : Nat)
    (hl : 2 ≤ line_size) (hn : next_index < buffer_size) (hb : buffer_size ≤ buffer.length) :
    ∃ line, fbgets line_size buffer buffer_size next_index =
        some (line, next_index + line.length) ∧
      line ≠ [] ∧ line.length ≤ line_size - 1 ∧ next_index + line.length ≤ buffer_size ∧
      (buffer.take buffer_size).drop next_index =
        line ++ (buffer.take buffer_size).drop (next_index + line.length) ∧
      (∀ c ∈ line.dropLast, c ≠ 0x0A) ∧
      (line.getLast? = some 0x0A ∨ line.length = line_size - 1 ∨
        next_index + line.length = buffer_size) := by
  have hne : ¬ next_index = buffer_size := by omega
  have hlen : ((buffer.take buffer_size).drop next_index).length = buffer_size - next_index := by
    simp only [List.length_drop, List.length_take]
    omega
  have hrest : (buffer.take buffer_size).drop next_index ≠ [] := by
    intro h
    rw [h] at hlen
    simp only [List.length_nil] at hlen
    omega
  obtain ⟨h1, h2, h3, h4, h5⟩ :=
    fbgets_copy_spec (line_size - 1) ((buffer.take buffer_size).drop next_index)
  have hle : (fbgets_copy (line_size - 1) ((buffer.take buffer_size).drop next_index)).length ≤
      buffer_size - next_index := by
    have := congrArg List.length h1
    rw [List.length_append, hlen] at this
    omega
  refine ⟨fbgets_copy (line_size - 1) ((buffer.take buffer_size).drop next_index), ?_,
    h3 (by omega) hrest, h2, by omega, ?_, h4, ?_⟩
  · unfold fbgets
    rw [if_neg hne]
  · rw [← List.drop_drop]
    exact h1
  · rcases h5 with h5 | h5 | h5
    · exact Or.inl h5
    · exact Or.inr (Or.inl h5)
    · right; right
      rw [h5, hlen]
      omega

theorem fbgets_lines_spec (line_size : Nat) (buffer : List Nat) (buffer_size : Nat)
    (hl : 2 ≤ line_size) (hb : buffer_size ≤ buffer.length) :
    ∀ (fuel next_index : Nat), next_index ≤ buffer_size → buffer_size - next_index < fuel →
      ∃ lines, fbgets_lines line_size buffer buffer_size fuel next_index = some lines ∧
        lines.flatten = (buffer.take buffer_size).drop next_index ∧
        ∀ l ∈ lines, l ≠ [] ∧ l.length ≤ line_size - 1 := by
  intro fuel
  induction fuel with
  | zero => intro next_index _ h; omega
  | succ fuel ih =>
    intro next_index hle hfuel
    unfold fbgets_lines
    by_cases hn : next_index = buffer_size
    · have hf : fbgets line_size buffer buffer_size next_index = none := by
        unfold fbgets
        rw [if_pos hn]
      rw [hf]
      refine ⟨[], rfl, ?_, by simp⟩
      rw [hn]
      simp
    · obtain ⟨line, h1, h2, h3, h4, h5, _, _⟩ :=
        fbgets_some line_size buffer buffer_size next_index hl (by omega) hb
      have hpos : 0 < line.length := List.length_pos.mpr h2
      obtain ⟨lines, e1, e2, e3⟩ := ih (next_index + line.length) h4 (by omega)
      rw [h1]
      dsimp only
      rw [e1]
      refine ⟨line :: lines, rfl, ?_, ?_⟩
      · rw [List.flatten_cons, e2, ← h5]
      · intro l hl
        rcases List.mem_cons.mp hl with hl | hl
        · rw [hl]; exact ⟨h2, h3⟩
        · exact e3 l hl

/-- C37: `fbgets` on a buffer of at least `buffer_size` bytes, for
`line_size >= 2` and `next_index <= buffer_size`. It returns `NULL` if and
only if `next_index = buffer_size`. Otherwise it returns a non-empty line of
at most `line_size - 1` bytes, which are the bytes of the buffer from
`next_index` on, with no newline before its last byte, and which ends with a
newline, has `line_size - 1` bytes or reaches `buffer_size`; `next_index`
advances by the length of the line. Repeated calls from `start` return
`NULL` after at most `buffer_size - start` lines, and the lines returned,
put end to end, are the bytes of the buffer from `start` to `buffer_size`. -/
theorem fbgets_partition (line_size : Nat) (buffer : List Nat) (buffer_size : Nat)
    (hl : 2 ≤ line_size) (hb : buffer_size ≤ buffer.length) :
    (∀ next_index, next_index ≤ buffer_size →
      (fbgets line_size buffer buffer_size next_index = none ↔ next_index = buffer_size) ∧
      (next_index < buffer_size →
        ∃ line, fbgets line_size buffer buffer_size next_index =
            some (line, next_index + line.length) ∧
          line ≠ [] ∧ line.length ≤ line_size - 1 ∧ next_index + line.length ≤ buffer_size ∧
          (buffer.take buffer_size).drop next_index =
            line ++ (buffer.take buffer_size).drop (next_index + line.length) ∧
          (∀ c ∈ line.dropLast, c ≠ 0x0A) ∧
          (line.getLast? = some 0x0A ∨ line.length = line_size - 1 ∨
            next_index + line.length = buffer_size))) ∧
    (∀ start, start ≤ buffer_size →
      ∃ lines, fbgets_lines line_size buffer buffer_size (buffer_size - start + 1) start =
          some lines ∧
        lines.flatten = (buffer.take buffer_size).drop start ∧
        lines.length ≤ buffer_size - start ∧
        ∀ l ∈ lines, l ≠ [] ∧ l.length ≤ line_size - 1) := by
  constructor
  · intro next_index hle
    constructor
    · constructor
      · intro h
        by_contra hne
        obtain ⟨line, h1, _⟩ :=
          fbgets_some line_size buffer buffer_size next_index hl (by omega) hb
        rw [h1] at h
        exact Option.noConfusion h
      · intro h
        unfold fbgets
        rw [if_pos h]
    · intro hlt
      exact fbgets_some line_size buffer buffer_size next_index hl hlt hb
  · intro start hle
    obtain ⟨lines, e1, e2, e3⟩ :=
      fbgets_lines_spec line_size buffer buffer_size hl hb (buffer_size - start + 1) start hle
        (by omega)
    refine ⟨lines, e1, e2, ?_, e3⟩
    have hlen : (lines.flatten).length = buffer_size - start := by
      rw [e2]
      simp only [List.length_drop, List.length_take]
      omega
    have hsum : ∀ ls : List (List Nat), (∀ l ∈ ls, l ≠ []) → ls.length ≤ ls.flatten.length := by
      intro ls
      induction ls with
      | nil => intro _; simp
      | cons a ls ih =>
        intro h
        have ha : 0 < a.length := List.length_pos.mpr (h a (List.mem_cons_self _ _))
        have := ih (fun l hl => h l (List.mem_cons_of_mem _ hl))
        simp only [List.flatten_cons, List.length_append, List.length_cons]
        omega
    have := hsum lines (fun l hl => (e3 l hl).1)
    omega

theorem fbgets_partition_witness :
    (∀ next_index, next_index ≤ 6 →
      (fbgets 4 (bytes "ab\ncdefg") 6 next_index = none ↔ next_index = 6) ∧
      (next_index < 6 →
        ∃ line, fbgets 4 (bytes "ab\ncdefg") 6 next_index =
            some (line, next_index + line.length) ∧
          line ≠ [] ∧ line.length ≤ 4 - 1 ∧ next_index + line.length ≤ 6 ∧
          ((bytes "ab\ncdefg").take 6).drop next_index =
            line ++ ((bytes "ab\ncdefg").take 6).drop (next_index + line.length) ∧
          (∀ c ∈ line.dropLast, c ≠ 0x0A) ∧
          (line.getLast? = some 0x0A ∨ line.length = 4 - 1 ∨
            next_index + line.length = 6))) ∧
    (∀ start, start ≤ 6 →
      ∃ lines, fbgets_lines 4 (bytes "ab\ncdefg") 6 (6 - start + 1) start = some lines ∧
        lines.flatten = ((bytes "ab\ncdefg").take 6).drop start ∧
        lines.length ≤ 6 - start ∧
        ∀ l ∈ lines, l ≠ [] ∧ l.length ≤ 4 - 1) :=
  fbgets_partition 4 (bytes "ab\ncdefg") 6 (by decide) (by decide)

/-! ### The vectors as lists -/

theorem to_elements_flatten (size : Nat) (elems : List (List Nat)) (rest : List Nat)
    (h : ∀ e ∈ elems, e.length = size) :
    to_elements size elems.length (elems.flatten ++ rest) = elems := by
  induction elems with
  | nil => rfl
  | cons e elems ih =>
    have he : e.length = size := h e (List.mem_cons_self _ _)
    have h1 : (e ++ (elems.flatten ++ rest)).take size = e := by
      rw [← he]; exact List.take_left' rfl
    have h2 : (e ++ (elems.flatten ++ rest)).drop size = elems.flatten ++ rest := by
      rw [← he]; exact List.drop_left' rfl
    simp only [List.length_cons, to_elements, List.flatten_cons, List.append_assoc]
    rw [h1, h2, ih (fun x hx => h x (List.mem_cons_of_mem _ hx))]

theorem to_elements_spec (size : Nat) :
    ∀ (n : Nat) (mem : List Nat), n * size ≤ mem.length →
      (to_elements size n mem).length = n ∧
      (∀ e ∈ to_elements size n mem, e.length = size) ∧
      mem = (to_elements size n mem).flatten ++ mem.drop (n * size) := by
  intro n
  induction n with
  | zero => intro mem _; simp [to_elements]
  | succ n ih =>
    intro mem hlen
    have hs : size ≤ mem.length := by
      have : (n + 1) * size = n * size + size := Nat.succ_mul n size
      omega
    have hd : n * size ≤ (mem.drop size).length := by
      have : (n + 1) * size = n * size + size := Nat.succ_mul n size
      simp only [List.length_drop]
      omega
    obtain ⟨h1, h2, h3⟩ := ih (mem.drop size) hd
    refine ⟨by simp only [to_elements, List.length_cons, h1], ?_, ?_⟩
    · intro e he
      simp only [to_elements] at he
      rcases List.mem_cons.mp he with he | he
      · rw [he, List.length_take]; omega
      · exact h2 e he
    · simp only [to_elements, List.flatten_cons, List.append_assoc]
      have h4 : (mem.drop size).drop (n * size) = mem.drop ((n + 1) * size) := by
        rw [List.drop_drop]
        congr 1
        have : (n + 1) * size = n * size + size := Nat.succ_mul n size
        omega
      rw [← h4, ← h3, List.take_append_drop]

/-- A vector of the right shape holds its elements at the start of its
block. -/
theorem vector_block (v : Vector) (h : vector_inv v) :
    ∃ rest, v.p.getD [] = (vector_elements v).flatten ++ rest ∧
      (vector_elements v).length = v.size ∧
      (∀ e ∈ vector_elements v, e.length = v.element_size) ∧
      (vector_elements v).flatten.length = v.size * v.element_size ∧
      (v.p.getD []).length = v.capacity * v.element_size := by
  obtain ⟨h1, h2⟩ := h
  have hlen : (v.p.getD []).length = v.capacity * v.element_size := by
    cases hp : v.p with
    | none => rw [hp] at h2; simp only [] at h2; simp [h2]
    | some mem => rw [hp] at h2; simpa using h2
  have hle : v.size * v.element_size ≤ (v.p.getD []).length := by
    rw [hlen]; exact Nat.mul_le_mul_right _ h1
  obtain ⟨a1, a2, a3⟩ := to_elements_spec v.element_size v.size (v.p.getD []) hle
  refine ⟨(v.p.getD []).drop (v.size * v.element_size), a3, a1, a2, ?_, hlen⟩
  have := congrArg List.length a3
  rw [List.length_append, List.length_drop] at this
  unfold vector_elements
  omega

theorem flatten_length_of_all (size : Nat) (elems : List (List Nat))
    (h : ∀ e ∈ elems, e.length = size) : elems.flatten.length = elems.length * size := by
  induction elems with
  | nil => simp
  | cons e elems ih =>
    rw [List.flatten_cons, List.length_append, ih (fun x hx => h x (List.mem_cons_of_mem _ hx)),
      h e (List.mem_cons_self _ _), List.length_cons, Nat.succ_mul]
    omega

theorem block_parts (size : Nat) (pre post : List (List Nat)) (e rest : List Nat)
    (hpre : ∀ x ∈ pre, x.length = size) (he : e.length = size) :
    ((pre ++ e :: post).flatten ++ rest).take (pre.length * size) = pre.flatten ∧
    (((pre ++ e :: post).flatten ++ rest).drop (pre.length * size)).take size = e ∧
    ((pre ++ e :: post).flatten ++ rest).drop (pre.length * size + size) =
      post.flatten ++ rest := by
  have hl : pre.flatten.length = pre.length * size := flatten_length_of_all size pre hpre
  have hm : (pre ++ e :: post).flatten ++ rest = pre.flatten ++ (e ++ (post.flatten ++ rest)) := by
    simp only [List.flatten_append, List.flatten_cons, List.append_assoc]
  rw [hm, ← hl]
  refine ⟨List.take_left' rfl, ?_, ?_⟩
  · rw [List.drop_left' rfl, ← he]
    exact List.take_left' rfl
  · rw [← List.drop_drop, List.drop_left' rfl, ← he]
    exact List.drop_left' rfl

theorem memcpy_at_length (mem src : List Nat) (offset : Nat)
    (h : offset + src.length ≤ mem.length) : (memcpy_at mem offset src).length = mem.length := by
  unfold memcpy_at
  simp only [List.length_append, List.length_take, List.length_drop]
  omega

/-- Writing one more element behind the elements of a block. -/
theorem memcpy_at_end (size : Nat) (elems : List (List Nat)) (x rest : List Nat)
    (h : ∀ e ∈ elems, e.length = size) (hx : x.length = size) :
    memcpy_at (elems.flatten ++ rest) (elems.length * size) x =
      (elems ++ [x]).flatten ++ rest.drop size := by
  have hl : elems.flatten.length = elems.length * size := flatten_length_of_all size elems h
  unfold memcpy_at
  rw [← hl, List.take_left' rfl, ← List.drop_drop, List.drop_left' rfl, hx]
  simp only [List.flatten_append, List.flatten_cons, List.flatten_nil, List.append_nil,
    List.append_assoc]

theorem vector_push_refines (fresh : Nat → List Nat) (hfresh : ∀ n, (fresh n).length = n)
    (v : Vector) (x : List Nat) (hv : vector_inv v) (hx : x.length = v.element_size) :
    (vector_push fresh v x).1 = true ∧
    vector_elements (vector_push fresh v x).2 = vector_elements v ++ [x] ∧
    (vector_push fresh v x).2.size = v.size + 1 ∧
    (vector_push fresh v x).2.element_size = v.element_size ∧
    vector_inv (vector_push fresh v x).2 := by
  obtain ⟨rest, h1, h2, h3, h4, h5⟩ := vector_block v hv
  have hxt : x.take v.element_size = x := by rw [← hx]; exact List.take_length x
  -- the block after the allocation step, in the three cases
  have key : ∀ (mem1 : List Nat) (cap1 : Nat) (rest1 : List Nat),
      mem1 = (vector_elements v).flatten ++ rest1 → mem1.length = cap1 * v.element_size →
      v.size + 1 ≤ cap1 →
      let v2 : Vector :=
        { size := v.size + 1, capacity := cap1, element_size := v.element_size,
          p := some (memcpy_at mem1 (v.size * v.element_size) (x.take v.element_size)) }
      vector_elements v2 = vector_elements v ++ [x] ∧ vector_inv v2 := by
    intro mem1 cap1 rest1 hm hlen hcap
    have hroom : v.size * v.element_size + x.length ≤ mem1.length := by
      rw [hlen, hx]
      have : (v.size + 1) * v.element_size ≤ cap1 * v.element_size :=
        Nat.mul_le_mul_right _ hcap
      rw [Nat.succ_mul] at this
      exact this
    have hcopy : memcpy_at mem1 (v.size * v.element_size) (x.take v.element_size) =
        (vector_elements v ++ [x]).flatten ++ rest1.drop v.element_size := by
      rw [hxt, hm, ← h2]
      exact memcpy_at_end v.element_size _ x rest1 h3 hx
    constructor
    · show to_elements v.element_size (v.size + 1) _ = _
      have hlen2 : (vector_elements v ++ [x]).length = v.size + 1 := by
        rw [List.length_append, h2]; rfl
      simp only [Option.getD_some]
      rw [hcopy, ← hlen2]
      apply to_elements_flatten
      intro e he
      rcases List.mem_append.mp he with he | he
      · exact h3 e he
      · rw [List.mem_singleton.mp he]; exact hx
    · refine ⟨hcap, ?_⟩
      show (memcpy_at mem1 (v.size * v.element_size) (x.take v.element_size)).length = _
      rw [hxt, memcpy_at_length _ _ _ hroom, hlen]
  unfold vector_push
  cases hp : v.p with
  | none =>
    have hc : v.capacity = 0 := by
      have := hv.2
      rw [hp] at this
      exact this
    have hs : v.size = 0 := by have := hv.1; omega
    have hel : vector_elements v = [] := by
      unfold vector_elements
      rw [hs]
      rfl
    have := key (fresh v.element_size) 1 (fresh v.element_size) (by rw [hel]; rfl)
      (by rw [hfresh]; omega) (by omega)
    dsimp only at this ⊢
    simp only [Option.getD_some]
    refine ⟨?_, ?_, ?_, ?_, ?_⟩ <;> first | trivial | rfl | exact this.1 | exact this.2
  | some mem =>
    have hmem : mem = (vector_elements v).flatten ++ rest := by
      rw [hp] at h1; simpa using h1
    have hmlen : mem.length = v.capacity * v.element_size := by
      rw [hp] at h5; simpa using h5
    dsimp only
    by_cases hfull : v.size + 1 > v.capacity
    · rw [if_pos hfull]
      dsimp only
      simp only [Option.getD_some]
      have hcap : v.size + 1 ≤ (if v.capacity = 0 then 1 else 2 * v.capacity) := by
        have := hv.1
        split <;> omega
      have hge : v.capacity * v.element_size ≤
          (if v.capacity = 0 then 1 else 2 * v.capacity) * v.element_size := by
        apply Nat.mul_le_mul_right
        split <;> omega
      have htake : (mem ++ fresh ((if v.capacity = 0 then 1 else 2 * v.capacity) *
            v.element_size - mem.length)).take
          ((if v.capacity = 0 then 1 else 2 * v.capacity) * v.element_size) =
          mem ++ fresh ((if v.capacity = 0 then 1 else 2 * v.capacity) *
            v.element_size - mem.length) := by
        apply List.take_of_length_le
        rw [List.length_append, hfresh]
        omega
      rw [htake]
      have := key (mem ++ fresh ((if v.capacity = 0 then 1 else 2 * v.capacity) *
            v.element_size - mem.length)) (if v.capacity = 0 then 1 else 2 * v.capacity)
        (rest ++ fresh ((if v.capacity = 0 then 1 else 2 * v.capacity) *
            v.element_size - mem.length))
        (by rw [hmem, List.append_assoc])
        (by rw [List.length_append, hfresh]; omega) hcap
      refine ⟨?_, ?_, ?_, ?_, ?_⟩ <;> first | trivial | rfl | exact this.1 | exact this.2
    · rw [if_neg hfull]
      simp only [hp, Option.getD_some]
      have := key mem v.capacity rest hmem hmlen (by omega)
      refine ⟨?_, ?_, ?_, ?_, ?_⟩ <;> first | trivial | rfl | exact this.1 | exact this.2

theorem split_at_index {α : Type} (l : List α) (i : Nat) (h : i < l.length) :
    ∃ pre e post, l = pre ++ e :: post ∧ pre.length = i ∧ l.get? i = some e := by
  refine ⟨l.take i, l.get ⟨i, h⟩, l.drop (i + 1), ?_, ?_, ?_⟩
  · have h1 : l.drop i = l.get ⟨i, h⟩ :: l.drop (i + 1) := by
      simp
    rw [← h1, List.take_append_drop]
  · rw [List.length_take]; omega
  · simp [List.get?_eq_getElem?, List.getElem?_eq_getElem h]

theorem get_append_length {α : Type} (pre post : List α) (e : α) :
    (pre ++ e :: post).get? pre.length = some e := by
  rw [List.get?_eq_getElem?, List.getElem?_append_right (Nat.le_refl _)]
  simp

theorem vector_at_refines (v : Vector) (index : Nat) (hv : vector_inv v) :
    ((vector_at v index).1 = true ↔ index < v.size) ∧
    (index < v.size → (vector_elements v).get? index = some (vector_at v index).2) ∧
    (¬ index < v.size → (vector_at v index).2 = List.replicate v.element_size 0) := by
  obtain ⟨rest, h1, h2, h3, _, _⟩ := vector_block v hv
  unfold vector_at
  by_cases hi : index < v.size
  · rw [if_pos hi]
    refine ⟨by simp [hi], ?_, fun hn => absurd hi hn⟩
    intro _
    obtain ⟨pre, e, post, e1, e2, e3⟩ := split_at_index (vector_elements v) index (by omega)
    rw [e3]
    dsimp only
    rw [h1, e1, ← e2]
    have hp := block_parts v.element_size pre post e rest
      (fun x hx => h3 x (by rw [e1]; exact List.mem_append_left _ hx))
      (h3 e (by rw [e1]; simp))
    rw [hp.2.1]
  · rw [if_neg hi]
    exact ⟨by simp [hi], fun h => absurd h hi, fun _ => rfl⟩

theorem vector_replace_at_refines (v : Vector) (index : Nat) (x : List Nat)
    (hv : vector_inv v) (hx : x.length = v.element_size) :
    (index < v.size →
      (vector_replace_at v index x).1 = true ∧
      (vector_elements v).get? index = some (vector_replace_at v index x).2.1 ∧
      vector_elements (vector_replace_at v index x).2.2 = (vector_elements v).set index x ∧
      (vector_replace_at v index x).2.2.size = v.size ∧
      (vector_replace_at v index x).2.2.capacity = v.capacity ∧
      (vector_replace_at v index x).2.2.element_size = v.element_size ∧
      vector_inv (vector_replace_at v index x).2.2) ∧
    (¬ index < v.size →
      (vector_replace_at v index x).1 = false ∧ (vector_replace_at v index x).2.2 = v) := by
  obtain ⟨rest, h1, h2, h3, h4, h5⟩ := vector_block v hv
  have hxt : x.take v.element_size = x := by rw [← hx]; exact List.take_length x
  unfold vector_replace_at
  constructor
  · intro hi
    rw [if_pos hi]
    dsimp only
    obtain ⟨pre, e, post, e1, e2, e3⟩ := split_at_index (vector_elements v) index (by omega)
    have hpre : ∀ y ∈ pre, y.length = v.element_size :=
      fun y hy => h3 y (by rw [e1]; exact List.mem_append_left _ hy)
    have he : e.length = v.element_size := h3 e (by rw [e1]; simp)
    have hp := block_parts v.element_size pre post e rest hpre he
    have hnew : memcpy_at (v.p.getD []) (index * v.element_size) (x.take v.element_size) =
        (pre ++ x :: post).flatten ++ rest := by
      rw [hxt, h1, e1, ← e2]
      unfold memcpy_at
      rw [hp.1, hx, hp.2.2]
      simp only [List.flatten_append, List.flatten_cons, List.append_assoc]
    have hlen : (pre ++ x :: post).length = v.size := by
      rw [← h2, e1]
      simp only [List.length_append, List.length_cons]
    refine ⟨rfl, ?_, ?_, rfl, rfl, rfl, ?_⟩
    · rw [e3, h1, e1, ← e2, hp.2.1]
    · show to_elements v.element_size v.size _ = _
      simp only [Option.getD_some]
      rw [hnew, ← hlen, e1, ← e2, set_append_length]
      apply to_elements_flatten
      intro y hy
      rcases List.mem_append.mp hy with hy | hy
      · exact hpre y hy
      · rcases List.mem_cons.mp hy with hy | hy
        · rw [hy]; exact hx
        · exact h3 y (by rw [e1]; exact List.mem_append_right _ (List.mem_cons_of_mem _ hy))
    · refine ⟨hv.1, ?_⟩
      show (memcpy_at (v.p.getD []) (index * v.element_size) (x.take v.element_size)).length = _
      rw [hxt, memcpy_at_length, h5]
      rw [h5, hx]
      have : (index + 1) * v.element_size ≤ v.capacity * v.element_size :=
        Nat.mul_le_mul_right _ (by have := hv.1; omega)
      rw [Nat.succ_mul] at this
      exact this
  · intro hi
    rw [if_neg hi]
    exact ⟨rfl, rfl⟩

theorem vector_delete_at_refines (v : Vector) (index : Nat) (hv : vector_inv v) :
    (index < v.size →
      (vector_delete_at v index).1 = true ∧
      (vector_elements v).get? index = some (vector_delete_at v index).2.1 ∧
      vector_elements (vector_delete_at v index).2.2 = (vector_elements v).eraseIdx index ∧
      (vector_delete_at v index).2.2.size = v.size - 1 ∧
      (vector_delete_at v index).2.2.capacity = v.capacity ∧
      (vector_delete_at v index).2.2.element_size = v.element_size ∧
      vector_inv (vector_delete_at v index).2.2) ∧
    (¬ index < v.size →
      (vector_delete_at v index).1 = false ∧ (vector_delete_at v index).2.2 = v) := by
  obtain ⟨rest, h1, h2, h3, h4, h5⟩ := vector_block v hv
  unfold vector_delete_at
  constructor
  · intro hi
    have hno : ¬ (v.size = 0 ∨ index ≥ v.size) := by omega
    rw [if_neg hno]
    obtain ⟨pre, e, post, e1, e2, e3⟩ := split_at_index (vector_elements v) index (by omega)
    have hpre : ∀ y ∈ pre, y.length = v.element_size :=
      fun y hy => h3 y (by rw [e1]; exact List.mem_append_left _ hy)
    have hpost : ∀ y ∈ post, y.length = v.element_size :=
      fun y hy => h3 y (by rw [e1]; exact List.mem_append_right _ (List.mem_cons_of_mem _ hy))
    have he : e.length = v.element_size := h3 e (by rw [e1]; simp)
    have hp := block_parts v.element_size pre post e rest hpre he
    have hsize : v.size = pre.length + 1 + post.length := by
      rw [← h2, e1]
      simp only [List.length_append, List.length_cons]
      omega
    have hall : ∀ y ∈ pre ++ post, y.length = v.element_size := by
      intro y hy
      rcases List.mem_append.mp hy with hy | hy
      · exact hpre y hy
      · exact hpost y hy
    have hlen : (pre ++ post).length = v.size - 1 := by
      rw [List.length_append]; omega
    by_cases hlast : index = v.size - 1
    · rw [if_pos hlast]
      dsimp only
      have hpost0 : post = [] := by
        apply List.length_eq_zero.mp
        omega
      refine ⟨rfl, ?_, ?_, rfl, rfl, rfl, ?_⟩
      · rw [e3, h1, e1, ← e2, hp.2.1]
      · show to_elements v.element_size (v.size - 1) _ = _
        rw [e1, ← e2, eraseIdx_append_length, h1, e1, ← hlen, hpost0]
        have : (pre ++ [e]).flatten ++ rest = (pre ++ []).flatten ++ (e ++ rest) := by
          simp only [List.flatten_append, List.flatten_cons, List.flatten_nil, List.append_nil,
            List.append_assoc]
        rw [this]
        exact to_elements_flatten _ _ _ (by rw [List.append_nil]; exact hpre)
      · refine ⟨by have := hv.1; show v.size - 1 ≤ v.capacity; omega, hv.2⟩
    · rw [if_neg hlast]
      dsimp only
      have hsrc : ((v.p.getD []).drop ((index + 1) * v.element_size)).take
          ((v.size - index - 1) * v.element_size) = post.flatten := by
        rw [h1, e1, ← e2, Nat.succ_mul, hp.2.2]
        have hpl : post.flatten.length = (v.size - pre.length - 1) * v.element_size := by
          rw [flatten_length_of_all v.element_size post hpost]
          congr 1
          omega
        rw [← hpl]
        exact List.take_left' rfl
      have hnew : memcpy_at (v.p.getD []) (index * v.element_size)
          (((v.p.getD []).drop ((index + 1) * v.element_size)).take
            ((v.size - index - 1) * v.element_size)) =
          (pre ++ post).flatten ++
            (v.p.getD []).drop (index * v.element_size + post.flatten.length) := by
        rw [hsrc]
        unfold memcpy_at
        have : (v.p.getD []).take (index * v.element_size) = pre.flatten := by
          rw [h1, e1, ← e2]; exact hp.1
        rw [this]
        simp only [List.flatten_append, List.append_assoc]
      refine ⟨rfl, ?_, ?_, rfl, rfl, rfl, ?_⟩
      · rw [e3, h1, e1, ← e2, hp.2.1]
      · show to_elements v.element_size (v.size - 1) _ = _
        simp only [Option.getD_some]
        rw [hnew, e1, ← e2, eraseIdx_append_length, ← hlen]
        exact to_elements_flatten _ _ _ hall
      · refine ⟨by have := hv.1; show v.size - 1 ≤ v.capacity; omega, ?_⟩
        show (memcpy_at (v.p.getD []) (index * v.element_size) _).length = _
        rw [hsrc, memcpy_at_length, h5]
        rw [h5, flatten_length_of_all v.element_size post hpost]
        have h6 : (index + post.length) * v.element_size ≤ v.capacity * v.element_size :=
          Nat.mul_le_mul_right _ (by have := hv.1; omega)
        rw [Nat.add_mul] at h6
        exact h6
  · intro hi
    have hyes : v.size = 0 ∨ index ≥ v.size := by omega
    rw [if_pos hyes]
    exact ⟨rfl, rfl⟩

/-- C39: the vector operations on a vector of the right shape (`size <=
capacity`, a block of `capacity * element_size` bytes or no block and
capacity 0), allocation always succeeding, whatever the content of newly
allocated bytes. `vector_create` gives the empty list. `vector_push` of an
element of `element_size` bytes returns true and appends it at the end.
`vector_at(i)` succeeds if and only if `i < size` and then yields the i-th
element. For `i < size`, `vector_replace_at(i, x)` returns true, hands back
the i-th element and puts `x` in its place, and `vector_delete_at(i)`
returns true, hands back the i-th element and removes it, the other elements
keeping their order and `size` going down by one. For `i >= size` both
return false and leave the vector as it was. Every operation leaves a vector
of the right shape, so `size <= capacity` holds after it. -/
theorem vector_refines_list :
    (∀ capacity element_size : Nat,
      vector_inv (vector_create capacity element_size) ∧
      vector_elements (vector_create capacity element_size) = [] ∧
      (vector_create capacity element_size).element_size = element_size) ∧
    (∀ (fresh : Nat → List Nat) (v : Vector) (x : List Nat),
      (∀ n, (fresh n).length = n) → vector_inv v → x.length = v.element_size →
      (vector_push fresh v x).1 = true ∧
      vector_elements (vector_push fresh v x).2 = vector_elements v ++ [x] ∧
      (vector_push fresh v x).2.size = v.size + 1 ∧
      (vector_push fresh v x).2.element_size = v.element_size ∧
      vector_inv (vector_push fresh v x).2 ∧
      (vector_push fresh v x).2.size ≤ (vector_push fresh v x).2.capacity) ∧
    (∀ (v : Vector) (index : Nat), vector_inv v →
      (vector_elements v).length = v.size ∧
      ((vector_at v index).1 = true ↔ index < v.size) ∧
      (index < v.size → (vector_elements v).get? index = some (vector_at v index).2)) ∧
    (∀ (v : Vector) (index : Nat) (x : List Nat), vector_inv v → x.length = v.element_size →
      (index < v.size →
        (vector_replace_at v index x).1 = true ∧
        (vector_elements v).get? index = some (vector_replace_at v index x).2.1 ∧
        vector_elements (vector_replace_at v index x).2.2 = (vector_elements v).set index x ∧
        (vector_replace_at v index x).2.2.size = v.size ∧
        vector_inv (vector_replace_at v index x).2.2 ∧
        (vector_replace_at v index x).2.2.size ≤ (vector_replace_at v index x).2.2.capacity) ∧
      (¬ index < v.size →
        (vector_replace_at v index x).1 = false ∧ (vector_replace_at v index x).2.2 = v)) ∧
    (∀ (v : Vector) (index : Nat), vector_inv v →
      (index < v.size →
        (vector_delete_at v index).1 = true ∧
        (vector_elements v).get? index = some (vector_delete_at v index).2.1 ∧
        vector_elements (vector_delete_at v index).2.2 = (vector_elements v).eraseIdx index ∧
        (vector_delete_at v index).2.2.size = v.size - 1 ∧
        vector_inv (vector_delete_at v index).2.2 ∧
        (vector_delete_at v index).2.2.size ≤ (vector_delete_at v index).2.2.capacity) ∧
      (¬ index < v.size →
        (vector_delete_at v index).1 = false ∧ (vector_delete_at v index).2.2 = v)) := by
  refine ⟨?_, ?_, ?_, ?_, ?_⟩
  · intro capacity element_size
    unfold vector_create
    by_cases hc : capacity > 0
    · rw [if_pos hc]
      refine ⟨⟨Nat.zero_le _, ?_⟩, rfl, rfl⟩
      show (List.replicate (capacity * element_size) 0).length = capacity * element_size
      exact List.length_replicate _ _
    · rw [if_neg hc]
      refine ⟨⟨Nat.zero_le _, ?_⟩, rfl, rfl⟩
      show capacity = 0
      omega
  · intro fresh v x hfresh hv hx
    obtain ⟨a1, a2, a3, a4, a5⟩ := vector_push_refines fresh hfresh v x hv hx
    exact ⟨a1, a2, a3, a4, a5, a5.1⟩
  · intro v index hv
    obtain ⟨_, _, h2, _⟩ := vector_block v hv
    obtain ⟨a1, a2, _⟩ := vector_at_refines v index hv
    exact ⟨h2, a1, a2⟩
  · intro v index x hv hx
    obtain ⟨a1, a2⟩ := vector_replace_at_refines v index x hv hx
    refine ⟨fun hi => ?_, a2⟩
    obtain ⟨b1, b2, b3, b4, _, _, b7⟩ := a1 hi
    exact ⟨b1, b2, b3, b4, b7, b7.1⟩
  · intro v index hv
    obtain ⟨a1, a2⟩ := vector_delete_at_refines v index hv
    refine ⟨fun hi => ?_, a2⟩
    obtain ⟨b1, b2, b3, b4, _, _, b7⟩ := a1 hi
    exact ⟨b1, b2, b3, b4, b7, b7.1⟩

theorem vector_refines_list_witness :
    (vector_push (fun n => List.replicate n 0xAA) (vector_create 0 4) [1, 0, 0, 0]).1 = true ∧
    vector_elements
        (vector_push (fun n => List.replicate n 0xAA) (vector_create 0 4) [1, 0, 0, 0]).2 =
      vector_elements (vector_create 0 4) ++ [[1, 0, 0, 0]] ∧
    (vector_push (fun n => List.replicate n 0xAA) (vector_create 0 4) [1, 0, 0, 0]).2.size =
      (vector_create 0 4).size + 1 ∧
    (vector_push (fun n => List.replicate n 0xAA) (vector_create 0 4)
      [1, 0, 0, 0]).2.element_size = (vector_create 0 4).element_size ∧
    vector_inv (vector_push (fun n => List.replicate n 0xAA) (vector_create 0 4)
      [1, 0, 0, 0]).2 ∧
    (vector_push (fun n => List.replicate n 0xAA) (vector_create 0 4) [1, 0, 0, 0]).2.size ≤
      (vector_push (fun n => List.replicate n 0xAA) (vector_create 0 4)
        [1, 0, 0, 0]).2.capacity :=
  vector_refines_list.2.1 (fun n => List.replicate n 0xAA) (vector_create 0 4) [1, 0, 0, 0]
    (fun n => List.length_replicate n _) (by decide) rfl

/-! ### Uniqueness of the records -/

theorem filter_filter_of_imp {α : Type} (p q : α → Bool) (xs : List α)
    (h : ∀ x, p x = true → q x = true) : (xs.filter q).filter p = xs.filter p := by
  induction xs with
  | nil => rfl
  | cons x xs ih =>
    by_cases hp : p x = true
    · have hq := h x hp
      simp [List.filter_cons, hq, hp, ih]
    · have hp : p x = false := by simpa using hp
      by_cases hq : q x = true
      · simp [List.filter_cons, hq, hp, ih]
      · have hq : q x = false := by simpa using hq
        simp [List.filter_cons, hq, hp, ih]

theorem is_state_row_other (l l1 : List Nat) (hl : l1 ≠ l) (x : List (List Nat))
    (h : is_state_row l1 x = true) : is_state_row l x = false := by
  unfold is_state_row at h ⊢
  have h1 := of_decide_eq_true h
  apply decide_eq_false
  rintro ⟨_, _, h2⟩
  rw [h1.2.2] at h2
  exact hl (Option.some.inj h2)

theorem tail_length_le {α : Type} (xs : List α) (h : xs.length ≤ 1) : xs.tail = [] := by
  cases xs with
  | nil => rfl
  | cons a t =>
    cases t with
    | nil => rfl
    | cons b t => simp at h

/-- The rows after `save_state`, on a store that reads as well-formed rows
and with a record that fits one line: the rows that are not records of the
label are kept in order, and of the records of the label the first one is
replaced by the new record (which is added when there was none). -/
theorem save_state_rows (store label : List Nat) (p : MorseFeedParams)
    (array : List (List (List Nat))) (entry : List (List Nat))
    (h : read_string_array store = some array) (hok : array_ok array)
    (he : state_entry label p = some entry) (hrow : row_ok entry) :
    ∃ store1 array1, save_state store label p = some (MF_NO_ERROR, store1) ∧
      read_string_array store1 = some array1 ∧ array_ok array1 ∧
      array1.filter (fun x => !is_state_row label x) =
        array.filter (fun x => !is_state_row label x) ∧
      array1.filter (is_state_row label) =
        entry :: (array.filter (is_state_row label)).tail := by
  have hent := is_state_row_entry label p entry he
  unfold save_state
  rw [h]
  dsimp only
  rw [he]
  dsimp only
  cases hf : find_state label array 0 with
  | none =>
    have hall := find_state_none label array 0 hf
    have hok1 : array_ok (array ++ [entry]) := by
      intro row hr
      rcases List.mem_append.mp hr with hr | hr
      · exact hok row hr
      · rw [List.mem_singleton.mp hr]; exact hrow
    refine ⟨_, array ++ [entry], rfl, read_write_string_array _ hok1, hok1, ?_, ?_⟩
    · simp [List.filter_append, hent]
    · rw [List.filter_append, filter_nil_of_all_false _ _ hall]
      simp [hent]
  | some k =>
    obtain ⟨pre, next, post, h1, h2, h3, h4⟩ := find_state_some label array 0 k hf
    have hk : k = pre.length := by omega
    subst hk
    subst h1
    dsimp only
    rw [set_append_length]
    have hok1 : array_ok (pre ++ entry :: post) := by
      intro row hr
      rcases List.mem_append.mp hr with hr | hr
      · exact hok row (List.mem_append_left _ hr)
      · rcases List.mem_cons.mp hr with hr | hr
        · rw [hr]; exact hrow
        · exact hok row (List.mem_append_right _ (List.mem_cons_of_mem _ hr))
    refine ⟨_, pre ++ entry :: post, rfl, read_write_string_array _ hok1, hok1, ?_, ?_⟩
    · simp [List.filter_append, List.filter_cons, hent, h3]
    · rw [List.filter_append, List.filter_append, filter_nil_of_all_false _ _ h4]
      simp [List.filter_cons, hent, h3]

theorem write_saved_position_unique (store label : List Nat) (position : Nat)
    (array : List (List (List Nat))) (h : read_string_array store = some array)
    (hok : array_ok array) (hu : store_unique array)
    (hnew : position ≠ 0 → row_ok [bytes "position", label, sprintf_ld position]) :
    ∃ store1 array1, write_saved_position store label position = some (MF_NO_ERROR, store1) ∧
      read_string_array store1 = some array1 ∧ array_ok array1 ∧ store_unique array1 := by
  obtain ⟨store1, array1, s1, rd1, ok1, keep, own⟩ :=
    write_saved_position_array store label position array h hok hnew
  refine ⟨store1, array1, s1, rd1, ok1, ?_, ?_⟩
  · intro key
    by_cases hk : key = label
    · subst hk
      rw [own, tail_length_le _ (hu.1 key), List.append_nil]
      split <;> simp
    · have himp : ∀ x, is_position_row key x = true → (!is_position_row label x) = true := by
        intro x hx
        rw [is_position_row_other label key hk x hx]
        rfl
      rw [← filter_filter_of_imp (is_position_row key) (fun x => !is_position_row label x)
        array1 himp, keep,
        filter_filter_of_imp (is_position_row key) (fun x => !is_position_row label x)
        array himp]
      exact hu.1 key
  · intro l
    have himp : ∀ x, is_state_row l x = true → (!is_position_row label x) = true := by
      intro x hx
      rw [state_row_not_position l label x hx]
      rfl
    rw [← filter_filter_of_imp (is_state_row l) (fun x => !is_position_row label x)
      array1 himp, keep,
      filter_filter_of_imp (is_state_row l) (fun x => !is_position_row label x) array himp]
    exact hu.2 l

theorem save_state_unique (store label : List Nat) (p : MorseFeedParams)
    (array : List (List (List Nat))) (entry : List (List Nat))
    (h : read_string_array store = some array) (hok : array_ok array) (hu : store_unique array)
    (he : state_entry label p = some entry) (hrow : row_ok entry) :
    ∃ store1 array1, save_state store label p = some (MF_NO_ERROR, store1) ∧
      read_string_array store1 = some array1 ∧ array_ok array1 ∧ store_unique array1 := by
  obtain ⟨store1, array1, s1, rd1, ok1, keep, own⟩ :=
    save_state_rows store label p array entry h hok he hrow
  refine ⟨store1, array1, s1, rd1, ok1, ?_, ?_⟩
  · intro key
    have himp : ∀ x, is_position_row key x = true → (!is_state_row label x) = true := by
      intro x hx
      rw [position_row_not_state label key x hx]
      rfl
    rw [← filter_filter_of_imp (is_position_row key) (fun x => !is_state_row label x)
      array1 himp, keep,
      filter_filter_of_imp (is_position_row key) (fun x => !is_state_row label x) array himp]
    exact hu.1 key
  · intro l
    by_cases hl : l = label
    · subst hl
      rw [own, tail_length_le _ (hu.2 l)]
      simp
    · have himp : ∀ x, is_state_row l x = true → (!is_state_row label x) = true := by
        intro x hx
        rw [is_state_row_other label l hl x hx]
        rfl
      rw [← filter_filter_of_imp (is_state_row l) (fun x => !is_state_row label x)
        array1 himp, keep,
        filter_filter_of_imp (is_state_row l) (fun x => !is_state_row label x) array himp]
      exact hu.2 l

theorem store_calls_unique (calls : List StoreCall) :
    ∀ (store : List Nat) (array : List (List (List Nat))),
      (∀ c ∈ calls, call_fits c) → read_string_array store = some array → array_ok array →
      store_unique array →
      ∃ store1 array1, store_calls calls store = some store1 ∧
        read_string_array store1 = some array1 ∧ array_ok array1 ∧ store_unique array1 := by
  induction calls with
  | nil =>
    intro store array _ h hok hu
    exact ⟨store, array, rfl, h, hok, hu⟩
  | cons c calls ih =>
    intro store array hfit h hok hu
    have hc := hfit c (List.mem_cons_self _ _)
    have hstep : ∃ store1 array1, store_call store c = some (MF_NO_ERROR, store1) ∧
        read_string_array store1 = some array1 ∧ array_ok array1 ∧ store_unique array1 := by
      cases c with
      | write_position label position =>
        exact write_saved_position_unique store label position array h hok hu hc.2
      | save label mfp =>
        obtain ⟨entry, he, hrow⟩ := hc
        exact save_state_unique store label mfp array entry h hok hu he hrow
    obtain ⟨store1, array1, s1, rd1, ok1, u1⟩ := hstep
    obtain ⟨store2, array2, s2, rd2, ok2, u2⟩ :=
      ih store1 array1 (fun x hx => hfit x (List.mem_cons_of_mem _ hx)) rd1 ok1 u1
    refine ⟨store2, array2, ?_, rd2, ok2, u2⟩
    unfold store_calls
    rw [s1]
    exact s2

theorem long_key_calls_eval :
    store_calls
        [StoreCall.write_position (List.replicate 512 0x78) 5,
         StoreCall.write_position (List.replicate 512 0x78) 7,
         StoreCall.write_position (List.replicate 512 0x78) 9] [] =
      some (write_string_array
        [[bytes "position", List.replicate 511 0x78, bytes "5"],
         [bytes "position", List.replicate 511 0x78, bytes "7"],
         [bytes "position", List.replicate 512 0x78, bytes "9"]]) := by
  decide!

theorem long_key_rows_eval :
    read_string_array (write_string_array
        [[bytes "position", List.replicate 511 0x78, bytes "5"],
         [bytes "position", List.replicate 511 0x78, bytes "7"],
         [bytes "position", List.replicate 512 0x78, bytes "9"]]) =
      some [[bytes "position", List.replicate 511 0x78, bytes "5"],
         [bytes "position", List.replicate 511 0x78, bytes "7"],
         [bytes "position", List.replicate 511 0x78, bytes "9"]] := by
  decide!

/-- C36, counterexample: three calls of `write_saved_position` with the
same key of 512 bytes, from the empty store. `read_string_array` cuts the
key at 511 bytes, so each call finds no record of the key and adds one: the
store ends with three `position` lines, two of them with the same key of 511
bytes, and reads as three records of that key. -/
theorem store_unique_counterexample :
    store_calls
        [StoreCall.write_position (List.replicate 512 0x78) 5,
         StoreCall.write_position (List.replicate 512 0x78) 7,
         StoreCall.write_position (List.replicate 512 0x78) 9] [] =
      some (write_string_array
        [[bytes "position", List.replicate 511 0x78, bytes "5"],
         [bytes "position", List.replicate 511 0x78, bytes "7"],
         [bytes "position", List.replicate 512 0x78, bytes "9"]]) ∧
    read_string_array (write_string_array
        [[bytes "position", List.replicate 511 0x78, bytes "5"],
         [bytes "position", List.replicate 511 0x78, bytes "7"],
         [bytes "position", List.replicate 512 0x78, bytes "9"]]) =
      some [[bytes "position", List.replicate 511 0x78, bytes "5"],
         [bytes "position", List.replicate 511 0x78, bytes "7"],
         [bytes "position", List.replicate 511 0x78, bytes "9"]] ∧
    ¬ store_unique [[bytes "position", List.replicate 511 0x78, bytes "5"],
         [bytes "position", List.replicate 511 0x78, bytes "7"],
         [bytes "position", List.replicate 511 0x78, bytes "9"]] := by
  refine ⟨long_key_calls_eval, long_key_rows_eval, ?_⟩
  intro hu
  have := hu.1 (List.replicate 511 0x78)
  revert this
  decide!

/-- C36 (amended): every store reached from the empty store by calls of
`write_saved_position` and `save_state` whose records fit (keys and labels
NUL-free and of at most 511 bytes, every record line of at most 1023 bytes,
positions below `2 ^ 63`, no `sprintf` of a `double` overrunning its buffer)
is reached with every call returning `MF_NO_ERROR`, reads as well-formed
rows, and holds at most one 3-cell `position` record per key and at most one
17-cell `state` record per label. -/
theorem store_unique_reachable (calls : List StoreCall) (h : ∀ c ∈ calls, call_fits c) :
    ∃ store array, store_calls calls [] = some store ∧
      read_string_array store = some array ∧ array_ok array ∧ store_unique array := by
  have hu : store_unique [] := ⟨fun _ => Nat.zero_le _, fun _ => Nat.zero_le _⟩
  have hok : array_ok [] := fun row hr => absurd hr (List.not_mem_nil row)
  exact store_calls_unique calls [] [] h rfl hok hu

theorem store_unique_reachable_witness :
    ∃ store array,
      store_calls
          [StoreCall.write_position (bytes "file1") 11,
           StoreCall.save (bytes "one") test_mfp1,
           StoreCall.write_position (bytes "file1") 22,
           StoreCall.save (bytes "one") test_mfp2,
           StoreCall.write_position (bytes "file1") 0] [] = some store ∧
      read_string_array store = some array ∧ array_ok array ∧ store_unique array :=
  store_unique_reachable
    [StoreCall.write_position (bytes "file1") 11,
     StoreCall.save (bytes "one") test_mfp1,
     StoreCall.write_position (bytes "file1") 22,
     StoreCall.save (bytes "one") test_mfp2,
     StoreCall.write_position (bytes "file1") 0]
    (by
      intro c hc
      simp only [List.mem_cons, List.mem_singleton, List.mem_nil_iff, or_false] at hc
      rcases hc with hc | hc | hc | hc | hc
      · rw [hc]; exact ⟨by decide, fun _ => by decide!⟩
      · rw [hc]; exact ⟨test_entry1 (bytes "one"), by decide!, by decide!⟩
      · rw [hc]; exact ⟨by decide, fun _ => by decide!⟩
      · rw [hc]; exact ⟨test_entry2 (bytes "one"), by decide!, by decide!⟩
      · rw [hc]; exact ⟨by decide, fun h0 => absurd rfl h0⟩)

/-! ### The internal error of `write_token` -/

theorem emit_name_no_error (wpr : Int) (word name : List Nat) (w : World)
    (e : MorseFeedError) (word1 : List Nat) (w1 : World)
    (h : emit_name false wpr DEFAULT false MF_NO_ERROR word name w = some (e, word1, w1)) :
    e = MF_NO_ERROR := by
  by_cases hn : 0 < name.length
  · obtain ⟨w2, h2, _⟩ := emit_name_quiet false wpr word name w hn
      (fun hp => Bool.noConfusion hp)
    rw [h2] at h
    simp only [Option.some.injEq, Prod.mk.injEq] at h
    exact h.1.symm
  · unfold emit_name at h
    rw [if_neg hn] at h
    simp only [Option.some.injEq, Prod.mk.injEq] at h
    exact h.1.symm

theorem write_token_loop_ascii_no_error (wpr : Int) (fh : Bool) (p : List Nat)
    (hp : ∀ c ∈ p, c ≤ 0x7F) :
    ∀ s : Loop, s.error = MF_NO_ERROR → s.skip = 0 → s.latin1 = false →
      s.word.length + p.length ≤ LINE_SIZE - 1 →
      ∃ s1, write_token_loop false wpr DEFAULT false fh p s = some s1 ∧
        s1.error = MF_NO_ERROR := by
  induction p with
  | nil => intro s he _ _ _; exact ⟨s, rfl, he⟩
  | cons c rest ih =>
    intro s he hsk hl hlen
    have hc : c ≤ 0x7F := hp c (List.mem_cons_self _ _)
    have hroom : s.word.length < LINE_SIZE - 1 := by
      simp only [List.length_cons] at hlen
      omega
    rw [write_token_loop_cons false wpr DEFAULT false fh c rest s hsk hroom]
    cases hs : write_token_step false wpr DEFAULT false fh c rest s with
    | none =>
      exfalso
      unfold write_token_step at hs
      dsimp only at hs
      obtain ⟨r, hr⟩ := emit_name_total false wpr DEFAULT s.error (scan_char fh c rest s).word
        (scan_char fh c rest s).name s.world
      rw [hr] at hs
      exact Option.noConfusion hs
    | some s2 =>
      obtain ⟨h1, h2, h3⟩ := write_token_step_ascii_state false wpr DEFAULT false fh c rest s s2
        hc hl hs
      have herr : s2.error = MF_NO_ERROR := by
        unfold write_token_step at hs
        dsimp only at hs
        cases hem : emit_name false wpr DEFAULT false s.error (scan_char fh c rest s).word
            (scan_char fh c rest s).name s.world with
        | none => rw [hem] at hs; exact Option.noConfusion hs
        | some r =>
          obtain ⟨e, word1, w1⟩ := r
          rw [hem] at hs
          simp only [Option.some.injEq] at hs
          rw [he] at hem
          have := emit_name_no_error wpr _ _ _ e word1 w1 hem
          rw [← hs]
          exact this
      simp only [Option.some_bind]
      exact ih (fun x hx => hp x (List.mem_cons_of_mem _ hx)) s2 herr h1 h2
        (by simp only [List.length_cons] at hlen; omega)

theorem latin1_fill_eval :
    write_token (List.replicate 342 0xBC) false 5 DEFAULT false false
        { excluding_tag := false, entity := [], tag := [] }
        { output := [], words := [], word_number := 0, keys := [], acks := 0 } =
      some (MF_PROGRAM_ERR, { excluding_tag := false, entity := [], tag := [] },
        { output := [], words := [], word_number := 0, keys := [], acks := 0 }) ∧
    write_token (List.replicate 342 0xBC) false 5 DEFAULT false true
        { excluding_tag := false, entity := [], tag := [] }
        { output := [], words := [], word_number := 0, keys := [], acks := 0 } =
      some (MF_PROGRAM_ERR, { excluding_tag := false, entity := [], tag := [] },
        { output := [], words := [], word_number := 0, keys := [], acks := 0 }) ∧
    write_token (List.replicate 341 0xBC) false 5 DEFAULT false false
        { excluding_tag := false, entity := [], tag := [] }
        { output := [], words := [], word_number := 0, keys := [], acks := 0 } =
      some (MF_NO_ERROR, { excluding_tag := false, entity := [], tag := [] },
        { output := (List.replicate 341 (bytes "1/4")).flatten,
          words := [(List.replicate 341 (bytes "1/4")).flatten], word_number := 1,
          keys := [], acks := 0 }) := by
  refine ⟨?_, ?_, ?_⟩
  · decide!
  · decide!
  · decide!

/-- C33, the code at the failing input, and the claim for ASCII tokens. The
token of 342 bytes 0xBC (the Latin-1 one-quarter sign, written `1/4`), with
no word limit, a file as the sink and no keys, with or without HTML
filtering: `write_token` returns `MF_PROGRAM_ERR` and writes nothing. After
341 bytes the word holds 1023 characters, the loop stops with one byte of
the token left, and the word is dropped. The token of 341 such bytes gives
`MF_NO_ERROR` and one Word of 1023 characters. For every token of at most
1023 ASCII bytes, with no word limit, a file as the sink and no keys,
`write_token` returns `MF_NO_ERROR`. -/
theorem write_token_program_err :
    write_token (List.replicate 342 0xBC) false 5 DEFAULT false false
        { excluding_tag := false, entity := [], tag := [] }
        { output := [], words := [], word_number := 0, keys := [], acks := 0 } =
      some (MF_PROGRAM_ERR, { excluding_tag := false, entity := [], tag := [] },
        { output := [], words := [], word_number := 0, keys := [], acks := 0 }) ∧
    write_token (List.replicate 342 0xBC) false 5 DEFAULT false true
        { excluding_tag := false, entity := [], tag := [] }
        { output := [], words := [], word_number := 0, keys := [], acks := 0 } =
      some (MF_PROGRAM_ERR, { excluding_tag := false, entity := [], tag := [] },
        { output := [], words := [], word_number := 0, keys := [], acks := 0 }) ∧
    write_token (List.replicate 341 0xBC) false 5 DEFAULT false false
        { excluding_tag := false, entity := [], tag := [] }
        { output := [], words := [], word_number := 0, keys := [], acks := 0 } =
      some (MF_NO_ERROR, { excluding_tag := false, entity := [], tag := [] },
        { output := (List.replicate 341 (bytes "1/4")).flatten,
          words := [(List.replicate 341 (bytes "1/4")).flatten], word_number := 1,
          keys := [], acks := 0 }) ∧
    (∀ (token : List Nat) (wpr : Int) (fh : Bool) (h : HtmlState) (w : World),
      (∀ c ∈ token, c ≤ 0x7F) → token.length ≤ 1023 →
      ∃ h1 w1, write_token token false wpr DEFAULT false fh h w = some (MF_NO_ERROR, h1, w1)) := by
  obtain ⟨a1, a2, a3⟩ := latin1_fill_eval
  refine ⟨a1, a2, a3, ?_⟩
  intro token wpr fh h w hp hlen
  obtain ⟨s1, e1, e2⟩ := write_token_loop_ascii_no_error wpr fh token hp (loop_init h w) rfl rfl
    rfl (by simp only [loop_init, List.length_nil, LINE_SIZE]; omega)
  rw [write_token_eq, e1]
  simp only [Option.some_bind]
  unfold write_token_end
  dsimp only
  by_cases hw : s1.error = MF_NO_ERROR ∧ s1.word.length > 0
  · rw [if_pos hw]
    obtain ⟨w2, h2, _⟩ := write_word_quiet s1.word false wpr s1.world
      (fun hpf => Bool.noConfusion hpf)
    rw [h2]
    exact ⟨_, _, rfl⟩
  · rw [if_neg hw, e2]
    exact ⟨_, _, rfl⟩

theorem write_token_program_err_witness :
    ∃ h1 w1, write_token (bytes "<p>Hello,&amp;") false 5 DEFAULT false true
        { excluding_tag := false, entity := [], tag := [] }
        { output := [], words := [], word_number := 0, keys := [], acks := 0 } =
      some (MF_NO_ERROR, h1, w1) :=
  write_token_program_err.2.2.2 (bytes "<p>Hello,&amp;") 5 true
    { excluding_tag := false, entity := [], tag := [] }
    { output := [], words := [], word_number := 0, keys := [], acks := 0 }
    (by decide) (by decide)

/-! ### The contents of a tag -/

theorem scan_char_no_open (fh : Bool) (c : Nat) (rest : List Nat) (s : Loop)
    (hc : c ≠ 0x3C) (hex : s.excluding_tag = false) :
    (scan_char fh c rest s).excluding_tag = false := by
  unfold scan_char
  rw [(scan_latin1_frame _).1]
  unfold scan_chain
  dsimp only
  have h1 : ¬ (fh = true ∧ c = 0x3C) := fun h => hc h.2
  have h2 : ¬ (s.excluding_tag = true ∧ c = 0x3E) := by
    rw [hex]; exact fun h => Bool.noConfusion h.1
  have h3 : ¬ (s.excluding_tag = true) := by rw [hex]; exact Bool.noConfusion
  rw [if_neg h1, if_neg h2, if_neg h3]
  by_cases h4 : fh = true ∧ c = 0x26
  · rw [if_pos h4]; exact hex
  rw [if_neg h4]
  by_cases h5 : fh = true ∧ s.entity ≠ []
  · rw [if_pos h5]
    by_cases h6 : c = 0x3B
    · rw [if_pos h6]; exact hex
    · rw [if_neg h6]; exact hex
  rw [if_neg h5]
  by_cases h7 : is_word_char c = true
  · rw [if_pos h7]; exact hex
  rw [if_neg h7]
  by_cases h8 : c = 0x27
  · rw [if_pos h8]; exact hex
  rw [if_neg h8]
  by_cases h9 : c ≤ 0x7F
  · rw [if_pos h9]; exact hex
  rw [if_neg h9]
  by_cases h10 : c &&& 0xE0 = 0xC0
  · rw [if_pos h10]
    split
    · split
      · split <;> exact hex
      · exact hex
    · exact hex
  rw [if_neg h10]
  by_cases h13 : c &&& 0xF0 = 0xE0
  · rw [if_pos h13]
    split
    · split <;> exact hex
    · exact hex
  rw [if_neg h13]
  by_cases h14 : c &&& 0xF8 = 0xF0
  · rw [if_pos h14]
    split
    · split <;> exact hex
    · exact hex
  rw [if_neg h14]
  exact hex

theorem write_token_loop_no_open (pf : Bool) (wpr wc : Int) (ukc fh : Bool) (token : List Nat)
    (ht : ∀ c ∈ token, c ≠ 0x3C) :
    ∀ s s1 : Loop, s.excluding_tag = false →
      write_token_loop pf wpr wc ukc fh token s = some s1 → s1.excluding_tag = false := by
  induction token with
  | nil =>
    intro s s1 hi h
    simp only [write_token_loop, Option.some.injEq] at h
    subst h
    exact hi
  | cons c rest ih =>
    intro s s1 hi h
    have hrest : ∀ x ∈ rest, x ≠ 0x3C := fun x hx => ht x (List.mem_cons_of_mem _ hx)
    rw [write_token_loop] at h
    split at h
    · exact ih hrest { s with skip := s.skip - 1 } s1 hi h
    · split at h
      · cases hs : write_token_step pf wpr wc ukc fh c rest s with
        | none => rw [hs] at h; cases h
        | some s2 =>
          rw [hs] at h
          refine ih hrest s2 s1 ?_ h
          unfold write_token_step at hs
          dsimp only at hs
          cases he : emit_name pf wpr wc ukc s.error (scan_char fh c rest s).word
              (scan_char fh c rest s).name s.world with
          | none => rw [he] at hs; cases hs
          | some r =>
            rw [he] at hs
            simp only [Option.some.injEq] at hs
            subst hs
            exact scan_char_no_open fh c rest s (ht c (List.mem_cons_self _ _)) hi
      · simp only [Option.some.injEq] at h
        subst h
        exact hi

theorem tag_word_other (x : List Nat) (hx : x ≠ bytes "/li") :
    tag_word (tag_buf [] (0x3C :: x ++ [0x3E])) = bytes " " := by
  apply tag_word_filler
  intro h
  apply hx
  have h1 : bytes "</li>" = 0x3C :: (bytes "/li" ++ [0x3E]) := by decide
  rw [h1] at h
  have h2 := (List.cons.inj h).2
  exact List.append_cancel_right h2

/-- The loop across a whole tag that is not `</li>`, from a state with no
tag open and the Latin-1 flag off: what is between `<` and `>` plays no
part. -/
theorem write_token_loop_tag_any (pf : Bool) (wpr wc : Int) (ukc : Bool) (x y q : List Nat)
    (s : Loop) (hx : ∀ c ∈ x, c ≠ 0x3E) (hy : ∀ c ∈ y, c ≠ 0x3E) (hxl : x ≠ bytes "/li")
    (hyl : y ≠ bytes "/li") (hsk : s.skip = 0) (hl : s.latin1 = false) (htag : s.tag = [])
    (hroom : s.word.length < LINE_SIZE - 1) :
    write_token_loop pf wpr wc ukc true (0x3C :: x ++ 0x3E :: q) s =
      write_token_loop pf wpr wc ukc true (0x3C :: y ++ 0x3E :: q) s := by
  rw [write_token_loop_tag pf wpr wc ukc x q s hx hsk hl hroom,
    write_token_loop_tag pf wpr wc ukc y q s hy hsk hl hroom, htag,
    tag_word_other x hxl, tag_word_other y hyl]

theorem tag_leak_eval :
    write_token [0xE9, 0x3C, 0xE9, 0x3E] false 5 DEFAULT false true
        { excluding_tag := false, entity := [], tag := [] }
        { output := [], words := [], word_number := 0, keys := [], acks := 0 } =
      some (MF_NO_ERROR, { excluding_tag := false, entity := [], tag := [] },
        { output := bytes "ee  ", words := [bytes "ee", bytes " "], word_number := 1,
          keys := [], acks := 0 }) ∧
    write_token [0xE9, 0x3C, 0x62, 0x3E] false 5 DEFAULT false true
        { excluding_tag := false, entity := [], tag := [] }
        { output := [], words := [], word_number := 0, keys := [], acks := 0 } =
      some (MF_NO_ERROR, { excluding_tag := false, entity := [], tag := [] },
        { output := bytes "e  ", words := [bytes "e", bytes " "], word_number := 1,
          keys := [], acks := 0 }) ∧
    write_token [0xE9, 0x3C, 0xA9, 0x3E] false 5 DEFAULT false true
        { excluding_tag := false, entity := [], tag := [] }
        { output := [], words := [], word_number := 0, keys := [], acks := 0 } =
      some (MF_NO_ERROR, { excluding_tag := false, entity := [], tag := [] },
        { output := bytes "e copyright  ", words := [bytes "e", bytes "copyright", bytes " "],
          word_number := 2, keys := [], acks := 0 }) := by
  refine ⟨by decide, by decide, by decide⟩

/-- C34, the code at the failing input, and the claim for ASCII text before
the tag. With HTML filtering and no tag or entity open, `p` the single byte
E9 (a Latin-1 `é`) and `s` empty: the token with `x` = E9 between `<` and
`>` gives the Words `ee` and the filler, the token with `y` = `b` gives `e`
and the filler, and with A9 in the tag the Word `copyright` is written. The
byte before the tag has set the Latin-1 flag of the call, and the Latin-1
block then runs on every byte, also on those inside the tag. From every
state with the flag off and no tag open the loop runs across `<x>` and `<y>`
to the same state; so for every `p` of fewer than 1023 ASCII bytes without
`<`, all `x`, `y` without `>` and different from `/li`, and every `s`, the
two tokens give the same result. -/
theorem write_token_tag_contents :
    write_token [0xE9, 0x3C, 0xE9, 0x3E] false 5 DEFAULT false true
        { excluding_tag := false, entity := [], tag := [] }
        { output := [], words := [], word_number := 0, keys := [], acks := 0 } =
      some (MF_NO_ERROR, { excluding_tag := false, entity := [], tag := [] },
        { output := bytes "ee  ", words := [bytes "ee", bytes " "], word_number := 1,
          keys := [], acks := 0 }) ∧
    write_token [0xE9, 0x3C, 0x62, 0x3E] false 5 DEFAULT false true
        { excluding_tag := false, entity := [], tag := [] }
        { output := [], words := [], word_number := 0, keys := [], acks := 0 } =
      some (MF_NO_ERROR, { excluding_tag := false, entity := [], tag := [] },
        { output := bytes "e  ", words := [bytes "e", bytes " "], word_number := 1,
          keys := [], acks := 0 }) ∧
    write_token [0xE9, 0x3C, 0xA9, 0x3E] false 5 DEFAULT false true
        { excluding_tag := false, entity := [], tag := [] }
        { output := [], words := [], word_number := 0, keys := [], acks := 0 } =
      some (MF_NO_ERROR, { excluding_tag := false, entity := [], tag := [] },
        { output := bytes "e copyright  ", words := [bytes "e", bytes "copyright", bytes " "],
          word_number := 2, keys := [], acks := 0 }) ∧
    (∀ (pf : Bool) (wpr wc : Int) (ukc : Bool) (x y q : List Nat) (s : Loop),
      (∀ c ∈ x, c ≠ 0x3E) → (∀ c ∈ y, c ≠ 0x3E) → x ≠ bytes "/li" → y ≠ bytes "/li" →
      s.skip = 0 → s.latin1 = false → s.tag = [] → s.word.length < LINE_SIZE - 1 →
      write_token_loop pf wpr wc ukc true (0x3C :: x ++ 0x3E :: q) s =
        write_token_loop pf wpr wc ukc true (0x3C :: y ++ 0x3E :: q) s) ∧
    (∀ (pf : Bool) (wpr wc : Int) (ukc : Bool) (p x y s : List Nat) (h : HtmlState) (w : World),
      (∀ c ∈ p, c ≤ 0x7F ∧ c ≠ 0x3C) → p.length < 1023 →
      (∀ c ∈ x, c ≠ 0x3E) → (∀ c ∈ y, c ≠ 0x3E) → x ≠ bytes "/li" → y ≠ bytes "/li" →
      h.excluding_tag = false → h.tag = [] →
      write_token (p ++ 0x3C :: x ++ 0x3E :: s) pf wpr wc ukc true h w =
        write_token (p ++ 0x3C :: y ++ 0x3E :: s) pf wpr wc ukc true h w) := by
  obtain ⟨a1, a2, a3⟩ := tag_leak_eval
  refine ⟨a1, a2, a3, ?_, ?_⟩
  · intro pf wpr wc ukc x y q s hx hy hxl hyl hsk hl htag hroom
    exact write_token_loop_tag_any pf wpr wc ukc x y q s hx hy hxl hyl hsk hl htag hroom
  · intro pf wpr wc ukc p x y s h w hp hlen hx hy hxl hyl hex htag
    have hpa : ∀ c ∈ p, c ≤ 0x7F := fun c hc => (hp c hc).1
    have hpo : ∀ c ∈ p, c ≠ 0x3C := fun c hc => (hp c hc).2
    rw [write_token_eq, write_token_eq, List.append_assoc, List.append_assoc,
      write_token_loop_append_ascii pf wpr wc ukc true p (0x3C :: x ++ 0x3E :: s) hpa
        (loop_init h w) rfl rfl,
      write_token_loop_append_ascii pf wpr wc ukc true p (0x3C :: y ++ 0x3E :: s) hpa
        (loop_init h w) rfl rfl]
    cases hl : write_token_loop pf wpr wc ukc true p (loop_init h w) with
    | none => rfl
    | some t =>
      obtain ⟨t1, t2, t3⟩ := write_token_loop_ascii_state pf wpr wc ukc true p hpa _ t rfl rfl hl
      have t4 := write_token_loop_no_open pf wpr wc ukc true p hpo _ t hex hl
      have t5 : t.tag = [] :=
        write_token_loop_tag_inv pf wpr wc ukc true p _ t (fun _ => htag) hl t4
      have hroom : t.word.length < LINE_SIZE - 1 := by
        have : (loop_init h w).word.length = 0 := rfl
        simp only [LINE_SIZE]
        omega
      simp only [Option.some_bind]
      rw [write_token_loop_tag_any pf wpr wc ukc x y s t hx hy hxl hyl t1 t2 t5 hroom]

theorem write_token_tag_contents_witness :
    write_token (bytes "a" ++ 0x3C :: bytes "b" ++ 0x3E :: bytes "c") false 5 DEFAULT false true
        { excluding_tag := false, entity := [], tag := [] }
        { output := [], words := [], word_number := 0, keys := [], acks := 0 } =
      write_token (bytes "a" ++ 0x3C :: bytes "/p" ++ 0x3E :: bytes "c") false 5 DEFAULT false
        true { excluding_tag := false, entity := [], tag := [] }
        { output := [], words := [], word_number := 0, keys := [], acks := 0 } :=
  write_token_tag_contents.2.2.2.2 false 5 DEFAULT false (bytes "a") (bytes "b") (bytes "/p")
    (bytes "c") { excluding_tag := false, entity := [], tag := [] }
    { output := [], words := [], word_number := 0, keys := [], acks := 0 }
    (by decide) (by decide) (by decide) (by decide) (by decide) (by decide) rfl rfl

/-! ### The tokens of a span -/

theorem cut_pieces_short (n : Nat) (run : List Nat) (hr : run ≠ [])
    (hlen : run.length ≤ n) : cut_pieces n run = [run] := by
  have hpos : 0 < run.length := List.length_pos.mpr hr
  have hq : (run.length + n - 1) / n = 1 := by
    apply Nat.div_eq_of_lt_le
    · omega
    · omega
  unfold cut_pieces
  rw [hq]
  simp [List.range_succ, List.take_of_length_le hlen]

theorem cut_pieces_long (n : Nat) (run : List Nat) (hn : 0 < n) (hlen : n < run.length) :
    cut_pieces n run = run.take n :: cut_pieces n (run.drop n) := by
  have hq : (run.length + n - 1) / n = ((run.drop n).length + n - 1) / n + 1 := by
    rw [List.length_drop]
    have : run.length + n - 1 = (run.length - n + n - 1) + n := by omega
    rw [this, Nat.add_div_right _ hn]
  unfold cut_pieces
  rw [hq, List.range_succ_eq_map, List.map_cons, List.map_map]
  congr 1
  · simp
  · apply List.map_congr_left
    intro i _
    simp only [Function.comp, List.drop_drop]
    congr 2
    rw [Nat.succ_mul]
    omega

theorem cut_pieces_nil (n : Nat) (hn : 0 < n) : cut_pieces n [] = [] := by
  unfold cut_pieces
  have : ([] : List Nat).length + n - 1 < n := by simp; omega
  rw [Nat.div_eq_of_lt this]
  rfl

theorem run_tokens_run (bs u : List Nat) (hu : u ≠ []) :
    run_tokens u bs = (u ++ bs.takeWhile (fun c => !isspace c)) ::
      run_tokens [] (bs.dropWhile (fun c => !isspace c)) := by
  induction bs generalizing u with
  | nil =>
    have : u.length > 0 := List.length_pos.mpr hu
    simp [run_tokens, this]
  | cons c bs ih =>
    have hpos : u.length > 0 := List.length_pos.mpr hu
    by_cases hc : isspace c = true
    · simp [run_tokens, hc, hpos, List.takeWhile, List.dropWhile]
    · have hc2 : isspace c = false := by simpa using hc
      rw [run_tokens, if_neg hc, ih (u ++ [c]) (by simp)]
      simp [List.takeWhile, List.dropWhile, hc2]

theorem feed_tokens_run (n : Nat) : ∀ (bs t : List Nat), bs.length ≤ n → t ≠ [] →
    t.length ≤ LINE_SIZE - 1 →
    feed_tokens t bs = cut_pieces (LINE_SIZE - 1) (t ++ bs.takeWhile (fun c => !isspace c)) ++
      feed_tokens [] (bs.dropWhile (fun c => !isspace c)) := by
  induction n with
  | zero =>
    intro bs t hb ht hl
    have : bs = [] := List.length_eq_zero.mp (Nat.le_zero.mp hb)
    subst this
    have hpos : t.length > 0 := List.length_pos.mpr ht
    simp [feed_tokens, hpos, cut_pieces_short _ t ht hl]
  | succ n ih =>
    intro bs t hb ht hl
    have hpos : t.length > 0 := List.length_pos.mpr ht
    cases bs with
    | nil => simp [feed_tokens, hpos, cut_pieces_short _ t ht hl]
    | cons c bs =>
      have hb2 : bs.length ≤ n := by simpa using hb
      by_cases hc : isspace c = true
      · simp [feed_tokens, hc, hpos, List.takeWhile, List.dropWhile, cut_pieces_short _ t ht hl]
      · have hc2 : isspace c = false := by simpa using hc
        rw [feed_tokens, if_neg hc]
        by_cases hfull : t.length = LINE_SIZE - 1
        · rw [if_pos hfull, ih bs [c] hb2 (by simp) (by simp [LINE_SIZE])]
          have hlong : LINE_SIZE - 1 < (t ++ (c :: bs).takeWhile (fun c => !isspace c)).length := by
            simp [List.takeWhile, hc2, hfull]
          rw [cut_pieces_long _ _ (by simp [LINE_SIZE]) hlong]
          have h1 : (t ++ (c :: bs).takeWhile (fun c => !isspace c)).take (LINE_SIZE - 1) = t := by
            rw [← hfull]; simp
          have h2 : (t ++ (c :: bs).takeWhile (fun c => !isspace c)).drop (LINE_SIZE - 1) =
              [c] ++ bs.takeWhile (fun c => !isspace c) := by
            rw [← hfull]; simp [List.takeWhile, hc2]
          rw [h1, h2]
          simp [List.dropWhile, hc2]
        · rw [if_neg hfull, ih bs (t ++ [c]) hb2 (by simp) (by simp; omega)]
          simp [List.takeWhile, List.dropWhile, hc2]

theorem feed_tokens_runs (n : Nat) : ∀ (bs : List Nat), bs.length ≤ n →
    feed_tokens [] bs = ((run_tokens [] bs).map (cut_pieces (LINE_SIZE - 1))).flatten := by
  induction n with
  | zero =>
    intro bs hb
    have : bs = [] := List.length_eq_zero.mp (Nat.le_zero.mp hb)
    subst this
    simp [feed_tokens, run_tokens]
  | succ n ih =>
    intro bs hb
    cases bs with
    | nil => simp [feed_tokens, run_tokens]
    | cons c bs =>
      have hb2 : bs.length ≤ n := by simpa using hb
      by_cases hc : isspace c = true
      · simp only [feed_tokens, run_tokens, hc, if_true, List.length_nil, gt_iff_lt,
          Nat.lt_irrefl, if_false]
        exact ih bs hb2
      · have hd : (bs.dropWhile (fun c => !isspace c)).length ≤ n :=
          le_trans (List.Sublist.length_le (List.dropWhile_sublist _)) hb2
        rw [feed_tokens, if_neg hc, if_neg (by simp [LINE_SIZE]), run_tokens, if_neg hc,
          List.nil_append, feed_tokens_run bs.length bs [c] (le_refl _) (by simp)
            (by simp [LINE_SIZE]),
          run_tokens_run bs [c] (by simp), ih _ hd]
        simp

theorem head_reverse_nonspace (a : Nat) (g : List Nat) (ha : isspace a = false)
    (hg : ∀ x ∈ g, isspace x = false) : isspace (((a :: g).reverse).headD 0x20) = false := by
  rw [List.reverse_cons]
  cases hr : g.reverse with
  | nil => simp [ha]
  | cons x xs =>
    have hx : x ∈ g := by
      have : x ∈ g.reverse := by rw [hr]; exact List.mem_cons_self _ _
      simpa using this
    simp [hg x hx]

theorem span_runs_splitBy_loop (l : List Nat) :
    ∀ (a : Nat) (g : List Nat) (gs : List (List Nat)),
      (isspace a = false → ∀ x ∈ g, isspace x = false) →
      (isspace a = true → g = []) →
      (List.splitBy.loop (fun a b => !isspace a && !isspace b) l a g gs).filter
          (fun r => !isspace (r.headD 0x20)) =
        gs.reverse.filter (fun r => !isspace (r.headD 0x20)) ++
          (if isspace a then run_tokens [] l else run_tokens (g.reverse ++ [a]) l) := by
  induction l with
  | nil =>
    intro a g gs h1 h2
    cases ha : isspace a with
    | false =>
      have hh := head_reverse_nonspace a g ha (h1 ha)
      rw [List.reverse_cons] at hh
      simp [List.splitBy.loop, run_tokens, List.filter_cons] at hh ⊢
      simp [hh]
    | true =>
      have := h2 ha
      subst this
      simp [List.splitBy.loop, run_tokens, List.filter_cons, ha]
  | cons b l ih =>
    intro a g gs h1 h2
    cases ha : isspace a with
    | false =>
      cases hb : isspace b with
      | false =>
        have := ih b (a :: g) gs
          (fun _ x hx => by
            rcases List.mem_cons.mp hx with rfl | hx
            · exact ha
            · exact h1 ha x hx)
          (fun h => by rw [hb] at h; cases h)
        simp only [List.splitBy.loop, ha, hb, Bool.not_false, Bool.and_self]
        rw [this]
        simp [hb, run_tokens]
      | true =>
        have := ih b [] ((a :: g).reverse :: gs) (fun _ x hx => by cases hx) (fun _ => rfl)
        have hh := head_reverse_nonspace a g ha (h1 ha)
        rw [List.reverse_cons] at hh
        simp only [List.splitBy.loop, ha, hb, Bool.not_true, Bool.and_false]
        rw [this]
        simp [hb, run_tokens, List.filter_cons] at hh ⊢
        simp [hh]
    | true =>
      have hg := h2 ha
      subst hg
      cases hb : isspace b with
      | false =>
        have := ih b [] ([a] :: gs) (fun _ x hx => by cases hx) (fun _ => rfl)
        simp only [List.splitBy.loop, ha, hb, Bool.not_true, Bool.false_and, List.reverse_cons,
          List.reverse_nil, List.nil_append]
        rw [this]
        simp [hb, run_tokens, List.filter_cons, ha]
      | true =>
        have := ih b [] ([a] :: gs) (fun _ x hx => by cases hx) (fun _ => rfl)
        simp only [List.splitBy.loop, ha, hb, Bool.not_true, Bool.false_and, List.reverse_cons,
          List.reverse_nil, List.nil_append]
        rw [this]
        simp [hb, run_tokens, List.filter_cons, ha]

theorem run_tokens_eq_span_runs (span : List Nat) : run_tokens [] span = span_runs span := by
  cases span with
  | nil => simp [run_tokens, span_runs]
  | cons a l =>
    have := span_runs_splitBy_loop l a [] [] (fun _ x hx => by cases hx) (fun _ => rfl)
    simp only [span_runs, List.splitBy]
    rw [this]
    cases ha : isspace a <;> simp [run_tokens, ha]

theorem feed_tokens_eq_span_tokens (span : List Nat) : feed_tokens [] span = span_tokens span := by
  rw [feed_tokens_runs span.length span (le_refl _), run_tokens_eq_span_runs]
  rfl

/-! ### The loops of `process_and_send` hand over the tokens of the span -/

theorem write_tokens_cons_ok (pf : Bool) (wpr wc : Int) (ukc fh : Bool) (t : List Nat)
    (ts : List (List Nat)) (h h1 : HtmlState) (w w1 : World)
    (hw : write_tokens pf wpr wc ukc fh (t :: ts) h w = some (MF_NO_ERROR, h1, w1)) :
    ∃ h2 w2, write_token t pf wpr wc ukc fh h w = some (MF_NO_ERROR, h2, w2) ∧
      write_tokens pf wpr wc ukc fh ts h2 w2 = some (MF_NO_ERROR, h1, w1) := by
  rw [write_tokens] at hw
  cases ht : write_token t pf wpr wc ukc fh h w with
  | none => rw [ht] at hw; cases hw
  | some r =>
    obtain ⟨e, h2, w2⟩ := r
    rw [ht] at hw
    dsimp only at hw
    by_cases he : e = MF_NO_ERROR
    · subst he
      rw [if_pos rfl] at hw
      exact ⟨h2, w2, rfl, hw⟩
    · rw [if_neg he] at hw
      simp only [Option.some.injEq, Prod.mk.injEq] at hw
      exact absurd hw.1 he

theorem send_line_tokens (pf : Bool) (wpr wc : Int) (ukc fh : Bool) (more : List Nat)
    (h1 : HtmlState) (w1 : World) :
    ∀ (line : List Nat) (k : Nat) (s : Feed), s.error = MF_NO_ERROR →
      write_tokens pf wpr wc ukc fh (feed_tokens s.token (line ++ more)) s.html s.world =
        some (MF_NO_ERROR, h1, w1) →
      ∃ s1, send_line pf wpr wc ukc fh k line s = some s1 ∧ s1.error = MF_NO_ERROR ∧
        s1.line_offset = s.line_offset ∧
        write_tokens pf wpr wc ukc fh (feed_tokens s1.token more) s1.html s1.world =
          some (MF_NO_ERROR, h1, w1) := by
  intro line
  induction line with
  | nil => intro k s he hw; exact ⟨s, rfl, he, rfl, hw⟩
  | cons c line ih =>
    intro k s he hw
    rw [send_line, if_pos he]
    rw [List.cons_append, feed_tokens] at hw
    by_cases hc : isspace c = true
    · rw [if_pos hc] at hw
      by_cases ht : s.token.length > 0
      · rw [if_pos ht] at hw
        obtain ⟨h2, w2, e1, e2⟩ := write_tokens_cons_ok pf wpr wc ukc fh _ _ _ _ _ _ hw
        have hs : send_char pf wpr wc ukc fh k c s =
            some { error := MF_NO_ERROR, token := [], line_offset := s.line_offset,
                   token_offset := s.line_offset + k + 1, html := h2, world := w2 } := by
          simp [send_char, hc, ht, e1]
        rw [hs]
        exact ih (k + 1) _ rfl e2
      · rw [if_neg ht] at hw
        have hs : send_char pf wpr wc ukc fh k c s = some s := by
          simp only [send_char, hc, if_true, ht, if_false]
        rw [hs]
        exact ih (k + 1) s he hw
    · rw [if_neg hc] at hw
      by_cases hfull : s.token.length = LINE_SIZE - 1
      · rw [if_pos hfull] at hw
        obtain ⟨h2, w2, e1, e2⟩ := write_tokens_cons_ok pf wpr wc ukc fh _ _ _ _ _ _ hw
        have hs : send_char pf wpr wc ukc fh k c s =
            some { error := MF_NO_ERROR, token := [c], line_offset := s.line_offset,
                   token_offset := s.line_offset + s.token.length, html := h2, world := w2 } := by
          simp [send_char, hc, hfull, e1]
        rw [hs]
        exact ih (k + 1) _ rfl e2
      · rw [if_neg hfull] at hw
        have hs : send_char pf wpr wc ukc fh k c s = some { s with token := s.token ++ [c] } := by
          simp only [send_char, hc, Bool.false_eq_true, if_false, hfull]
        rw [hs]
        exact ih (k + 1) _ he hw

theorem cstr_nul_free (l : List Nat) (h : ∀ c ∈ l, c ≠ 0) : cstr l = l := by
  unfold cstr
  rw [List.takeWhile_eq_self_iff]
  intro c hc
  simpa using h c hc

theorem send_lines_tokens (pf : Bool) (wpr wc : Int) (ukc fh : Bool) (more : List Nat)
    (h1 : HtmlState) (w1 : World) :
    ∀ (lines : List (List Nat)) (s : Feed), (∀ l ∈ lines, ∀ c ∈ l, c ≠ 0) →
      s.error = MF_NO_ERROR →
      write_tokens pf wpr wc ukc fh (feed_tokens s.token (lines.flatten ++ more)) s.html s.world =
        some (MF_NO_ERROR, h1, w1) →
      ∃ s1, send_lines pf wpr wc ukc fh lines s = some s1 ∧ s1.error = MF_NO_ERROR ∧
        s1.line_offset = s.line_offset + lines.flatten.length ∧
        write_tokens pf wpr wc ukc fh (feed_tokens s1.token more) s1.html s1.world =
          some (MF_NO_ERROR, h1, w1) := by
  intro lines
  induction lines with
  | nil => intro s _ he hw; exact ⟨s, rfl, he, rfl, hw⟩
  | cons line lines ih =>
    intro s hnul he hw
    rw [List.flatten_cons, List.append_assoc] at hw
    rw [send_lines, if_pos he, cstr_nul_free line (hnul line (List.mem_cons_self _ _))]
    obtain ⟨s1, e1, e2, e3, e4⟩ :=
      send_line_tokens pf wpr wc ukc fh (lines.flatten ++ more) h1 w1 line 0 s he hw
    rw [e1]
    obtain ⟨s2, f1, f2, f3, f4⟩ :=
      ih { s1 with line_offset := s1.line_offset + line.length }
        (fun l hl => hnul l (List.mem_cons_of_mem _ hl)) e2 e4
    refine ⟨s2, f1, f2, ?_, f4⟩
    rw [f3, List.flatten_cons, List.length_append]
    simp only [e3]
    omega

theorem send_last_token_tokens (pf : Bool) (wpr wc : Int) (ukc fh : Bool)
    (h1 : HtmlState) (w1 : World) (s : Feed) (he : s.error = MF_NO_ERROR)
    (hw : write_tokens pf wpr wc ukc fh (feed_tokens s.token []) s.html s.world =
      some (MF_NO_ERROR, h1, w1)) :
    send_last_token pf wpr wc ukc fh s =
      some { s with error := MF_NO_ERROR, token := [], html := h1, world := w1 } := by
  rw [feed_tokens] at hw
  by_cases ht : s.token.length > 0
  · rw [if_pos ht] at hw
    obtain ⟨h2, w2, e1, e2⟩ := write_tokens_cons_ok pf wpr wc ukc fh _ _ _ _ _ _ hw
    simp only [write_tokens, Option.some.injEq, Prod.mk.injEq, true_and] at e2
    simp [send_last_token, ht, e1, e2.1, e2.2]
  · rw [if_neg ht] at hw
    simp only [write_tokens, Option.some.injEq, Prod.mk.injEq, true_and] at hw
    have h0 : s.token = [] := List.length_eq_zero.mp (by omega)
    unfold send_last_token
    rw [if_neg ht]
    simp only [he]
    rw [if_neg (by decide)]
    cases s
    simp_all

theorem send_buffer_lines (pf : Bool) (wpr wc : Int) (ukc fh : Bool) (p : List Nat)
    (buffer_size : Nat) :
    ∀ (fuel buffer_index : Nat) (lines : List (List Nat)) (s : Feed),
      fbgets_lines LINE_SIZE p buffer_size fuel buffer_index = some lines →
      send_buffer pf wpr wc ukc fh p buffer_size fuel buffer_index s =
        send_lines pf wpr wc ukc fh lines s := by
  intro fuel
  induction fuel with
  | zero => intro b lines s h; simp [fbgets_lines] at h
  | succ fuel ih =>
    intro b lines s h
    rw [fbgets_lines] at h
    rw [send_buffer]
    cases hf : fbgets LINE_SIZE p buffer_size b with
    | none =>
      rw [hf] at h
      simp only [Option.some.injEq] at h
      subst h
      simp [send_lines]
    | some r =>
      obtain ⟨line, next⟩ := r
      rw [hf] at h
      dsimp only at h ⊢
      cases hl : fbgets_lines LINE_SIZE p buffer_size fuel next with
      | none => rw [hl] at h; simp at h
      | some rest =>
        rw [hl] at h
        simp only [Option.map_some', Option.some.injEq] at h
        subst h
        rw [send_lines]
        by_cases he : s.error = MF_NO_ERROR
        · rw [if_pos he, if_pos he]
          cases send_line pf wpr wc ukc fh 0 (cstr line) s with
          | none => rfl
          | some s1 => exact ih next rest _ hl
        · rw [if_neg he, if_neg he]

theorem send_lines_span (pf : Bool) (wpr wc : Int) (ukc fh : Bool) (lines : List (List Nat))
    (s : Feed) (h1 : HtmlState) (w1 : World) (hnul : ∀ l ∈ lines, ∀ c ∈ l, c ≠ 0)
    (he : s.error = MF_NO_ERROR) (ht : s.token = [])
    (hw : write_tokens pf wpr wc ukc fh (span_tokens lines.flatten) s.html s.world =
      some (MF_NO_ERROR, h1, w1)) :
    ∃ s1 s2, send_lines pf wpr wc ukc fh lines s = some s1 ∧
      send_last_token pf wpr wc ukc fh s1 = some s2 ∧
      s2.error = MF_NO_ERROR ∧ s2.token = [] ∧ s2.html = h1 ∧ s2.world = w1 ∧
      s2.line_offset = s.line_offset + lines.flatten.length := by
  rw [← feed_tokens_eq_span_tokens, ← ht, ← List.append_nil lines.flatten] at hw
  obtain ⟨s1, e1, e2, e3, e4⟩ := send_lines_tokens pf wpr wc ukc fh [] h1 w1 lines s hnul he hw
  exact ⟨s1, _, e1, send_last_token_tokens pf wpr wc ukc fh h1 w1 s1 e2 e4, rfl, rfl, rfl, rfl, e3⟩

theorem mem_flatten_nul_free (lines : List (List Nat)) (h : ∀ c ∈ lines.flatten, c ≠ 0) :
    ∀ l ∈ lines, ∀ c ∈ l, c ≠ 0 :=
  fun l hl c hc => h c (List.mem_flatten.mpr ⟨l, hl, hc⟩)

theorem send_buffer_span (pf : Bool) (wpr wc : Int) (ukc fh : Bool) (p : List Nat)
    (buffer_size buffer_index fuel : Nat) (s : Feed) (h1 : HtmlState) (w1 : World)
    (hb : buffer_index ≤ buffer_size) (hp : buffer_size ≤ p.length)
    (hfuel : buffer_size - buffer_index < fuel)
    (hnul : ∀ c ∈ (p.take buffer_size).drop buffer_index, c ≠ 0)
    (he : s.error = MF_NO_ERROR) (ht : s.token = [])
    (hw : write_tokens pf wpr wc ukc fh (span_tokens ((p.take buffer_size).drop buffer_index))
      s.html s.world = some (MF_NO_ERROR, h1, w1)) :
    ∃ s1 s2, send_buffer pf wpr wc ukc fh p buffer_size fuel buffer_index s = some s1 ∧
      send_last_token pf wpr wc ukc fh s1 = some s2 ∧
      s2.error = MF_NO_ERROR ∧ s2.token = [] ∧ s2.html = h1 ∧ s2.world = w1 ∧
      s2.line_offset = s.line_offset + (buffer_size - buffer_index) := by
  obtain ⟨lines, e1, e2, _⟩ :=
    fbgets_lines_spec LINE_SIZE p buffer_size (by decide) hp fuel buffer_index hb hfuel
  rw [send_buffer_lines pf wpr wc ukc fh p buffer_size fuel buffer_index lines s e1]
  rw [← e2] at hnul hw
  obtain ⟨s1, s2, f1, f2, f3, f4, f5, f6, f7⟩ :=
    send_lines_span pf wpr wc ukc fh lines s h1 w1 (mem_flatten_nul_free lines hnul) he ht hw
  refine ⟨s1, s2, f1, f2, f3, f4, f5, f6, ?_⟩
  rw [f7, e2, List.length_drop, List.length_take, Nat.min_eq_left hp]

theorem select_span_whole (store label p : List Nat) :
    select_span none none false store label p (p.length + 1) =
      some (MF_NO_ERROR, 0, p.length + 1) := by
  simp [select_span, select_after, select_saved, select_before]

theorem process_and_send_whole (pf : Bool) (wpr wc : Int) (ukc fh : Bool)
    (store label p entity tag : List Nat) (w : World) (h1 : HtmlState) (w1 : World)
    (hnul : ∀ c ∈ p, c ≠ 0)
    (hw : write_tokens pf wpr wc ukc fh (span_tokens p)
      { excluding_tag := false, entity := entity, tag := tag } w = some (MF_NO_ERROR, h1, w1)) :
    process_and_send pf wpr wc ukc fh none none false store label p entity tag w =
      some { error := MF_NO_ERROR, world := final_newline MF_NO_ERROR pf w1, store := store,
             position := none } := by
  have hspan : (p.take p.length).drop 0 = p := by simp
  obtain ⟨s1, s2, f1, f2, f3, f4, f5, f6, _⟩ :=
    send_buffer_span pf wpr wc ukc fh p p.length 0 (p.length + 1 + 1)
      { error := MF_NO_ERROR, token := [], line_offset := 0, token_offset := 0,
        html := { excluding_tag := false, entity := entity, tag := tag }, world := w }
      h1 w1 (Nat.zero_le _) (le_refl _) (by omega) (by rw [hspan]; exact hnul) rfl rfl
      (by rw [hspan]; exact hw)
  unfold process_and_send
  rw [select_span_whole]
  simp only [if_true, Nat.add_sub_cancel]
  rw [f1]
  simp only [f2]
  have h3 : send_final_token pf wpr wc ukc fh s2 = some s2 := by
    unfold send_final_token
    rw [if_neg (by simp [f4])]
  rw [h3]
  simp [f3, f6]

/-- C31: for every NUL-free span, the loops of `process_and_send` hand to
`write_token` the maximal runs of non-whitespace bytes of the span, in
order, each run longer than 1023 bytes cut into consecutive pieces of 1023
bytes (`span_tokens`), whatever the lines are: when the calls of
`write_token` on these tokens all return `MF_NO_ERROR`, the `while` loop
followed by the "last token" block returns with `MF_NO_ERROR`, no token
left, and the tokenizer state and the streams that these calls leave. This
holds for every way of cutting the span into lines, for the lines that
`fbgets` reads from a buffer between two offsets, and for
`process_and_send` on a whole buffer. In `"  ab  cd\nef "` the tokens are
`ab`, `cd`, `ef`; a run of 2047 bytes gives pieces of 1023, 1023 and 1
bytes. -/
theorem process_and_send_tokens (pf : Bool) (wpr wc : Int) (ukc fh : Bool) :
    (∀ (lines : List (List Nat)) (s : Feed) (h1 : HtmlState) (w1 : World),
      (∀ c ∈ lines.flatten, c ≠ 0) → s.error = MF_NO_ERROR → s.token = [] →
      write_tokens pf wpr wc ukc fh (span_tokens lines.flatten) s.html s.world =
        some (MF_NO_ERROR, h1, w1) →
      ∃ s1 s2, send_lines pf wpr wc ukc fh lines s = some s1 ∧
        send_last_token pf wpr wc ukc fh s1 = some s2 ∧
        s2.error = MF_NO_ERROR ∧ s2.token = [] ∧ s2.html = h1 ∧ s2.world = w1 ∧
        s2.line_offset = s.line_offset + lines.flatten.length) ∧
    (∀ (p : List Nat) (buffer_size buffer_index fuel : Nat) (s : Feed) (h1 : HtmlState)
        (w1 : World),
      buffer_index ≤ buffer_size → buffer_size ≤ p.length → buffer_size - buffer_index < fuel →
      (∀ c ∈ (p.take buffer_size).drop buffer_index, c ≠ 0) →
      s.error = MF_NO_ERROR → s.token = [] →
      write_tokens pf wpr wc ukc fh (span_tokens ((p.take buffer_size).drop buffer_index))
        s.html s.world = some (MF_NO_ERROR, h1, w1) →
      ∃ s1 s2, send_buffer pf wpr wc ukc fh p buffer_size fuel buffer_index s = some s1 ∧
        send_last_token pf wpr wc ukc fh s1 = some s2 ∧
        s2.error = MF_NO_ERROR ∧ s2.token = [] ∧ s2.html = h1 ∧ s2.world = w1 ∧
        s2.line_offset = s.line_offset + (buffer_size - buffer_index)) ∧
    (∀ (store label p entity tag : List Nat) (w : World) (h1 : HtmlState) (w1 : World),
      (∀ c ∈ p, c ≠ 0) →
      write_tokens pf wpr wc ukc fh (span_tokens p)
        { excluding_tag := false, entity := entity, tag := tag } w =
        some (MF_NO_ERROR, h1, w1) →
      process_and_send pf wpr wc ukc fh none none false store label p entity tag w =
        some { error := MF_NO_ERROR, world := final_newline MF_NO_ERROR pf w1, store := store,
               position := none }) ∧
    span_tokens (bytes "  ab  cd\nef ") = [bytes "ab", bytes "cd", bytes "ef"] ∧
    span_tokens (List.replicate 2047 0x61 ++ 0x20 :: List.replicate 3 0x62) =
      [List.replicate 1023 0x61, List.replicate 1023 0x61, [0x61], List.replicate 3 0x62] := by
  refine ⟨?_, ?_, ?_, by decide, by decide!⟩
  · intro lines s h1 w1 hnul he ht hw
    exact send_lines_span pf wpr wc ukc fh lines s h1 w1 (mem_flatten_nul_free lines hnul) he ht hw
  · intro p buffer_size buffer_index fuel s h1 w1 hb hp hfuel hnul he ht hw
    exact send_buffer_span pf wpr wc ukc fh p buffer_size buffer_index fuel s h1 w1 hb hp hfuel
      hnul he ht hw
  · intro store label p entity tag w h1 w1 hnul hw
    exact process_and_send_whole pf wpr wc ukc fh store label p entity tag w h1 w1 hnul hw

theorem process_and_send_tokens_witness :
    ∃ s1 s2, send_lines false 5 DEFAULT false false [bytes "ab c", bytes "d\n"]
        { error := MF_NO_ERROR, token := [], line_offset := 0, token_offset := 0,
          html := { excluding_tag := false, entity := [], tag := [] },
          world := { output := [], words := [], word_number := 0, keys := [], acks := 0 } } =
        some s1 ∧
      send_last_token false 5 DEFAULT false false s1 = some s2 ∧
      s2.error = MF_NO_ERROR ∧ s2.token = [] ∧
      s2.html = { excluding_tag := false, entity := [], tag := [] } ∧
      s2.world = { output := bytes "AB CD", words := [bytes "AB", bytes "CD"], word_number := 2,
                   keys := [], acks := 0 } ∧
      s2.line_offset = 0 + [bytes "ab c", bytes "d\n"].flatten.length :=
  (process_and_send_tokens false 5 DEFAULT false false).1 [bytes "ab c", bytes "d\n"]
    { error := MF_NO_ERROR, token := [], line_offset := 0, token_offset := 0,
      html := { excluding_tag := false, entity := [], tag := [] },
      world := { output := [], words := [], word_number := 0, keys := [], acks := 0 } }
    { excluding_tag := false, entity := [], tag := [] }
    { output := bytes "AB CD", words := [bytes "AB", bytes "CD"], word_number := 2,
      keys := [], acks := 0 }
    (by decide) rfl rfl (by decide!)

/-! ### A run longer than the token buffer -/

theorem is_alnum_not_space (c : Nat) (h : is_alnum c = true) : isspace c = false ∧ c ≠ 0 := by
  unfold is_alnum at h
  simp only [Bool.or_eq_true, Bool.and_eq_true, decide_eq_true_eq] at h
  constructor
  · simp only [isspace, decide_eq_false_iff_not]
    omega
  · omega

theorem span_runs_run (u : List Nat) (hu : ∀ c ∈ u, isspace c = false) (hne : u ≠ []) :
    span_runs u = [u] := by
  rw [← run_tokens_eq_span_runs]
  cases u with
  | nil => exact absurd rfl hne
  | cons c rest =>
    have hc : isspace c = false := hu c (List.mem_cons_self _ _)
    have hall : ∀ x ∈ rest, (!isspace x) = true := by
      intro x hx
      simp [hu x (List.mem_cons_of_mem _ hx)]
    rw [run_tokens, if_neg (by simp [hc]), List.nil_append, run_tokens_run rest [c] (by simp),
      List.takeWhile_eq_self_iff.mpr hall, List.dropWhile_eq_nil_iff.mpr hall]
    simp [run_tokens]

theorem span_tokens_long_run (u : List Nat) (hu : ∀ c ∈ u, isspace c = false)
    (h1 : LINE_SIZE - 1 < u.length) (h2 : u.length ≤ 2 * (LINE_SIZE - 1)) :
    span_tokens u = [u.take (LINE_SIZE - 1), u.drop (LINE_SIZE - 1)] := by
  have hne : u ≠ [] := by
    intro h
    rw [h] at h1
    simp at h1
  have hd : u.drop (LINE_SIZE - 1) ≠ [] := by
    intro h
    have := congrArg List.length h
    rw [List.length_drop] at this
    simp only [List.length_nil] at this
    omega
  unfold span_tokens
  rw [span_runs_run u hu hne, List.map_singleton, List.flatten_singleton,
    cut_pieces_long _ u (by decide) h1,
    cut_pieces_short _ _ hd (by rw [List.length_drop]; omega)]

theorem write_token_word (pf : Bool) (wpr wc : Int) (ukc fh : Bool) (x : List Nat)
    (h : HtmlState) (w : World) (hx : ∀ c ∈ x, is_word_char c = true) (hne : x ≠ [])
    (hlen : x.length ≤ LINE_SIZE - 1) (hex : h.excluding_tag = false)
    (hent : fh = true → h.entity = []) :
    write_token x pf wpr wc ukc fh h w =
      (write_word (x.map toupper) pf wpr wc ukc w).map (fun r => (r.1, h, r.2)) := by
  have h2 := write_token_loop_word_chars pf wpr wc ukc fh x [] hx (loop_init h w) rfl hex hent
    (by simpa [loop_init] using hlen)
  rw [List.append_nil] at h2
  rw [write_token_eq, h2]
  simp only [write_token_loop, Option.some_bind]
  have h3 := write_token_end_word pf wpr wc ukc h w (x.map toupper) (by simpa using hne)
  simpa [loop_init] using h3

theorem long_run_garbage_eval :
    (process_and_send false 5 DEFAULT false true none none false [] (bytes "f.txt")
        (List.replicate 1024 0x61) [0x78] []
        { output := [], words := [], word_number := 0, keys := [], acks := 0 }).map
      (fun r => (r.error, r.world.words, r.world.output)) =
      some (MF_NO_ERROR, [], bytes "\n") := by
  decide!

theorem long_run_file_eval :
    (process_and_send false 5 DEFAULT false false none none false [] (bytes "f.txt")
        (List.replicate 1023 0x61 ++ bytes "bC") [0x78] []
        { output := [], words := [], word_number := 0, keys := [], acks := 0 }).map
      (fun r => (r.error, r.world.words)) =
      some (MF_NO_ERROR, [List.replicate 1023 0x41, bytes "BC"]) := by
  decide!

/-- C32, the code at the failing input, and the claim where `entity` does
not matter. `process_and_send` does not initialise its local array `entity`
when it reads a single buffer, and with HTML filtering (input from a URL)
`write_token` reads it: with the run of 1024 letters `a` as the buffer and
`entity` holding the string `x`, every byte goes to the entity in progress
and no Word is written. Without HTML filtering (input from a file), whatever
`entity` and `tag` hold, the run of 1023 letters `a` followed by `bC` gives
the Words of 1023 letters `A` and `BC`. In general, for a run `u` of `n`
ASCII letters (or digits) with no white space, 1023 < n <= 2046, read as a
whole buffer with no word limit and no key control (on a pipe, with two
acknowledgment lines to read), without HTML filtering or with `entity`
empty: the tokens are the first 1023 bytes, handed over when byte 1024
arrives, and the remaining n - 1023 bytes, which start with that byte;
`process_and_send` returns `MF_NO_ERROR` having written exactly two Words,
the first 1023 bytes upper-cased and then the remaining bytes upper-cased.
The two tokens put end to end are `u`: no byte is lost or duplicated. -/
theorem process_and_send_long_run :
    (process_and_send false 5 DEFAULT false true none none false [] (bytes "f.txt")
        (List.replicate 1024 0x61) [0x78] []
        { output := [], words := [], word_number := 0, keys := [], acks := 0 }).map
      (fun r => (r.error, r.world.words, r.world.output)) =
      some (MF_NO_ERROR, [], bytes "\n") ∧
    (process_and_send false 5 DEFAULT false false none none false [] (bytes "f.txt")
        (List.replicate 1023 0x61 ++ bytes "bC") [0x78] []
        { output := [], words := [], word_number := 0, keys := [], acks := 0 }).map
      (fun r => (r.error, r.world.words)) =
      some (MF_NO_ERROR, [List.replicate 1023 0x41, bytes "BC"]) ∧
    (∀ (pf : Bool) (wpr : Int) (fh : Bool) (store label u entity tag : List Nat) (w : World),
      (∀ c ∈ u, is_alnum c = true) → 1023 < u.length → u.length ≤ 2046 →
      (pf = true → 2 ≤ w.acks) → (fh = true → entity = []) →
      span_tokens u = [u.take 1023, u.drop 1023] ∧
      u.take 1023 ++ u.drop 1023 = u ∧
      (u.take 1023).length = 1023 ∧ (u.drop 1023).length = u.length - 1023 ∧
      (u.drop 1023).head? = u.get? 1023 ∧
      ∃ r, process_and_send pf wpr DEFAULT false fh none none false store label u entity tag w =
          some r ∧
        r.error = MF_NO_ERROR ∧ r.store = store ∧ r.position = none ∧
        r.world.words = w.words ++ [(u.take 1023).map toupper, (u.drop 1023).map toupper]) := by
  refine ⟨long_run_garbage_eval, long_run_file_eval, ?_⟩
  intro pf wpr fh store label u entity tag w hu h1 h2 hacks hent
  have hL : LINE_SIZE - 1 = 1023 := rfl
  have hsp : ∀ c ∈ u, isspace c = false := fun c hc => (is_alnum_not_space c (hu c hc)).1
  have hnul : ∀ c ∈ u, c ≠ 0 := fun c hc => (is_alnum_not_space c (hu c hc)).2
  have htok := span_tokens_long_run u hsp (by rw [hL]; exact h1) (by rw [hL]; omega)
  rw [hL] at htok
  have hd : u.drop 1023 ≠ [] := by
    intro h
    have := congrArg List.length h
    rw [List.length_drop] at this
    simp only [List.length_nil] at this
    omega
  have ht : u.take 1023 ≠ [] := by
    intro h
    have := congrArg List.length h
    rw [List.length_take] at this
    simp only [List.length_nil] at this
    omega
  obtain ⟨w1, e1, a1, b1⟩ := write_word_quiet ((u.take 1023).map toupper) pf wpr w
    (fun hp => by have := hacks hp; omega)
  obtain ⟨w2, e2, a2, b2⟩ := write_word_quiet ((u.drop 1023).map toupper) pf wpr w1
    (fun hp => by have := hacks hp; omega)
  have hw : write_tokens pf wpr DEFAULT false fh (span_tokens u)
      { excluding_tag := false, entity := entity, tag := tag } w =
      some (MF_NO_ERROR, { excluding_tag := false, entity := entity, tag := tag }, w2) := by
    rw [htok, write_tokens,
      write_token_word pf wpr DEFAULT false fh (u.take 1023) _ w
        (fun c hc => is_alnum_word_char c (hu c (List.mem_of_mem_take hc))) ht
        (by rw [List.length_take, hL]; omega) rfl hent, e1]
    simp only [Option.map_some', if_true]
    rw [write_tokens,
      write_token_word pf wpr DEFAULT false fh (u.drop 1023) _ w1
        (fun c hc => is_alnum_word_char c (hu c (List.mem_of_mem_drop hc))) hd
        (by rw [List.length_drop, hL]; omega) rfl hent, e2]
    simp only [Option.map_some', if_true, write_tokens]
  refine ⟨htok, List.take_append_drop 1023 u, by rw [List.length_take]; omega,
    List.length_drop 1023 u, ?_, _,
    process_and_send_whole pf wpr DEFAULT false fh store label u entity tag w _ w2 hnul hw,
    rfl, rfl, rfl, ?_⟩
  · rw [List.head?_drop]
    simp
  · simp only [final_newline]
    split <;> simp [a2, a1]

theorem process_and_send_long_run_witness :
    span_tokens (List.replicate 1024 0x61) =
      [(List.replicate 1024 0x61).take 1023, (List.replicate 1024 0x61).drop 1023] ∧
    (List.replicate 1024 0x61).take 1023 ++ (List.replicate 1024 0x61).drop 1023 =
      List.replicate 1024 0x61 ∧
    ((List.replicate 1024 0x61).take 1023).length = 1023 ∧
    ((List.replicate 1024 0x61).drop 1023).length = (List.replicate 1024 0x61).length - 1023 ∧
    ((List.replicate 1024 0x61).drop 1023).head? = (List.replicate 1024 0x61).get? 1023 ∧
    ∃ r, process_and_send false 5 DEFAULT false false none none false [] (bytes "f.txt")
          (List.replicate 1024 0x61) [0x78] [0x79]
          { output := [], words := [], word_number := 0, keys := [], acks := 0 } = some r ∧
      r.error = MF_NO_ERROR ∧ r.store = [] ∧ r.position = none ∧
      r.world.words = [] ++ [((List.replicate 1024 0x61).take 1023).map toupper,
        ((List.replicate 1024 0x61).drop 1023).map toupper] :=
  process_and_send_long_run.2.2 false 5 false [] (bytes "f.txt") (List.replicate 1024 0x61)
    [0x78] [0x79] { output := [], words := [], word_number := 0, keys := [], acks := 0 }
    (fun c hc => by rw [List.eq_of_mem_replicate hc]; rfl)
    (by rw [List.length_replicate]; omega) (by rw [List.length_replicate]; omega)
    (fun h => by cases h) (fun h => by cases h)

theorem final_offset_eval1 :
    (process_and_send false 5 DEFAULT false false none none true [] (bytes "f.txt")
        (bytes "hello world") [] []
        { output := [], words := [], word_number := 0, keys := [], acks := 0 }).map
      (fun r => (r.error, r.world.words, r.world.output, r.store, r.position)) =
      some (MF_NO_ERROR, [bytes "HELLO", bytes "WORLD"], bytes "HELLO WORLD\n",
        bytes "position\tf.txt\t6\n", some 6) := by
  decide!

theorem final_offset_eval2 :
    (process_and_send false 5 DEFAULT false false none none true (bytes "position\tf.txt\t6\n")
        (bytes "f.txt") (bytes "hello world") [] []
        { output := [], words := [], word_number := 0, keys := [], acks := 0 }).map
      (fun r => (r.error, r.world.words, r.world.output, r.store, r.position)) =
      some (MF_NO_ERROR, [bytes "WORLD"], bytes "WORLD\n",
        bytes "position\tf.txt\t6\n", some 6) := by
  decide!

theorem final_offset_eval3 :
    (process_and_send false 5 DEFAULT false false none none true [] (bytes "f.txt")
        (bytes "hello world\n") [] []
        { output := [], words := [], word_number := 0, keys := [], acks := 0 }).map
      (fun r => (r.error, r.world.words, r.world.output, r.store, r.position)) =
      some (MF_NO_ERROR, [bytes "HELLO", bytes "WORLD"], bytes "HELLO WORLD\n", [], some 0) := by
  decide!

theorem final_offset_eval4 :
    (process_and_send false 5 DEFAULT false false none none true [] (bytes "f.txt")
        (bytes "hello world\n\n") [] []
        { output := [], words := [], word_number := 0, keys := [], acks := 0 }).map
      (fun r => (r.error, r.world.words, r.world.output, r.store, r.position)) =
      some (MF_NO_ERROR, [bytes "HELLO", bytes "WORLD"], bytes "HELLO WORLD\n",
        bytes "position\tf.txt\t12\n", some 12) := by
  decide!

/-- C35: the offset that `process_and_send` passes to `write_saved_position`
after a single buffer read to its end with position saving on, no saved
record, no quit, skip, word limit or error. For the buffer `hello world`,
which does not end with white space, both Words are written and the offset
is 6, not 0: the last token is written by the block that ends the pass of
the main loop, which leaves `token_offset` as it is and sets `token_length`
to 0, so the block after the loop that sets `token_offset = line_offset`
does not run. The record `position f.txt 6` is stored, and the next run on
the same buffer writes WORLD again and stores 6 again. For `hello world`
followed by one newline the offset is 0 and no record is left; followed by
two newlines it is 12. -/
theorem process_and_send_final_offset :
    (process_and_send false 5 DEFAULT false false none none true [] (bytes "f.txt")
        (bytes "hello world") [] []
        { output := [], words := [], word_number := 0, keys := [], acks := 0 }).map
      (fun r => (r.error, r.world.words, r.world.output, r.store, r.position)) =
      some (MF_NO_ERROR, [bytes "HELLO", bytes "WORLD"], bytes "HELLO WORLD\n",
        bytes "position\tf.txt\t6\n", some 6) ∧
    (process_and_send false 5 DEFAULT false false none none true (bytes "position\tf.txt\t6\n")
        (bytes "f.txt") (bytes "hello world") [] []
        { output := [], words := [], word_number := 0, keys := [], acks := 0 }).map
      (fun r => (r.error, r.world.words, r.world.output, r.store, r.position)) =
      some (MF_NO_ERROR, [bytes "WORLD"], bytes "WORLD\n",
        bytes "position\tf.txt\t6\n", some 6) ∧
    (process_and_send false 5 DEFAULT false false none none true [] (bytes "f.txt")
        (bytes "hello world\n") [] []
        { output := [], words := [], word_number := 0, keys := [], acks := 0 }).map
      (fun r => (r.error, r.world.words, r.world.output, r.store, r.position)) =
      some (MF_NO_ERROR, [bytes "HELLO", bytes "WORLD"], bytes "HELLO WORLD\n", [], some 0) ∧
    (process_and_send false 5 DEFAULT false false none none true [] (bytes "f.txt")
        (bytes "hello world\n\n") [] []
        { output := [], words := [], word_number := 0, keys := [], acks := 0 }).map
      (fun r => (r.error, r.world.words, r.world.output, r.store, r.position)) =
      some (MF_NO_ERROR, [bytes "HELLO", bytes "WORLD"], bytes "HELLO WORLD\n",
        bytes "position\tf.txt\t12\n", some 12) :=
  ⟨final_offset_eval1, final_offset_eval2, final_offset_eval3, final_offset_eval4⟩

end Morsefeed
